import Mathlib

/-!
Dependency graph analysis of whisk

A shallow embedding of the graph algorithms of `graph/scc/tarjan.go`,
`graph/cycle/tarjan.go`, of the graph builder of `handler.go`, of the metadata
readers of `chef/chef.go` and of the thresholds of `cmd/lint.go`, together with
the properties proved about them.

Conventions of the embedding:

* a Go `map[string][]string` is an association list; a lookup returns the first
  binding of the key, a missing key reads as the zero value (the empty list);
* Go maps that are only read and written at single keys (`index`, `lowlink`,
  `onStack`, `marked`, `removed`) are functions, a missing key reading as `none`
  or as the zero value;
* Go `int` values are natural numbers: every integer handled by the algorithms is
  a vertex number bounded by the number of vertices plus one;
* recursive procedures take a `fuel` argument bounding the recursion depth and
  return `none` when it is exhausted; a Go run-time panic is `none` as well;
* what the program reads from disk is a parameter: the graph builder is stated over
  the outcomes of `loadRoles` and `LoadDeps` (`whisk.Env`), and these two are
  stated over the calls of the operating system and of the JSON decoder (`FS`);
* the functions of the Go library that the program calls on texts and paths
  (`strings`, `bufio`, `path/filepath`, `strconv`) are modelled on sequences of
  characters, for texts that are valid UTF-8.
-/

set_option autoImplicit false

/-- The adjacency mapping `map[string][]string`. -/
abbrev Graph := List (String × List String)

namespace Graph

/-- Lookup `g[v]`: the edge list of `v`, empty when `v` is not a key. -/
def adj (g : Graph) (v : String) : List String :=
  (g.lookup v).getD []

/-- The keys of the mapping, each listed once. -/
def keys (g : Graph) : List String :=
  (g.map Prod.fst).dedup

/-- Every vertex named by the mapping: a key or an entry of the edge list of a key. -/
def vertices (g : Graph) : List String :=
  (g.keys ++ (g.keys.map g.adj).flatten).dedup

/-- The assignment `g[k] = v`: the binding of `k` is replaced, or added when `k` is not
a key. -/
def set : Graph → String → List String → Graph
  | [], k, v => [(k, v)]
  | (a, b) :: g, k, v => if a = k then (k, v) :: g else (a, b) :: set g k v

/-- There is an edge `u -> w`: `w` occurs in `g[u]`. -/
def Edge (g : Graph) (u w : String) : Prop :=
  w ∈ g.adj u

/-- Reachability along edges, paths of length zero included. -/
def Reach (g : Graph) : String → String → Prop :=
  Relation.ReflTransGen g.Edge

/-- Reachability along at least one edge. -/
def ReachPlus (g : Graph) : String → String → Prop :=
  Relation.TransGen g.Edge

/-- Every entry of an edge list is a key (the data-model invariant). -/
def Closed (g : Graph) : Prop :=
  ∀ u w, g.Edge u w → w ∈ g.keys

end Graph

/-- The order of `sort.Strings`: lexicographic comparison of the characters. -/
def strLe (a b : String) : Prop :=
  a.toList ≤ b.toList

instance strLe.decidable : DecidableRel strLe :=
  fun a b => inferInstanceAs (Decidable (a.toList ≤ b.toList))

/-- Function `sortKeys`: the keys of the map, sorted alphabetically. -/
def sortKeys (g : Graph) : List String :=
  g.keys.insertionSort strLe

namespace scc

/-- The state of the strongly-connected-components finder. -/
structure Tarjan where
  /-- Field `G`: the adjacency list, `none` for a nil map. -/
  G : Option Graph
  /-- Field `index`: the number assigned to each visited vertex. -/
  index : String → Option Nat
  /-- Field `lowlink`, keyed by vertex number. -/
  lowlink : Nat → Nat
  /-- Field `stack`, the top being the last element. -/
  stack : List String
  /-- Field `onStack`, keyed by vertex number. -/
  onStack : Nat → Bool
  /-- Field `currentIndex`: the latest number assigned. -/
  currentIndex : Nat
  /-- Field `sccs`: the components found so far. -/
  sccs : List (List String)

/-- Constructor `NewTarjan`. -/
def NewTarjan (g : Option Graph) : Tarjan :=
  { G := g, index := fun _ => none, lowlink := fun _ => 0, stack := [],
    onStack := fun _ => false, currentIndex := 0, sccs := [] }

/-- Read `t.index[v]`, zero when `v` has no number yet. -/
def Tarjan.idx (t : Tarjan) (v : String) : Nat :=
  (t.index v).getD 0

/-- Read `t.G[v]`. -/
def Tarjan.adj (t : Tarjan) (v : String) : List String :=
  match t.G with
  | none => []
  | some g => g.adj v

/-- The loop that pops the component rooted at `v`, started at position `i` of the
stack; it returns the position of `v`, the state and the vertices collected.
Reading the stack out of range is a panic (`none`). -/
def popLoop (v : String) (iv : Nat) : Nat → Tarjan → List String →
    Option (Nat × Tarjan × List String)
  | 0, t, vertices =>
    match t.stack[0]? with
    | none => none
    | some u =>
      let t := { t with onStack := Function.update t.onStack (t.idx u) false }
      let t := { t with lowlink := Function.update t.lowlink (t.idx u) iv }
      if u = v then some (0, t, vertices ++ [u]) else none
  | i + 1, t, vertices =>
    match t.stack[i + 1]? with
    | none => none
    | some u =>
      let t := { t with onStack := Function.update t.onStack (t.idx u) false }
      let t := { t with lowlink := Function.update t.lowlink (t.idx u) iv }
      if u = v then some (i + 1, t, vertices ++ [u]) else popLoop v iv i t (vertices ++ [u])

/-- One iteration of the loop over the edges `w` of `v` in `search`; `rec` is the
recursive call. -/
def searchEdge (rec : String → Tarjan → Option Tarjan) (v w : String) (t : Tarjan) :
    Option Tarjan :=
  if t.index w = none then
    match rec w t with
    | none => none
    | some t =>
      some { t with lowlink :=
        Function.update t.lowlink (t.idx v) (min (t.lowlink (t.idx v)) (t.lowlink (t.idx w))) }
  else if t.idx w < t.idx v then
    if t.onStack (t.idx w) then
      some { t with lowlink :=
        Function.update t.lowlink (t.idx v) (min (t.lowlink (t.idx v)) (t.idx w)) }
    else some t
  else some t

/-- The loop over the edges of `v` in `search`. -/
def searchEdges (rec : String → Tarjan → Option Tarjan) (v : String) :
    List String → Tarjan → Option Tarjan
  | [], t => some t
  | w :: ws, t =>
    match searchEdge rec v w t with
    | none => none
    | some t => searchEdges rec v ws t

/-- The end of `search`: when `v` is the root of a component, pop it. -/
def finish (v : String) (t : Tarjan) : Option Tarjan :=
  if t.idx v = t.lowlink (t.idx v) then
    match popLoop v (t.idx v) (t.stack.length - 1) t [] with
    | none => none
    | some (i, t, vertices) =>
      some { t with stack := t.stack.take i, sccs := t.sccs ++ [vertices] }
  else some t

/-- Method `search`: walk the graph from `v`, with recursion depth at most `fuel`. -/
def search : Nat → String → Tarjan → Option Tarjan
  | 0, _, _ => none
  | fuel + 1, v, t =>
    let t := { t with currentIndex := t.currentIndex + 1 }
    let t := { t with index := Function.update t.index v (some t.currentIndex) }
    let t := { t with lowlink := Function.update t.lowlink (t.idx v) t.currentIndex }
    let t := { t with stack := t.stack ++ [v] }
    let t := { t with onStack := Function.update t.onStack (t.idx v) true }
    match searchEdges (search fuel) v (t.adj v) t with
    | none => none
    | some t => finish v t

/-- The loop of `Find` over the sorted keys. -/
def findLoop (fuel : Nat) : List String → Tarjan → Option Tarjan
  | [], t => some t
  | v :: vs, t =>
    if t.idx v = 0 then
      match search fuel v t with
      | none => none
      | some t => findLoop fuel vs t
    else findLoop fuel vs t

/-- Method `Find`: the strongly connected components, or an error for a nil graph. -/
def Find (fuel : Nat) (t : Tarjan) : Option (Except String (List (List String))) :=
  match t.G with
  | none => some (.error "no graph found")
  | some g =>
    let t := { t with currentIndex := 1 }
    match findLoop fuel (sortKeys g) t with
    | none => none
    | some t => some (.ok t.sccs)

end scc


namespace cycle

/-- The state of the elementary-circuit enumerator. -/
structure Tarjan where
  /-- Field `G`: the source graph, `none` for a nil map. -/
  G : Option Graph
  /-- Field `index`: the identifiers of the vertices. -/
  index : String → Option Nat
  /-- Field `marked`, keyed by vertex identifier. -/
  marked : Nat → Bool
  /-- Field `removed`: a map from identifiers to sets of identifiers. -/
  removed : Nat → Option (Nat → Option Bool)
  /-- Field `markedStack`, the top being the last element. -/
  markedStack : List Nat
  /-- Field `pointStack`: the path being explored, the top being the last element. -/
  pointStack : List String
  /-- Field `cycles`: the circuits found so far. -/
  cycles : List (List String)

/-- Constructor `NewTarjan`. -/
def NewTarjan (g : Option Graph) : Tarjan :=
  { G := g, index := fun _ => none, marked := fun _ => false, removed := fun _ => none,
    markedStack := [], pointStack := [], cycles := [] }

/-- Read `t.index[v]`, zero when `v` has no identifier. -/
def Tarjan.idx (t : Tarjan) (v : String) : Nat :=
  (t.index v).getD 0

/-- Read `t.G[v]`. -/
def Tarjan.adj (t : Tarjan) (v : String) : List String :=
  match t.G with
  | none => []
  | some g => g.adj v

/-- The test `_, ok := t.removed[a][b]`. -/
def Tarjan.isRemoved (t : Tarjan) (a b : Nat) : Bool :=
  match t.removed a with
  | none => false
  | some m => (m b).isSome

/-- The assignment `t.removed[a][b] = true`, creating the inner map when missing. -/
def Tarjan.remove (t : Tarjan) (a b : Nat) : Tarjan :=
  let t := if (t.removed a).isNone then
      { t with removed := Function.update t.removed a (some fun _ => none) }
    else t
  match t.removed a with
  | none => t
  | some m => { t with removed := Function.update t.removed a (some (Function.update m b (some true))) }

/-- The loop that unmarks the vertices above and including `iv` on the marked stack,
started at position `j`. Reading the stack out of range is a panic (`none`). -/
def unmarkLoop (iv : Nat) : Nat → Tarjan → Option Tarjan
  | 0, t =>
    match t.markedStack[0]? with
    | none => none
    | some u =>
      let t := { t with markedStack := t.markedStack.take 0 }
      let t := { t with marked := Function.update t.marked u false }
      if u = iv then some t else none
  | j + 1, t =>
    match t.markedStack[j + 1]? with
    | none => none
    | some u =>
      let t := { t with markedStack := t.markedStack.take (j + 1) }
      let t := { t with marked := Function.update t.marked u false }
      if u = iv then some t else unmarkLoop iv j t

/-- One iteration of the loop over the edges `w` of `v` in `search`; `rec` is the
recursive call `search(s, ·)`. -/
def searchEdge (rec : String → Tarjan → Option (Bool × Tarjan)) (s v w : String)
    (found : Bool) (t : Tarjan) : Option (Bool × Tarjan) :=
  if t.isRemoved (t.idx v) (t.idx w) then some (found, t)
  else if t.idx w < t.idx s then some (found, t.remove (t.idx v) (t.idx w))
  else if t.idx w = t.idx s then
    let newCycle := t.pointStack ++ [s]
    some (true, { t with cycles := t.cycles ++ [newCycle] })
  else if !t.marked (t.idx w) then
    match rec w t with
    | none => none
    | some (g, t) => some (found || g, t)
  else some (found, t)

/-- The loop over the edges of `v` in `search`. -/
def searchEdges (rec : String → Tarjan → Option (Bool × Tarjan)) (s v : String) :
    List String → Bool → Tarjan → Option (Bool × Tarjan)
  | [], found, t => some (found, t)
  | w :: ws, found, t =>
    match searchEdge rec s v w found t with
    | none => none
    | some (found, t) => searchEdges rec s v ws found t

/-- The end of `search`: unmark on success, then pop `v` from the point stack. -/
def finish (v : String) (found : Bool) (t : Tarjan) : Option (Bool × Tarjan) :=
  match (if found then unmarkLoop (t.idx v) (t.markedStack.length - 1) t else some t) with
  | none => none
  | some t =>
    if t.pointStack.length = 0 then none
    else some (found, { t with pointStack := t.pointStack.take (t.pointStack.length - 1) })

/-- Method `search`: walk the paths from `v` looking for circuits through the root `s`,
with recursion depth at most `fuel`. -/
def search : Nat → String → String → Tarjan → Option (Bool × Tarjan)
  | 0, _, _, _ => none
  | fuel + 1, s, v, t =>
    let t := { t with marked := Function.update t.marked (t.idx v) true }
    let t := { t with pointStack := t.pointStack ++ [v] }
    let t := { t with markedStack := t.markedStack ++ [t.idx v] }
    match searchEdges (search fuel s) s v (t.adj v) false t with
    | none => none
    | some (found, t) => finish v found t

/-- The loop of `Find` that numbers the sorted keys from `i + 1` on. -/
def assignIndex : Nat → List String → Tarjan → Tarjan
  | _, [], t => t
  | i, v :: vs, t => assignIndex (i + 1) vs { t with index := Function.update t.index v (some (i + 1)) }

/-- The loop of `Find` that clears the marks of the identifiers on the marked stack. -/
def clearMarks : List Nat → Tarjan → Tarjan
  | [], t => t
  | u :: us, t => clearMarks us { t with marked := Function.update t.marked u false }

/-- The loop of `Find` over the roots. -/
def findLoop (fuel : Nat) : List String → Tarjan → Option Tarjan
  | [], t => some t
  | start :: vs, t =>
    match search fuel start start t with
    | none => none
    | some (_, t) =>
      let t := clearMarks t.markedStack t
      findLoop fuel vs { t with markedStack := [] }

/-- Method `Find`: the list of distinct circuits, or an error for a nil graph. -/
def Find (fuel : Nat) (t : Tarjan) : Option (Except String (List (List String)) × Tarjan) :=
  match t.G with
  | none => some (.error "no graph found", t)
  | some g =>
    let vertices := sortKeys g
    let t := assignIndex 0 vertices t
    match findLoop fuel vertices t with
    | none => none
    | some t => some (.ok t.cycles, t)

end cycle

namespace chef

/-- The type `Role`: a name and a run list. -/
structure Role where
  /-- Field `Name`. -/
  Name : String
  /-- Field `RunList`. -/
  RunList : List String
deriving DecidableEq, Repr

/-- The dependency map `Deps` of a cookbook, a `map[string]string`. -/
abbrev Deps := List (String × String)

end chef

namespace whisk

/-- The errors returned by the graph builder. -/
inductive WalkError where
  /-- An error of `loadRoles`, with its cause. -/
  | loadRoles (cause : String)
  /-- The error "role %s doesn't exist". -/
  | roleNotFound (name : String)
  /-- The wrapper "failed walking run_list: %w". -/
  | runList (cause : WalkError)
  /-- The error "invalid entry in role's run_list: %q". -/
  | invalidEntry (dep : String)
  /-- The wrapper "unable to load %q dependencies: %w". -/
  | loadDeps (name : String) (cause : String)
deriving DecidableEq, Repr

/-- What the graph builder reads from the file system: the roles that `loadRoles`
indexes from a roles directory (with the error that stopped it, if any), and the
outcome of `Cookbook.LoadDeps` for the given search paths and cookbook name. -/
structure Env where
  /-- The role index built by `loadRoles` for a roles directory, and its error; `none`
  when the walk of the directory does not return. -/
  loadRoles : String → Option (List (String × chef.Role) × Option String)
  /-- The dependency map left by `LoadDeps` on a cookbook whose map is empty, or its
  error; `none` is a run-time panic of `LoadDeps`. -/
  LoadDeps : List String → String → Option (Except String chef.Deps)

/-- The type `Handler`. -/
structure Handler where
  /-- Field `cookbookPaths`. -/
  cookbookPaths : List String
  /-- Field `rolesPath`. -/
  rolesPath : String
  /-- Field `rolesIndex`, a `map[string]*chef.Role`. -/
  rolesIndex : List (String × chef.Role)
  /-- Field `sccs`. -/
  sccs : List (List String)
  /-- Field `graph`. -/
  graph : Graph
  /-- Field `cycles`. -/
  cycles : List (List String)

/-- Constructor `NewHandler`. -/
def NewHandler (cookbooks : List String) (rolesPath : String) : Handler :=
  { cookbookPaths := cookbooks, rolesPath := rolesPath, rolesIndex := [], sccs := [],
    graph := [], cycles := [] }

/-- Function `sortKeys` of `handler.go`: the keys of a `map[string]string`, sorted. -/
def sortKeys (m : chef.Deps) : List String :=
  (m.map Prod.fst).dedup.insertionSort strLe

/-- One iteration of the loop over the dependencies in `walkCookbook`; `rec` is the
recursive call. -/
def walkDep (rec : String → Handler → Option (Option WalkError × Handler)) (name dep : String)
    (h : Handler) : Option (Option WalkError × Handler) :=
  let h := { h with graph := h.graph.set name (h.graph.adj name ++ [dep]) }
  if h.graph.lookup dep = none then rec dep h
  else some (none, h)

/-- The loop over the sorted dependencies in `walkCookbook`; it stops at the first
error. -/
def walkDeps (rec : String → Handler → Option (Option WalkError × Handler)) (name : String) :
    List String → Handler → Option (Option WalkError × Handler)
  | [], h => some (none, h)
  | dep :: deps, h =>
    match walkDep rec name dep h with
    | none => none
    | some (some e, h) => some (some e, h)
    | some (none, h) => walkDeps rec name deps h

/-- Method `walkCookbook`, with recursion depth at most `fuel`; the display tree is
left out. It returns the error, if any, and the handler as it was left; a run-time panic
of `LoadDeps` gives `none`. -/
def walkCookbook (env : Env) : Nat → String → Handler → Option (Option WalkError × Handler)
  | 0, _, _ => none
  | fuel + 1, name, h =>
    let h := { h with graph := h.graph.set name [] }
    match env.LoadDeps h.cookbookPaths name with
    | none => none
    | some (.error e) => some (some (.loadDeps name e), h)
    | some (.ok deps) => walkDeps (walkCookbook env fuel) name (sortKeys deps) h

/-- Slice `s[a:b]`; out-of-range bounds are a panic (`none`). -/
def slice (s : List Char) (a b : Nat) : Option (List Char) :=
  if a ≤ b ∧ b ≤ s.length then some ((s.take b).drop a) else none

/-- The first element of `strings.Split(s, "::")`: the text before the first `::`. -/
def splitHead : List Char → List Char
  | [] => []
  | [c] => [c]
  | c :: d :: cs => if c = ':' ∧ d = ':' then [] else c :: splitHead (d :: cs)

/-- One iteration of the loop over the run list in `WalkRole`. -/
def walkEntry (env : Env) (recRole : String → Handler → Option (Option WalkError × Handler))
    (fuel : Nat) (dep : String) (h : Handler) : Option (Option WalkError × Handler) :=
  if "role[".toList.isPrefixOf dep.toList ∧ "]".toList.isSuffixOf dep.toList then
    match slice dep.toList 5 (dep.length - 1) with
    | none => none
    | some name =>
      match recRole (String.mk name) h with
      | none => none
      | some (some e, h) => some (some (.runList e), h)
      | some (none, h) => some (none, h)
  else if "recipe[".toList.isPrefixOf dep.toList ∧ "]".toList.isSuffixOf dep.toList then
    match slice dep.toList 7 (dep.length - 1) with
    | none => none
    | some recipe => walkCookbook env fuel (String.mk (splitHead recipe)) h
  else some (some (.invalidEntry dep), h)

/-- The loop over the run list in `WalkRole`; it stops at the first error. -/
def walkRunList (env : Env) (recRole : String → Handler → Option (Option WalkError × Handler))
    (fuel : Nat) : List String → Handler → Option (Option WalkError × Handler)
  | [], h => some (none, h)
  | dep :: deps, h =>
    match walkEntry env recRole fuel dep h with
    | none => none
    | some (some e, h) => some (some e, h)
    | some (none, h) => walkRunList env recRole fuel deps h

/-- Method `WalkRole`, with recursion depth at most `fuel` (for the roles and for the
cookbooks of each recipe); the display tree is left out. -/
def WalkRole (env : Env) : Nat → String → Handler → Option (Option WalkError × Handler)
  | 0, _, _ => none
  | fuel + 1, name, h =>
    let r : Option (Option WalkError × Handler) :=
      if h.rolesIndex.length = 0 then
        match env.loadRoles h.rolesPath with
        | none => none
        | some (idx, some e) => some (some (.loadRoles e), { h with rolesIndex := idx })
        | some (idx, none) => some (none, { h with rolesIndex := idx })
      else some (none, h)
    match r with
    | none => none
    | some (some e, h) => some (some e, h)
    | some (none, h) =>
      match h.rolesIndex.lookup name with
      | none => some (some (.roleNotFound name), h)
      | some role => walkRunList env (WalkRole env fuel) fuel role.RunList h

/-- Method `FindSCCs`: keep the components with more than one vertex. -/
def Handler.FindSCCs (fuel : Nat) (h : Handler) : Option (Option String × Handler) :=
  match scc.Find fuel (scc.NewTarjan (some h.graph)) with
  | none => none
  | some (.error e) => some (some e, h)
  | some (.ok sccs) => some (none, { h with sccs := h.sccs ++ sccs.filter fun c => 1 < c.length })

/-- Method `FindCycles`. -/
def Handler.FindCycles (fuel : Nat) (h : Handler) : Option (Option String × Handler) :=
  match cycle.Find fuel (cycle.NewTarjan (some h.graph)) with
  | none => none
  | some (.error e, _) => some (some e, h)
  | some (.ok cycles, _) => some (none, { h with cycles := cycles })

/-- The type `Result`. -/
structure Result where
  /-- Field `G`. -/
  G : Graph
  /-- Field `Sccs`. -/
  Sccs : List (List String)
  /-- Field `Cycles`. -/
  Cycles : List (List String)

/-- Method `Result`. -/
def Handler.Result (h : Handler) : Result :=
  { G := h.graph, Sccs := h.sccs, Cycles := h.cycles }

end whisk

namespace scc

/-- The number of vertices of `g` that have no number yet. -/
def white (g : Graph) (t : Tarjan) : Nat :=
  (g.vertices.filter fun u => t.index u = none).length

/-- The invariant of the finder between two steps; `gs` lists the vertices whose
`search` call is in progress. -/
structure Inv (g : Graph) (t : Tarjan) (gs : List String) : Prop where
  hG : t.G = some g
  idx_bound : ∀ u i, t.index u = some i → 2 ≤ i ∧ i ≤ t.currentIndex
  cur_pos : 1 ≤ t.currentIndex
  idx_inj : ∀ u w i, t.index u = some i → t.index w = some i → u = w
  idx_vert : ∀ u, t.index u ≠ none → u ∈ g.vertices
  stack_sorted : t.stack.Pairwise (fun a b => t.idx a < t.idx b)
  onStack_iff : ∀ u i, t.index u = some i → (t.onStack i = true ↔ u ∈ t.stack)
  indexed_iff : ∀ u, t.index u ≠ none ↔ (u ∈ t.stack ∨ u ∈ t.sccs.flatten)
  nodup : (t.sccs.flatten ++ t.stack).Nodup
  sccs_ok : ∀ c ∈ t.sccs, c ≠ [] ∧ ∀ u ∈ c, ∀ x, x ∈ c ↔ (g.Reach u x ∧ g.Reach x u)
  gray_sub : ∀ q ∈ gs, q ∈ t.stack
  closed : ∀ u, t.index u ≠ none → u ∉ gs → ∀ w, g.Edge u w → t.index w ≠ none
  to_gray : ∀ u ∈ t.stack, ∃ q ∈ gs, t.idx q ≤ t.idx u ∧ g.Reach u q
  from_gray : ∀ u ∈ t.stack, ∀ q ∈ gs, t.idx q ≤ t.idx u → g.Reach q u

/-- The invariant of the loop over the edges of `v` in the call `search(v)` entered in
state `t0`; `done` lists the edges already handled. -/
structure LoopInv (g : Graph) (t0 : Tarjan) (gs : List String) (v : String)
    (done : List String) (t : Tarjan) : Prop where
  inv : Inv g t (gs ++ [v])
  ext : ∀ u i, t0.index u = some i → t.index u = some i
  idx_v : t.index v = some (t0.currentIndex + 1)
  fresh : ∀ u i, t.index u = some i → t0.index u = none → t0.currentIndex < i
  cur_lt : t0.currentIndex < t.currentIndex
  stk : ∃ seg, t.stack = t0.stack ++ v :: seg
  frame_low : ∀ i, i ≤ t0.currentIndex → t.lowlink i = t0.lowlink i
  low_le : t.lowlink (t0.currentIndex + 1) ≤ t0.currentIndex + 1
  low_wit : ∃ y ∈ t.stack, t.idx y = t.lowlink (t0.currentIndex + 1) ∧ g.Reach v y
  low_min : ∀ u w, u ∈ t.stack → u ∉ t0.stack → w ∈ t0.stack → g.Edge u w →
    (u = v → w ∈ done) → t.lowlink (t0.currentIndex + 1) ≤ t.idx w
  done_idx : ∀ w ∈ done, t.index w ≠ none

/-- What `search(v)`, entered in state `t0`, guarantees about the state `t` it leaves. -/
structure Post (g : Graph) (t0 : Tarjan) (gs : List String) (v : String) (t : Tarjan) :
    Prop where
  inv : Inv g t gs
  ext : ∀ u i, t0.index u = some i → t.index u = some i
  idx_v : t.index v = some (t0.currentIndex + 1)
  fresh : ∀ u i, t.index u = some i → t0.index u = none → t0.currentIndex < i
  cur_lt : t0.currentIndex < t.currentIndex
  stk : ∃ seg, t.stack = t0.stack ++ seg
  frame_low : ∀ i, i ≤ t0.currentIndex → t.lowlink i = t0.lowlink i
  low_wit : t.lowlink (t0.currentIndex + 1) = t0.currentIndex + 1 ∨
    ∃ y ∈ t0.stack, t.idx y = t.lowlink (t0.currentIndex + 1) ∧ g.Reach v y
  low_min : ∀ u w, u ∈ t.stack → u ∉ t0.stack → w ∈ t0.stack → g.Edge u w →
    t.lowlink (t0.currentIndex + 1) ≤ t.idx w

/-- The state of `search(v)` when it enters the loop over the edges of `v`. -/
def enter (v : String) (t : Tarjan) : Tarjan :=
  { G := t.G,
    index := Function.update t.index v (some (t.currentIndex + 1)),
    lowlink := Function.update t.lowlink (t.currentIndex + 1) (t.currentIndex + 1),
    stack := t.stack ++ [v],
    onStack := Function.update t.onStack (t.currentIndex + 1) true,
    currentIndex := t.currentIndex + 1,
    sccs := t.sccs }

/-- Total correctness of `search` with fuel `n`: entered in a state satisfying the
invariant, on a vertex without number, with at most `n` such vertices left, it returns
a state satisfying `Post`. -/
def SearchOk (g : Graph) (n : Nat) : Prop :=
  ∀ v t0 gs, Inv g t0 gs → t0.index v = none → v ∈ g.vertices → (∀ q ∈ gs, g.Reach q v) →
    white g t0 ≤ n → ∃ t, search n v t0 = some t ∧ Post g t0 gs v t

end scc

namespace cycle

/-- The identifier read for `u` in the numbering `ix`, zero when `u` has none. -/
def num (ix : String → Option Nat) (u : String) : Nat :=
  (ix u).getD 0

/-- The numbering that `Find` assigns: exactly the keys get an identifier, identifiers
are positive and grow with the alphabetical order of the keys. -/
structure Numbering (g : Graph) (ix : String → Option Nat) : Prop where
  key_iff : ∀ u, ix u ≠ none ↔ u ∈ g.keys
  pos : ∀ u i, ix u = some i → 1 ≤ i
  lt_iff : ∀ u w i j, ix u = some i → ix w = some j → (i < j ↔ u < w)

/-- There is a walk from `u` to the root `s` whose vertices before `s` are all outside
`A` and numbered above `s`. -/
inductive Free (g : Graph) (nm : String → Nat) (s : String) (A : List String) : String → Prop
  | last {u : String} : g.Edge u s → u ∉ A → nm s < nm u → Free g nm s A u
  | step {u w : String} : g.Edge u w → u ∉ A → nm s < nm u → Free g nm s A w → Free g nm s A u

/-- The sequence `c` is an elementary circuit through the root `s`, written from `s` to
`s`, whose other vertices are numbered above `s`. -/
def Sound (g : Graph) (nm : String → Nat) (s : String) (c : List String) : Prop :=
  ∃ q, c = s :: q ++ [s] ∧ (s :: q).Nodup ∧ List.Chain g.Edge s (q ++ [s]) ∧
    ∀ u ∈ q, nm s < nm u

/-- The invariant of the enumerator during the search from the root `s`. -/
structure CInv (g : Graph) (ix : String → Option Nat) (s : String) (t : Tarjan) : Prop where
  hG : t.G = some g
  hix : t.index = ix
  ms_nodup : t.markedStack.Nodup
  marked_iff : ∀ i, t.marked i = true ↔ i ∈ t.markedStack
  ps_marked : ∀ u ∈ t.pointStack, num ix u ∈ t.markedStack
  ps_nodup : t.pointStack.Nodup
  ps_chain : t.pointStack.Chain' g.Edge
  ps_head : ∀ u ∈ t.pointStack.head?, u = s
  ps_gt : ∀ u ∈ t.pointStack.tail, num ix s < num ix u
  removed_lt : ∀ a b, t.isRemoved a b = true → b < num ix s
  free : ∀ u, t.marked (num ix u) = true → u ∉ t.pointStack →
    ¬ Free g (num ix) s t.pointStack u
  sound : ∀ c ∈ t.cycles, ∃ r, Sound g (num ix) r c

/-- What `search(s, v)`, entered in state `t0`, guarantees about its result. -/
structure Post (g : Graph) (ix : String → Option Nat) (s : String) (t0 : Tarjan) (v : String)
    (found : Bool) (t : Tarjan) : Prop where
  inv : CInv g ix s t
  ps : t.pointStack = t0.pointStack
  ms : if found = true then t.markedStack = t0.markedStack
    else ∃ more, t.markedStack = t0.markedStack ++ num ix v :: more
  cyc : ∃ new, t.cycles = t0.cycles ++ new ∧
    (∀ c ∈ new, ∃ rest, c = t0.pointStack ++ v :: rest) ∧
    ((∀ u, (g.adj u).Nodup) → new.Nodup)
  complete : ∀ xs, List.Chain g.Edge v (xs ++ [s]) → (v :: xs).Nodup →
    (∀ x ∈ xs, x ∉ t0.pointStack ∧ num ix s < num ix x) →
    t0.pointStack ++ v :: xs ++ [s] ∈ t.cycles

/-- The invariant of the loop over the edges of `v` in `search(s, v)`; `done` lists the
edges already handled. -/
structure LoopInv (g : Graph) (ix : String → Option Nat) (s : String) (t0 : Tarjan)
    (v : String) (done : List String) (found : Bool) (t : Tarjan) : Prop where
  inv : CInv g ix s t
  ps : t.pointStack = t0.pointStack ++ [v]
  ms : ∃ more, t.markedStack = t0.markedStack ++ num ix v :: more
  cyc : ∃ new, t.cycles = t0.cycles ++ new ∧
    (∀ c ∈ new, ∃ w ∈ done, ∃ rest, c = t0.pointStack ++ v :: w :: rest) ∧
    ((∀ u, (g.adj u).Nodup) → done.Nodup → new.Nodup)
  complete : ∀ xs, List.Chain g.Edge v (xs ++ [s]) → (v :: xs).Nodup →
    (∀ x ∈ xs, x ∉ t0.pointStack ∧ num ix s < num ix x) →
    (∀ w ∈ (xs ++ [s]).head?, w ∈ done) →
    t0.pointStack ++ v :: xs ++ [s] ∈ t.cycles
  nofound : found = false → ∀ w ∈ done,
    num ix w ≠ num ix s ∧ (num ix s < num ix w → t.marked (num ix w) = true)

/-- Total correctness of `search(s, ·)` with fuel `n`. -/
def SearchOk (g : Graph) (ix : String → Option Nat) (s : String) (n : Nat) : Prop :=
  ∀ v t0, CInv g ix s t0 → t0.marked (num ix v) = false → ix v ≠ none →
    (∀ x ∈ t0.pointStack.getLast?, g.Edge x v) → (t0.pointStack = [] → v = s) →
    (t0.pointStack ≠ [] → num ix s < num ix v) →
    g.keys.length ≤ t0.pointStack.length + n →
    ∃ found t, search n s v t0 = some (found, t) ∧ Post g ix s t0 v found t

/-- The state of `search(s, v)` when it enters the loop over the edges of `v`. -/
def enter (v : String) (t : Tarjan) : Tarjan :=
  { G := t.G,
    index := t.index,
    marked := Function.update t.marked (t.idx v) true,
    removed := t.removed,
    markedStack := t.markedStack ++ [t.idx v],
    pointStack := t.pointStack ++ [v],
    cycles := t.cycles }

/-- The invariant of the loop of `Find` over the roots: `ds` lists the roots already
handled, `rs` the roots still to come. -/
structure RootInv (g : Graph) (ix : String → Option Nat) (ds rs : List String) (t : Tarjan) :
    Prop where
  hG : t.G = some g
  hix : t.index = ix
  ms : t.markedStack = []
  unmarked : ∀ i, t.marked i = false
  ps : t.pointStack = []
  removed_lt : ∀ a b, t.isRemoved a b = true → ∀ r ∈ rs, b < num ix r
  sound : ∀ c ∈ t.cycles, ∃ r ∈ ds, Sound g (num ix) r c
  nodup : (∀ u, (g.adj u).Nodup) → t.cycles.Nodup
  complete : ∀ r ∈ ds, ∀ xs, List.Chain g.Edge r (xs ++ [r]) → (r :: xs).Nodup →
    (∀ x ∈ xs, num ix r < num ix x) → r :: xs ++ [r] ∈ t.cycles
  sorted : t.cycles.Pairwise fun c d => ∀ a ∈ c.head?, ∀ b ∈ d.head?, a ≤ b

end cycle

namespace Graph

/-- The vertex sequence `c = [v0, ..., vk]` is an elementary circuit: the vertices are
pairwise distinct, consecutive vertices are joined by an edge, and so are `vk` and `v0`
(a single vertex with a self-loop included). -/
def IsCircuit (g : Graph) (c : List String) : Prop :=
  c ≠ [] ∧ c.Nodup ∧ List.Chain' g.Edge (c ++ c.take 1)

/-- The graph has no directed cycle: no vertex reaches itself along at least one edge. -/
def Acyclic (g : Graph) : Prop :=
  ∀ v, ¬ g.ReachPlus v v

/-- No edge list contains the same entry twice. -/
def NoRepeat (g : Graph) : Prop :=
  ∀ u ∈ g.keys, (g.adj u).Nodup

/-- Every entry of an edge list is a key, in a form that can be evaluated. -/
def KeyClosed (g : Graph) : Prop :=
  ∀ u ∈ g.keys, ∀ w ∈ g.adj u, w ∈ g.keys

instance NoRepeat.decidable (g : Graph) : Decidable g.NoRepeat :=
  inferInstanceAs (Decidable (∀ u ∈ g.keys, (g.adj u).Nodup))

instance KeyClosed.decidable (g : Graph) : Decidable g.KeyClosed :=
  inferInstanceAs (Decidable (∀ u ∈ g.keys, ∀ w ∈ g.adj u, w ∈ g.keys))

end Graph

/-- The graph `a -> b -> c` of scenario A, without cycle. -/
def scenarioA : Graph :=
  [("a", ["b"]), ("b", ["c"]), ("c", [])]

/-- The reference graph of scenario B, with nine vertices. -/
def scenarioB : Graph :=
  [("1", ["2", "5", "8"]), ("2", ["3", "7", "9"]), ("3", ["1", "2", "4", "6"]), ("4", ["5"]),
   ("5", ["2"]), ("6", ["4"]), ("7", []), ("8", ["9"]), ("9", ["8"])]

/-- A rank that decreases along the edges of `scenarioA`. -/
def scenarioA.rank (x : String) : Nat :=
  if x = "a" then 2 else if x = "b" then 1 else 0

namespace whisk

/-- The cookbook `d` is a declared dependency of the cookbook `u`: `LoadDeps` succeeds on
`u` and `d` is a key of the dependency map it leaves. -/
def DepEdge (env : Env) (paths : List String) (u d : String) : Prop :=
  ∃ deps, env.LoadDeps paths u = some (.ok deps) ∧ d ∈ sortKeys deps

/-- The edge list of `u` in `g` is the sorted list of the declared dependencies of `u`. -/
def Done (env : Env) (paths : List String) (g : Graph) (u : String) : Prop :=
  ∃ deps, env.LoadDeps paths u = some (.ok deps) ∧ g.adj u = sortKeys deps

/-- What `walkCookbook name`, entered with handler `h`, guarantees about the error `e` and
the handler `h2` it returns. -/
structure WalkPost (env : Env) (name : String) (h : Handler) (e : Option WalkError)
    (h2 : Handler) : Prop where
  paths : h2.cookbookPaths = h.cookbookPaths
  roles : h2.rolesIndex = h.rolesIndex
  rolesPath : h2.rolesPath = h.rolesPath
  frame : ∀ u ∈ h.graph.keys, u ≠ name → h2.graph.adj u = h.graph.adj u
  mono : ∀ u ∈ h.graph.keys, u ∈ h2.graph.keys
  key : name ∈ h2.graph.keys
  closed : (∀ u, ∀ w ∈ h.graph.adj u, w = name ∨ w ∈ h.graph.keys) →
    ∀ u, ∀ w ∈ h2.graph.adj u, w ∈ h2.graph.keys
  sound : ∀ u ∈ h2.graph.keys,
    u ∈ h.graph.keys ∨ Relation.ReflTransGen (DepEdge env h.cookbookPaths) name u
  done : e = none → Done env h.cookbookPaths h2.graph name ∧
    ∀ u ∈ h2.graph.keys, u ∉ h.graph.keys → Done env h.cookbookPaths h2.graph u

/-- The invariant of the loop over the dependencies in `walkCookbook name`, entered with
handler `h`; `dn` lists the dependencies already handled and `e` is the error so far. -/
structure WalkInv (env : Env) (name : String) (h : Handler) (dn : List String)
    (e : Option WalkError) (hc : Handler) : Prop where
  paths : hc.cookbookPaths = h.cookbookPaths
  roles : hc.rolesIndex = h.rolesIndex
  rolesPath : hc.rolesPath = h.rolesPath
  frame : ∀ u ∈ h.graph.keys, u ≠ name → hc.graph.adj u = h.graph.adj u
  mono : ∀ u ∈ h.graph.keys, u ∈ hc.graph.keys
  key : name ∈ hc.graph.keys
  adj : hc.graph.adj name = dn
  closed : (∀ u, ∀ w ∈ h.graph.adj u, w = name ∨ w ∈ h.graph.keys) →
    ∀ u, ∀ w ∈ hc.graph.adj u, w ∈ hc.graph.keys
  sound : ∀ u ∈ hc.graph.keys,
    u ∈ h.graph.keys ∨ Relation.ReflTransGen (DepEdge env h.cookbookPaths) name u
  done : e = none → ∀ u ∈ hc.graph.keys, u ∉ h.graph.keys → u ≠ name →
    Done env h.cookbookPaths hc.graph u

/-- Partial correctness of a recursive call of `walkCookbook`. -/
def RecSpec (env : Env) (rec : String → Handler → Option (Option WalkError × Handler)) : Prop :=
  ∀ name h e h2, rec name h = some (e, h2) → WalkPost env name h e h2

/-- The number of cookbooks of the list `l` that are not yet keys of the graph. -/
def unseen (l : List String) (g : Graph) : Nat :=
  (l.dedup.filter fun x => x ∉ g.keys).length

/-- Fuel that suffices for `walkCookbook name` on the handler `h`, when `l` lists the
names that cookbooks declare as dependencies: one more than the number of these names
that are not yet keys once `name` is one. -/
def Enough (l : List String) (fuel : Nat) (name : String) (h : Handler) : Prop :=
  unseen l (h.graph.set name []) + 1 ≤ fuel

/-- The run-list entry `dep` is `role[X]`. -/
def IsRoleRef (dep X : String) : Prop :=
  dep.toList = "role[".toList ++ X.toList ++ "]".toList

/-- The run-list entry `dep` is `recipe[...]` and names the cookbook `C`: the text between
the brackets up to the first `::`. -/
def IsRecipeRef (dep C : String) : Prop :=
  ∃ recipe, dep.toList = "recipe[".toList ++ recipe ++ "]".toList ∧
    C = String.mk (splitHead recipe)

/-- The role `R` of the index references the role `X` in its run list. -/
def RoleEdge (idx : List (String × chef.Role)) (R X : String) : Prop :=
  ∃ role, idx.lookup R = some role ∧ ∃ dep ∈ role.RunList, IsRoleRef dep X

/-- The cookbook `C` is named by a recipe entry in the run list of `R0` or of a role that
`R0` transitively references. -/
def Seed (idx : List (String × chef.Role)) (R0 C : String) : Prop :=
  ∃ R role, Relation.ReflTransGen (RoleEdge idx) R0 R ∧ idx.lookup R = some role ∧
    ∃ dep ∈ role.RunList, IsRecipeRef dep C

/-- What `WalkRole name`, entered with a handler `h` whose role index is loaded,
guarantees about the error `e` and the handler `h2` it returns. -/
structure RolePost (env : Env) (name : String) (h : Handler) (e : Option WalkError)
    (h2 : Handler) : Prop where
  paths : h2.cookbookPaths = h.cookbookPaths
  roles : h2.rolesIndex = h.rolesIndex
  mono : ∀ u ∈ h.graph.keys, u ∈ h2.graph.keys
  closed : h.graph.Closed → h2.graph.Closed
  sound : ∀ u ∈ h2.graph.keys, u ∈ h.graph.keys ∨
    ∃ S, Seed h.rolesIndex name S ∧ Relation.ReflTransGen (DepEdge env h.cookbookPaths) S u
  done : e = none → (∀ u ∈ h.graph.keys, Done env h.cookbookPaths h.graph u) →
    ∀ u ∈ h2.graph.keys, Done env h.cookbookPaths h2.graph u
  seeds : e = none → ∀ S, Seed h.rolesIndex name S → S ∈ h2.graph.keys

/-- The invariant of the loop over the run list of the role `name` in `WalkRole`, entered
with handler `h`; `dn` lists the entries already handled and `e` is the error so far. -/
structure RunInv (env : Env) (name : String) (h : Handler) (dn : List String)
    (e : Option WalkError) (hc : Handler) : Prop where
  paths : hc.cookbookPaths = h.cookbookPaths
  roles : hc.rolesIndex = h.rolesIndex
  mono : ∀ u ∈ h.graph.keys, u ∈ hc.graph.keys
  closed : h.graph.Closed → hc.graph.Closed
  sound : ∀ u ∈ hc.graph.keys, u ∈ h.graph.keys ∨
    ∃ S, Seed h.rolesIndex name S ∧ Relation.ReflTransGen (DepEdge env h.cookbookPaths) S u
  done : e = none → (∀ u ∈ h.graph.keys, Done env h.cookbookPaths h.graph u) →
    ∀ u ∈ hc.graph.keys, Done env h.cookbookPaths hc.graph u
  seeds : e = none → ∀ dep ∈ dn, (∀ C, IsRecipeRef dep C → C ∈ hc.graph.keys) ∧
    ∀ X, IsRoleRef dep X → ∀ S, Seed h.rolesIndex X S → S ∈ hc.graph.keys

/-- Partial correctness of a recursive call of `WalkRole` on a handler whose role index
is loaded. -/
def RoleRec (env : Env) (rec : String → Handler → Option (Option WalkError × Handler)) : Prop :=
  ∀ name h e h2, h.rolesIndex ≠ [] → rec name h = some (e, h2) → RolePost env name h e h2

end whisk

/-! Models of the Go library functions that the repository calls on texts and paths.
Texts are sequences of characters: the model covers inputs that are valid UTF-8, and a
length in bytes is the sum of the UTF-8 sizes of the characters. -/

namespace strings

/-- Function `strings.HasPrefix`. -/
def HasPrefix (s p : String) : Bool :=
  p.toList.isPrefixOf s.toList

/-- Function `strings.HasSuffix`. -/
def HasSuffix (s p : String) : Bool :=
  p.toList.isSuffixOf s.toList

/-- Function `unicode.IsSpace`: the characters with the property White_Space. -/
def IsSpace (c : Char) : Bool :=
  let n := c.toNat
  (0x09 ≤ n && n ≤ 0x0d) || n = 0x20 || n = 0x85 || n = 0xa0 || n = 0x1680 ||
    (0x2000 ≤ n && n ≤ 0x200a) || n = 0x2028 || n = 0x2029 || n = 0x202f || n = 0x205f ||
    n = 0x3000

/-- The loop of `strings.Fields`: `cur` is the field being read. -/
def fieldsFrom : List Char → List Char → List (List Char)
  | cur, [] => if cur = [] then [] else [cur]
  | cur, c :: cs =>
    if IsSpace c then
      if cur = [] then fieldsFrom [] cs else cur :: fieldsFrom [] cs
    else fieldsFrom (cur ++ [c]) cs

/-- Function `strings.Fields`: the maximal runs of characters that are not white space. -/
def Fields (s : String) : List String :=
  (fieldsFrom [] s.toList).map String.mk

/-- Function `strings.Trim`: `s` without its leading and trailing characters that occur
in `cutset`. -/
def Trim (s : String) (cutset : List Char) : String :=
  String.mk (((s.toList.dropWhile fun c => c ∈ cutset).reverse.dropWhile
    fun c => c ∈ cutset).reverse)

end strings

namespace bufio

/-- Constant `bufio.MaxScanTokenSize`: a line of this many bytes or more does not fit in
the buffer of a `Scanner`. -/
def MaxScanTokenSize : Nat := 65536

/-- Length in bytes of a sequence of characters. -/
def byteLen (l : List Char) : Nat :=
  (l.map Char.utf8Size).sum

/-- Function `dropCR` of `bufio.ScanLines`: one trailing carriage return is dropped. -/
def dropCR (l : List Char) : List Char :=
  if l.getLast? = some '\r' then l.dropLast else l

/-- The lines that `Scanner.Scan` delivers for the rest of the text; `cur` is the line
being read. The scanner stops, without a line, at the first line that does not fit in its
buffer; the text after the last line terminator is a line when it is not empty. -/
def scanFrom : List Char → List Char → List (List Char)
  | cur, [] =>
    if cur = [] then [] else if MaxScanTokenSize ≤ byteLen cur then [] else [dropCR cur]
  | cur, c :: cs =>
    if c = '\n' then
      if MaxScanTokenSize ≤ byteLen cur then [] else dropCR cur :: scanFrom [] cs
    else scanFrom (cur ++ [c]) cs

/-- The successive values of `scanner.Text()` in a loop `for scanner.Scan()` over a
`bufio.NewScanner` on `text`. -/
def scanLines (text : String) : List String :=
  (scanFrom [] text.toList).map String.mk

end bufio

namespace filepath

/-- Split at every separator `/`; `cur` is the element being read. -/
def splitFrom : List Char → List Char → List (List Char)
  | cur, [] => [cur]
  | cur, c :: cs => if c = '/' then cur :: splitFrom [] cs else splitFrom (cur ++ [c]) cs

/-- One step of `filepath.Clean` on the elements kept so far (last element first):
empty elements and `.` are dropped, `..` removes the element before it, or is kept at
the start of a path that is not rooted, or is dropped at the root. -/
def cleanStep (rooted : Bool) (out : List (List Char)) (e : List Char) : List (List Char) :=
  if e = [] ∨ e = ['.'] then out
  else if e = ['.', '.'] then
    match out with
    | [] => if rooted then [] else [e]
    | o :: os => if o = ['.', '.'] then e :: o :: os else os
  else e :: out

/-- Function `filepath.Clean`, for the separator `/`. -/
def Clean (path : String) : String :=
  let rooted := path.toList.head? = some '/'
  let out := ((splitFrom [] path.toList).foldl (cleanStep rooted) []).reverse
  let body := String.mk (List.intercalate ['/'] out)
  if rooted then "/" ++ body else if out = [] then "." else body

/-- Function `filepath.Join`: the elements that are not empty, joined by the separator,
cleaned; the empty string when all of them are empty. -/
def Join (a b : String) : String :=
  if a = "" ∧ b = "" then ""
  else if a = "" then Clean b
  else if b = "" then Clean a
  else Clean (a ++ "/" ++ b)

end filepath

namespace strconv

/-- The digits of `n` in base 16, padded to `width` digits. -/
def hex (width n : Nat) : List Char :=
  let ds := (Nat.toDigits 16 n)
  List.replicate (width - ds.length) '0' ++ ds

/-- Function `strconv.IsPrint`; `table` stands for the tables of the library, consulted
for the characters above U+00FF. -/
def IsPrint (table : Char → Bool) (c : Char) : Bool :=
  let n := c.toNat
  if n ≤ 0xff then (0x20 ≤ n && n ≤ 0x7e) || (0xa1 ≤ n && n ≠ 0xad) else table c

/-- Function `appendEscapedRune` of `strconv.Quote`: the text that stands for `c` between
double quotes. -/
def escapeRune (table : Char → Bool) (c : Char) : List Char :=
  let n := c.toNat
  if c = '"' ∨ c = '\\' then ['\\', c]
  else if IsPrint table c then [c]
  else if n = 7 then ['\\', 'a']
  else if n = 8 then ['\\', 'b']
  else if n = 12 then ['\\', 'f']
  else if n = 10 then ['\\', 'n']
  else if n = 13 then ['\\', 'r']
  else if n = 9 then ['\\', 't']
  else if n = 11 then ['\\', 'v']
  else if n < 0x20 ∨ n = 0x7f then '\\' :: 'x' :: hex 2 n
  else if n < 0x10000 then '\\' :: 'u' :: hex 4 n
  else '\\' :: 'U' :: hex 8 n

/-- Function `strconv.Quote`, the verb `%q` of `fmt` on a string: the text between double
quotes, with the escapes of a Go string literal. -/
def Quote (table : Char → Bool) (s : String) : String :=
  String.mk ('"' :: (s.toList.map (escapeRune table)).flatten ++ ['"'])

end strconv

/-- What the program obtains from the operating system and from the JSON decoder. An
error of the library is the text of its message. -/
structure FS where
  /-- Function `os.Lstat`: whether the path is a directory, or the error. -/
  Lstat : String → Except String Bool
  /-- Function `os.ReadDir`: the entries read (name, whether it is a directory), and the
  error that ended the reading, if any. -/
  ReadDir : String → List (String × Bool) × Option String
  /-- Function `ioutil.ReadFile`: the contents of the file, or the error. -/
  ReadFile : String → Except String String
  /-- Function `json.Unmarshal` into a new `Role`. -/
  decodeRole : String → Except String chef.Role
  /-- Function `json.Unmarshal` into a cookbook with the given `Deps`: the `Deps` that it
  leaves, or the error. -/
  decodeDeps : String → chef.Deps → Except String chef.Deps

namespace FS

/-- The entries of a directory in the order `os.ReadDir` returns them, sorted by file
name. -/
def sortedDir (fs : FS) (path : String) : List (String × Bool) :=
  (fs.ReadDir path).1.insertionSort fun a b => strLe a.1 b.1

end FS

namespace chef

/-- The errors returned by the package `chef`. -/
inductive Error where
  /-- The error "failed opening role file: %w". -/
  | openRole (cause : String)
  /-- The error "failed decoding role file %q: %w". -/
  | decodeRole (path cause : String)
  /-- The error "cookbook name can't be empty". -/
  | emptyName
  /-- The error "could not find cookbook metadata %q in %q: %w". -/
  | notFound (metadataPath : String) (paths : List String) (cause : String)
  /-- The error "failed decoding %q: %w". -/
  | decode (metadataPath cause : String)
deriving DecidableEq, Repr

/-- The text of an error of the package `chef`, as the method `Error` of the value built
by `fmt.Errorf` gives it; the verb `%q` writes a list of strings as the quoted strings
between brackets, separated by spaces. -/
def Error.text (table : Char → Bool) : Error → String
  | .openRole cause => "failed opening role file: " ++ cause
  | .decodeRole path cause =>
    "failed decoding role file " ++ strconv.Quote table path ++ ": " ++ cause
  | .emptyName => "cookbook name can't be empty"
  | .notFound metadataPath paths cause =>
    "could not find cookbook metadata " ++ strconv.Quote table metadataPath ++ " in [" ++
      " ".intercalate (paths.map (strconv.Quote table)) ++ "]: " ++ cause
  | .decode metadataPath cause =>
    "failed decoding " ++ strconv.Quote table metadataPath ++ ": " ++ cause

/-- Function `NewRole`: open and decode a role file. -/
def NewRole (fs : FS) (path : String) : Except Error Role :=
  match fs.ReadFile path with
  | .error e => .error (.openRole e)
  | .ok data =>
    match fs.decodeRole data with
    | .error e => .error (.decodeRole path e)
    | .ok role => .ok role

/-- The type `Cookbook`; `Deps` is a map that has been made, as `walkCookbook` does. -/
structure Cookbook where
  /-- Field `CookbookPaths`. -/
  CookbookPaths : List String
  /-- Field `Name`. -/
  Name : String
  /-- Field `Deps`. -/
  Deps : Deps

/-- The loop over the search paths in `tryRuby` and `tryJSON`: `st` holds the variables
`metadata` and `err`, which start as nil; the loop stops at the first file that is read. -/
def readMetadata (fs : FS) (metadataPath : String) :
    List String → Except String String → Except String String
  | [], st => st
  | p :: ps, _ =>
    match fs.ReadFile (filepath.Join p metadataPath) with
    | .ok data => .ok data
    | .error e => readMetadata fs metadataPath ps (.error e)

/-- The characters that `tryRuby` trims from a cookbook name: the double quote, the
single quote and the comma. -/
def cutset : List Char := ['"', Char.ofNat 39, ',']

/-- The body of the loop over the lines in `tryRuby`; the index expression `parts[1]` is a
run-time panic (`none`) when the line has a single field. -/
def rubyLine (line : String) (deps : Deps) : Option Deps :=
  if line.length = 0 then some deps
  else if strings.HasPrefix line "depends" then
    match (strings.Fields line)[1]? with
    | none => none
    | some part => some ((strings.Trim part cutset, "") :: deps)
  else some deps

/-- The loop over the lines in `tryRuby`. -/
def rubyLines : List String → Deps → Option Deps
  | [], deps => some deps
  | line :: lines, deps =>
    match rubyLine line deps with
    | none => none
    | some deps => rubyLines lines deps

/-- Method `tryRuby`; `none` is a run-time panic. -/
def Cookbook.tryRuby (fs : FS) (c : Cookbook) : Option (Option Error × Cookbook) :=
  let metadataPath := filepath.Join c.Name "metadata.rb"
  match readMetadata fs metadataPath c.CookbookPaths (.ok "") with
  | .error e => some (some (.notFound metadataPath c.CookbookPaths e), c)
  | .ok metadata =>
    match rubyLines (bufio.scanLines metadata) c.Deps with
    | none => none
    | some deps => some (none, { c with Deps := deps })

/-- Method `tryJSON`. -/
def Cookbook.tryJSON (fs : FS) (c : Cookbook) : Option Error × Cookbook :=
  let metadataPath := filepath.Join c.Name "metadata.json"
  match readMetadata fs metadataPath c.CookbookPaths (.ok "") with
  | .error e => (some (.notFound metadataPath c.CookbookPaths e), c)
  | .ok metadata =>
    match fs.decodeDeps metadata c.Deps with
    | .error e => (some (.decode metadataPath e), c)
    | .ok deps => (none, { c with Deps := deps })

/-- Method `LoadDeps`; `none` is a run-time panic. -/
def Cookbook.LoadDeps (fs : FS) (c : Cookbook) : Option (Option Error × Cookbook) :=
  if c.Name = "" then some (some .emptyName, c)
  else
    match c.tryRuby fs with
    | none => none
    | some (none, c) => some (none, c)
    | some (some _, c) => some (c.tryJSON fs)

end chef

namespace filepath

/-- The errors that the functions given to `WalkDir` return in this program. -/
inductive WalkErr where
  /-- The value `fs.SkipDir`. -/
  | SkipDir
  /-- An error of the library, passed to the function and returned by it. -/
  | os (cause : String)
  /-- An error of `chef.NewRole`, wrapped by "%w". -/
  | role (e : chef.Error)
deriving DecidableEq, Repr

/-- The text of an error returned by the functions given to `WalkDir`: the verb `%w`
alone keeps the text of the error of `chef.NewRole`. -/
def WalkErr.Error (table : Char → Bool) : WalkErr → String
  | .SkipDir => "skip this directory"
  | .os cause => cause
  | .role e => e.text table

/-- The type `fs.WalkDirFunc`, on a state of type `σ`: the path, the entry (whether it
is a directory; nil when `Lstat` failed), the error; it returns an error or nil. -/
abbrev WalkDirFunc (σ : Type) := String → Option Bool → Option String → σ → Option WalkErr × σ

/-- The loop over the entries of a directory in `walkDir`: `SkipDir` from an entry ends
the loop without error. -/
def walkEntries {σ : Type} (rec : String → Bool → σ → Option (Option WalkErr × σ))
    (path : String) : List (String × Bool) → σ → Option (Option WalkErr × σ)
  | [], s => some (none, s)
  | d1 :: dirs, s =>
    match rec (Join path d1.1) d1.2 s with
    | none => none
    | some (some e, s) => if e = .SkipDir then some (none, s) else some (some e, s)
    | some (none, s) => walkEntries rec path dirs s

/-- The result of a call of the function in `walkDir`: `SkipDir` on a directory is not
an error. -/
def skipped {σ : Type} (isDir : Bool) (r : Option WalkErr × σ) : Option WalkErr × σ :=
  if r.1 = some .SkipDir ∧ isDir = true then (none, r.2) else r

/-- Function `walkDir` of `path/filepath`, with recursion depth at most `fuel`. -/
def walkDir (fs : FS) {σ : Type} (fn : WalkDirFunc σ) :
    Nat → String → Bool → σ → Option (Option WalkErr × σ)
  | 0, _, _, _ => none
  | fuel + 1, path, isDir, s =>
    match fn path (some isDir) none s with
    | (some e, s) => some (skipped isDir (some e, s))
    | (none, s) =>
      if isDir = false then some (none, s)
      else
        match (fs.ReadDir path).2 with
        | none => walkEntries (walkDir fs fn fuel) path (fs.sortedDir path) s
        | some e =>
          match fn path (some isDir) (some e) s with
          | (some e, s) => some (skipped isDir (some e, s))
          | (none, s) => walkEntries (walkDir fs fn fuel) path (fs.sortedDir path) s

/-- Function `filepath.WalkDir`. -/
def WalkDir (fs : FS) {σ : Type} (fn : WalkDirFunc σ) (fuel : Nat) (root : String) (s : σ) :
    Option (Option WalkErr × σ) :=
  let r : Option (Option WalkErr × σ) :=
    match fs.Lstat root with
    | .error e => some (fn root none (some e) s)
    | .ok isDir => walkDir fs fn fuel root isDir s
  match r with
  | none => none
  | some (some e, s) => if e = .SkipDir then some (none, s) else some (some e, s)
  | some (none, s) => some (none, s)

end filepath

namespace whisk

/-- The function literal `fn` of `loadRoles`, on the role index; the assignment
`h.rolesIndex[role.Name] = role` puts the new binding first, where a lookup finds it. -/
def loadRoles.fn (fs : FS) (rolesPath : String) :
    filepath.WalkDirFunc (List (String × chef.Role)) :=
  fun path _ err idx =>
    if strings.HasSuffix path ".json" = false ∧ rolesPath ≠ path then (some .SkipDir, idx)
    else
      match err with
      | some e => (some (.os e), idx)
      | none =>
        if path = rolesPath then (none, idx)
        else
          match chef.NewRole fs path with
          | .error e => (some (.role e), idx)
          | .ok role => (none, (role.Name, role) :: idx)

/-- Method `loadRoles`; the error, if any, is the cause wrapped by "failed loading
roles: %w". -/
def loadRoles (fs : FS) (fuel : Nat) (h : Handler) :
    Option (Option filepath.WalkErr × Handler) :=
  match filepath.WalkDir fs (loadRoles.fn fs h.rolesPath) fuel h.rolesPath h.rolesIndex with
  | none => none
  | some (e, idx) => some (e, { h with rolesIndex := idx })

/-- What the graph builder reads from the file system `fs`. The role index is the one
that `loadRoles` builds from an empty index, the roles directory being walked with
recursion depth at most `fuel`, and its error is the cause wrapped by "failed loading
roles: %w"; the dependencies are those that `LoadDeps` leaves on the cookbook that
`walkCookbook` makes, with the search paths, the name and an empty map. -/
def Env.ofFS (fs : FS) (table : Char → Bool) (fuel : Nat) : Env where
  loadRoles := fun rolesPath =>
    match filepath.WalkDir fs (loadRoles.fn fs rolesPath) fuel rolesPath [] with
    | none => none
    | some (none, idx) => some (idx, none)
    | some (some e, idx) => some (idx, some ("failed loading roles: " ++ e.Error table))
  LoadDeps := fun paths name =>
    match chef.Cookbook.LoadDeps fs { CookbookPaths := paths, Name := name, Deps := [] } with
    | none => none
    | some (none, c) => some (.ok c.Deps)
    | some (some e, _) => some (.error (e.text table))

end whisk

namespace whisk

/-- The text of an error of the graph builder, as the method `Error` of the value built
by `fmt.Errorf` gives it; `table` stands for the tables of `strconv.IsPrint`. -/
def WalkError.Error (table : Char → Bool) : WalkError → String
  | .loadRoles cause => cause
  | .roleNotFound name => "role " ++ name ++ " doesn't exist"
  | .runList cause => "failed walking run_list: " ++ cause.Error table
  | .invalidEntry dep => "invalid entry in role's run_list: " ++ strconv.Quote table dep
  | .loadDeps name cause =>
    "unable to load " ++ strconv.Quote table name ++ " dependencies: " ++ cause

end whisk

namespace cmd

/-- The conversion `int(u)` of a `uint`, both of 64 bits: the value modulo `2^64`, read
as a two's complement number. -/
def toInt (u : Nat) : Int :=
  if u % 2 ^ 64 < 2 ^ 63 then ((u % 2 ^ 64 : Nat) : Int) else ((u % 2 ^ 64 : Nat) : Int) - 2 ^ 64

/-- The type `linter`, without the error group, the counter and the record of the
closest matches; the thresholds are values of type `uint`. -/
structure linter where
  /-- Field `cookbookPath`. -/
  cookbookPath : String
  /-- Field `rolesDir`. -/
  rolesDir : String
  /-- Field `maxCycles`. -/
  maxCycles : Nat
  /-- Field `maxSCCs`. -/
  maxSCCs : Nat
  /-- Field `maxCookbooksPerSCC`. -/
  maxCookbooksPerSCC : Nat

/-- The errors that `lint` appends to its result. -/
inductive LintError where
  /-- The error "%s: %d cycles found. Max threshold: %d". -/
  | cycles (role : String) (found max : Nat)
  /-- The error "%s: %d sccs found. Max threshold: %d". -/
  | sccs (role : String) (found max : Nat)
  /-- The error "%s: %d cookbooks found in scc %d. Max threshold: %d". -/
  | cookbooks (role : String) (found i max : Nat)
deriving DecidableEq, Repr

/-- Method `walkDirFunc`, on the list of the role files for which it starts `lint`;
the counter `l.roles` is the length of this list. -/
def linter.walkDirFunc (l : linter) : filepath.WalkDirFunc (List String) :=
  fun path _ err started =>
    if strings.HasSuffix path ".json" = false ∧ l.rolesDir ≠ path then (some .SkipDir, started)
    else
      match err with
      | some e => (some (.os e), started)
      | none => if path = l.rolesDir then (none, started) else (none, started ++ [path])

/-- The walk of the roles directory in `lintRoles`: the error of `WalkDir`, and the role
files for which `lint` was started. -/
def linter.lintRoles (l : linter) (fs : FS) (fuel : Nat) :
    Option (Option filepath.WalkErr × List String) :=
  filepath.WalkDir fs l.walkDirFunc fuel l.rolesDir []

/-- The loop over `r.Sccs` in `lint`, from the index `i` on: the errors it appends. -/
def linter.lintSccs (l : linter) (role : String) : Nat → List (List String) → List LintError
  | _, [] => []
  | i, scc :: sccs =>
    (if toInt l.maxCookbooksPerSCC < (scc.length : Int)
      then [LintError.cookbooks role scc.length i l.maxCookbooksPerSCC] else []) ++
      lintSccs l role (i + 1) sccs

/-- Method `lint` from `r := handler.Result()` on: the errors collected in `lr`, on
which `ErrorOrNil` returns nil exactly when there is none. The record of the closest
matches is left out. -/
def linter.lint (l : linter) (role : String) (r : whisk.Result) : List LintError :=
  (if toInt l.maxCycles < (r.Cycles.length : Int)
    then [LintError.cycles role r.Cycles.length l.maxCycles] else []) ++
  (if toInt l.maxSCCs < (r.Sccs.length : Int)
    then [LintError.sccs role r.Sccs.length l.maxSCCs] else []) ++
  l.lintSccs role 0 r.Sccs

end cmd

namespace whisk

/-- A disk whose directory `roles` holds the single file `file`, the JSON text of the role
`role`, and that holds no cookbook. -/
def oneRole (file : String) (role : chef.Role) : FS where
  Lstat := fun p => if p = "roles" then .ok true else .error "no such file or directory"
  ReadDir := fun p =>
    if p = "roles" then ([(file, false)], none) else ([], some "not a directory")
  ReadFile := fun p =>
    if p = filepath.Join "roles" file then .ok "R" else .error "no such file or directory"
  decodeRole := fun _ => .ok role
  decodeDeps := fun _ _ => .error "unexpected end of JSON input"

/-- The environment read from a disk whose only role, in the file `a.json`, is the role
`a` that names itself in its run list. -/
def selfRole : Env :=
  Env.ofFS (oneRole "a.json" ⟨"a", ["role[a]"]⟩) (fun _ => false) 2

/-- The handler on which `WalkRole` looks up the role: the role index is loaded first
when it is empty. -/
def Handler.withRoles (env : Env) (h : Handler) : Handler :=
  if h.rolesIndex.length = 0 then
    match env.loadRoles h.rolesPath with
    | some r => { h with rolesIndex := r.1 }
    | none => h
  else h

/-- The run-list entry `dep` has one of the two accepted forms: the prefix `role[` or
`recipe[` together with the suffix `]`. -/
def Accepted (dep : String) : Prop :=
  (strings.HasPrefix dep "role[" = true ∧ strings.HasSuffix dep "]" = true) ∨
    (strings.HasPrefix dep "recipe[" = true ∧ strings.HasSuffix dep "]" = true)

instance Accepted.decidable (dep : String) : Decidable (Accepted dep) :=
  inferInstanceAs (Decidable (_ ∨ _))

/-- The text `s` consists of printable ASCII characters other than the double quote and
the backslash: the characters that `%q` leaves as they are. -/
def Plain (s : String) : Prop :=
  ∀ c ∈ s.toList, 0x20 ≤ c.toNat ∧ c.toNat ≤ 0x7e ∧ c ≠ '"' ∧ c ≠ '\\'

instance Plain.decidable (s : String) : Decidable (Plain s) :=
  inferInstanceAs (Decidable (∀ c ∈ s.toList, _))

/-- The environment read from a disk whose only role, in the file `web.json`, is the role
`web` with the run list `recipe[foo]`, `bogus`, `recipe[bar]`. -/
def bogusEntry : Env :=
  Env.ofFS (oneRole "web.json" ⟨"web", ["recipe[foo]", "bogus", "recipe[bar]"]⟩)
    (fun _ => false) 2

/-- The environment read from a disk whose only role, in the file `web.json`, is the role
`web` whose run list is the single entry `a"b`. -/
def quotedEntry : Env :=
  Env.ofFS (oneRole "web.json" ⟨"web", ["a\"b"]⟩) (fun _ => false) 2

/-- The binding that the function of `loadRoles` adds to the index for the file at
`path`, when the file is read and decoded. -/
def loadRoles.binding (fs : FS) (path : String) : Option (String × chef.Role) :=
  match chef.NewRole fs path with
  | .ok role => some (role.Name, role)
  | .error _ => none

/-- The entry `e` of the roles directory is a sub-directory whose path does not end in
`.json`, or a file whose path ends in `.json` and that is read and decoded; its path is
not the path of the roles directory itself. -/
def loadRoles.Tidy (fs : FS) (rolesPath : String) (e : String × Bool) : Prop :=
  filepath.Join rolesPath e.1 ≠ rolesPath ∧
    ((e.2 = true ∧ strings.HasSuffix (filepath.Join rolesPath e.1) ".json" = false) ∨
      (e.2 = false ∧ strings.HasSuffix (filepath.Join rolesPath e.1) ".json" = true ∧
        (loadRoles.binding fs (filepath.Join rolesPath e.1)).isSome = true))

instance loadRoles.Tidy.decidable (fs : FS) (rolesPath : String) (e : String × Bool) :
    Decidable (loadRoles.Tidy fs rolesPath e) :=
  inferInstanceAs (Decidable (_ ∧ _))

/-- The bindings of the role files of the roles directory, in the order of the file
names. -/
def loadRoles.bindings (fs : FS) (rolesPath : String) : List (String × chef.Role) :=
  (fs.sortedDir rolesPath).filterMap fun e =>
    if e.2 = true then none else loadRoles.binding fs (filepath.Join rolesPath e.1)

/-- A roles directory with the files `a.json` and `b.json`, both of a role with the
internal name `web`, and a sub-directory `old`. -/
def dupRoles : FS where
  Lstat := fun p => if p = "roles" then .ok true else .error "no such file or directory"
  ReadDir := fun p =>
    if p = "roles" then ([("old", true), ("b.json", false), ("a.json", false)], none)
    else ([], some "not a directory")
  ReadFile := fun p =>
    if p = "roles/a.json" then .ok "A" else if p = "roles/b.json" then .ok "B"
    else .error "no such file or directory"
  decodeRole := fun data =>
    if data = "A" then .ok ⟨"web", ["recipe[apache]"]⟩ else .ok ⟨"web", ["recipe[nginx]"]⟩
  decodeDeps := fun _ deps => .ok deps

/-- A roles directory with the file `README.md` and the role file `web.json`. -/
def strayFile : FS where
  Lstat := fun p => if p = "roles" then .ok true else .error "no such file or directory"
  ReadDir := fun p =>
    if p = "roles" then ([("README.md", false), ("web.json", false)], none)
    else ([], some "not a directory")
  ReadFile := fun p =>
    if p = "roles/web.json" then .ok "W" else if p = "roles/README.md" then .ok "text"
    else .error "no such file or directory"
  decodeRole := fun _ => .ok ⟨"web", ["recipe[nginx]"]⟩
  decodeDeps := fun _ deps => .ok deps

/-- The disk of scenario E: the directory `roles` with the files of the roles `top`, whose
run list is `role[mid]`, and `mid`, whose run list is `recipe[foo::default]`; the
directory `cookbooks` with the cookbooks `foo`, which depends on `bar`, and `bar`, which
depends on `foo`. The contents `T` and `M` stand for the JSON texts of the two roles. -/
def scenarioE.disk : FS where
  Lstat := fun p => if p = "roles" then .ok true else .error "no such file or directory"
  ReadDir := fun p =>
    if p = "roles" then ([("top.json", false), ("mid.json", false)], none)
    else ([], some "not a directory")
  ReadFile := fun p =>
    if p = "roles/top.json" then .ok "T"
    else if p = "roles/mid.json" then .ok "M"
    else if p = "cookbooks/foo/metadata.rb" then .ok "name 'foo'\ndepends 'bar'\n"
    else if p = "cookbooks/bar/metadata.rb" then .ok "name 'bar'\ndepends 'foo'\n"
    else .error "no such file or directory"
  decodeRole := fun data =>
    if data = "T" then .ok ⟨"top", ["role[mid]"]⟩
    else if data = "M" then .ok ⟨"mid", ["recipe[foo::default]"]⟩
    else .error "unexpected end of JSON input"
  decodeDeps := fun _ _ => .error "unexpected end of JSON input"

/-- The environment of scenario E, read from its disk; none of its texts has a character
above U+00FF, for which alone the table is consulted. -/
def scenarioE : Env :=
  Env.ofFS scenarioE.disk (fun _ => false) 2

/-- The handler that `WalkRole` leaves in scenario E, started on the role `top` with the
search path `cookbooks`. -/
def scenarioE.result : Handler :=
  { cookbookPaths := ["cookbooks"], rolesPath := "roles",
    rolesIndex := [("top", ⟨"top", ["role[mid]"]⟩), ("mid", ⟨"mid", ["recipe[foo::default]"]⟩)],
    sccs := [], graph := [("foo", ["bar"]), ("bar", ["foo"])], cycles := [] }

/-- A disk with cookbooks whose dependencies form cycles: in the directory `cookbooks`,
`a` depends on `b` and on `a`, and `b` depends on `a`. -/
def cyclicDeps.disk : FS where
  Lstat := fun _ => .error "no such file or directory"
  ReadDir := fun _ => ([], some "no such file or directory")
  ReadFile := fun p =>
    if p = "cookbooks/a/metadata.rb" then .ok "name 'a'\ndepends 'b'\ndepends 'a'\n"
    else if p = "cookbooks/b/metadata.rb" then .ok "name 'b'\ndepends 'a'\n"
    else .error "no such file or directory"
  decodeRole := fun _ => .error "unexpected end of JSON input"
  decodeDeps := fun _ _ => .error "unexpected end of JSON input"

/-- The environment read from the disk `cyclicDeps.disk`. -/
def cyclicDeps : Env :=
  Env.ofFS cyclicDeps.disk (fun _ => false) 1

end whisk

namespace chef

/-- A file system without any file. -/
def emptyDisk : FS where
  Lstat := fun _ => .error "no such file or directory"
  ReadDir := fun _ => ([], some "no such file or directory")
  ReadFile := fun _ => .error "no such file or directory"
  decodeRole := fun _ => .error "unexpected end of JSON input"
  decodeDeps := fun _ _ => .error "unexpected end of JSON input"

/-- A file system whose only file is `path`, with the contents `text`. -/
def oneFile (path text : String) : FS where
  Lstat := fun p => if p = path then .ok false else .error "no such file or directory"
  ReadDir := fun _ => ([], some "no such file or directory")
  ReadFile := fun p => if p = path then .ok text else .error "no such file or directory"
  decodeRole := fun _ => .error "unexpected end of JSON input"
  decodeDeps := fun _ _ => .error "unexpected end of JSON input"

/-- A name without its trailing commas and then without the double and single quotes
around it. -/
def stripName (tok : String) : String :=
  strings.Trim (String.mk ((tok.toList.reverse.dropWhile fun c => c = ',').reverse))
    ['"', Char.ofNat 39]

/-- The dependency names of a `metadata.rb` text in the words of the specification: for
each line that is not empty and whose first token between white space is `depends`, the
second token, stripped. -/
def specDepends (text : String) : List String :=
  (bufio.scanLines text).filterMap fun line =>
    match strings.Fields line with
    | first :: second :: _ => if first = "depends" then some (stripName second) else none
    | _ => none

/-- The `metadata.rb` text of a cookbook with two dependencies. -/
def sampleMetadata : String :=
  "name 'web'\r\n\r\ndepends 'apache2', '>= 1.0'\r\ndepends \"nginx\"\r\nsupports 'ubuntu'"

end chef

/-- The element `a` comes before the element `b` in the list `l`. -/
def ComesBefore {α : Type} (l : List α) (a b : α) : Prop :=
  ∃ l1 l2 l3, l = l1 ++ a :: l2 ++ b :: l3

/-- The graph of two vertices that depend on each other. -/
def pairGraph : Graph :=
  [("a", ["b"]), ("b", ["a"])]

/-- The graph of one vertex that depends on itself. -/
def loopGraph : Graph :=
  [("a", ["a"])]

namespace scc

/-- The list of components has the dependencies first: every initial part of the list
is closed under the edges, so that an edge that leaves a component leads into a component
that comes earlier. -/
def Topo (g : Graph) (ss : List (List String)) : Prop :=
  ∀ pre post, ss = pre ++ post → ∀ x ∈ pre.flatten, ∀ y, g.Edge x y → y ∈ pre.flatten

/-- The order of the components is kept by `search` with fuel `n`. -/
def TopoOk (g : Graph) (n : Nat) : Prop :=
  ∀ v t0 gs, Inv g t0 gs → t0.index v = none → v ∈ g.vertices → (∀ q ∈ gs, g.Reach q v) →
    white g t0 ≤ n → Topo g t0.sccs → ∀ t, search n v t0 = some t → Topo g t.sccs

end scc

namespace cycle

/-- The state in which `Find`, on a new instance for `g`, enters the loop over the
roots. -/
def start (g : Graph) : Tarjan :=
  assignIndex 0 (sortKeys g) (NewTarjan (some g))

/-- The calls of `search` made by `Find` on a new instance for `g`: `Called g s v t0`
when `search(s, v)` is called in the state `t0`. A root `s` is searched in the state
left by the roots before it; in the call `search(s, v)`, the loop over the edges of `v`
calls `search(s, w)` for the edge `w` that is not removed, is numbered above `s` and is
not marked, in the state left by the edges before `w`. -/
inductive Called (g : Graph) : String → String → Tarjan → Prop
  | root {n : Nat} {ds rs : List String} {s : String} {t : Tarjan} :
    sortKeys g = ds ++ s :: rs → findLoop n ds (start g) = some t → Called g s s t
  | nested {n : Nat} {s v w : String} {t0 t : Tarjan} {found : Bool} {ws1 ws2 : List String} :
    Called g s v t0 → g.adj v = ws1 ++ w :: ws2 →
    searchEdges (search n s) s v ws1 false (enter v t0) = some (found, t) →
    t.isRemoved (t.idx v) (t.idx w) = false → ¬ t.idx w < t.idx s → t.idx w ≠ t.idx s →
    t.marked (t.idx w) = false → Called g s w t

/-- What holds of the state `t0` in which `search(s, v)` is called. -/
structure Pre (g : Graph) (ix : String → Option Nat) (s v : String) (t0 : Tarjan) : Prop where
  inv : CInv g ix s t0
  root : ix s ≠ none
  unmarked : t0.marked (num ix v) = false
  key : ix v ≠ none
  last : ∀ x ∈ t0.pointStack.getLast?, g.Edge x v
  first : t0.pointStack = [] → v = s
  gt : t0.pointStack ≠ [] → num ix s < num ix v

end cycle

namespace cycle

/-- The state `t2` has the graph and the numbering of `t`, and every pair removed in `t`
is removed in `t2`. -/
def Grow (t t2 : Tarjan) : Prop :=
  t2.G = t.G ∧ t2.index = t.index ∧ ∀ a b, t.isRemoved a b = true → t2.isRemoved a b = true

/-- The invariant of a run of `Find` on an instance that `Find` has used before, during
the search from the root `s`: every edge that leads to a vertex with a smaller number is
removed. -/
structure Again (g : Graph) (ix : String → Option Nat) (s : String) (t : Tarjan) : Prop where
  hG : t.G = some g
  hix : t.index = ix
  marked_sub : ∀ i, t.marked i = true → i ∈ t.markedStack
  ps_marked : ∀ u ∈ t.pointStack, t.marked (num ix u) = true
  ps_nodup : t.pointStack.Nodup
  ps_head : ∀ u ∈ t.pointStack.head?, u = s
  ps_gt : ∀ u ∈ t.pointStack.tail, num ix s < num ix u
  low : ∀ v w, ix v ≠ none → g.Edge v w → num ix w < num ix v →
    t.isRemoved (num ix v) (num ix w) = true

/-- On an instance used before, `search(s, ·)` with fuel `n` returns without a circuit. -/
def AgainOk (g : Graph) (ix : String → Option Nat) (s : String) (n : Nat) : Prop :=
  ∀ v t0, Again g ix s t0 → t0.marked (num ix v) = false → ix v ≠ none →
    (t0.pointStack = [] → v = s) → (t0.pointStack ≠ [] → num ix s < num ix v) →
    g.keys.length ≤ t0.pointStack.length + n →
    ∃ t, search n s v t0 = some (false, t) ∧ Again g ix s t ∧
      t.pointStack = t0.pointStack ∧ t.cycles = t0.cycles

/-- The state between two roots in a run of `Find` on an instance used before. -/
structure AgainRoot (g : Graph) (ix : String → Option Nat) (cs : List (List String))
    (t : Tarjan) : Prop where
  hG : t.G = some g
  hix : t.index = ix
  ms : t.markedStack = []
  unmarked : ∀ i, t.marked i = false
  ps : t.pointStack = []
  low : ∀ v w, ix v ≠ none → g.Edge v w → num ix w < num ix v →
    t.isRemoved (num ix v) (num ix w) = true
  cyc : t.cycles = cs

end cycle

namespace Graph

theorem mem_keys_iff (g : Graph) (v : String) : v ∈ g.keys ↔ g.lookup v ≠ none := by
  unfold keys
  rw [List.mem_dedup]
  induction g with
  | nil => simp
  | cons p g ih =>
    obtain ⟨k, e⟩ := p
    by_cases h : v = k
    · subst h; simp [List.lookup]
    · have h2 : (v == k) = false := by simpa using h
      simp [List.lookup, h2, h, ih]

theorem adj_eq_nil_of_not_key (g : Graph) (v : String) (h : v ∉ g.keys) : g.adj v = [] := by
  rw [mem_keys_iff] at h
  simp only [ne_eq, not_not] at h
  simp [adj, h]

theorem Edge.mem_keys {g : Graph} {u w : String} (h : g.Edge u w) : u ∈ g.keys := by
  by_contra hk
  have := adj_eq_nil_of_not_key g u hk
  simp [Edge, this] at h

theorem mem_vertices_of_key {g : Graph} {v : String} (h : v ∈ g.keys) : v ∈ g.vertices := by
  simp [vertices, h]

theorem Edge.mem_vertices {g : Graph} {u w : String} (h : g.Edge u w) : w ∈ g.vertices := by
  unfold vertices
  rw [List.mem_dedup, List.mem_append]
  right
  rw [List.mem_flatten]
  exact ⟨g.adj u, List.mem_map.mpr ⟨u, h.mem_keys, rfl⟩, h⟩

theorem mem_vertices_iff (g : Graph) (v : String) :
    v ∈ g.vertices ↔ v ∈ g.keys ∨ ∃ u, g.Edge u v := by
  constructor
  · intro h
    unfold vertices at h
    rw [List.mem_dedup, List.mem_append, List.mem_flatten] at h
    rcases h with h | ⟨l, hl, hv⟩
    · exact Or.inl h
    · obtain ⟨u, _, rfl⟩ := List.mem_map.mp hl
      exact Or.inr ⟨u, hv⟩
  · rintro (h | ⟨u, h⟩)
    · exact mem_vertices_of_key h
    · exact h.mem_vertices

theorem Reach.refl (g : Graph) (u : String) : g.Reach u u := Relation.ReflTransGen.refl

theorem Reach.trans {g : Graph} {a b c : String} (h1 : g.Reach a b) (h2 : g.Reach b c) :
    g.Reach a c := Relation.ReflTransGen.trans h1 h2

theorem Edge.reach {g : Graph} {a b : String} (h : g.Edge a b) : g.Reach a b :=
  Relation.ReflTransGen.single h

theorem Reach.target_mem_vertices {g : Graph} {a b : String} (h : g.Reach a b) (ha : a ∈ g.vertices) :
    b ∈ g.vertices := by
  induction h with
  | refl => exact ha
  | tail _ e _ => exact e.mem_vertices

end Graph

theorem strLe_iff (a b : String) : strLe a b ↔ a ≤ b := by
  unfold strLe
  exact String.le_iff_toList_le.symm

theorem mem_sortKeys (g : Graph) (v : String) : v ∈ sortKeys g ↔ v ∈ g.keys := by
  unfold sortKeys
  exact (List.perm_insertionSort strLe g.keys).mem_iff

namespace scc

theorem Tarjan.idx_eq {t : Tarjan} {u : String} {i : Nat} (h : t.index u = some i) :
    t.idx u = i := by
  simp [Tarjan.idx, h]

theorem Tarjan.index_of_idx_pos {t : Tarjan} {u : String} (h : 0 < t.idx u) :
    t.index u = some (t.idx u) := by
  unfold Tarjan.idx at *
  cases hu : t.index u with
  | none => simp [hu] at h
  | some i => simp

theorem getElem?_append_cons_length {α : Type} (a : List α) (x : α) (b : List α) :
    (a ++ x :: b)[a.length]? = some x := by
  rw [List.getElem?_append_right (Nat.le_refl _)]
  simp

theorem popLoop_eq (v : String) (iv i : Nat) (t : Tarjan) (vs : List String) :
    popLoop v iv i t vs =
      match t.stack[i]? with
      | none => none
      | some u =>
        let t1 : Tarjan := { t with onStack := Function.update t.onStack (t.idx u) false }
        let t2 : Tarjan := { t1 with lowlink := Function.update t1.lowlink (t1.idx u) iv }
        if u = v then some (i, t2, vs ++ [u])
        else match i with
          | 0 => none
          | j + 1 => popLoop v iv j t2 (vs ++ [u]) := by
  cases i <;> rfl

theorem popLoop_spec (v : String) (iv : Nat) (s1 : List String) :
    ∀ (s2 rest : List String) (t : Tarjan) (vs : List String),
      t.stack = s1 ++ v :: s2 ++ rest → v ∉ s2 →
      ∃ t', popLoop v iv (s1.length + s2.length) t vs
          = some (s1.length, t', vs ++ (v :: s2).reverse)
        ∧ t'.G = t.G ∧ t'.index = t.index ∧ t'.stack = t.stack
        ∧ t'.currentIndex = t.currentIndex ∧ t'.sccs = t.sccs
        ∧ (∀ i, t'.onStack i = if (∃ u ∈ v :: s2, t.idx u = i) then false else t.onStack i)
        ∧ (∀ i, t'.lowlink i = if (∃ u ∈ v :: s2, t.idx u = i) then iv else t.lowlink i) := by
  intro s2
  induction s2 using List.reverseRecOn with
  | nil =>
    intro rest t vs hst _
    have hget : t.stack[s1.length]? = some v := by
      rw [hst, List.append_assoc]; exact getElem?_append_cons_length _ _ _
    rw [popLoop_eq]
    simp only [List.length_nil, Nat.add_zero, hget, if_true]
    refine ⟨_, rfl, rfl, rfl, rfl, rfl, rfl, ?_, ?_⟩
    · intro i
      by_cases h : t.idx v = i
      · subst h; simp
      · simp [h, Function.update_noteq (Ne.symm h)]
    · intro i
      by_cases h : t.idx v = i
      · subst h; simp [Tarjan.idx]
      · have h2 : i ≠ t.idx v := Ne.symm h
        simp only [Tarjan.idx] at h h2 ⊢
        simp [h, Function.update_noteq h2]
  | append_singleton s2 u ih =>
    intro rest t vs hst hv
    have huv : u ≠ v := by
      rintro rfl; exact hv (by simp)
    have hv2 : v ∉ s2 := fun h => hv (by simp [h])
    have hget : t.stack[s1.length + (s2 ++ [u]).length]? = some u := by
      rw [hst]
      have h1 : s1 ++ v :: (s2 ++ [u]) ++ rest = (s1 ++ v :: s2) ++ u :: rest := by simp
      have h2 : s1.length + (s2 ++ [u]).length = (s1 ++ v :: s2).length := by simp
      rw [h1, h2]
      exact getElem?_append_cons_length _ _ _
    rw [popLoop_eq]
    simp only [hget, if_neg huv]
    have hlen : s1.length + (s2 ++ [u]).length = (s1.length + s2.length) + 1 := by
      simp; omega
    rw [hlen]
    simp only []
    obtain ⟨t', h1, h2, h3, h4, h5, h6, h7, h8⟩ :=
      ih (u :: rest)
        { t with onStack := Function.update t.onStack (t.idx u) false,
                 lowlink := Function.update t.lowlink (t.idx u) iv }
        (vs ++ [u]) (by simp [hst]) hv2
    refine ⟨t', ?_, h2, h3, h4, h5, h6, ?_, ?_⟩
    · simpa [Tarjan.idx] using h1
    · intro i
      rw [h7]
      by_cases hi : ∃ w ∈ v :: s2, t.idx w = i
      · have hi2 : ∃ w ∈ v :: (s2 ++ [u]), t.idx w = i := by
          obtain ⟨w, hw, e⟩ := hi
          exact ⟨w, by simp at hw ⊢; tauto, e⟩
        simp only [Tarjan.idx] at hi hi2 ⊢
        rw [if_pos hi, if_pos hi2]
      · by_cases hu : t.idx u = i
        · have hi2 : ∃ w ∈ v :: (s2 ++ [u]), t.idx w = i := ⟨u, by simp, hu⟩
          simp only [Tarjan.idx] at hi hi2 hu ⊢
          rw [if_neg hi, if_pos hi2, ← hu]; simp
        · have hi2 : ¬ ∃ w ∈ v :: (s2 ++ [u]), t.idx w = i := by
            rintro ⟨w, hw, e⟩
            simp at hw
            rcases hw with rfl | hw | rfl
            · exact hi ⟨w, by simp, e⟩
            · exact hi ⟨w, by simp [hw], e⟩
            · exact hu e
          simp only [Tarjan.idx] at hi hi2 hu ⊢
          rw [if_neg hi, if_neg hi2, Function.update_noteq (Ne.symm hu)]
    · intro i
      rw [h8]
      by_cases hi : ∃ w ∈ v :: s2, t.idx w = i
      · have hi2 : ∃ w ∈ v :: (s2 ++ [u]), t.idx w = i := by
          obtain ⟨w, hw, e⟩ := hi
          exact ⟨w, by simp at hw ⊢; tauto, e⟩
        simp only [Tarjan.idx] at hi hi2 ⊢
        rw [if_pos hi, if_pos hi2]
      · by_cases hu : t.idx u = i
        · have hi2 : ∃ w ∈ v :: (s2 ++ [u]), t.idx w = i := ⟨u, by simp, hu⟩
          simp only [Tarjan.idx] at hi hi2 hu ⊢
          rw [if_neg hi, if_pos hi2, ← hu]; simp
        · have hi2 : ¬ ∃ w ∈ v :: (s2 ++ [u]), t.idx w = i := by
            rintro ⟨w, hw, e⟩
            simp at hw
            rcases hw with rfl | hw | rfl
            · exact hi ⟨w, by simp, e⟩
            · exact hi ⟨w, by simp [hw], e⟩
            · exact hu e
          simp only [Tarjan.idx] at hi hi2 hu ⊢
          rw [if_neg hi, if_neg hi2, Function.update_noteq (Ne.symm hu)]

end scc

namespace scc

theorem Inv.of_lowlink {g : Graph} {t : Tarjan} {gs : List String} (h : Inv g t gs)
    (f : Nat → Nat) : Inv g { t with lowlink := f } gs :=
  ⟨h.hG, h.idx_bound, h.cur_pos, h.idx_inj, h.idx_vert, h.stack_sorted, h.onStack_iff,
    h.indexed_iff, h.nodup, h.sccs_ok, h.gray_sub, h.closed, h.to_gray, h.from_gray⟩

theorem Inv.stack_indexed {g : Graph} {t : Tarjan} {gs : List String} (h : Inv g t gs)
    {u : String} (hu : u ∈ t.stack) : t.index u ≠ none :=
  (h.indexed_iff u).mpr (Or.inl hu)

theorem Inv.index_idx {g : Graph} {t : Tarjan} {gs : List String} (_h : Inv g t gs)
    {u : String} (hu : t.index u ≠ none) : t.index u = some (t.idx u) := by
  cases hi : t.index u with
  | none => exact absurd hi hu
  | some i => simp [Tarjan.idx, hi]

theorem Inv.idx_ge {g : Graph} {t : Tarjan} {gs : List String} (h : Inv g t gs)
    {u : String} (hu : t.index u ≠ none) : 2 ≤ t.idx u ∧ t.idx u ≤ t.currentIndex :=
  h.idx_bound u _ (h.index_idx hu)

theorem Inv.eq_of_idx {g : Graph} {t : Tarjan} {gs : List String} (h : Inv g t gs)
    {u w : String} (hu : t.index u ≠ none) (e : t.idx u = t.idx w) : u = w := by
  have h1 := h.index_idx hu
  have h2 : 0 < t.idx w := by have := (h.idx_ge hu).1; omega
  have h3 := Tarjan.index_of_idx_pos h2
  rw [← e] at h3
  exact h.idx_inj u w _ h1 h3

theorem Inv.stack_nodup {g : Graph} {t : Tarjan} {gs : List String} (h : Inv g t gs) :
    t.stack.Nodup :=
  (List.nodup_append.mp h.nodup).2.1

theorem idx_ext {t0 t : Tarjan} (ext : ∀ u i, t0.index u = some i → t.index u = some i)
    {u : String} (hu : t0.index u ≠ none) : t.idx u = t0.idx u := by
  cases hi : t0.index u with
  | none => exact absurd hi hu
  | some i => simp [Tarjan.idx, hi, ext u i hi]

theorem index_ext_ne {t0 t : Tarjan} (ext : ∀ u i, t0.index u = some i → t.index u = some i)
    {u : String} (hu : t0.index u ≠ none) : t.index u ≠ none := by
  cases hi : t0.index u with
  | none => exact absurd hi hu
  | some i => simp [ext u i hi]

theorem countP_lt_of_imp {α : Type} (p q : α → Bool) (l : List α) (v : α) (hv : v ∈ l)
    (hpq : ∀ x, p x = true → q x = true) (hq : q v = true) (hp : p v = false) :
    l.countP p < l.countP q := by
  induction l with
  | nil => simp at hv
  | cons a l ih =>
    have hmono : l.countP p ≤ l.countP q := List.countP_mono_left fun x _ hx => hpq x hx
    rcases List.mem_cons.mp hv with rfl | hv
    · simp only [List.countP_cons, hp, hq]
      simp; omega
    · have := ih hv
      simp only [List.countP_cons]
      by_cases ha : p a = true
      · simp only [ha, hpq a ha]; omega
      · by_cases hqa : q a = true
        · simp only [ha, hqa]; simp; omega
        · simp only [ha, hqa]; simpa using this

theorem white_le {g : Graph} {t0 t : Tarjan}
    (ext : ∀ u i, t0.index u = some i → t.index u = some i) : white g t ≤ white g t0 := by
  unfold white
  rw [← List.countP_eq_length_filter, ← List.countP_eq_length_filter]
  apply List.countP_mono_left
  intro x _ hx
  simp only [decide_eq_true_eq] at hx ⊢
  by_contra hne
  exact index_ext_ne ext hne hx

theorem white_lt {g : Graph} {t0 t : Tarjan} {v : String}
    (ext : ∀ u i, t0.index u = some i → t.index u = some i) (hv : v ∈ g.vertices)
    (h0 : t0.index v = none) (h1 : t.index v ≠ none) : white g t < white g t0 := by
  unfold white
  rw [← List.countP_eq_length_filter, ← List.countP_eq_length_filter]
  apply countP_lt_of_imp _ _ _ v hv
  · intro x hx
    simp only [decide_eq_true_eq] at hx ⊢
    by_contra hne
    exact index_ext_ne ext hne hx
  · simpa using h0
  · simpa using h1

/-- The vertices of the old stack keep a number at most `t0.currentIndex`. -/
theorem LoopInv.old_le {g : Graph} {t0 t : Tarjan} {gs : List String} {v : String}
    {done : List String} (hL : LoopInv g t0 gs v done t) (h0 : Inv g t0 gs)
    {u : String} (hu : u ∈ t0.stack) : t.idx u ≤ t0.currentIndex := by
  have h1 := h0.stack_indexed hu
  rw [idx_ext hL.ext h1]
  exact (h0.idx_ge h1).2

theorem LoopInv.idx_v_eq {g : Graph} {t0 t : Tarjan} {gs : List String} {v : String}
    {done : List String} (hL : LoopInv g t0 gs v done t) : t.idx v = t0.currentIndex + 1 :=
  Tarjan.idx_eq hL.idx_v

/-- The vertices pushed since `v` have a number at least that of `v`. -/
theorem LoopInv.new_ge {g : Graph} {t0 t : Tarjan} {gs : List String} {v : String}
    {done : List String} (hL : LoopInv g t0 gs v done t)
    {u : String} (hu : u ∈ t.stack) (hn : u ∉ t0.stack) : t0.currentIndex + 1 ≤ t.idx u := by
  obtain ⟨seg, hs⟩ := hL.stk
  have hsort := hL.inv.stack_sorted
  rw [hs] at hsort hu
  rw [List.mem_append] at hu
  rcases hu with hu | hu
  · exact absurd hu hn
  · rcases List.mem_cons.mp hu with rfl | hu
    · exact hL.idx_v_eq.ge
    · have h1 := (List.pairwise_append.mp hsort).2.1
      have h2 := (List.pairwise_cons.mp h1).1 u hu
      have := hL.idx_v_eq
      omega

theorem LoopInv.old_sub {g : Graph} {t0 t : Tarjan} {gs : List String} {v : String}
    {done : List String} (hL : LoopInv g t0 gs v done t)
    {u : String} (hu : u ∈ t0.stack) : u ∈ t.stack := by
  obtain ⟨seg, hs⟩ := hL.stk
  rw [hs]; exact List.mem_append_left _ hu

theorem LoopInv.v_mem {g : Graph} {t0 t : Tarjan} {gs : List String} {v : String}
    {done : List String} (hL : LoopInv g t0 gs v done t) : v ∈ t.stack := by
  obtain ⟨seg, hs⟩ := hL.stk
  rw [hs]; simp

theorem LoopInv.v_not_old {g : Graph} {t0 t : Tarjan} {gs : List String} {v : String}
    {done : List String} (hL : LoopInv g t0 gs v done t) (h0 : Inv g t0 gs) :
    v ∉ t0.stack := by
  intro h
  have := hL.old_le h0 h
  have := hL.idx_v_eq
  omega

/-- An edge to a vertex that is not on the old stack needs no update. -/
theorem LoopInv.extend_done {g : Graph} {t0 t : Tarjan} {gs : List String} {v : String}
    {done : List String} (hL : LoopInv g t0 gs v done t) {w : String}
    (hw : t.index w ≠ none) (hn : w ∉ t0.stack) : LoopInv g t0 gs v (done ++ [w]) t := by
  refine ⟨hL.inv, hL.ext, hL.idx_v, hL.fresh, hL.cur_lt, hL.stk, hL.frame_low, hL.low_le,
    hL.low_wit, ?_, ?_⟩
  · intro u w' hu hnu hw' he hd
    apply hL.low_min u w' hu hnu hw' he
    intro huv
    have := hd huv
    rw [List.mem_append, List.mem_singleton] at this
    rcases this with h | rfl
    · exact h
    · exact absurd hw' hn
  · intro w' hw'
    rw [List.mem_append, List.mem_singleton] at hw'
    rcases hw' with h | rfl
    · exact hL.done_idx _ h
    · exact hw

/-- An edge to a vertex of the old stack lowers the lowlink of `v`. -/
theorem LoopInv.lower {g : Graph} {t0 t : Tarjan} {gs : List String} {v : String}
    {done : List String} (hL : LoopInv g t0 gs v done t) (h0 : Inv g t0 gs) {w : String}
    (hw : w ∈ t0.stack) (he : g.Edge v w) :
    LoopInv g t0 gs v (done ++ [w])
      { t with lowlink :=
        Function.update t.lowlink (t.idx v) (min (t.lowlink (t.idx v)) (t.idx w)) } := by
  have hv := hL.idx_v_eq
  rw [hv]
  refine ⟨hL.inv.of_lowlink _, hL.ext, hL.idx_v, hL.fresh, hL.cur_lt, hL.stk, ?_, ?_, ?_, ?_, ?_⟩
  · intro i hi
    show Function.update t.lowlink _ _ i = _
    rw [Function.update_noteq (by omega)]
    exact hL.frame_low i hi
  · show Function.update t.lowlink _ _ _ ≤ _
    rw [Function.update_same]
    exact le_trans (min_le_left _ _) hL.low_le
  · show ∃ y ∈ t.stack, t.idx y = Function.update t.lowlink _ _ _ ∧ _
    rw [Function.update_same]
    by_cases hc : t.lowlink (t0.currentIndex + 1) ≤ t.idx w
    · rw [min_eq_left hc]; exact hL.low_wit
    · rw [min_eq_right (by omega)]
      exact ⟨w, hL.old_sub hw, rfl, he.reach⟩
  · intro u w' hu hnu hw' he' hd
    show Function.update t.lowlink _ _ _ ≤ t.idx w'
    rw [Function.update_same]
    by_cases hc : u = v ∧ w' = w
    · rw [hc.2]; exact min_le_right _ _
    · refine le_trans (min_le_left _ _) (hL.low_min u w' hu hnu hw' he' ?_)
      intro huv
      have := hd huv
      rw [List.mem_append, List.mem_singleton] at this
      rcases this with h | h
      · exact h
      · exact absurd ⟨huv, h⟩ hc
  · intro w' hw'
    rw [List.mem_append, List.mem_singleton] at hw'
    rcases hw' with h | rfl
    · exact hL.done_idx _ h
    · exact index_ext_ne hL.ext (h0.stack_indexed hw)

end scc

namespace scc

/-- The state after the recursive call on a new vertex `w` and the update of the
lowlink of `v`. -/
theorem LoopInv.after_rec {g : Graph} {t0 t t2 : Tarjan} {gs : List String} {v : String}
    {done : List String} (hL : LoopInv g t0 gs v done t) {w : String}
    (hw : t.index w = none) (he : g.Edge v w) (hP : Post g t (gs ++ [v]) w t2) :
    LoopInv g t0 gs v (done ++ [w])
      { t2 with lowlink :=
        Function.update t2.lowlink (t2.idx v) (min (t2.lowlink (t2.idx v)) (t2.lowlink (t2.idx w))) } := by
  have hv : t2.idx v = t0.currentIndex + 1 := Tarjan.idx_eq (hP.ext _ _ hL.idx_v)
  have hwi : t2.idx w = t.currentIndex + 1 := Tarjan.idx_eq hP.idx_v
  have hcur := hL.cur_lt
  have ha : t2.lowlink (t0.currentIndex + 1) = t.lowlink (t0.currentIndex + 1) :=
    hP.frame_low _ (by omega)
  have hext : ∀ u i, t0.index u = some i → t2.index u = some i :=
    fun u i h => hP.ext u i (hL.ext u i h)
  obtain ⟨seg, hseg⟩ := hL.stk
  obtain ⟨seg2, hseg2⟩ := hP.stk
  have hsub : ∀ u, u ∈ t.stack → u ∈ t2.stack := by
    intro u hu; rw [hseg2]; exact List.mem_append_left _ hu
  rw [hv, hwi]
  refine ⟨hP.inv.of_lowlink _, hext, hP.ext _ _ hL.idx_v, ?_, lt_trans hL.cur_lt hP.cur_lt,
    ⟨seg ++ seg2, by rw [hseg2, hseg]; simp⟩, ?_, ?_, ?_, ?_, ?_⟩
  · intro u i hu hu0
    show t0.currentIndex < i
    have hu2 : t2.index u = some i := hu
    cases hut : t.index u with
    | none => have := hP.fresh u i hu2 hut; omega
    | some j =>
      have := hP.ext u j hut
      rw [hu2] at this
      injection this with e
      subst e
      exact hL.fresh u i hut hu0
  · intro i hi
    show Function.update t2.lowlink _ _ i = _
    rw [Function.update_noteq (by omega), hP.frame_low i (by omega)]
    exact hL.frame_low i hi
  · show Function.update t2.lowlink _ _ _ ≤ _
    rw [Function.update_same, ha]
    exact le_trans (min_le_left _ _) hL.low_le
  · show ∃ y ∈ t2.stack, t2.idx y = Function.update t2.lowlink _ _ _ ∧ _
    rw [Function.update_same, ha]
    by_cases hc : t.lowlink (t0.currentIndex + 1) ≤ t2.lowlink (t.currentIndex + 1)
    · rw [min_eq_left hc]
      obtain ⟨y, hy, hy1, hy2⟩ := hL.low_wit
      refine ⟨y, hsub y hy, ?_, hy2⟩
      rw [idx_ext hP.ext (hL.inv.stack_indexed hy)]; exact hy1
    · rw [min_eq_right (by omega)]
      rcases hP.low_wit with h | ⟨y, hy, hy1, hy2⟩
      · have := hL.low_le
        omega
      · exact ⟨y, hsub y hy, hy1, he.reach.trans hy2⟩
  · intro u w' hu hnu hw' he' hd
    show Function.update t2.lowlink _ _ _ ≤ t2.idx w'
    rw [Function.update_same, ha]
    have hu2 : u ∈ t2.stack := hu
    have hw't : w' ∈ t.stack := hL.old_sub hw'
    by_cases hut : u ∈ t.stack
    · refine le_trans (min_le_left _ _) ?_
      rw [idx_ext hP.ext (hL.inv.stack_indexed hw't)]
      apply hL.low_min u w' hut hnu hw' he'
      intro huv
      have := hd huv
      rw [List.mem_append, List.mem_singleton] at this
      rcases this with h | h
      · exact h
      · subst h
        exact absurd hw (hL.inv.stack_indexed hw't)
    · exact le_trans (min_le_right _ _) (hP.low_min u w' hu2 hut hw't he')
  · intro w' hw'
    show t2.index w' ≠ none
    rw [List.mem_append, List.mem_singleton] at hw'
    rcases hw' with h | rfl
    · exact index_ext_ne hP.ext (hL.done_idx _ h)
    · rw [hP.idx_v]; simp

/-- Every vertex in progress reaches the vertex `v` being searched. -/
theorem LoopInv.gray_reach {g : Graph} {t0 t : Tarjan} {gs : List String} {v : String}
    {done : List String} (hL : LoopInv g t0 gs v done t) (h0 : Inv g t0 gs)
    {q : String} (hq : q ∈ gs ++ [v]) : g.Reach q v := by
  apply hL.inv.from_gray v hL.v_mem q hq
  rw [List.mem_append, List.mem_singleton] at hq
  rcases hq with hq | rfl
  · have := hL.old_le h0 (h0.gray_sub q hq)
    have := hL.idx_v_eq
    omega
  · exact le_refl _

theorem searchEdge_ok {g : Graph} {n : Nat} (IH : SearchOk g n) {t0 t : Tarjan}
    {gs : List String} {v : String} {done : List String} (hL : LoopInv g t0 gs v done t)
    (h0 : Inv g t0 gs) (hv0 : t0.index v = none) (hvv : v ∈ g.vertices)
    (hfuel : white g t0 ≤ n + 1) {w : String} (he : g.Edge v w) :
    ∃ t', searchEdge (search n) v w t = some t' ∧ LoopInv g t0 gs v (done ++ [w]) t' := by
  unfold searchEdge
  by_cases hw : t.index w = none
  · rw [if_pos hw]
    have hwh : white g t ≤ n := by
      have := white_lt hL.ext hvv hv0 (by rw [hL.idx_v]; simp)
      omega
    obtain ⟨t2, hs, hP⟩ := IH w t (gs ++ [v]) hL.inv hw he.mem_vertices
      (fun q hq => (hL.gray_reach h0 hq).trans he.reach) hwh
    rw [hs]
    exact ⟨_, rfl, hL.after_rec hw he hP⟩
  · rw [if_neg hw]
    by_cases hlt : t.idx w < t.idx v
    · rw [if_pos hlt]
      by_cases hon : t.onStack (t.idx w) = true
      · rw [if_pos hon]
        have hws : w ∈ t.stack := (hL.inv.onStack_iff w _ (hL.inv.index_idx hw)).mp hon
        have hw0 : w ∈ t0.stack := by
          by_contra hn
          have := hL.new_ge hws hn
          have := hL.idx_v_eq
          omega
        exact ⟨_, rfl, hL.lower h0 hw0 he⟩
      · rw [if_neg hon]
        refine ⟨_, rfl, hL.extend_done hw ?_⟩
        intro hw0
        exact hon ((hL.inv.onStack_iff w _ (hL.inv.index_idx hw)).mpr (hL.old_sub hw0))
    · rw [if_neg hlt]
      refine ⟨_, rfl, hL.extend_done hw ?_⟩
      intro hw0
      have := hL.old_le h0 hw0
      have := hL.idx_v_eq
      omega

theorem searchEdges_ok {g : Graph} {n : Nat} (IH : SearchOk g n) {t0 : Tarjan}
    {gs : List String} {v : String} (h0 : Inv g t0 gs) (hv0 : t0.index v = none)
    (hvv : v ∈ g.vertices) (hfuel : white g t0 ≤ n + 1) :
    ∀ (ws done : List String) (t : Tarjan), (∀ w ∈ ws, g.Edge v w) →
      LoopInv g t0 gs v done t →
      ∃ t', searchEdges (search n) v ws t = some t' ∧ LoopInv g t0 gs v (done ++ ws) t' := by
  intro ws
  induction ws with
  | nil =>
    intro done t _ hL
    exact ⟨t, rfl, by simpa using hL⟩
  | cons w ws ih =>
    intro done t hws hL
    obtain ⟨t1, h1, hL1⟩ := searchEdge_ok IH hL h0 hv0 hvv hfuel (hws w (by simp))
    obtain ⟨t2, h2, hL2⟩ := ih (done ++ [w]) t1 (fun x hx => hws x (by simp [hx])) hL1
    refine ⟨t2, ?_, by simpa using hL2⟩
    simp only [searchEdges, h1, h2]

end scc

namespace scc

/-- Once every edge of `v` is handled, the invariant holds with `v` no longer in
progress, provided the stack keeps its vertices. -/
theorem LoopInv.closed_of_done {g : Graph} {t0 t : Tarjan} {gs : List String} {v : String}
    (hL : LoopInv g t0 gs v (g.adj v) t) :
    ∀ u, t.index u ≠ none → u ∉ gs → ∀ w, g.Edge u w → t.index w ≠ none := by
  intro u hu hug w he
  by_cases huv : u = v
  · subst huv
    exact hL.done_idx w he
  · exact hL.inv.closed u hu (by simp [hug, huv]) w he

theorem LoopInv.mem_stack_iff {g : Graph} {t0 t : Tarjan} {gs : List String} {v : String}
    {done : List String} (hL : LoopInv g t0 gs v done t) {seg : List String}
    (hs : t.stack = t0.stack ++ v :: seg) (u : String) :
    u ∈ v :: seg ↔ u ∈ t.stack ∧ u ∉ t0.stack := by
  have hnd := hL.inv.stack_nodup
  rw [hs] at hnd ⊢
  have hdis := (List.nodup_append.mp hnd).2.2
  constructor
  · intro hu
    exact ⟨List.mem_append_right _ hu, fun h => hdis h hu⟩
  · rintro ⟨hu, hn⟩
    rcases List.mem_append.mp hu with h | h
    · exact absurd h hn
    · exact h

/-- When the lowlink of `v` is its own number, the vertices from `v` to the top of the
stack form a strongly connected component. -/
theorem LoopInv.component {g : Graph} {t0 t : Tarjan} {gs : List String} {v : String}
    (hL : LoopInv g t0 gs v (g.adj v) t) (h0 : Inv g t0 gs) {seg : List String}
    (hs : t.stack = t0.stack ++ v :: seg)
    (hlow : t.lowlink (t0.currentIndex + 1) = t0.currentIndex + 1) :
    ∀ u ∈ v :: seg, ∀ x, x ∈ v :: seg ↔ (g.Reach u x ∧ g.Reach x u) := by
  have hmem := hL.mem_stack_iff hs
  have hfrom : ∀ u ∈ v :: seg, g.Reach v u := by
    intro u hu
    obtain ⟨h1, h2⟩ := (hmem u).mp hu
    apply hL.inv.from_gray u h1 v (by simp)
    have := hL.new_ge h1 h2
    have := hL.idx_v_eq
    omega
  have hto : ∀ u ∈ v :: seg, g.Reach u v := by
    intro u hu
    obtain ⟨h1, _⟩ := (hmem u).mp hu
    obtain ⟨q, hq, _, hr⟩ := hL.inv.to_gray u h1
    exact hr.trans (hL.gray_reach h0 hq)
  have hmax : ∀ y, g.Reach v y → g.Reach y v → y ∈ v :: seg := by
    intro y hvy
    induction hvy with
    | refl => intro _; simp
    | tail hvb hbc ih =>
      rename_i b c
      intro hcv
      have hb := ih (hbc.reach.trans hcv)
      obtain ⟨hb1, hb2⟩ := (hmem b).mp hb
      have hbg : b ∉ gs := fun h => hb2 (h0.gray_sub b h)
      have hci : t.index c ≠ none :=
        hL.closed_of_done b (hL.inv.stack_indexed hb1) hbg c hbc
      rcases (hL.inv.indexed_iff c).mp hci with hc | hc
      · by_contra hcn
        have hc0 : c ∈ t0.stack := by
          by_contra hc0
          exact hcn ((hmem c).mpr ⟨hc, hc0⟩)
        have h1 := hL.low_min b c hb1 hb2 hc0 hbc (fun e => by subst e; exact hbc)
        have h2 := hL.old_le h0 hc0
        omega
      · exfalso
        obtain ⟨comp, hcomp, hcc⟩ := List.mem_flatten.mp hc
        have hvc : v ∈ comp :=
          ((hL.inv.sccs_ok comp hcomp).2 c hcc v).mpr ⟨hcv, hvb.trans hbc.reach⟩
        have hvf : v ∈ t.sccs.flatten := List.mem_flatten.mpr ⟨comp, hcomp, hvc⟩
        exact (List.nodup_append.mp hL.inv.nodup).2.2 hvf hL.v_mem
  intro u hu x
  constructor
  · intro hx
    exact ⟨(hto u hu).trans (hfrom x hx), (hto x hx).trans (hfrom u hu)⟩
  · rintro ⟨h1, h2⟩
    exact hmax x ((hfrom u hu).trans h1) (h2.trans (hto u hu))

/-- The end of `search` when `v` is not the root of a component. -/
theorem LoopInv.post_keep {g : Graph} {t0 t : Tarjan} {gs : List String} {v : String}
    (hL : LoopInv g t0 gs v (g.adj v) t) (h0 : Inv g t0 gs)
    (hlow : t.lowlink (t0.currentIndex + 1) ≠ t0.currentIndex + 1) : Post g t0 gs v t := by
  have hI := hL.inv
  obtain ⟨seg, hs⟩ := hL.stk
  obtain ⟨y, hy, hy1, hy2⟩ := hL.low_wit
  have hlt : t.lowlink (t0.currentIndex + 1) < t0.currentIndex + 1 :=
    lt_of_le_of_ne hL.low_le hlow
  have hy0 : y ∈ t0.stack := by
    by_contra hn
    have := hL.new_ge hy hn
    omega
  refine ⟨⟨hI.hG, hI.idx_bound, hI.cur_pos, hI.idx_inj, hI.idx_vert, hI.stack_sorted,
    hI.onStack_iff, hI.indexed_iff, hI.nodup, hI.sccs_ok, ?_, hL.closed_of_done, ?_, ?_⟩,
    hL.ext, hL.idx_v, hL.fresh, hL.cur_lt, ⟨v :: seg, hs⟩, hL.frame_low,
    Or.inr ⟨y, hy0, hy1, hy2⟩, ?_⟩
  · intro q hq
    exact hL.old_sub (h0.gray_sub q hq)
  · intro u hu
    obtain ⟨q, hq, hq1, hq2⟩ := hI.to_gray u hu
    rw [List.mem_append, List.mem_singleton] at hq
    rcases hq with hq | rfl
    · exact ⟨q, hq, hq1, hq2⟩
    · obtain ⟨q', hq', hq1', hq2'⟩ := hI.to_gray y hy
      have hq'g : q' ∈ gs := by
        rw [List.mem_append, List.mem_singleton] at hq'
        rcases hq' with h | rfl
        · exact h
        · have := hL.idx_v_eq
          omega
      have := hL.idx_v_eq
      exact ⟨q', hq'g, by omega, hq2.trans (hy2.trans hq2')⟩
  · intro u hu q hq hle
    exact hI.from_gray u hu q (by simp [hq]) hle
  · intro u w hu hnu hw he
    exact hL.low_min u w hu hnu hw he (fun e => by subst e; exact he)

end scc

namespace scc

/-- The end of `search` when `v` is the root of a component: the component is popped. -/
theorem LoopInv.post_pop {g : Graph} {t0 t : Tarjan} {gs : List String} {v : String}
    (hL : LoopInv g t0 gs v (g.adj v) t) (h0 : Inv g t0 gs)
    (hlow : t.lowlink (t0.currentIndex + 1) = t0.currentIndex + 1) :
    ∃ t', finish v t = some t' ∧ Post g t0 gs v t' := by
  have hI := hL.inv
  have hv := hL.idx_v_eq
  obtain ⟨seg, hs⟩ := hL.stk
  have hmem := hL.mem_stack_iff hs
  have hnd := hI.stack_nodup
  have hvseg : v ∉ seg := by
    rw [hs] at hnd
    exact (List.nodup_cons.mp (List.nodup_append.mp hnd).2.1).1
  obtain ⟨tp, hp, hpG, hpi, hps, hpc, hpsc, hpon, hplow⟩ :=
    popLoop_spec v (t.idx v) t0.stack seg [] t [] (by simp [hs]) hvseg
  have hlen : t.stack.length - 1 = t0.stack.length + seg.length := by
    rw [hs]; simp
  have hfin : finish v t =
      some { tp with stack := tp.stack.take t0.stack.length, sccs := tp.sccs ++ [(v :: seg).reverse] } := by
    unfold finish
    rw [hv, hlow, if_pos rfl, hlen, ← hv, hp]
    simp
  have htake : tp.stack.take t0.stack.length = t0.stack := by
    rw [hps, hs]; simp
  have hcond : ∀ i, (∃ u ∈ v :: seg, t.idx u = i) → t0.currentIndex + 1 ≤ i := by
    rintro i ⟨u, hu, rfl⟩
    obtain ⟨h1, h2⟩ := (hmem u).mp hu
    exact hL.new_ge h1 h2
  refine ⟨_, hfin, ⟨?_, ?_, ?_, ?_, ?_, ?_, ?_, ?_, ?_, ?_, ?_, ?_, ?_, ?_⟩, ?_, ?_, ?_, ?_,
    ⟨[], ?_⟩, ?_, Or.inl ?_, ?_⟩
  · exact hpG.trans hI.hG
  · intro u i hu
    have hu' : t.index u = some i := by rw [← hpi]; exact hu
    have := hI.idx_bound u i hu'
    exact ⟨this.1, by show i ≤ tp.currentIndex; rw [hpc]; exact this.2⟩
  · show 1 ≤ tp.currentIndex
    rw [hpc]; exact hI.cur_pos
  · intro u w i hu hw
    exact hI.idx_inj u w i (by rw [← hpi]; exact hu) (by rw [← hpi]; exact hw)
  · intro u hu
    exact hI.idx_vert u (by rw [← hpi]; exact hu)
  · show (tp.stack.take t0.stack.length).Pairwise _
    rw [htake]
    have h1 := hI.stack_sorted
    rw [hs] at h1
    have h2 := (List.pairwise_append.mp h1).1
    refine h2.imp ?_
    intro a b hab
    simp only [Tarjan.idx, hpi] at hab ⊢
    exact hab
  · intro u i hu
    have hu' : t.index u = some i := by rw [← hpi]; exact hu
    show tp.onStack i = true ↔ u ∈ tp.stack.take t0.stack.length
    rw [htake, hpon]
    by_cases hc : ∃ u' ∈ v :: seg, t.idx u' = i
    · rw [if_pos hc]
      obtain ⟨u', hu'm, e⟩ := hc
      have hui : t.index u ≠ none := by rw [hu']; simp
      have : u = u' := hI.eq_of_idx hui (by rw [e, Tarjan.idx_eq hu'])
      subst this
      simp [((hmem u).mp hu'm).2]
    · rw [if_neg hc, hI.onStack_iff u i hu']
      have hun : u ∉ v :: seg := fun h => hc ⟨u, h, Tarjan.idx_eq hu'⟩
      constructor
      · intro h
        by_contra hn
        exact hun ((hmem u).mpr ⟨h, hn⟩)
      · exact hL.old_sub
  · intro u
    show tp.index u ≠ none ↔ (u ∈ tp.stack.take t0.stack.length ∨ u ∈ (tp.sccs ++ _).flatten)
    rw [htake, hpi, hpsc, hI.indexed_iff u, hs]
    simp only [List.flatten_append, List.mem_append, List.flatten_singleton, List.mem_reverse]
    tauto
  · show ((tp.sccs ++ _).flatten ++ tp.stack.take t0.stack.length).Nodup
    rw [htake, hpsc]
    have h1 := hI.nodup
    rw [hs] at h1
    refine (List.Perm.nodup_iff ?_).mp h1
    simp only [List.flatten_append, List.flatten, List.append_nil, List.append_assoc]
    refine List.Perm.append_left _ ?_
    exact (List.perm_append_comm).trans (List.Perm.append_right _ (List.reverse_perm _).symm)
  · intro c hc
    have hc' : c ∈ t.sccs ++ [(v :: seg).reverse] := by rw [← hpsc]; exact hc
    rw [List.mem_append, List.mem_singleton] at hc'
    rcases hc' with h | rfl
    · exact hI.sccs_ok c h
    · refine ⟨by simp, ?_⟩
      intro u hu x
      rw [List.mem_reverse] at hu ⊢
      exact hL.component h0 hs hlow u hu x
  · intro q hq
    show q ∈ tp.stack.take t0.stack.length
    rw [htake]; exact h0.gray_sub q hq
  · intro u hu hug w he
    show tp.index w ≠ none
    rw [hpi]
    exact hL.closed_of_done u (by rw [← hpi]; exact hu) hug w he
  · intro u hu
    have hu0 : u ∈ t0.stack := by rw [← htake]; exact hu
    obtain ⟨q, hq, hq1, hq2⟩ := hI.to_gray u (hL.old_sub hu0)
    rw [List.mem_append, List.mem_singleton] at hq
    rcases hq with hq | rfl
    · refine ⟨q, hq, ?_, hq2⟩
      simp only [Tarjan.idx, hpi] at hq1 ⊢
      exact hq1
    · have := hL.old_le h0 hu0
      omega
  · intro u hu q hq hle
    have hu0 : u ∈ t0.stack := by rw [← htake]; exact hu
    refine hI.from_gray u (hL.old_sub hu0) q (by simp [hq]) ?_
    simp only [Tarjan.idx, hpi] at hle ⊢
    exact hle
  · intro u i hu
    show tp.index u = some i
    rw [hpi]; exact hL.ext u i hu
  · show tp.index v = _
    rw [hpi]; exact hL.idx_v
  · intro u i hu hu0
    exact hL.fresh u i (by rw [← hpi]; exact hu) hu0
  · show _ < tp.currentIndex
    rw [hpc]; exact hL.cur_lt
  · show tp.stack.take t0.stack.length = _
    rw [htake]; simp
  · intro i hi
    show tp.lowlink i = _
    rw [hplow, if_neg (fun h => by have := hcond i h; omega)]
    exact hL.frame_low i hi
  · show tp.lowlink _ = _
    rw [hplow]
    split
    · exact hv
    · exact hlow
  · intro u w hu hnu
    have hu0 : u ∈ t0.stack := by rw [← htake]; exact hu
    exact absurd hu0 hnu

theorem finish_ok {g : Graph} {t0 t : Tarjan} {gs : List String} {v : String}
    (hL : LoopInv g t0 gs v (g.adj v) t) (h0 : Inv g t0 gs) :
    ∃ t', finish v t = some t' ∧ Post g t0 gs v t' := by
  by_cases hlow : t.lowlink (t0.currentIndex + 1) = t0.currentIndex + 1
  · exact hL.post_pop h0 hlow
  · refine ⟨t, ?_, hL.post_keep h0 hlow⟩
    unfold finish
    rw [hL.idx_v_eq, if_neg (fun h => hlow h.symm)]

end scc

namespace scc

theorem search_succ (n : Nat) (v : String) (t : Tarjan) :
    search (n + 1) v t =
      match searchEdges (search n) v (t.adj v) (enter v t) with
      | none => none
      | some t => finish v t := by
  simp only [search, enter, Tarjan.idx, Tarjan.adj, Function.update_same, Option.getD_some]
  try rfl

theorem white_pos {g : Graph} {t : Tarjan} {v : String} (hv : v ∈ g.vertices)
    (h : t.index v = none) : 0 < white g t := by
  unfold white
  apply List.length_pos_of_mem (a := v)
  simp [List.mem_filter, hv, h]

theorem enter_loopInv {g : Graph} {t0 : Tarjan} {gs : List String} {v : String}
    (h0 : Inv g t0 gs) (hv0 : t0.index v = none) (hvv : v ∈ g.vertices)
    (hr : ∀ q ∈ gs, g.Reach q v) : LoopInv g t0 gs v [] (enter v t0) := by
  have hidx : ∀ u, u ≠ v → (enter v t0).index u = t0.index u := by
    intro u hu; simp [enter, Function.update_noteq hu]
  have hidxv : (enter v t0).index v = some (t0.currentIndex + 1) := by simp [enter]
  have hi : ∀ u, u ≠ v → (enter v t0).idx u = t0.idx u := by
    intro u hu; simp [Tarjan.idx, hidx u hu]
  have hiv : (enter v t0).idx v = t0.currentIndex + 1 := Tarjan.idx_eq hidxv
  have hvs : v ∉ t0.stack := fun h => h0.stack_indexed h hv0
  have hvc : v ∉ t0.sccs.flatten := fun h => (h0.indexed_iff v).mpr (Or.inr h) hv0
  have hne : ∀ u, t0.index u ≠ none → u ≠ v := by
    rintro u hu rfl; exact hu hv0
  have hold : ∀ u ∈ t0.stack, (enter v t0).idx u = t0.idx u ∧ t0.idx u ≤ t0.currentIndex := by
    intro u hu
    have := h0.stack_indexed hu
    exact ⟨hi u (hne u this), (h0.idx_ge this).2⟩
  have hcp := h0.cur_pos
  refine ⟨⟨h0.hG, ?_, ?_, ?_, ?_, ?_, ?_, ?_, ?_, h0.sccs_ok, ?_, ?_, ?_, ?_⟩, ?_, hidxv, ?_, ?_,
    ⟨[], rfl⟩, ?_, ?_, ?_, ?_, ?_⟩
  · intro u i hu
    show 2 ≤ i ∧ i ≤ t0.currentIndex + 1
    by_cases huv : u = v
    · subst huv
      rw [hidxv] at hu
      injection hu with e
      omega
    · rw [hidx u huv] at hu
      have := h0.idx_bound u i hu
      omega
  · show 1 ≤ t0.currentIndex + 1
    omega
  · intro u w i hu hw
    by_cases huv : u = v
    · by_cases hwv : w = v
      · rw [huv, hwv]
      · subst huv
        rw [hidxv] at hu
        rw [hidx w hwv] at hw
        injection hu with e
        have := h0.idx_bound w i hw
        omega
    · by_cases hwv : w = v
      · subst hwv
        rw [hidxv] at hw
        rw [hidx u huv] at hu
        injection hw with e
        have := h0.idx_bound u i hu
        omega
      · rw [hidx u huv] at hu
        rw [hidx w hwv] at hw
        exact h0.idx_inj u w i hu hw
  · intro u hu
    by_cases huv : u = v
    · rw [huv]; exact hvv
    · rw [hidx u huv] at hu
      exact h0.idx_vert u hu
  · show (t0.stack ++ [v]).Pairwise _
    rw [List.pairwise_append]
    refine ⟨?_, List.pairwise_singleton _ _, ?_⟩
    · refine (List.Pairwise.and_mem.mp h0.stack_sorted).imp ?_
      rintro a b ⟨ha, hb, hab⟩
      rw [(hold a ha).1, (hold b hb).1]; exact hab
    · intro a ha b hb
      rw [List.mem_singleton] at hb
      subst hb
      rw [(hold a ha).1, hiv]
      have := (hold a ha).2
      omega
  · intro u i hu
    show Function.update t0.onStack _ _ i = true ↔ u ∈ t0.stack ++ [v]
    by_cases huv : u = v
    · subst huv
      rw [hidxv] at hu
      injection hu with e
      subst e
      simp
    · rw [hidx u huv] at hu
      have := h0.idx_bound u i hu
      rw [Function.update_noteq (by omega), h0.onStack_iff u i hu]
      simp [huv]
  · intro u
    show _ ↔ (u ∈ t0.stack ++ [v] ∨ u ∈ t0.sccs.flatten)
    by_cases huv : u = v
    · subst huv
      simp [hidxv]
    · rw [hidx u huv, h0.indexed_iff u]
      simp [huv]
  · show (t0.sccs.flatten ++ (t0.stack ++ [v])).Nodup
    rw [← List.append_assoc]
    rw [List.nodup_append]
    refine ⟨h0.nodup, List.nodup_singleton v, ?_⟩
    intro a ha hb
    rw [List.mem_singleton] at hb
    subst hb
    rcases List.mem_append.mp ha with h | h
    · exact hvc h
    · exact hvs h
  · intro q hq
    show q ∈ t0.stack ++ [v]
    rw [List.mem_append, List.mem_singleton] at hq ⊢
    exact hq.imp (h0.gray_sub q) id
  · intro u hu hug w he
    have huv : u ≠ v := fun h => hug (by simp [h])
    have hu0 : t0.index u ≠ none := by rw [← hidx u huv]; exact hu
    have hw0 := h0.closed u hu0 (fun h => hug (by simp [h])) w he
    rw [hidx w (hne w hw0)]; exact hw0
  · intro u hu
    have hu' : u ∈ t0.stack ++ [v] := hu
    rw [List.mem_append, List.mem_singleton] at hu'
    rcases hu' with h | rfl
    · obtain ⟨q, hq, hq1, hq2⟩ := h0.to_gray u h
      refine ⟨q, by simp [hq], ?_, hq2⟩
      rw [(hold u h).1, (hold q (h0.gray_sub q hq)).1]; exact hq1
    · exact ⟨u, by simp, le_refl _, Graph.Reach.refl g u⟩
  · intro u hu q hq hle
    have hu' : u ∈ t0.stack ++ [v] := hu
    rw [List.mem_append, List.mem_singleton] at hu' hq
    rcases hu' with h | rfl
    · rcases hq with hq | rfl
      · rw [(hold u h).1, (hold q (h0.gray_sub q hq)).1] at hle
        exact h0.from_gray u h q hq hle
      · rw [(hold u h).1, hiv] at hle
        have := (hold u h).2
        omega
    · rcases hq with hq | rfl
      · exact hr q hq
      · exact Graph.Reach.refl g _
  · intro u i hu
    have : u ≠ v := hne u (by rw [hu]; simp)
    rw [hidx u this]; exact hu
  · intro u i hu hu0
    by_cases huv : u = v
    · subst huv
      rw [hidxv] at hu
      injection hu with e
      omega
    · rw [hidx u huv, hu0] at hu
      exact absurd hu (by simp)
  · show t0.currentIndex < t0.currentIndex + 1
    omega
  · intro i hi
    show Function.update t0.lowlink _ _ i = _
    rw [Function.update_noteq (by omega)]
  · show Function.update t0.lowlink _ _ _ ≤ _
    rw [Function.update_same]
  · refine ⟨v, ?_, ?_, Graph.Reach.refl g v⟩
    · show v ∈ t0.stack ++ [v]
      simp
    · show _ = Function.update t0.lowlink _ _ _
      rw [Function.update_same, hiv]
  · intro u w hu hnu _ _ hd
    have hu' : u ∈ t0.stack ++ [v] := hu
    rw [List.mem_append, List.mem_singleton] at hu'
    rcases hu' with h | h
    · exact absurd h hnu
    · exact absurd (hd h) (by simp)
  · intro w hw
    exact absurd hw (by simp)

theorem search_ok (g : Graph) : ∀ n, SearchOk g n := by
  intro n
  induction n with
  | zero =>
    intro v t0 gs _ hv0 hvv _ hf
    have := white_pos hvv hv0
    omega
  | succ n ih =>
    intro v t0 gs h0 hv0 hvv hr hf
    have hadj : t0.adj v = g.adj v := by simp [Tarjan.adj, h0.hG]
    obtain ⟨t1, h1, hL⟩ := searchEdges_ok ih h0 hv0 hvv hf (g.adj v) [] (enter v t0)
      (fun w hw => hw) (enter_loopInv h0 hv0 hvv hr)
    obtain ⟨t2, h2, hP⟩ := finish_ok (by simpa using hL) h0
    refine ⟨t2, ?_, hP⟩
    rw [search_succ, hadj, h1]
    exact h2

end scc

namespace scc

theorem searchEdge_mono {r1 r2 : String → Tarjan → Option Tarjan}
    (h : ∀ w t t', r1 w t = some t' → r2 w t = some t') (v w : String) (t t' : Tarjan)
    (h1 : searchEdge r1 v w t = some t') : searchEdge r2 v w t = some t' := by
  unfold searchEdge at h1 ⊢
  split at h1
  · rename_i hw
    rw [if_pos hw]
    cases hr : r1 w t with
    | none => simp [hr] at h1
    | some t2 =>
      rw [h w t t2 hr]
      simpa [hr] using h1
  · rename_i hw
    rw [if_neg hw]
    exact h1

theorem searchEdges_mono {r1 r2 : String → Tarjan → Option Tarjan}
    (h : ∀ w t t', r1 w t = some t' → r2 w t = some t') (v : String) :
    ∀ (ws : List String) (t t' : Tarjan),
      searchEdges r1 v ws t = some t' → searchEdges r2 v ws t = some t' := by
  intro ws
  induction ws with
  | nil => intro t t' h1; exact h1
  | cons w ws ih =>
    intro t t' h1
    simp only [searchEdges] at h1 ⊢
    cases he : searchEdge r1 v w t with
    | none => simp [he] at h1
    | some t2 =>
      rw [searchEdge_mono h v w t t2 he]
      rw [he] at h1
      exact ih t2 t' h1

theorem search_mono_succ : ∀ (n : Nat) (v : String) (t t' : Tarjan),
    search n v t = some t' → search (n + 1) v t = some t' := by
  intro n
  induction n with
  | zero => intro v t t' h; simp [search] at h
  | succ n ih =>
    intro v t t' h
    rw [search_succ] at h ⊢
    cases he : searchEdges (search n) v (t.adj v) (enter v t) with
    | none => simp [he] at h
    | some t2 =>
      rw [searchEdges_mono ih v _ _ _ he]
      rw [he] at h
      exact h

theorem search_mono {n m : Nat} (hnm : n ≤ m) {v : String} {t t' : Tarjan}
    (h : search n v t = some t') : search m v t = some t' := by
  induction hnm with
  | refl => exact h
  | step _ ih => exact search_mono_succ _ _ _ _ ih

theorem findLoop_mono {n m : Nat} (hnm : n ≤ m) :
    ∀ (vs : List String) (t t' : Tarjan),
      findLoop n vs t = some t' → findLoop m vs t = some t' := by
  intro vs
  induction vs with
  | nil => intro t t' h; exact h
  | cons v vs ih =>
    intro t t' h
    simp only [findLoop] at h ⊢
    split at h
    · rename_i hz
      rw [if_pos hz]
      cases hs : search n v t with
      | none => simp [hs] at h
      | some t2 =>
        rw [search_mono hnm hs]
        rw [hs] at h
        exact ih t2 t' h
    · rename_i hz
      rw [if_neg hz]
      exact ih t t' h

theorem Find_mono {n m : Nat} (hnm : n ≤ m) {t : Tarjan} {r : Except String (List (List String))}
    (h : Find n t = some r) : Find m t = some r := by
  obtain ⟨G, index, lowlink, stack, onStack, cur, sccs⟩ := t
  cases G with
  | none => exact h
  | some g =>
    simp only [Find] at h ⊢
    cases hf : findLoop n (sortKeys g)
        ⟨some g, index, lowlink, stack, onStack, 1, sccs⟩ with
    | none => simp [hf] at h
    | some t2 =>
      rw [findLoop_mono hnm _ _ _ hf]
      rw [hf] at h
      exact h

theorem findLoop_ok {g : Graph} {fuel : Nat} :
    ∀ (vs : List String) (t : Tarjan), Inv g t [] → (∀ v ∈ vs, v ∈ g.vertices) →
      white g t ≤ fuel →
      ∃ t', findLoop fuel vs t = some t' ∧ Inv g t' [] ∧
        (∀ u i, t.index u = some i → t'.index u = some i) ∧
        (∀ v ∈ vs, t'.index v ≠ none) := by
  intro vs
  induction vs with
  | nil =>
    intro t h0 _ _
    exact ⟨t, rfl, h0, fun _ _ h => h, fun v hv => absurd hv (by simp)⟩
  | cons v vs ih =>
    intro t h0 hvs hf
    simp only [findLoop]
    by_cases hz : t.idx v = 0
    · have hv0 : t.index v = none := by
        by_contra hne
        have := (h0.idx_ge hne).1
        omega
      rw [if_pos hz]
      obtain ⟨t1, h1, hP⟩ := search_ok g fuel v t [] h0 hv0 (hvs v (by simp))
        (fun q hq => absurd hq (by simp)) hf
      rw [h1]
      obtain ⟨t2, h2, hI2, hext, hall⟩ := ih t1 hP.inv (fun x hx => hvs x (by simp [hx]))
        (le_trans (white_le hP.ext) hf)
      refine ⟨t2, h2, hI2, fun u i h => hext u i (hP.ext u i h), ?_⟩
      intro x hx
      rcases List.mem_cons.mp hx with rfl | hx
      · rw [hext _ _ hP.idx_v]; simp
      · exact hall x hx
    · rw [if_neg hz]
      obtain ⟨t2, h2, hI2, hext, hall⟩ := ih t h0 (fun x hx => hvs x (by simp [hx])) hf
      refine ⟨t2, h2, hI2, hext, ?_⟩
      intro x hx
      rcases List.mem_cons.mp hx with rfl | hx
      · have hne : t.index x ≠ none := by
          intro hn; apply hz; simp [Tarjan.idx, hn]
        exact index_ext_ne hext hne
      · exact hall x hx

theorem init_inv (g : Graph) :
    Inv g { NewTarjan (some g) with currentIndex := 1 } [] := by
  refine ⟨rfl, ?_, le_refl _, ?_, ?_, ?_, ?_, ?_, ?_, ?_, ?_, ?_, ?_, ?_⟩ <;>
    simp [NewTarjan]

/-- The state in which `Find` ends on the graph `g`, whatever the fuel above the number of
vertices. -/
theorem Find_ok (g : Graph) :
    ∃ t, (∀ fuel, g.vertices.length ≤ fuel →
        Find fuel (NewTarjan (some g)) = some (.ok t.sccs)) ∧
      Inv g t [] ∧ t.stack = [] ∧ ∀ u ∈ g.vertices, u ∈ t.sccs.flatten := by
  have hw : white g { NewTarjan (some g) with currentIndex := 1 } ≤ g.vertices.length := by
    unfold white
    exact List.length_filter_le _ _
  obtain ⟨t, ht, hI, _, hall⟩ := findLoop_ok (sortKeys g) _ (init_inv g)
    (fun v hv => Graph.mem_vertices_of_key ((mem_sortKeys g v).mp hv)) hw
  have hstack : t.stack = [] := by
    by_contra hne
    obtain ⟨u, hu⟩ := List.exists_mem_of_ne_nil _ hne
    obtain ⟨q, hq, _⟩ := hI.to_gray u hu
    simp at hq
  have hF : Find g.vertices.length (NewTarjan (some g)) = some (.ok t.sccs) := by
    unfold Find
    simp only [NewTarjan]
    simp only [NewTarjan] at ht
    rw [ht]
  refine ⟨t, fun fuel hf => Find_mono hf hF, hI, hstack, ?_⟩
  intro u hu
  have hidx : t.index u ≠ none := by
    rcases (Graph.mem_vertices_iff g u).mp hu with hk | ⟨x, hx⟩
    · exact hall u ((mem_sortKeys g u).mpr hk)
    · exact hI.closed x (hall x ((mem_sortKeys g x).mpr hx.mem_keys)) (by simp) u hx
  rcases (hI.indexed_iff u).mp hidx with h | h
  · rw [hstack] at h; simp at h
  · exact h

end scc

namespace cycle

theorem Numbering.num_pos {g : Graph} {ix : String → Option Nat} (h : Numbering g ix)
    {u : String} (hu : ix u ≠ none) : 1 ≤ num ix u := by
  cases hi : ix u with
  | none => exact absurd hi hu
  | some i => simpa [num, hi] using h.pos u i hi

theorem Numbering.ne_none_of_pos {ix : String → Option Nat} {u : String}
    (hu : 0 < num ix u) : ix u ≠ none := by
  intro h; simp [num, h] at hu

theorem Numbering.lt_iff_num {g : Graph} {ix : String → Option Nat} (h : Numbering g ix)
    {u w : String} (hu : ix u ≠ none) (hw : ix w ≠ none) : num ix u < num ix w ↔ u < w := by
  cases hi : ix u with
  | none => exact absurd hi hu
  | some i =>
    cases hj : ix w with
    | none => exact absurd hj hw
    | some j => simpa [num, hi, hj] using h.lt_iff u w i j hi hj

theorem Numbering.eq_of_num {g : Graph} {ix : String → Option Nat} (h : Numbering g ix)
    {u w : String} (hu : ix u ≠ none) (e : num ix u = num ix w) : u = w := by
  have hw : ix w ≠ none := by
    apply Numbering.ne_none_of_pos
    have := h.num_pos hu
    omega
  have h1 := h.lt_iff_num hu hw
  have h2 := h.lt_iff_num hw hu
  rcases lt_trichotomy u w with h3 | h3 | h3
  · have := h1.mpr h3; omega
  · exact h3
  · have := h2.mpr h3; omega

theorem Free.not_mem {g : Graph} {nm : String → Nat} {s : String} {A : List String}
    {u : String} (h : Free g nm s A u) : u ∉ A := by
  cases h with
  | last _ h _ => exact h
  | step _ h _ _ => exact h

theorem Free.gt {g : Graph} {nm : String → Nat} {s : String} {A : List String}
    {u : String} (h : Free g nm s A u) : nm s < nm u := by
  cases h with
  | last _ _ h => exact h
  | step _ _ h _ => exact h

theorem Free.mono {g : Graph} {nm : String → Nat} {s : String} {A B : List String}
    (hAB : ∀ x, x ∈ A → x ∈ B) {u : String} (h : Free g nm s B u) : Free g nm s A u := by
  induction h with
  | last e hn hg => exact Free.last e (fun hx => hn (hAB _ hx)) hg
  | step e hn hg _ ih => exact Free.step e (fun hx => hn (hAB _ hx)) hg ih

/-- A path to the root through vertices outside `A` numbered above the root is a free
walk. -/
theorem Free.of_chain {g : Graph} {nm : String → Nat} {s : String} {A : List String} :
    ∀ (xs : List String) (u : String), List.Chain g.Edge u (xs ++ [s]) →
      (∀ x ∈ u :: xs, x ∉ A ∧ nm s < nm x) → Free g nm s A u := by
  intro xs
  induction xs with
  | nil =>
    intro u hc hx
    simp only [List.nil_append, List.chain_cons, List.Chain.nil, and_true] at hc
    exact Free.last hc (hx u (by simp)).1 (hx u (by simp)).2
  | cons x xs ih =>
    intro u hc hx
    simp only [List.cons_append, List.chain_cons] at hc
    exact Free.step hc.1 (hx u (by simp)).1 (hx u (by simp)).2
      (ih x hc.2 (fun y hy => hx y (List.mem_cons_of_mem _ hy)))

/-- A free walk that may pass through `v` either avoids `v`, or `v` has an edge to the
root or to a vertex with a free walk avoiding `v`. -/
theorem Free.split {g : Graph} {nm : String → Nat} {s : String} {A : List String}
    (v : String) {u : String} (h : Free g nm s A u) :
    Free g nm s (A ++ [v]) u ∨ ∃ w, g.Edge v w ∧ (w = s ∨ Free g nm s (A ++ [v]) w) := by
  induction h with
  | @last u e hn hg =>
    by_cases huv : u = v
    · subst huv; exact Or.inr ⟨s, e, Or.inl rfl⟩
    · exact Or.inl (Free.last e (by simp [hn, huv]) hg)
  | @step u w e hn hg _ ih =>
    rcases ih with h1 | h2
    · by_cases huv : u = v
      · subst huv; exact Or.inr ⟨w, e, Or.inr h1⟩
      · exact Or.inl (Free.step e (by simp [hn, huv]) hg h1)
    · exact Or.inr h2

theorem isRemoved_remove (t : Tarjan) (a b a2 b2 : Nat)
    (h : (t.remove a b).isRemoved a2 b2 = true) :
    (a2 = a ∧ b2 = b) ∨ t.isRemoved a2 b2 = true := by
  unfold Tarjan.remove Tarjan.isRemoved at *
  by_cases ha : a2 = a
  · subst ha
    by_cases hb : b2 = b
    · exact Or.inl ⟨rfl, hb⟩
    · right
      cases hr : t.removed a2 with
      | none =>
        simp [hr, Function.update_noteq hb] at h
      | some m =>
        simp [hr, Function.update_noteq hb] at h
        simpa using h
  · right
    cases hr : t.removed a with
    | none =>
      simp [hr, Function.update_noteq ha] at h
      exact h
    | some m =>
      simp [hr, Function.update_noteq ha] at h
      exact h

theorem remove_fields (t : Tarjan) (a b : Nat) :
    (t.remove a b).G = t.G ∧ (t.remove a b).index = t.index ∧
    (t.remove a b).marked = t.marked ∧ (t.remove a b).markedStack = t.markedStack ∧
    (t.remove a b).pointStack = t.pointStack ∧ (t.remove a b).cycles = t.cycles := by
  unfold Tarjan.remove
  cases hr : t.removed a <;> simp [hr]

theorem unmarkLoop_eq (iv j : Nat) (t : Tarjan) :
    unmarkLoop iv j t =
      match t.markedStack[j]? with
      | none => none
      | some u =>
        let t1 : Tarjan := { t with markedStack := t.markedStack.take j }
        let t2 : Tarjan := { t1 with marked := Function.update t1.marked u false }
        if u = iv then some t2
        else match j with
          | 0 => none
          | k + 1 => unmarkLoop iv k t2 := by
  cases j <;> rfl

theorem unmarkLoop_spec (iv : Nat) (ms0 : List Nat) :
    ∀ (more : List Nat) (t : Tarjan),
      t.markedStack = ms0 ++ iv :: more → iv ∉ more →
      ∃ t', unmarkLoop iv (ms0.length + more.length) t = some t'
        ∧ t'.G = t.G ∧ t'.index = t.index ∧ t'.removed = t.removed
        ∧ t'.pointStack = t.pointStack ∧ t'.cycles = t.cycles
        ∧ t'.markedStack = ms0
        ∧ (∀ i, t'.marked i = if i ∈ iv :: more then false else t.marked i) := by
  intro more
  induction more using List.reverseRecOn with
  | nil =>
    intro t hst _
    have hget : t.markedStack[ms0.length]? = some iv := by
      rw [hst]; exact scc.getElem?_append_cons_length _ _ _
    rw [unmarkLoop_eq]
    simp only [List.length_nil, Nat.add_zero, hget, if_true]
    refine ⟨_, rfl, rfl, rfl, rfl, rfl, rfl, ?_, ?_⟩
    · show t.markedStack.take ms0.length = ms0
      rw [hst]; simp
    · intro i
      show Function.update t.marked iv false i = _
      by_cases h : i = iv
      · subst h; simp
      · simp [h, Function.update_noteq h]
  | append_singleton more u ih =>
    intro t hst hv
    have huv : u ≠ iv := by
      rintro rfl; exact hv (by simp)
    have hv2 : iv ∉ more := fun h => hv (by simp [h])
    have h1 : ms0 ++ iv :: (more ++ [u]) = (ms0 ++ iv :: more) ++ u :: [] := by simp
    have h2 : ms0.length + (more ++ [u]).length = (ms0 ++ iv :: more).length := by simp
    have hget : t.markedStack[ms0.length + (more ++ [u]).length]? = some u := by
      rw [hst, h1, h2]
      exact scc.getElem?_append_cons_length _ _ _
    have htake : t.markedStack.take (ms0.length + (more ++ [u]).length) = ms0 ++ iv :: more := by
      have h3 : t.markedStack = (ms0 ++ iv :: more) ++ [u] := by rw [hst, h1]
      rw [h3, h2]
      exact List.take_left' rfl
    rw [unmarkLoop_eq]
    simp only [hget, if_neg huv, htake]
    have hlen : ms0.length + (more ++ [u]).length = (ms0.length + more.length) + 1 := by
      simp; omega
    rw [hlen]
    simp only []
    obtain ⟨t', e1, e2, e3, e4, e5, e6, e7, e8⟩ :=
      ih { t with markedStack := ms0 ++ iv :: more, marked := Function.update t.marked u false }
        rfl hv2
    refine ⟨t', e1, e2, e3, e4, e5, e6, e7, ?_⟩
    intro i
    rw [e8]
    show (if i ∈ iv :: more then false else Function.update t.marked u false i) = _
    by_cases hi : i ∈ iv :: more
    · have hi2 : i ∈ iv :: (more ++ [u]) := by simp at hi ⊢; tauto
      rw [if_pos hi, if_pos hi2]
    · by_cases hu : i = u
      · have hi2 : i ∈ iv :: (more ++ [u]) := by simp [hu]
        rw [if_neg hi, if_pos hi2, hu]; simp
      · have hi2 : i ∉ iv :: (more ++ [u]) := by simp at hi ⊢; tauto
        rw [if_neg hi, if_neg hi2, Function.update_noteq hu]

end cycle

namespace cycle

theorem CInv.idx_num {g : Graph} {ix : String → Option Nat} {s : String} {t : Tarjan}
    (h : CInv g ix s t) (u : String) : t.idx u = num ix u := by
  simp [Tarjan.idx, num, h.hix]

theorem cons_append_inj_head {α : Type} (p : List α) (v w w2 : α) (r r2 : List α)
    (h : p ++ v :: w :: r = p ++ v :: w2 :: r2) : w = w2 := by
  have := List.append_cancel_left h
  injection this with _ h2
  injection h2

/-- Handling an edge that leads to no new circuit and changes neither the marks nor the
stacks. -/
theorem LoopInv.extend {g : Graph} {ix : String → Option Nat} {s : String} {t0 t t2 : Tarjan}
    {v : String} {done : List String} {found : Bool}
    (hL : LoopInv g ix s t0 v done found t) {w : String}
    (hinv : CInv g ix s t2) (hps : t2.pointStack = t.pointStack)
    (hms : t2.markedStack = t.markedStack) (hcyc : t2.cycles = t.cycles)
    (hmk : t2.marked = t.marked)
    (hnp : ∀ xs, List.Chain g.Edge v (xs ++ [s]) → (v :: xs).Nodup →
      (∀ x ∈ xs, x ∉ t0.pointStack ∧ num ix s < num ix x) →
      (xs ++ [s]).head? = some w → False)
    (hnf : found = false → num ix w ≠ num ix s ∧
      (num ix s < num ix w → t.marked (num ix w) = true)) :
    LoopInv g ix s t0 v (done ++ [w]) found t2 := by
  refine ⟨hinv, by rw [hps, hL.ps], by rw [hms]; exact hL.ms, ?_, ?_, ?_⟩
  · obtain ⟨new, h1, h2, h3⟩ := hL.cyc
    refine ⟨new, by rw [hcyc, h1], ?_, ?_⟩
    · intro c hc
      obtain ⟨w1, hw1, rest, e⟩ := h2 c hc
      exact ⟨w1, by simp [hw1], rest, e⟩
    · intro hn hd
      exact h3 hn (List.Nodup.of_append_left hd)
  · intro xs hc hnd hx hh
    rw [hcyc]
    apply hL.complete xs hc hnd hx
    intro w1 hw1
    have := hh w1 hw1
    rw [List.mem_append, List.mem_singleton] at this
    rcases this with h | rfl
    · exact h
    · exact absurd (Option.mem_def.mp hw1) (fun e => hnp xs hc hnd hx e)
  · intro hf w1 hw1
    rw [hmk]
    rw [List.mem_append, List.mem_singleton] at hw1
    rcases hw1 with h | rfl
    · exact hL.nofound hf w1 h
    · exact hnf hf

/-- No circuit through the root starts with an edge to a vertex numbered below the
root. -/
theorem no_path_of_lt {g : Graph} {ix : String → Option Nat} {s v w : String}
    {A : List String} (hlt : num ix w < num ix s) :
    ∀ xs, List.Chain g.Edge v (xs ++ [s]) → (v :: xs).Nodup →
      (∀ x ∈ xs, x ∉ A ∧ num ix s < num ix x) →
      (xs ++ [s]).head? = some w → False := by
  intro xs _ _ hx hh
  cases xs with
  | nil =>
    simp at hh
    subst hh
    omega
  | cons x xs =>
    simp at hh
    subst hh
    have := (hx x (by simp)).2
    omega

theorem LoopInv.skip_removed {g : Graph} {ix : String → Option Nat} {s : String}
    {t0 t : Tarjan} {v : String} {done : List String} {found : Bool}
    (hL : LoopInv g ix s t0 v done found t) {w : String}
    (hr : t.isRemoved (num ix v) (num ix w) = true) :
    LoopInv g ix s t0 v (done ++ [w]) found t := by
  have hlt := hL.inv.removed_lt _ _ hr
  refine hL.extend hL.inv rfl rfl rfl rfl (no_path_of_lt hlt) ?_
  intro _
  exact ⟨by omega, fun h => by omega⟩

theorem LoopInv.skip_lt {g : Graph} {ix : String → Option Nat} {s : String}
    {t0 t : Tarjan} {v : String} {done : List String} {found : Bool}
    (hL : LoopInv g ix s t0 v done found t) {w : String}
    (hlt : num ix w < num ix s) :
    LoopInv g ix s t0 v (done ++ [w]) found (t.remove (num ix v) (num ix w)) := by
  obtain ⟨e1, e2, e3, e4, e5, e6⟩ := remove_fields t (num ix v) (num ix w)
  have hI := hL.inv
  refine hL.extend ?_ e5 e4 e6 e3 (no_path_of_lt hlt) ?_
  · refine ⟨e1.trans hI.hG, e2.trans hI.hix, by rw [e4]; exact hI.ms_nodup, ?_, ?_,
      by rw [e5]; exact hI.ps_nodup, by rw [e5]; exact hI.ps_chain,
      by rw [e5]; exact hI.ps_head, by rw [e5]; exact hI.ps_gt, ?_, ?_,
      by rw [e6]; exact hI.sound⟩
    · intro i; rw [e3, e4]; exact hI.marked_iff i
    · intro u hu; rw [e4]; rw [e5] at hu; exact hI.ps_marked u hu
    · intro a b hab
      rcases isRemoved_remove t _ _ a b hab with ⟨_, rfl⟩ | h
      · exact hlt
      · exact hI.removed_lt a b h
    · intro u hu hn
      rw [e3] at hu
      rw [e5] at hn ⊢
      exact hI.free u hu hn
  · intro _
    exact ⟨by omega, fun h => by omega⟩

theorem LoopInv.skip_marked {g : Graph} {ix : String → Option Nat} {s : String}
    {t0 t : Tarjan} {v : String} {done : List String} {found : Bool}
    (hL : LoopInv g ix s t0 v done found t) {w : String}
    (hne : num ix w ≠ num ix s) (hm : t.marked (num ix w) = true) :
    LoopInv g ix s t0 v (done ++ [w]) found t := by
  refine hL.extend hL.inv rfl rfl rfl rfl ?_ (fun _ => ⟨hne, fun _ => hm⟩)
  intro xs hc hnd hx hh
  cases xs with
  | nil =>
    simp at hh
    subst hh
    exact hne rfl
  | cons x xs =>
    simp at hh
    subst hh
    simp only [List.cons_append, List.chain_cons] at hc
    have hfree : Free g (num ix) s (t0.pointStack ++ [v]) x := by
      apply Free.of_chain xs x hc.2
      intro y hy
      refine ⟨?_, (hx y hy).2⟩
      rw [List.mem_append, List.mem_singleton]
      rintro (h | h)
      · exact (hx y hy).1 h
      · subst h
        exact (List.nodup_cons.mp hnd).1 hy
    have hxp : x ∉ t.pointStack := by rw [hL.ps]; exact hfree.not_mem
    have := hL.inv.free x hm hxp
    rw [hL.ps] at this
    exact this hfree

end cycle

namespace cycle

/-- The point stack during the loop, followed by the root, is a circuit through the root
when the last vertex has an edge to the root. -/
theorem CInv.sound_emit {g : Graph} {ix : String → Option Nat} {s : String} {t : Tarjan}
    (h : CInv g ix s t) (hne : t.pointStack ≠ [])
    (he : ∀ x ∈ t.pointStack.getLast?, g.Edge x s) :
    Sound g (num ix) s (t.pointStack ++ [s]) := by
  cases hp : t.pointStack with
  | nil => exact absurd hp hne
  | cons a q =>
    have ha : a = s := h.ps_head a (by simp [hp])
    subst ha
    have hnd := h.ps_nodup
    have hch := h.ps_chain
    have hgt := h.ps_gt
    rw [hp] at hnd hch hgt he
    refine ⟨q, by simp, hnd, ?_, fun u hu => hgt u (by simpa using hu)⟩
    have : List.Chain' g.Edge ((a :: q) ++ [a]) := by
      rw [List.chain'_append]
      refine ⟨hch, List.chain'_singleton _, ?_⟩
      intro x hx y hy
      simp at hy
      subst hy
      exact he x hx
    exact this

/-- Handling an edge back to the root: the circuit on the point stack is recorded. -/
theorem LoopInv.emit {g : Graph} {ix : String → Option Nat} {s : String}
    {t0 t : Tarjan} {v : String} {done : List String} {found : Bool}
    (hL : LoopInv g ix s t0 v done found t) (he : g.Edge v s) :
    LoopInv g ix s t0 v (done ++ [s]) true
      { t with cycles := t.cycles ++ [t.pointStack ++ [s]] } := by
  have hI := hL.inv
  have hps := hL.ps
  have hsound : Sound g (num ix) s (t.pointStack ++ [s]) := by
    apply hI.sound_emit
    · rw [hps]; simp
    · intro x hx
      rw [hps] at hx
      simp at hx
      subst hx
      exact he
  obtain ⟨new, h1, h2, h3⟩ := hL.cyc
  refine ⟨⟨hI.hG, hI.hix, hI.ms_nodup, hI.marked_iff, hI.ps_marked, hI.ps_nodup, hI.ps_chain,
    hI.ps_head, hI.ps_gt, hI.removed_lt, hI.free, ?_⟩, hps, hL.ms, ?_, ?_, ?_⟩
  · intro c hc
    have hc' : c ∈ t.cycles ++ [t.pointStack ++ [s]] := hc
    rw [List.mem_append, List.mem_singleton] at hc'
    rcases hc' with h | rfl
    · exact hI.sound c h
    · exact ⟨s, hsound⟩
  · refine ⟨new ++ [t.pointStack ++ [s]], ?_, ?_, ?_⟩
    · show t.cycles ++ _ = _
      rw [h1, List.append_assoc]
    · intro c hc
      rw [List.mem_append, List.mem_singleton] at hc
      rcases hc with h | rfl
      · obtain ⟨w1, hw1, rest, e⟩ := h2 c h
        exact ⟨w1, by simp [hw1], rest, e⟩
      · exact ⟨s, by simp, [], by rw [hps]; simp⟩
    · intro hn hd
      rw [List.nodup_append]
      refine ⟨h3 hn (List.Nodup.of_append_left hd), List.nodup_singleton _, ?_⟩
      intro c hc hc2
      rw [List.mem_singleton] at hc2
      subst hc2
      obtain ⟨w1, hw1, rest, e⟩ := h2 _ hc
      rw [hps] at e
      have e2 : t0.pointStack ++ v :: s :: [] = t0.pointStack ++ v :: w1 :: rest := by
        rw [← e]; simp
      have := cons_append_inj_head _ _ _ _ _ _ e2
      subst this
      exact (List.nodup_append.mp hd).2.2 hw1 (by simp)
  · intro xs hc hnd hx hh
    show _ ∈ t.cycles ++ [t.pointStack ++ [s]]
    cases xs with
    | nil =>
      rw [List.mem_append, List.mem_singleton]
      right
      rw [hps]
    | cons x xs =>
      rw [List.mem_append]
      left
      apply hL.complete (x :: xs) hc hnd hx
      intro w1 hw1
      have hm := hh w1 hw1
      rw [List.mem_append, List.mem_singleton] at hm
      rcases hm with h | h
      · exact h
      · simp at hw1
        have := (hx x (by simp)).2
        rw [hw1, h] at this
        omega
  · intro hf
    exact absurd hf (by simp)

/-- The state after the recursive call on an unmarked vertex `w` above the root. -/
theorem LoopInv.after_call {g : Graph} {ix : String → Option Nat} {s : String}
    {t0 t t2 : Tarjan} {v : String} {done : List String} {found g2 : Bool}
    (hL : LoopInv g ix s t0 v done found t) {w : String}
    (hgt : num ix s < num ix w) (hP : Post g ix s t w g2 t2) :
    LoopInv g ix s t0 v (done ++ [w]) (found || g2) t2 := by
  obtain ⟨new, h1, h2, h3⟩ := hL.cyc
  obtain ⟨new2, k1, k2, k3⟩ := hP.cyc
  obtain ⟨more, hmore⟩ := hL.ms
  have hsub : ∀ i, i ∈ t.markedStack → i ∈ t2.markedStack := by
    intro i hi
    have := hP.ms
    split at this
    · rw [this]; exact hi
    · obtain ⟨m2, e⟩ := this
      rw [e]; exact List.mem_append_left _ hi
  have hcsub : ∀ c, c ∈ t.cycles → c ∈ t2.cycles := by
    intro c hc; rw [k1]; exact List.mem_append_left _ hc
  refine ⟨hP.inv, by rw [hP.ps, hL.ps], ?_, ?_, ?_, ?_⟩
  · have := hP.ms
    split at this
    · exact ⟨more, by rw [this, hmore]⟩
    · obtain ⟨m2, e⟩ := this
      exact ⟨more ++ num ix w :: m2, by rw [e, hmore]; simp⟩
  · refine ⟨new ++ new2, by rw [k1, h1, List.append_assoc], ?_, ?_⟩
    · intro c hc
      rw [List.mem_append] at hc
      rcases hc with h | h
      · obtain ⟨w1, hw1, rest, e⟩ := h2 c h
        exact ⟨w1, by simp [hw1], rest, e⟩
      · obtain ⟨rest, e⟩ := k2 c h
        exact ⟨w, by simp, rest, by rw [e, hL.ps]; simp⟩
    · intro hn hd
      rw [List.nodup_append]
      refine ⟨h3 hn (List.Nodup.of_append_left hd), k3 hn, ?_⟩
      intro c hc hc2
      obtain ⟨w1, hw1, rest, e⟩ := h2 c hc
      obtain ⟨rest2, e2⟩ := k2 c hc2
      rw [hL.ps] at e2
      have e3 : t0.pointStack ++ v :: w :: rest2 = t0.pointStack ++ v :: w1 :: rest := by
        rw [← e, e2]; simp
      have := cons_append_inj_head _ _ _ _ _ _ e3
      subst this
      exact (List.nodup_append.mp hd).2.2 hw1 (by simp)
  · intro xs hc hnd hx hh
    have hold : (∀ w1 ∈ (xs ++ [s]).head?, w1 ∈ done) →
        t0.pointStack ++ v :: xs ++ [s] ∈ t2.cycles :=
      fun h => hcsub _ (hL.complete xs hc hnd hx h)
    cases xs with
    | nil =>
      apply hold
      intro w1 hw1
      have hm := hh w1 hw1
      rw [List.mem_append, List.mem_singleton] at hm
      rcases hm with h | h
      · exact h
      · simp at hw1
        rw [h] at hw1
        rw [hw1] at hgt
        omega
    | cons x xs =>
      by_cases hxd : x ∈ done
      · apply hold
        intro w1 hw1
        simp at hw1
        rw [← hw1]; exact hxd
      · have hxw : x = w := by
          have hm := hh x (by simp)
          rw [List.mem_append, List.mem_singleton] at hm
          exact hm.resolve_left hxd
        subst hxw
        simp only [List.cons_append, List.chain_cons] at hc
        have := hP.complete xs hc.2 (List.nodup_cons.mp hnd).2 (by
          intro y hy
          refine ⟨?_, (hx y (by simp [hy])).2⟩
          rw [hL.ps, List.mem_append, List.mem_singleton]
          rintro (h | h)
          · exact (hx y (by simp [hy])).1 h
          · subst h
            exact (List.nodup_cons.mp hnd).1 (by simp [hy]))
        rw [hL.ps] at this
        simpa using this
  · intro hf w1 hw1
    have hf1 : found = false := by cases found <;> simp_all
    have hf2 : g2 = false := by cases g2 <;> simp_all
    rw [List.mem_append, List.mem_singleton] at hw1
    rcases hw1 with h | rfl
    · obtain ⟨a, b⟩ := hL.nofound hf1 w1 h
      refine ⟨a, fun h => ?_⟩
      rw [hP.inv.marked_iff]
      exact hsub _ ((hL.inv.marked_iff _).mp (b h))
    · refine ⟨by omega, fun _ => ?_⟩
      rw [hP.inv.marked_iff]
      have := hP.ms
      rw [hf2] at this
      simp only [Bool.false_eq_true, if_false] at this
      obtain ⟨m2, e⟩ := this
      rw [e]; simp

end cycle

namespace cycle

theorem circ_searchEdge_ok {g : Graph} {ix : String → Option Nat} {s : String} {n : Nat}
    (IH : SearchOk g ix s n) (hN : Numbering g ix) (hs : ix s ≠ none)
    {t0 t : Tarjan} {v : String} {done : List String} {found : Bool}
    (hL : LoopInv g ix s t0 v done found t)
    (hfuel : g.keys.length ≤ t0.pointStack.length + (n + 1)) {w : String} (he : g.Edge v w) :
    ∃ found2 t2, searchEdge (search n s) s v w found t = some (found2, t2) ∧
      LoopInv g ix s t0 v (done ++ [w]) found2 t2 := by
  unfold searchEdge
  simp only [hL.inv.idx_num]
  by_cases hr : t.isRemoved (num ix v) (num ix w) = true
  · rw [if_pos hr]
    exact ⟨_, _, rfl, hL.skip_removed hr⟩
  rw [if_neg hr]
  by_cases hlt : num ix w < num ix s
  · rw [if_pos hlt]
    exact ⟨_, _, rfl, hL.skip_lt hlt⟩
  rw [if_neg hlt]
  by_cases heq : num ix w = num ix s
  · rw [if_pos heq]
    have hws : s = w := hN.eq_of_num hs heq.symm
    subst hws
    exact ⟨_, _, rfl, hL.emit he⟩
  rw [if_neg heq]
  have hgt : num ix s < num ix w := by omega
  by_cases hm : t.marked (num ix w) = true
  · have : ¬ ((!t.marked (num ix w)) = true) := by simp [hm]
    rw [if_neg this]
    exact ⟨_, _, rfl, hL.skip_marked heq hm⟩
  · have hm2 : t.marked (num ix w) = false := by simpa using hm
    have : (!t.marked (num ix w)) = true := by simp [hm2]
    rw [if_pos this]
    have hlast : ∀ x ∈ t.pointStack.getLast?, g.Edge x w := by
      intro x hx
      rw [hL.ps] at hx
      simp at hx
      subst hx
      exact he
    have hne : t.pointStack ≠ [] := by rw [hL.ps]; simp
    obtain ⟨g2, t2, h2, hP⟩ := IH w t hL.inv hm2
      (Numbering.ne_none_of_pos (by omega)) hlast (fun h => absurd h hne) (fun _ => hgt)
      (by rw [hL.ps]; simp; omega)
    rw [h2]
    exact ⟨_, _, rfl, hL.after_call hgt hP⟩

theorem circ_searchEdges_ok {g : Graph} {ix : String → Option Nat} {s : String} {n : Nat}
    (IH : SearchOk g ix s n) (hN : Numbering g ix) (hs : ix s ≠ none)
    {t0 : Tarjan} {v : String}
    (hfuel : g.keys.length ≤ t0.pointStack.length + (n + 1)) :
    ∀ (ws done : List String) (found : Bool) (t : Tarjan), (∀ w ∈ ws, g.Edge v w) →
      LoopInv g ix s t0 v done found t →
      ∃ found2 t2, searchEdges (search n s) s v ws found t = some (found2, t2) ∧
        LoopInv g ix s t0 v (done ++ ws) found2 t2 := by
  intro ws
  induction ws with
  | nil =>
    intro done found t _ hL
    exact ⟨found, t, rfl, by simpa using hL⟩
  | cons w ws ih =>
    intro done found t hws hL
    obtain ⟨f1, t1, h1, hL1⟩ := circ_searchEdge_ok IH hN hs hL hfuel (hws w (by simp))
    obtain ⟨f2, t2, h2, hL2⟩ := ih (done ++ [w]) f1 t1 (fun x hx => hws x (by simp [hx])) hL1
    refine ⟨f2, t2, ?_, by simpa using hL2⟩
    simp only [searchEdges, h1, h2]

theorem circ_search_succ (n : Nat) (s v : String) (t : Tarjan) :
    search (n + 1) s v t =
      match searchEdges (search n s) s v (t.adj v) false (enter v t) with
      | none => none
      | some (found, t) => finish v found t := by
  simp only [search, enter, Tarjan.idx, Tarjan.adj]
  try rfl

theorem circ_enter_loopInv {g : Graph} {ix : String → Option Nat} {s : String}
    {t0 : Tarjan} {v : String} (hN : Numbering g ix) (h0 : CInv g ix s t0)
    (hm : t0.marked (num ix v) = false) (hv : ix v ≠ none)
    (hlast : ∀ x ∈ t0.pointStack.getLast?, g.Edge x v) (hnil : t0.pointStack = [] → v = s)
    (hgt : t0.pointStack ≠ [] → num ix s < num ix v) :
    LoopInv g ix s t0 v [] false (enter v t0) := by
  have hidx := h0.idx_num v
  have hvms : num ix v ∉ t0.markedStack := by
    intro h
    have := (h0.marked_iff _).mpr h
    rw [hm] at this
    exact absurd this (by simp)
  have hvp : v ∉ t0.pointStack := fun h => hvms (h0.ps_marked v h)
  refine ⟨⟨h0.hG, h0.hix, ?_, ?_, ?_, ?_, ?_, ?_, ?_, h0.removed_lt, ?_, h0.sound⟩, rfl,
    ⟨[], by simp [enter, hidx]⟩, ⟨[], by simp [enter], by simp, by simp⟩, ?_, ?_⟩
  · show (t0.markedStack ++ [t0.idx v]).Nodup
    rw [hidx, List.nodup_append]
    refine ⟨h0.ms_nodup, List.nodup_singleton _, ?_⟩
    intro a ha hb
    rw [List.mem_singleton] at hb
    subst hb
    exact hvms ha
  · intro i
    show Function.update t0.marked (t0.idx v) true i = true ↔ i ∈ t0.markedStack ++ [t0.idx v]
    rw [hidx]
    by_cases hi : i = num ix v
    · subst hi; simp
    · rw [Function.update_noteq hi, h0.marked_iff]
      simp [hi]
  · intro u hu
    show num ix u ∈ t0.markedStack ++ [t0.idx v]
    have hu' : u ∈ t0.pointStack ++ [v] := hu
    rw [hidx]
    rw [List.mem_append, List.mem_singleton] at hu' ⊢
    rcases hu' with h | rfl
    · exact Or.inl (h0.ps_marked u h)
    · exact Or.inr rfl
  · show (t0.pointStack ++ [v]).Nodup
    rw [List.nodup_append]
    refine ⟨h0.ps_nodup, List.nodup_singleton _, ?_⟩
    intro a ha hb
    rw [List.mem_singleton] at hb
    subst hb
    exact hvp ha
  · show (t0.pointStack ++ [v]).Chain' g.Edge
    rw [List.chain'_append]
    refine ⟨h0.ps_chain, List.chain'_singleton _, ?_⟩
    intro x hx y hy
    simp at hy
    subst hy
    exact hlast x hx
  · intro u hu
    have hu' : u ∈ (t0.pointStack ++ [v]).head? := hu
    cases hp : t0.pointStack with
    | nil =>
      rw [hp] at hu'
      simp at hu'
      rw [← hu']
      exact hnil hp
    | cons a q =>
      rw [hp] at hu'
      simp at hu'
      exact h0.ps_head u (by simp [hp, hu'])
  · intro u hu
    have hu' : u ∈ (t0.pointStack ++ [v]).tail := hu
    cases hp : t0.pointStack with
    | nil =>
      rw [hp] at hu'
      simp at hu'
    | cons a q =>
      rw [hp] at hu'
      simp at hu'
      rcases hu' with h | rfl
      · exact h0.ps_gt u (by simp [hp, h])
      · exact hgt (by simp [hp])
  · intro u hu hn
    have hn' : u ∉ t0.pointStack ++ [v] := hn
    have huv : u ≠ v := fun h => hn' (by simp [h])
    have hup : u ∉ t0.pointStack := fun h => hn' (by simp [h])
    have hu' : Function.update t0.marked (t0.idx v) true (num ix u) = true := hu
    intro hfree
    have hfree' : Free g (num ix) s (t0.pointStack ++ [v]) u := hfree
    by_cases hnum : num ix u = num ix v
    · exact huv (hN.eq_of_num hv hnum.symm).symm
    · rw [hidx, Function.update_noteq hnum] at hu'
      exact h0.free u hu' hup (Free.mono (fun x hx => by simp [hx]) hfree')
  · intro xs _ _ _ hh
    exfalso
    cases xs with
    | nil => simpa using hh s (by simp)
    | cons x xs => simpa using hh x (by simp)
  · intro _ w hw
    exact absurd hw (by simp)

end cycle

namespace cycle

theorem head_edge_of_chain {g : Graph} {v s : String} (xs : List String)
    (hc : List.Chain g.Edge v (xs ++ [s])) : ∀ w ∈ (xs ++ [s]).head?, w ∈ g.adj v := by
  intro w hw
  cases xs with
  | nil =>
    simp at hw hc
    rw [← hw]; exact hc
  | cons x xs =>
    simp at hw hc
    rw [← hw]; exact hc.1

/-- The result of `search` from the state at the end of the loop, given the invariant of
the state it returns. -/
theorem LoopInv.post {g : Graph} {ix : String → Option Nat} {s : String} {t0 t t2 : Tarjan}
    {v : String} {found : Bool} (hL : LoopInv g ix s t0 v (g.adj v) found t)
    (hinv : CInv g ix s t2) (hps : t2.pointStack = t0.pointStack)
    (hms : if found = true then t2.markedStack = t0.markedStack
      else ∃ more, t2.markedStack = t0.markedStack ++ num ix v :: more)
    (hcyc : t2.cycles = t.cycles) : Post g ix s t0 v found t2 := by
  obtain ⟨new, h1, h2, h3⟩ := hL.cyc
  refine ⟨hinv, hps, hms, ⟨new, by rw [hcyc, h1], ?_, fun hn => h3 hn (hn v)⟩, ?_⟩
  · intro c hc
    obtain ⟨w, _, rest, e⟩ := h2 c hc
    exact ⟨w :: rest, e⟩
  · intro xs hc hnd hx
    rw [hcyc]
    exact hL.complete xs hc hnd hx (head_edge_of_chain xs hc)

theorem circ_finish_ok {g : Graph} {ix : String → Option Nat} {s : String} {t0 t : Tarjan}
    {v : String} {found : Bool} (hL : LoopInv g ix s t0 v (g.adj v) found t)
    (h0 : CInv g ix s t0) :
    ∃ t2, finish v found t = some (found, t2) ∧ Post g ix s t0 v found t2 := by
  have hI := hL.inv
  obtain ⟨more, hmore⟩ := hL.ms
  have hlen : t.pointStack.length ≠ 0 := by rw [hL.ps]; simp
  have htake : t.pointStack.take (t.pointStack.length - 1) = t0.pointStack := by
    rw [hL.ps]; simp
  have hnd := hI.ms_nodup
  rw [hmore] at hnd
  have hdis : ∀ i, i ∈ t0.markedStack → i ∉ num ix v :: more :=
    fun i hi hi2 => (List.nodup_append.mp hnd).2.2 hi hi2
  cases found with
  | true =>
    have hvm : num ix v ∉ more := (List.nodup_cons.mp (List.nodup_append.mp hnd).2.1).1
    obtain ⟨tu, e0, e1, e2, e3, e4, e5, e6, e7⟩ :=
      unmarkLoop_spec (num ix v) t0.markedStack more t hmore hvm
    have hl2 : t.markedStack.length - 1 = t0.markedStack.length + more.length := by
      rw [hmore]; simp
    have hfin : finish v true t =
        some (true, { tu with pointStack := tu.pointStack.take (tu.pointStack.length - 1) }) := by
      unfold finish
      rw [if_pos rfl, hI.idx_num, hl2, e0]
      simp only []
      rw [e4, if_neg hlen]
    refine ⟨_, hfin, hL.post ?_ ?_ ?_ e5⟩
    · refine ⟨e1.trans hI.hG, e2.trans hI.hix, ?_, ?_, ?_, ?_, ?_, ?_, ?_, ?_, ?_, ?_⟩
      · show tu.markedStack.Nodup
        rw [e6]; exact h0.ms_nodup
      · intro i
        show tu.marked i = true ↔ i ∈ tu.markedStack
        rw [e6, e7]
        by_cases hi : i ∈ num ix v :: more
        · rw [if_pos hi]
          simp only [Bool.false_eq_true, false_iff]
          exact fun h => hdis i h hi
        · rw [if_neg hi, hI.marked_iff, hmore, List.mem_append]
          tauto
      · intro u hu
        show num ix u ∈ tu.markedStack
        have hu' : u ∈ tu.pointStack.take (tu.pointStack.length - 1) := hu
        rw [e4, htake] at hu'
        rw [e6]; exact h0.ps_marked u hu'
      · show (tu.pointStack.take (tu.pointStack.length - 1)).Nodup
        rw [e4, htake]; exact h0.ps_nodup
      · show (tu.pointStack.take (tu.pointStack.length - 1)).Chain' _
        rw [e4, htake]; exact h0.ps_chain
      · show ∀ u ∈ (tu.pointStack.take (tu.pointStack.length - 1)).head?, _
        rw [e4, htake]; exact h0.ps_head
      · show ∀ u ∈ (tu.pointStack.take (tu.pointStack.length - 1)).tail, _
        rw [e4, htake]; exact h0.ps_gt
      · intro a b hab
        apply hI.removed_lt a b
        simpa [Tarjan.isRemoved, e3] using hab
      · intro u hu hn
        have hu' : tu.marked (num ix u) = true := hu
        have hn' : u ∉ tu.pointStack.take (tu.pointStack.length - 1) := hn
        show ¬ Free g (num ix) s (tu.pointStack.take (tu.pointStack.length - 1)) u
        rw [e4, htake] at hn' ⊢
        apply h0.free u ?_ hn'
        rw [e7] at hu'
        by_cases hi : num ix u ∈ num ix v :: more
        · rw [if_pos hi] at hu'; exact absurd hu' (by simp)
        · rw [if_neg hi, hI.marked_iff, hmore, List.mem_append] at hu'
          rw [h0.marked_iff]
          tauto
      · show ∀ c ∈ tu.cycles, _
        rw [e5]; exact hI.sound
    · show tu.pointStack.take (tu.pointStack.length - 1) = _
      rw [e4, htake]
    · show (if true = true then tu.markedStack = t0.markedStack else _)
      rw [if_pos rfl]; exact e6
  | false =>
    have hfin : finish v false t =
        some (false, { t with pointStack := t.pointStack.take (t.pointStack.length - 1) }) := by
      unfold finish
      simp only [Bool.false_eq_true, if_false]
      rw [if_neg hlen]
    refine ⟨_, hfin, hL.post ?_ htake ?_ rfl⟩
    · refine ⟨hI.hG, hI.hix, hI.ms_nodup, hI.marked_iff, ?_, ?_, ?_, ?_, ?_, hI.removed_lt,
        ?_, hI.sound⟩
      · intro u hu
        have hu' : u ∈ t.pointStack.take (t.pointStack.length - 1) := hu
        rw [htake] at hu'
        show num ix u ∈ t.markedStack
        rw [hmore]
        exact List.mem_append_left _ (h0.ps_marked u hu')
      · show (t.pointStack.take (t.pointStack.length - 1)).Nodup
        rw [htake]; exact h0.ps_nodup
      · show (t.pointStack.take (t.pointStack.length - 1)).Chain' _
        rw [htake]; exact h0.ps_chain
      · show ∀ u ∈ (t.pointStack.take (t.pointStack.length - 1)).head?, _
        rw [htake]; exact h0.ps_head
      · show ∀ u ∈ (t.pointStack.take (t.pointStack.length - 1)).tail, _
        rw [htake]; exact h0.ps_gt
      · intro u hu hn
        have hu' : t.marked (num ix u) = true := hu
        show ¬ Free g (num ix) s (t.pointStack.take (t.pointStack.length - 1)) u
        rw [htake]
        intro hfree
        have key : ∀ x, Free g (num ix) s (t0.pointStack ++ [v]) x →
            t.marked (num ix x) = true → False := by
          intro x hx hxm
          have hxn : x ∉ t.pointStack := by rw [hL.ps]; exact hx.not_mem
          have := hI.free x hxm hxn
          rw [hL.ps] at this
          exact this hx
        rcases hfree.split v with h | ⟨w, hw, h⟩
        · exact key u h hu'
        · obtain ⟨a, b⟩ := hL.nofound rfl w hw
          rcases h with rfl | h
          · exact a rfl
          · exact key w h (b h.gt)
    · show (if false = true then _ else ∃ more, t.markedStack = _)
      simp only [Bool.false_eq_true, if_false]
      exact ⟨more, hmore⟩

theorem circ_search_ok {g : Graph} {ix : String → Option Nat} {s : String}
    (hN : Numbering g ix) (hs : ix s ≠ none) : ∀ n, SearchOk g ix s n := by
  intro n
  induction n with
  | zero =>
    intro v t0 h0 hm hv _ _ _ hf
    exfalso
    have hvp : v ∉ t0.pointStack := by
      intro h
      have := (h0.marked_iff _).mpr (h0.ps_marked v h)
      rw [hm] at this
      exact absurd this (by simp)
    have hnd : (v :: t0.pointStack).Nodup := List.nodup_cons.mpr ⟨hvp, h0.ps_nodup⟩
    have hsub : ∀ x ∈ v :: t0.pointStack, x ∈ g.keys := by
      intro x hx
      rcases List.mem_cons.mp hx with rfl | hx
      · exact (hN.key_iff _).mp hv
      · apply (hN.key_iff _).mp
        apply Numbering.ne_none_of_pos
        have hms := h0.ps_marked x hx
        cases hp : t0.pointStack with
        | nil => rw [hp] at hx; simp at hx
        | cons a q =>
          rw [hp] at hx
          rcases List.mem_cons.mp hx with rfl | hx
          · have := h0.ps_head x (by simp [hp])
            rw [this]
            exact hN.num_pos hs
          · have := h0.ps_gt x (by simp [hp, hx])
            omega
    have hle := (List.subperm_of_subset hnd hsub).length_le
    simp at hle
    omega
  | succ n ih =>
    intro v t0 h0 hm hv hlast hnil hgt hf
    have hadj : t0.adj v = g.adj v := by simp [Tarjan.adj, h0.hG]
    obtain ⟨f1, t1, h1, hL⟩ := circ_searchEdges_ok ih hN hs hf (g.adj v) [] false (enter v t0)
      (fun w hw => hw) (circ_enter_loopInv hN h0 hm hv hlast hnil hgt)
    obtain ⟨t2, h2, hP⟩ := circ_finish_ok (by simpa using hL) h0
    refine ⟨f1, t2, ?_, hP⟩
    rw [circ_search_succ, hadj, h1]
    exact h2

end cycle

namespace cycle

theorem circ_searchEdge_mono {r1 r2 : String → Tarjan → Option (Bool × Tarjan)}
    (h : ∀ w t x, r1 w t = some x → r2 w t = some x) (s v w : String) (f : Bool) (t : Tarjan)
    (x : Bool × Tarjan) (h1 : searchEdge r1 s v w f t = some x) :
    searchEdge r2 s v w f t = some x := by
  unfold searchEdge at h1 ⊢
  split
  · rename_i c1; rw [if_pos c1] at h1; exact h1
  · rename_i c1
    rw [if_neg c1] at h1
    split
    · rename_i c2; rw [if_pos c2] at h1; exact h1
    · rename_i c2
      rw [if_neg c2] at h1
      split
      · rename_i c3; rw [if_pos c3] at h1; exact h1
      · rename_i c3
        rw [if_neg c3] at h1
        split
        · rename_i c4
          rw [if_pos c4] at h1
          cases hr : r1 w t with
          | none => simp [hr] at h1
          | some y =>
            rw [h w t y hr]
            rw [hr] at h1
            exact h1
        · rename_i c4; rw [if_neg c4] at h1; exact h1

theorem circ_searchEdges_mono {r1 r2 : String → Tarjan → Option (Bool × Tarjan)}
    (h : ∀ w t x, r1 w t = some x → r2 w t = some x) (s v : String) :
    ∀ (ws : List String) (f : Bool) (t : Tarjan) (x : Bool × Tarjan),
      searchEdges r1 s v ws f t = some x → searchEdges r2 s v ws f t = some x := by
  intro ws
  induction ws with
  | nil => intro f t x h1; exact h1
  | cons w ws ih =>
    intro f t x h1
    simp only [searchEdges] at h1 ⊢
    cases he : searchEdge r1 s v w f t with
    | none => simp [he] at h1
    | some y =>
      rw [circ_searchEdge_mono h s v w f t y he]
      rw [he] at h1
      exact ih y.1 y.2 x h1

theorem circ_search_mono_succ (s : String) : ∀ (n : Nat) (v : String) (t : Tarjan)
    (x : Bool × Tarjan), search n s v t = some x → search (n + 1) s v t = some x := by
  intro n
  induction n with
  | zero => intro v t x h; simp [search] at h
  | succ n ih =>
    intro v t x h
    rw [circ_search_succ] at h ⊢
    cases he : searchEdges (search n s) s v (t.adj v) false (enter v t) with
    | none => simp [he] at h
    | some y =>
      rw [circ_searchEdges_mono ih s v _ _ _ _ he]
      rw [he] at h
      exact h

theorem circ_search_mono {n m : Nat} (hnm : n ≤ m) {s v : String} {t : Tarjan} {x : Bool × Tarjan}
    (h : search n s v t = some x) : search m s v t = some x := by
  induction hnm with
  | refl => exact h
  | step _ ih => exact circ_search_mono_succ _ _ _ _ _ ih

theorem circ_findLoop_mono {n m : Nat} (hnm : n ≤ m) :
    ∀ (vs : List String) (t t2 : Tarjan),
      findLoop n vs t = some t2 → findLoop m vs t = some t2 := by
  intro vs
  induction vs with
  | nil => intro t t2 h; exact h
  | cons v vs ih =>
    intro t t2 h
    simp only [findLoop] at h ⊢
    cases hs : search n v v t with
    | none => simp [hs] at h
    | some y =>
      rw [circ_search_mono hnm hs]
      rw [hs] at h
      exact ih _ _ h

theorem circ_Find_mono {n m : Nat} (hnm : n ≤ m) {t : Tarjan}
    {r : Except String (List (List String)) × Tarjan}
    (h : Find n t = some r) : Find m t = some r := by
  obtain ⟨G, index, marked, removed, ms, ps, cycles⟩ := t
  cases G with
  | none => exact h
  | some g =>
    simp only [Find] at h ⊢
    cases hf : findLoop n (sortKeys g)
        (assignIndex 0 (sortKeys g) ⟨some g, index, marked, removed, ms, ps, cycles⟩) with
    | none => simp [hf] at h
    | some t2 =>
      rw [circ_findLoop_mono hnm _ _ _ hf]
      rw [hf] at h
      exact h

theorem assignIndex_spec : ∀ (l : List String) (k : Nat) (t : Tarjan), l.Nodup →
    (assignIndex k l t).G = t.G ∧ (assignIndex k l t).marked = t.marked ∧
    (assignIndex k l t).removed = t.removed ∧
    (assignIndex k l t).markedStack = t.markedStack ∧
    (assignIndex k l t).pointStack = t.pointStack ∧ (assignIndex k l t).cycles = t.cycles ∧
    ∀ u, (assignIndex k l t).index u =
      if u ∈ l then some (k + 1 + l.indexOf u) else t.index u := by
  intro l
  induction l with
  | nil =>
    intro k t _
    simp [assignIndex]
  | cons v vs ih =>
    intro k t hnd
    obtain ⟨hv, hnd2⟩ := List.nodup_cons.mp hnd
    obtain ⟨e1, e2, e3, e4, e5, e6, e7⟩ :=
      ih (k + 1) { t with index := Function.update t.index v (some (k + 1)) } hnd2
    simp only [assignIndex]
    refine ⟨e1, e2, e3, e4, e5, e6, ?_⟩
    intro u
    rw [e7]
    by_cases huv : u = v
    · subst huv
      simp [hv]
    · by_cases hu : u ∈ vs
      · have : u ∈ v :: vs := List.mem_cons_of_mem _ hu
        rw [if_pos hu, if_pos this, List.indexOf_cons_ne _ (Ne.symm huv)]
        congr 1
        omega
      · have : u ∉ v :: vs := by simp [huv, hu]
        rw [if_neg hu, if_neg this]
        show Function.update t.index v _ u = _
        rw [Function.update_noteq huv]

theorem indexOf_lt_iff : ∀ (l : List String), l.Pairwise (· < ·) →
    ∀ u ∈ l, ∀ w ∈ l, (l.indexOf u < l.indexOf w ↔ u < w) := by
  intro l
  induction l with
  | nil => intro _ u hu; simp at hu
  | cons a l ih =>
    intro hp u hu w hw
    obtain ⟨ha, hp2⟩ := List.pairwise_cons.mp hp
    by_cases hua : u = a
    · by_cases hwa : w = a
      · subst hua; subst hwa; simp
      · have hwl : w ∈ l := (List.mem_cons.mp hw).resolve_left hwa
        subst hua
        rw [List.indexOf_cons_self, List.indexOf_cons_ne _ (Ne.symm hwa)]
        simp [ha w hwl]
    · have hul : u ∈ l := (List.mem_cons.mp hu).resolve_left hua
      by_cases hwa : w = a
      · subst hwa
        rw [List.indexOf_cons_self, List.indexOf_cons_ne _ (Ne.symm hua)]
        simp only [Nat.not_lt_zero, false_iff, not_lt]
        exact le_of_lt (ha u hul)
      · have hwl : w ∈ l := (List.mem_cons.mp hw).resolve_left hwa
        rw [List.indexOf_cons_ne _ (Ne.symm hua), List.indexOf_cons_ne _ (Ne.symm hwa)]
        rw [Nat.succ_lt_succ_iff]
        exact ih hp2 u hul w hwl

theorem sortKeys_nodup (g : Graph) : (sortKeys g).Nodup := by
  unfold sortKeys Graph.keys
  exact (List.perm_insertionSort strLe _).nodup_iff.mpr (List.nodup_dedup _)

theorem sortKeys_pairwise (g : Graph) : (sortKeys g).Pairwise (· < ·) := by
  have h1 : (sortKeys g).Sorted strLe := by
    unfold sortKeys
    have : IsTotal String strLe := ⟨fun a b => by
      simp only [strLe_iff]; exact le_total a b⟩
    have : IsTrans String strLe := ⟨fun a b c => by
      simp only [strLe_iff]; exact le_trans⟩
    exact List.sorted_insertionSort strLe _
  have h2 := sortKeys_nodup g
  have h3 : (sortKeys g).Pairwise (fun a b => strLe a b ∧ a ≠ b) :=
    List.Pairwise.and h1 h2
  refine h3.imp ?_
  intro a b ⟨hab, hne⟩
  exact lt_of_le_of_ne ((strLe_iff a b).mp hab) hne

/-- The numbering assigned by `Find`. -/
theorem assignIndex_numbering (g : Graph) :
    Numbering g (assignIndex 0 (sortKeys g) (NewTarjan (some g))).index := by
  obtain ⟨_, _, _, _, _, _, e7⟩ :=
    assignIndex_spec (sortKeys g) 0 (NewTarjan (some g)) (sortKeys_nodup g)
  have hnone : ∀ u, (NewTarjan (some g)).index u = none := fun _ => rfl
  refine ⟨?_, ?_, ?_⟩
  · intro u
    rw [e7, hnone, ← mem_sortKeys]
    by_cases hu : u ∈ sortKeys g <;> simp [hu]
  · intro u i hu
    rw [e7, hnone] at hu
    by_cases hm : u ∈ sortKeys g
    · rw [if_pos hm] at hu
      injection hu with e
      omega
    · rw [if_neg hm] at hu
      exact absurd hu (by simp)
  · intro u w i j hu hw
    rw [e7, hnone] at hu hw
    by_cases hm : u ∈ sortKeys g
    · by_cases hm2 : w ∈ sortKeys g
      · rw [if_pos hm] at hu
        rw [if_pos hm2] at hw
        injection hu with e1
        injection hw with e2
        rw [← indexOf_lt_iff _ (sortKeys_pairwise g) u hm w hm2]
        omega
      · rw [if_neg hm2] at hw
        exact absurd hw (by simp)
    · rw [if_neg hm] at hu
      exact absurd hu (by simp)

theorem clearMarks_spec : ∀ (us : List Nat) (t : Tarjan),
    (clearMarks us t).G = t.G ∧ (clearMarks us t).index = t.index ∧
    (clearMarks us t).removed = t.removed ∧
    (clearMarks us t).markedStack = t.markedStack ∧
    (clearMarks us t).pointStack = t.pointStack ∧ (clearMarks us t).cycles = t.cycles ∧
    ∀ i, (clearMarks us t).marked i = if i ∈ us then false else t.marked i := by
  intro us
  induction us with
  | nil => intro t; simp [clearMarks]
  | cons u us ih =>
    intro t
    obtain ⟨e1, e2, e3, e4, e5, e6, e7⟩ :=
      ih { t with marked := Function.update t.marked u false }
    simp only [clearMarks]
    refine ⟨e1, e2, e3, e4, e5, e6, ?_⟩
    intro i
    rw [e7]
    show (if i ∈ us then false else Function.update t.marked u false i) = _
    by_cases hi : i ∈ us
    · have : i ∈ u :: us := List.mem_cons_of_mem _ hi
      rw [if_pos hi, if_pos this]
    · by_cases hiu : i = u
      · subst hiu
        simp [hi]
      · have : i ∉ u :: us := by simp [hiu, hi]
        rw [if_neg hi, if_neg this, Function.update_noteq hiu]

end cycle

namespace cycle

theorem Sound.head {g : Graph} {nm : String → Nat} {r : String} {c : List String}
    (h : Sound g nm r c) : c.head? = some r := by
  obtain ⟨q, e, _⟩ := h
  rw [e]; rfl

/-- One root of the loop of `Find`: the search from `s`, then the reset of the marks. -/
theorem root_step {g : Graph} {ix : String → Option Nat} (hN : Numbering g ix)
    {fuel : Nat} (hfuel : g.keys.length ≤ fuel) {ds rs : List String} {s : String}
    (hsort : (ds ++ s :: rs).Pairwise (· < ·)) (hkeys : ∀ x ∈ ds ++ s :: rs, x ∈ g.keys)
    {t : Tarjan} (hR : RootInv g ix ds (s :: rs) t) :
    ∃ f t1, search fuel s s t = some (f, t1) ∧
      RootInv g ix (ds ++ [s]) rs { clearMarks t1.markedStack t1 with markedStack := [] } := by
  have hs : ix s ≠ none := (hN.key_iff s).mpr (hkeys s (by simp))
  have hds : ∀ r ∈ ds, r < s := by
    intro r hr
    exact (List.pairwise_append.mp hsort).2.2 r hr s (by simp)
  have hrs : ∀ r ∈ rs, s < r := by
    intro r hr
    exact (List.pairwise_cons.mp (List.pairwise_append.mp hsort).2.1).1 r hr
  have h0 : CInv g ix s t := by
    refine ⟨hR.hG, hR.hix, by rw [hR.ms]; exact List.nodup_nil, ?_, ?_, by rw [hR.ps]; exact List.nodup_nil,
      by rw [hR.ps]; exact List.chain'_nil, ?_, ?_, ?_, ?_, ?_⟩
    · intro i; rw [hR.unmarked, hR.ms]; simp
    · intro u hu; rw [hR.ps] at hu; simp at hu
    · intro u hu; rw [hR.ps] at hu; simp at hu
    · intro u hu; rw [hR.ps] at hu; simp at hu
    · intro a b hab; exact hR.removed_lt a b hab s (by simp)
    · intro u hu; rw [hR.unmarked] at hu; exact absurd hu (by simp)
    · intro c hc
      obtain ⟨r, _, h⟩ := hR.sound c hc
      exact ⟨r, h⟩
  obtain ⟨f, t1, h1, hP⟩ := circ_search_ok hN hs fuel s t h0 (hR.unmarked _) hs
    (by rw [hR.ps]; simp) (fun _ => rfl) (fun h => absurd hR.ps h) (by omega)
  refine ⟨f, t1, h1, ?_⟩
  obtain ⟨e1, e2, e3, e4, e5, e6, e7⟩ := clearMarks_spec t1.markedStack t1
  obtain ⟨new, k1, k2, k3⟩ := hP.cyc
  have hI := hP.inv
  have hnew : ∀ c ∈ new, Sound g (num ix) s c := by
    intro c hc
    obtain ⟨rest, e⟩ := k2 c hc
    obtain ⟨r, hr⟩ := hI.sound c (by rw [k1]; exact List.mem_append_right _ hc)
    have h2 := hr.head
    rw [e, hR.ps] at h2
    simp at h2
    rw [h2]; exact hr
  refine ⟨e1.trans hI.hG, e2.trans hI.hix, rfl, ?_, ?_, ?_, ?_, ?_, ?_, ?_⟩
  · intro i
    show (clearMarks t1.markedStack t1).marked i = false
    rw [e7]
    by_cases hi : i ∈ t1.markedStack
    · rw [if_pos hi]
    · rw [if_neg hi]
      have := hI.marked_iff i
      cases hm : t1.marked i with
      | false => rfl
      | true => exact absurd (this.mp hm) hi
  · show (clearMarks t1.markedStack t1).pointStack = []
    rw [e5, hP.ps, hR.ps]
  · intro a b hab r hr
    have hab' : t1.isRemoved a b = true := by
      simpa [Tarjan.isRemoved, e3] using hab
    have h2 := hI.removed_lt a b hab'
    have h3 := (hN.lt_iff_num hs ((hN.key_iff r).mpr (hkeys r (by simp [hr])))).mpr (hrs r hr)
    omega
  · intro c hc
    have hc' : c ∈ t.cycles ++ new := by
      have : c ∈ (clearMarks t1.markedStack t1).cycles := hc
      rw [e6, k1] at this; exact this
    rcases List.mem_append.mp hc' with h | h
    · obtain ⟨r, hr, hs2⟩ := hR.sound c h
      exact ⟨r, by simp [hr], hs2⟩
    · exact ⟨s, by simp, hnew c h⟩
  · intro hn
    show (clearMarks t1.markedStack t1).cycles.Nodup
    rw [e6, k1, List.nodup_append]
    refine ⟨hR.nodup hn, k3 hn, ?_⟩
    intro c hc hc2
    obtain ⟨r, hr, hs2⟩ := hR.sound c hc
    have h3 := hs2.head
    rw [(hnew c hc2).head] at h3
    injection h3 with h3
    have := hds r hr
    rw [h3] at this
    exact lt_irrefl _ this
  · intro r hr xs hc hnd hx
    show _ ∈ (clearMarks t1.markedStack t1).cycles
    rw [e6]
    rw [List.mem_append, List.mem_singleton] at hr
    rcases hr with h | rfl
    · rw [k1]
      exact List.mem_append_left _ (hR.complete r h xs hc hnd hx)
    · have := hP.complete xs hc hnd (fun x hx2 => ⟨by rw [hR.ps]; simp, hx x hx2⟩)
      rw [hR.ps] at this
      simpa using this
  · show (clearMarks t1.markedStack t1).cycles.Pairwise _
    rw [e6, k1, List.pairwise_append]
    refine ⟨hR.sorted, ?_, ?_⟩
    · rw [List.pairwise_iff_forall_sublist]
      intro c d hsub a ha b hb
      have hc : c ∈ new := hsub.subset (by simp)
      have hd : d ∈ new := hsub.subset (by simp)
      rw [(hnew c hc).head] at ha
      rw [(hnew d hd).head] at hb
      simp at ha hb
      rw [← ha, ← hb]
    · intro c hc d hd a ha b hb
      obtain ⟨r, hr, hs2⟩ := hR.sound c hc
      rw [hs2.head] at ha
      rw [(hnew d hd).head] at hb
      simp at ha hb
      rw [← ha, ← hb]
      exact le_of_lt (hds r hr)

theorem circ_findLoop_ok {g : Graph} {ix : String → Option Nat} (hN : Numbering g ix)
    {fuel : Nat} (hfuel : g.keys.length ≤ fuel) :
    ∀ (rs ds : List String) (t : Tarjan), (ds ++ rs).Pairwise (· < ·) →
      (∀ x ∈ ds ++ rs, x ∈ g.keys) → RootInv g ix ds rs t →
      ∃ t2, findLoop fuel rs t = some t2 ∧ RootInv g ix (ds ++ rs) [] t2 := by
  intro rs
  induction rs with
  | nil =>
    intro ds t _ _ hR
    exact ⟨t, rfl, by simpa using hR⟩
  | cons s rs ih =>
    intro ds t hsort hkeys hR
    obtain ⟨f, t1, h1, hR1⟩ := root_step hN hfuel hsort hkeys hR
    obtain ⟨t2, h2, hR2⟩ := ih (ds ++ [s]) _ (by simpa using hsort) (by simpa using hkeys) hR1
    refine ⟨t2, ?_, by simpa using hR2⟩
    simp only [findLoop, h1]
    exact h2

/-- The state in which `Find` ends on the graph `g`, whatever the fuel above the number of
keys. -/
theorem circ_Find_ok (g : Graph) :
    ∃ ix t, Numbering g ix ∧ RootInv g ix (sortKeys g) [] t ∧
      ∀ fuel, g.keys.length ≤ fuel →
        Find fuel (NewTarjan (some g)) = some (.ok t.cycles, t) := by
  have hN := assignIndex_numbering g
  obtain ⟨e1, e2, e3, e4, e5, e6, _⟩ :=
    assignIndex_spec (sortKeys g) 0 (NewTarjan (some g)) (sortKeys_nodup g)
  have hR0 : RootInv g (assignIndex 0 (sortKeys g) (NewTarjan (some g))).index [] (sortKeys g)
      (assignIndex 0 (sortKeys g) (NewTarjan (some g))) := by
    refine ⟨e1, rfl, e4, ?_, e5, ?_, ?_, ?_, ?_, ?_⟩
    · intro i; rw [e2]; rfl
    · intro a b hab
      unfold Tarjan.isRemoved at hab
      rw [e3] at hab
      simp [NewTarjan] at hab
    · intro c hc; rw [e6] at hc; simp [NewTarjan] at hc
    · intro _; rw [e6]; simp [NewTarjan]
    · intro r hr; simp at hr
    · rw [e6]; simp [NewTarjan]
  obtain ⟨t2, h2, hR2⟩ := circ_findLoop_ok hN (le_refl _) (sortKeys g) [] _
    (by simpa using sortKeys_pairwise g) (fun x hx => (mem_sortKeys g x).mp (by simpa using hx))
    hR0
  refine ⟨_, t2, hN, by simpa using hR2, ?_⟩
  intro fuel hf
  apply circ_Find_mono hf
  simp only [Find, NewTarjan]
  simp only [NewTarjan] at h2
  rw [h2]

end cycle

namespace Graph

theorem NoRepeat.adj_nodup {g : Graph} (h : g.NoRepeat) (u : String) : (g.adj u).Nodup := by
  by_cases hu : u ∈ g.keys
  · exact h u hu
  · rw [adj_eq_nil_of_not_key g u hu]; exact List.nodup_nil

theorem KeyClosed.closed {g : Graph} (h : g.KeyClosed) : g.Closed :=
  fun u w he => h u he.mem_keys w he

theorem vertices_eq_keys {g : Graph} (h : g.KeyClosed) (u : String) :
    u ∈ g.vertices ↔ u ∈ g.keys := by
  rw [mem_vertices_iff]
  constructor
  · rintro (hk | ⟨x, hx⟩)
    · exact hk
    · exact h.closed x u hx
  · exact Or.inl

theorem chain_reachPlus {g : Graph} : ∀ (l : List String) (a b : String),
    List.Chain g.Edge a (l ++ [b]) → g.ReachPlus a b := by
  intro l
  induction l with
  | nil =>
    intro a b h
    simp only [List.nil_append, List.chain_cons, List.Chain.nil, and_true] at h
    exact Relation.TransGen.single h
  | cons x l ih =>
    intro a b h
    simp only [List.cons_append, List.chain_cons] at h
    exact Relation.TransGen.head h.1 (ih x b h.2)

theorem ReachPlus.to_reach {g : Graph} {a b : String} (h : g.ReachPlus a b) : g.Reach a b :=
  Relation.TransGen.to_reflTransGen h

theorem reachPlus_of_reach_ne {g : Graph} {a b : String} (h : g.Reach a b) (hne : a ≠ b) :
    g.ReachPlus a b := by
  rcases Relation.reflTransGen_iff_eq_or_transGen.mp h with h1 | h1
  · exact absurd h1.symm hne
  · exact h1

theorem exists_chain_of_reachPlus {g : Graph} {a b : String} (h : g.ReachPlus a b) :
    ∃ l, List.Chain g.Edge a (l ++ [b]) := by
  induction h using Relation.TransGen.head_induction_on with
  | base h => exact ⟨[], by simpa using h⟩
  | ih h _ ih =>
    obtain ⟨l, hl⟩ := ih
    rename_i c _
    exact ⟨c :: l, by simpa using ⟨h, hl⟩⟩

/-- Every walk from `a` to `b` contains a path from `a` to `b` whose inner vertices are
pairwise distinct and differ from `a` and `b`. -/
theorem exists_simple_chain {g : Graph} : ∀ (l : List String) (a b : String),
    List.Chain g.Edge a (l ++ [b]) →
    ∃ q, List.Chain g.Edge a (q ++ [b]) ∧ q.Nodup ∧ a ∉ q ∧ b ∉ q := by
  intro l
  induction l with
  | nil =>
    intro a b h
    exact ⟨[], h, List.nodup_nil, by simp, by simp⟩
  | cons x l ih =>
    intro a b h
    simp only [List.cons_append, List.chain_cons] at h
    by_cases hxb : x = b
    · subst hxb
      exact ⟨[], by simpa using h.1, List.nodup_nil, by simp, by simp⟩
    obtain ⟨q, hq, hnd, hxq, hbq⟩ := ih x b h.2
    by_cases hax : a = x
    · subst hax
      exact ⟨q, hq, hnd, hxq, hbq⟩
    by_cases haq : a ∈ q
    · obtain ⟨q1, q2, e⟩ := List.append_of_mem haq
      subst e
      have hc : List.Chain' g.Edge (x :: (q1 ++ a :: q2) ++ [b]) := hq
      have hc2 : List.Chain' g.Edge ((x :: q1) ++ a :: (q2 ++ [b])) := by simpa using hc
      have hc3 := (List.chain'_split.mp hc2).2
      have hnd2 := (List.nodup_append.mp hnd).2.1
      refine ⟨q2, hc3, (List.nodup_cons.mp hnd2).2, (List.nodup_cons.mp hnd2).1, ?_⟩
      intro hb
      exact hbq (by simp [hb])
    · refine ⟨x :: q, by simpa using ⟨h.1, hq⟩, List.nodup_cons.mpr ⟨hxq, hnd⟩, ?_, ?_⟩
      · simp [hax, haq]
      · simp [Ne.symm hxb, hbq]

/-- A vertex that reaches itself along at least one edge lies on an elementary circuit. -/
theorem exists_circuit_of_reachPlus {g : Graph} {v : String} (h : g.ReachPlus v v) :
    ∃ q, List.Chain g.Edge v (q ++ [v]) ∧ (v :: q).Nodup := by
  obtain ⟨l, hl⟩ := exists_chain_of_reachPlus h
  obtain ⟨q, hq, hnd, hv, _⟩ := exists_simple_chain l v v hl
  exact ⟨q, hq, List.nodup_cons.mpr ⟨hv, hnd⟩⟩

/-- On a closed path from `s` to `s`, every vertex is reached from `s` and reaches `s`. -/
theorem chain_mutual {g : Graph} {s : String} {q : List String}
    (h : List.Chain g.Edge s (q ++ [s])) {x : String} (hx : x ∈ q) :
    g.Reach s x ∧ g.Reach x s := by
  obtain ⟨q1, q2, e⟩ := List.append_of_mem hx
  subst e
  have hc : List.Chain' g.Edge ((s :: q1) ++ x :: (q2 ++ [s])) := by
    have : List.Chain' g.Edge (s :: (q1 ++ x :: q2) ++ [s]) := h
    simpa using this
  obtain ⟨h1, h2⟩ := List.chain'_split.mp hc
  constructor
  · have h1' : List.Chain g.Edge s (q1 ++ [x]) := h1
    exact (chain_reachPlus q1 s x h1').to_reach
  · have h2' : List.Chain g.Edge x (q2 ++ [s]) := h2
    exact (chain_reachPlus q2 x s h2').to_reach

theorem chain_head_key {g : Graph} {s b : String} {q : List String}
    (h : List.Chain g.Edge s (q ++ [b])) : s ∈ g.keys := by
  cases q with
  | nil =>
    simp only [List.nil_append, List.chain_cons] at h
    exact h.1.mem_keys
  | cons x q =>
    simp only [List.cons_append, List.chain_cons] at h
    exact h.1.mem_keys

theorem chain_mem_key {g : Graph} {s b : String} {q : List String}
    (h : List.Chain g.Edge s (q ++ [b])) {x : String} (hx : x ∈ q) : x ∈ g.keys := by
  obtain ⟨q1, q2, e⟩ := List.append_of_mem hx
  subst e
  have hc : List.Chain' g.Edge ((s :: q1) ++ x :: (q2 ++ [b])) := by
    have : List.Chain' g.Edge (s :: (q1 ++ x :: q2) ++ [b]) := h
    simpa using this
  have h2 : List.Chain g.Edge x (q2 ++ [b]) := (List.chain'_split.mp hc).2
  exact chain_head_key h2

/-- An elementary circuit can be written from any of its vertices. -/
theorem IsCircuit.rotate_to {g : Graph} {c : List String} (h : g.IsCircuit c) {s : String}
    (hs : s ∈ c) :
    ∃ n q, c.rotate n = s :: q ∧ List.Chain g.Edge s (q ++ [s]) ∧ (s :: q).Nodup := by
  obtain ⟨_, hnd, hch⟩ := h
  obtain ⟨a, b, e⟩ := List.append_of_mem hs
  subst e
  refine ⟨a.length, b ++ a, ?_, ?_, ?_⟩
  · rw [List.rotate_append_length_eq]; simp
  · cases a with
    | nil =>
      have : List.Chain' g.Edge (s :: b ++ [s]) := by simpa using hch
      simpa using this
    | cons a0 a =>
      have h1 : List.Chain' g.Edge ((a0 :: a) ++ s :: (b ++ [a0])) := by simpa using hch
      obtain ⟨h2, h3⟩ := List.chain'_split.mp h1
      have h4 : List.Chain' g.Edge ((s :: b) ++ a0 :: (a ++ [s])) :=
        List.chain'_split.mpr ⟨by simpa using h3, by simpa using h2⟩
      have h5 : List.Chain' g.Edge (s :: (b ++ a0 :: a) ++ [s]) := by simpa using h4
      exact h5
  · have hp : (s :: (b ++ a)).Perm (a ++ s :: b) := by
      have := @List.perm_append_comm _ (s :: b) a
      simpa using this
    exact hp.nodup_iff.mpr hnd

theorem exists_min_mem : ∀ (c : List String), c ≠ [] → ∃ s ∈ c, ∀ x ∈ c, s ≤ x := by
  intro c
  induction c with
  | nil => intro h; exact absurd rfl h
  | cons a c ih =>
    intro _
    by_cases hc : c = []
    · subst hc
      exact ⟨a, by simp, by simp⟩
    · obtain ⟨s, hs, hmin⟩ := ih hc
      by_cases has : a ≤ s
      · refine ⟨a, by simp, ?_⟩
        intro x hx
        rcases List.mem_cons.mp hx with rfl | hx
        · exact le_refl _
        · exact le_trans has (hmin x hx)
      · refine ⟨s, by simp [hs], ?_⟩
        intro x hx
        rcases List.mem_cons.mp hx with rfl | hx
        · exact le_of_lt (not_le.mp has)
        · exact hmin x hx

/-- A graph whose edges all decrease a rank has no directed cycle. -/
theorem acyclic_of_rank {g : Graph} (rank : String → Nat)
    (h : ∀ u ∈ g.keys, ∀ w ∈ g.adj u, rank w < rank u) : g.Acyclic := by
  have hlt : ∀ a b, g.ReachPlus a b → rank b < rank a := by
    intro a b hab
    induction hab with
    | single e => exact h _ e.mem_keys _ e
    | tail _ e ih => exact lt_trans (h _ e.mem_keys _ e) ih
  intro v hv
  exact lt_irrefl _ (hlt v v hv)

end Graph

namespace scc

/-- The result of `Find`: for every fuel above the number of vertices, the same list of
components, which are the strongly connected components of the graph. -/
theorem Find_spec (g : Graph) :
    ∃ ss, (∀ fuel, g.vertices.length ≤ fuel →
        Find fuel (NewTarjan (some g)) = some (.ok ss)) ∧
      ss.flatten.Nodup ∧ (∀ u, u ∈ ss.flatten ↔ u ∈ g.vertices) ∧
      ∀ c ∈ ss, c ≠ [] ∧ ∀ u ∈ c, ∀ x, x ∈ c ↔ (g.Reach u x ∧ g.Reach x u) := by
  obtain ⟨t, hF, hI, hst, hall⟩ := Find_ok g
  refine ⟨t.sccs, hF, ?_, ?_, hI.sccs_ok⟩
  · have := hI.nodup
    rw [hst] at this
    simpa using this
  · intro u
    constructor
    · intro hu
      exact hI.idx_vert u ((hI.indexed_iff u).mpr (Or.inr hu))
    · exact hall u

/-- Two vertices lie in one component exactly when each reaches the other. -/
theorem same_component_iff {g : Graph} {ss : List (List String)}
    (hcov : ∀ u, u ∈ ss.flatten ↔ u ∈ g.vertices)
    (hok : ∀ c ∈ ss, c ≠ [] ∧ ∀ u ∈ c, ∀ x, x ∈ c ↔ (g.Reach u x ∧ g.Reach x u))
    {u v : String} (hu : u ∈ g.vertices) :
    (∃ c ∈ ss, u ∈ c ∧ v ∈ c) ↔ (g.Reach u v ∧ g.Reach v u) := by
  constructor
  · rintro ⟨c, hc, huc, hvc⟩
    exact ((hok c hc).2 u huc v).mp hvc
  · intro h
    obtain ⟨c, hc, huc⟩ := List.mem_flatten.mp ((hcov u).mpr hu)
    exact ⟨c, hc, huc, ((hok c hc).2 u huc v).mpr h⟩

end scc

namespace cycle

/-- The result of `Find`: for every fuel above the number of keys, the same list of
circuits, with the properties of the invariant of the loop over the roots. -/
theorem circ_Find_spec (g : Graph) :
    ∃ cs ix, Numbering g ix ∧
      (∀ fuel, g.keys.length ≤ fuel →
        (Find fuel (NewTarjan (some g))).map Prod.fst = some (.ok cs)) ∧
      (∀ c ∈ cs, ∃ r, Sound g (num ix) r c) ∧
      (g.NoRepeat → cs.Nodup) ∧
      (∀ r ∈ g.keys, ∀ xs, List.Chain g.Edge r (xs ++ [r]) → (r :: xs).Nodup →
        (∀ x ∈ xs, num ix r < num ix x) → r :: xs ++ [r] ∈ cs) ∧
      cs.Pairwise (fun c d => ∀ a ∈ c.head?, ∀ b ∈ d.head?, a ≤ b) := by
  obtain ⟨ix, t, hN, hR, hF⟩ := circ_Find_ok g
  refine ⟨t.cycles, ix, hN, ?_, ?_, ?_, ?_, hR.sorted⟩
  · intro fuel hf
    rw [hF fuel hf]; rfl
  · intro c hc
    obtain ⟨r, _, h⟩ := hR.sound c hc
    exact ⟨r, h⟩
  · intro hn
    exact hR.nodup hn.adj_nodup
  · intro r hr
    exact hR.complete r ((mem_sortKeys g r).mpr hr)

/-- The shape of a recorded circuit. -/
theorem Sound.props {g : Graph} {nm : String → Nat} {r : String} {c : List String}
    (h : Sound g nm r c) :
    2 ≤ c.length ∧ c.head? = c.getLast? ∧ c.tail.Nodup ∧ c.Chain' g.Edge := by
  obtain ⟨q, e, hnd, hch, _⟩ := h
  subst e
  obtain ⟨hr, hq⟩ := List.nodup_cons.mp hnd
  refine ⟨by simp, ?_, ?_, hch⟩
  · have : r :: q ++ [r] = (r :: q) ++ [r] := rfl
    rw [this, List.getLast?_append]
    simp
  · show (q ++ [r]).Nodup
    rw [List.nodup_append]
    refine ⟨hq, List.nodup_singleton _, ?_⟩
    intro a ha hb
    rw [List.mem_singleton] at hb
    subst hb
    exact hr ha

theorem Sound.mem_reach {g : Graph} {nm : String → Nat} {r : String} {c : List String}
    (h : Sound g nm r c) {x : String} (hx : x ∈ c) : g.Reach r x ∧ g.Reach x r := by
  obtain ⟨q, e, _, hch, _⟩ := h
  subst e
  have : x = r ∨ x ∈ q := by
    simp at hx
    tauto
  rcases this with rfl | hq
  · exact ⟨Graph.Reach.refl g _, Graph.Reach.refl g _⟩
  · exact Graph.chain_mutual hch hq

theorem Sound.root_key {g : Graph} {nm : String → Nat} {r : String} {c : List String}
    (h : Sound g nm r c) : r ∈ g.keys := by
  obtain ⟨q, _, _, hch, _⟩ := h
  exact Graph.chain_head_key hch

/-- Two recorded circuits that are rotations of one another are equal. -/
theorem Sound.eq_of_rotate {g : Graph} {nm : String → Nat} {r1 r2 : String}
    {c d : List String} (hc : Sound g nm r1 c) (hd : Sound g nm r2 d) (n : Nat)
    (h : d.dropLast = c.dropLast.rotate n) : d = c := by
  obtain ⟨q1, e1, hnd1, _, hgt1⟩ := hc
  obtain ⟨q2, e2, hnd2, _, hgt2⟩ := hd
  subst e1
  subst e2
  have hd1 : (r1 :: q1 ++ [r1]).dropLast = r1 :: q1 := by
    have : r1 :: q1 ++ [r1] = (r1 :: q1) ++ [r1] := rfl
    rw [this, List.dropLast_concat]
  have hd2 : (r2 :: q2 ++ [r2]).dropLast = r2 :: q2 := by
    have : r2 :: q2 ++ [r2] = (r2 :: q2) ++ [r2] := rfl
    rw [this, List.dropLast_concat]
  rw [hd1, hd2] at h
  have hm2 : r2 ∈ r1 :: q1 := by
    have : r2 ∈ (r1 :: q1).rotate n := by rw [← h]; simp
    exact List.mem_rotate.mp this
  have hm1 : r1 ∈ r2 :: q2 := by
    rw [h]; exact List.mem_rotate.mpr (by simp)
  have hr : r1 = r2 := by
    rcases List.mem_cons.mp hm2 with e | hq
    · exact e.symm
    · rcases List.mem_cons.mp hm1 with e | hq2
      · exact e
      · have := hgt1 r2 hq
        have := hgt2 r1 hq2
        omega
  subst hr
  have hk : (r1 :: q1).rotate n = r1 :: q1 := by
    rw [List.rotate_eq_drop_append_take_mod]
    set k := n % (r1 :: q1).length with hk
    have hklt : k < (r1 :: q1).length := Nat.mod_lt _ (by simp)
    cases hk0 : k with
    | zero => simp
    | succ j =>
      exfalso
      have hrot : (r1 :: q1).rotate n = (r1 :: q1).drop k ++ (r1 :: q1).take k :=
        List.rotate_eq_drop_append_take_mod
      rw [← h, hk0] at hrot
      simp only [List.drop_succ_cons, List.take_succ_cons] at hrot
      have hj : j < q1.length := by
        rw [hk0] at hklt
        simpa using hklt
      have hne : q1.drop j ≠ [] := by
        intro hnil
        have := List.drop_eq_nil_iff.mp hnil
        omega
      obtain ⟨a, l, hal⟩ := List.exists_cons_of_ne_nil hne
      rw [hal] at hrot
      simp only [List.cons_append] at hrot
      injection hrot with ha _
      have : a ∈ q1 := List.mem_of_mem_drop (by rw [hal]; simp)
      rw [← ha] at this
      exact (List.nodup_cons.mp hnd1).1 this
  rw [hk] at h
  injection h with _ hq
  rw [hq]

/-- Every elementary circuit, written from its smallest vertex, is in the result. -/
theorem complete_circuit {g : Graph} {ix : String → Option Nat} (hN : Numbering g ix)
    {cs : List (List String)}
    (hcomp : ∀ r ∈ g.keys, ∀ xs, List.Chain g.Edge r (xs ++ [r]) → (r :: xs).Nodup →
      (∀ x ∈ xs, num ix r < num ix x) → r :: xs ++ [r] ∈ cs)
    {c : List String} (hc : g.IsCircuit c) :
    ∃ n s q, c.rotate n = s :: q ∧ (∀ x ∈ c, s ≤ x) ∧ s :: q ++ [s] ∈ cs := by
  obtain ⟨s, hs, hmin⟩ := Graph.exists_min_mem c hc.1
  obtain ⟨n, q, hrot, hch, hnd⟩ := hc.rotate_to hs
  refine ⟨n, s, q, hrot, hmin, ?_⟩
  have hsk := Graph.chain_head_key hch
  apply hcomp s hsk q hch hnd
  intro x hx
  have hxc : x ∈ c := by
    have : x ∈ c.rotate n := by rw [hrot]; simp [hx]
    exact List.mem_rotate.mp this
  have hne : s ≠ x := by
    rintro rfl
    exact (List.nodup_cons.mp hnd).1 hx
  have hlt : s < x := lt_of_le_of_ne (hmin x hxc) hne
  exact (hN.lt_iff_num ((hN.key_iff s).mpr hsk)
    ((hN.key_iff x).mpr (Graph.chain_mem_key hch hx))).mpr hlt

end cycle

theorem exists_ne_of_two_le {l : List String} (hnd : l.Nodup) (hlen : 2 ≤ l.length)
    (v : String) : ∃ x ∈ l, x ≠ v := by
  match l, hnd, hlen with
  | a :: b :: _, hnd, _ =>
    have hab : a ≠ b := by
      intro h
      have := (List.nodup_cons.mp hnd).1
      exact this (by simp [h])
    by_cases hav : a = v
    · exact ⟨b, by simp, fun h => hab (hav.trans h.symm)⟩
    · exact ⟨a, by simp, hav⟩

namespace Graph

theorem lookup_set (g : Graph) (k : String) (v : List String) (x : String) :
    (g.set k v).lookup x = if x = k then some v else g.lookup x := by
  induction g with
  | nil =>
    by_cases hx : x = k
    · subst hx; simp [set, List.lookup]
    · have hx2 : (x == k) = false := by simpa using hx
      simp [set, List.lookup, hx2, hx]
  | cons p g ih =>
    obtain ⟨a, b⟩ := p
    simp only [set]
    by_cases hak : a = k
    · subst hak
      rw [if_pos rfl]
      by_cases hx : x = a
      · subst hx; simp [List.lookup]
      · have hx2 : (x == a) = false := by simpa using hx
        simp [List.lookup, hx2, hx]
    · rw [if_neg hak]
      by_cases hx : x = a
      · subst hx
        simp [List.lookup, hak]
      · have hx2 : (x == a) = false := by simpa using hx
        simp only [List.lookup, hx2, ih]

theorem adj_set (g : Graph) (k : String) (v : List String) (x : String) :
    (g.set k v).adj x = if x = k then v else g.adj x := by
  unfold adj
  rw [lookup_set]
  by_cases hx : x = k
  · simp [hx]
  · simp [hx]

theorem mem_keys_set (g : Graph) (k : String) (v : List String) (x : String) :
    x ∈ (g.set k v).keys ↔ x = k ∨ x ∈ g.keys := by
  rw [mem_keys_iff, mem_keys_iff, lookup_set]
  by_cases hx : x = k
  · simp [hx]
  · simp [hx]

theorem not_mem_keys_iff (g : Graph) (v : String) : g.lookup v = none ↔ v ∉ g.keys := by
  rw [mem_keys_iff, ne_eq, not_not]

end Graph

namespace whisk

theorem walkDep_spec {env : Env} {rec : String → Handler → Option (Option WalkError × Handler)}
    (hrec : RecSpec env rec) {name dep : String} {h hc h3 : Handler} {dn : List String}
    {e : Option WalkError} (hI : WalkInv env name h dn none hc)
    (hdep : DepEdge env h.cookbookPaths name dep)
    (hw : walkDep rec name dep hc = some (e, h3)) :
    WalkInv env name h (dn ++ [dep]) e h3 := by
  unfold walkDep at hw
  simp only [] at hw
  have hadj : ∀ u, (hc.graph.set name (hc.graph.adj name ++ [dep])).adj u =
      if u = name then dn ++ [dep] else hc.graph.adj u := by
    intro u; rw [Graph.adj_set, hI.adj]
  have hkeys : ∀ u, u ∈ (hc.graph.set name (hc.graph.adj name ++ [dep])).keys ↔
      u ∈ hc.graph.keys := by
    intro u
    rw [Graph.mem_keys_set]
    constructor
    · rintro (rfl | hu)
      · exact hI.key
      · exact hu
    · exact Or.inr
  by_cases hk : (hc.graph.set name (hc.graph.adj name ++ [dep])).lookup dep = none
  · rw [if_pos hk] at hw
    have hdk : dep ∉ hc.graph.keys := by
      rw [← hkeys]; exact (Graph.not_mem_keys_iff _ _).mp hk
    have hne : name ≠ dep := fun h2 => hdk (h2 ▸ hI.key)
    have hP := hrec dep _ e h3 hw
    have hfr : ∀ u ∈ hc.graph.keys, h3.graph.adj u =
        if u = name then dn ++ [dep] else hc.graph.adj u := by
      intro u hu
      have hud : u ≠ dep := fun h2 => hdk (h2 ▸ hu)
      rw [hP.frame u ((hkeys u).mpr hu) hud]
      exact hadj u
    refine ⟨hP.paths.trans hI.paths, hP.roles.trans hI.roles, hP.rolesPath.trans hI.rolesPath,
      ?_, ?_, ?_, ?_, ?_, ?_, ?_⟩
    · intro u hu hun
      rw [hfr u (hI.mono u hu), if_neg hun]
      exact hI.frame u hu hun
    · intro u hu
      exact hP.mono u ((hkeys u).mpr (hI.mono u hu))
    · exact hP.mono name ((hkeys name).mpr hI.key)
    · rw [hfr name hI.key, if_pos rfl]
    · intro hpre
      apply hP.closed
      intro u w hw2
      have hw3 : w ∈ (hc.graph.set name (hc.graph.adj name ++ [dep])).adj u := hw2
      rw [hadj] at hw3
      show w = dep ∨ w ∈ (hc.graph.set name (hc.graph.adj name ++ [dep])).keys
      rw [hkeys]
      by_cases hun : u = name
      · rw [if_pos hun] at hw3
        rcases List.mem_append.mp hw3 with h4 | h4
        · right
          apply hI.closed hpre name
          rw [hI.adj]; exact h4
        · left; simpa using h4
      · rw [if_neg hun] at hw3
        exact Or.inr (hI.closed hpre u w hw3)
    · intro u hu
      rcases hP.sound u hu with h4 | h4
      · exact hI.sound u ((hkeys u).mp h4)
      · right
        have h5 : Relation.ReflTransGen (DepEdge env h.cookbookPaths) dep u := by
          have : ({ hc with graph := hc.graph.set name (hc.graph.adj name ++ [dep]) } :
              Handler).cookbookPaths = h.cookbookPaths := hI.paths
          rw [this] at h4
          exact h4
        exact Relation.ReflTransGen.head hdep h5
    · intro he u hu hu0 hun
      have hpaths : ({ hc with graph := hc.graph.set name (hc.graph.adj name ++ [dep]) } :
          Handler).cookbookPaths = h.cookbookPaths := hI.paths
      by_cases huc : u ∈ hc.graph.keys
      · obtain ⟨deps, h6, h7⟩ := hI.done rfl u huc hu0 hun
        refine ⟨deps, h6, ?_⟩
        rw [hfr u huc, if_neg hun]; exact h7
      · have := (hP.done he).2 u hu (fun h8 => huc ((hkeys u).mp h8))
        rw [hpaths] at this
        exact this
  · rw [if_neg hk] at hw
    injection hw with hw
    injection hw with he h3e
    subst he
    subst h3e
    have hdkey : dep ∈ hc.graph.keys := by
      rw [← hkeys]
      exact (Graph.mem_keys_iff _ _).mpr hk
    refine ⟨hI.paths, hI.roles, hI.rolesPath, ?_, ?_, ?_, ?_, ?_, ?_, ?_⟩
    · intro u hu hun
      show (hc.graph.set name (hc.graph.adj name ++ [dep])).adj u = _
      rw [hadj, if_neg hun]
      exact hI.frame u hu hun
    · intro u hu
      exact (hkeys u).mpr (hI.mono u hu)
    · exact (hkeys name).mpr hI.key
    · show (hc.graph.set name (hc.graph.adj name ++ [dep])).adj name = _
      rw [hadj, if_pos rfl]
    · intro hpre u w hw2
      have hw3 : w ∈ (hc.graph.set name (hc.graph.adj name ++ [dep])).adj u := hw2
      rw [hadj] at hw3
      show w ∈ (hc.graph.set name (hc.graph.adj name ++ [dep])).keys
      rw [hkeys]
      by_cases hun : u = name
      · rw [if_pos hun] at hw3
        rcases List.mem_append.mp hw3 with h4 | h4
        · apply hI.closed hpre name
          rw [hI.adj]; exact h4
        · have : w = dep := by simpa using h4
          rw [this]; exact hdkey
      · rw [if_neg hun] at hw3
        exact hI.closed hpre u w hw3
    · intro u hu
      exact hI.sound u ((hkeys u).mp hu)
    · intro _ u hu hu0 hun
      obtain ⟨deps, h6, h7⟩ := hI.done rfl u ((hkeys u).mp hu) hu0 hun
      refine ⟨deps, h6, ?_⟩
      show (hc.graph.set name (hc.graph.adj name ++ [dep])).adj u = _
      rw [hadj, if_neg hun]; exact h7

theorem walkDeps_spec {env : Env} {rec : String → Handler → Option (Option WalkError × Handler)}
    (hrec : RecSpec env rec) {name : String} {h : Handler} :
    ∀ (ds dn : List String) (hc h3 : Handler) (e : Option WalkError),
      WalkInv env name h dn none hc → (∀ d ∈ ds, DepEdge env h.cookbookPaths name d) →
      walkDeps rec name ds hc = some (e, h3) →
      ∃ dn2, WalkInv env name h dn2 e h3 ∧ (e = none → dn2 = dn ++ ds) := by
  intro ds
  induction ds with
  | nil =>
    intro dn hc h3 e hI _ hw
    simp only [walkDeps] at hw
    injection hw with hw
    injection hw with he h3e
    subst he; subst h3e
    exact ⟨dn, hI, fun _ => by simp⟩
  | cons d ds ih =>
    intro dn hc h3 e hI hds hw
    simp only [walkDeps] at hw
    cases hd : walkDep rec name d hc with
    | none => rw [hd] at hw; exact absurd hw (by simp)
    | some r =>
      obtain ⟨e1, h1⟩ := r
      rw [hd] at hw
      have hI1 := walkDep_spec hrec hI (hds d (by simp)) hd
      cases e1 with
      | some err =>
        simp only [] at hw
        injection hw with hw
        injection hw with he h3e
        subst he; subst h3e
        exact ⟨_, hI1, fun h2 => absurd h2 (by simp)⟩
      | none =>
        simp only [] at hw
        obtain ⟨dn2, hI2, hdn⟩ := ih (dn ++ [d]) h1 h3 e hI1
          (fun x hx => hds x (by simp [hx])) hw
        exact ⟨dn2, hI2, fun he => by rw [hdn he]; simp⟩

theorem walkCookbook_spec (env : Env) : ∀ fuel, RecSpec env (walkCookbook env fuel) := by
  intro fuel
  induction fuel with
  | zero =>
    intro name h e h2 hw
    simp [walkCookbook] at hw
  | succ n ih =>
    intro name h e h2 hw
    simp only [walkCookbook] at hw
    have hadj : ∀ u, (h.graph.set name []).adj u = if u = name then [] else h.graph.adj u :=
      fun u => Graph.adj_set _ _ _ _
    have hkeys : ∀ u, u ∈ (h.graph.set name []).keys ↔ u = name ∨ u ∈ h.graph.keys :=
      fun u => Graph.mem_keys_set _ _ _ _
    have hclosed : (∀ u, ∀ w ∈ h.graph.adj u, w = name ∨ w ∈ h.graph.keys) →
        ∀ u, ∀ w ∈ (h.graph.set name []).adj u, w ∈ (h.graph.set name []).keys := by
      intro hpre u w hw2
      rw [hadj] at hw2
      rw [hkeys]
      by_cases hun : u = name
      · rw [if_pos hun] at hw2; simp at hw2
      · rw [if_neg hun] at hw2
        exact hpre u w hw2
    have hsound : ∀ u ∈ (h.graph.set name []).keys,
        u ∈ h.graph.keys ∨ Relation.ReflTransGen (DepEdge env h.cookbookPaths) name u := by
      intro u hu
      rcases (hkeys u).mp hu with rfl | h4
      · exact Or.inr Relation.ReflTransGen.refl
      · exact Or.inl h4
    cases hl : env.LoadDeps h.cookbookPaths name with
    | none => rw [hl] at hw; simp at hw
    | some res =>
    cases res with
    | error err =>
      rw [hl] at hw
      simp only [] at hw
      injection hw with hw
      injection hw with he h2e
      subst he; subst h2e
      refine ⟨rfl, rfl, rfl, ?_, ?_, ?_, hclosed, hsound, fun h3 => absurd h3 (by simp)⟩
      · intro u _ hun
        show (h.graph.set name []).adj u = _
        rw [hadj, if_neg hun]
      · intro u hu
        exact (hkeys u).mpr (Or.inr hu)
      · exact (hkeys name).mpr (Or.inl rfl)
    | ok deps =>
      rw [hl] at hw
      simp only [] at hw
      have hI0 : WalkInv env name h [] none { h with graph := h.graph.set name [] } := by
        refine ⟨rfl, rfl, rfl, ?_, ?_, ?_, ?_, hclosed, hsound, ?_⟩
        · intro u _ hun
          show (h.graph.set name []).adj u = _
          rw [hadj, if_neg hun]
        · intro u hu
          exact (hkeys u).mpr (Or.inr hu)
        · exact (hkeys name).mpr (Or.inl rfl)
        · show (h.graph.set name []).adj name = _
          rw [hadj, if_pos rfl]
        · intro _ u hu hu0 hun
          rcases (hkeys u).mp hu with h4 | h4
          · exact absurd h4 hun
          · exact absurd h4 hu0
      obtain ⟨dn2, hI, hdn⟩ := walkDeps_spec ih (sortKeys deps) [] _ h2 e hI0
        (fun d hd => ⟨deps, hl, hd⟩) hw
      refine ⟨hI.paths, hI.roles, hI.rolesPath, hI.frame, hI.mono, hI.key, hI.closed, hI.sound,
        ?_⟩
      intro he
      have hdone : Done env h.cookbookPaths h2.graph name :=
        ⟨deps, hl, by rw [hI.adj, hdn he]; simp⟩
      refine ⟨hdone, ?_⟩
      intro u hu hu0
      by_cases hun : u = name
      · rw [hun]; exact hdone
      · exact hI.done he u hu hu0 hun

end whisk

namespace whisk

theorem unseen_mono (l : List String) {g k : Graph} (h : ∀ u ∈ g.keys, u ∈ k.keys) :
    unseen l k ≤ unseen l g := by
  unfold unseen
  rw [← List.countP_eq_length_filter, ← List.countP_eq_length_filter]
  apply List.countP_mono_left
  intro x _ hx
  simp only [decide_eq_true_eq] at hx ⊢
  exact fun h2 => hx (h x h2)

theorem unseen_lt (l : List String) {g k : Graph} (h : ∀ u ∈ g.keys, u ∈ k.keys)
    {d : String} (hd : d ∈ l) (h1 : d ∉ g.keys) (h2 : d ∈ k.keys) :
    unseen l k < unseen l g := by
  unfold unseen
  rw [← List.countP_eq_length_filter, ← List.countP_eq_length_filter]
  apply scc.countP_lt_of_imp _ _ _ d (List.mem_dedup.mpr hd)
  · intro x hx
    simp only [decide_eq_true_eq] at hx ⊢
    exact fun h3 => hx (h x h3)
  · simpa using h1
  · simpa using h2

theorem walkDeps_term {env : Env} {l paths : List String} {n : Nat} {name : String}
    (IH : ∀ x h, x ∈ l → h.cookbookPaths = paths → Enough l n x h →
      ∃ r, walkCookbook env n x h = some r) :
    ∀ (ds : List String) (hc : Handler), (∀ d ∈ ds, d ∈ l) → hc.cookbookPaths = paths →
      name ∈ hc.graph.keys → unseen l hc.graph ≤ n →
      ∃ r, walkDeps (walkCookbook env n) name ds hc = some r := by
  intro ds
  induction ds with
  | nil => intro hc _ _ _ _; exact ⟨_, rfl⟩
  | cons d ds ih =>
    intro hc hds hp hk hn
    have hkeys : ∀ u, u ∈ (hc.graph.set name (hc.graph.adj name ++ [d])).keys ↔
        u ∈ hc.graph.keys := by
      intro u
      rw [Graph.mem_keys_set]
      constructor
      · rintro (rfl | hu)
        · exact hk
        · exact hu
      · exact Or.inr
    have hmono := @unseen_mono l hc.graph (hc.graph.set name (hc.graph.adj name ++ [d]))
      (fun u hu => (hkeys u).mpr hu)
    have hstep : ∃ e h3, walkDep (walkCookbook env n) name d hc = some (e, h3) ∧
        h3.cookbookPaths = paths ∧ name ∈ h3.graph.keys ∧ unseen l h3.graph ≤ n := by
      unfold walkDep
      simp only []
      by_cases hl : (hc.graph.set name (hc.graph.adj name ++ [d])).lookup d = none
      · rw [if_pos hl]
        have hdk : d ∉ (hc.graph.set name (hc.graph.adj name ++ [d])).keys :=
          (Graph.not_mem_keys_iff _ _).mp hl
        have hdl : d ∈ l := hds d (by simp)
        have hen : Enough l n d
            { hc with graph := hc.graph.set name (hc.graph.adj name ++ [d]) } := by
          have h1 := @unseen_lt l (hc.graph.set name (hc.graph.adj name ++ [d]))
            ((hc.graph.set name (hc.graph.adj name ++ [d])).set d [])
            (fun u hu => (Graph.mem_keys_set _ _ _ _).mpr (Or.inr hu)) d hdl hdk
            ((Graph.mem_keys_set _ _ _ _).mpr (Or.inl rfl))
          show unseen l ((hc.graph.set name (hc.graph.adj name ++ [d])).set d []) + 1 ≤ n
          omega
        obtain ⟨r, hr⟩ := IH d { hc with graph := hc.graph.set name (hc.graph.adj name ++ [d]) }
          hdl hp hen
        obtain ⟨e, h3⟩ := r
        have hP := walkCookbook_spec env n d _ e h3 hr
        refine ⟨e, h3, hr, hP.paths.trans hp, hP.mono name ((hkeys name).mpr hk), ?_⟩
        have := @unseen_mono l hc.graph h3.graph
          (fun u hu => hP.mono u ((hkeys u).mpr hu))
        omega
      · rw [if_neg hl]
        refine ⟨none, _, rfl, hp, (hkeys name).mpr hk, ?_⟩
        show unseen l (hc.graph.set name (hc.graph.adj name ++ [d])) ≤ n
        omega
    obtain ⟨e, h3, hw, hp3, hk3, hn3⟩ := hstep
    simp only [walkDeps, hw]
    cases e with
    | some err => exact ⟨_, rfl⟩
    | none => exact ih h3 (fun x hx => hds x (by simp [hx])) hp3 hk3 hn3

theorem walkCookbook_term {env : Env} {l paths : List String}
    (hfin : ∀ x deps, env.LoadDeps paths x = some (.ok deps) → ∀ d ∈ sortKeys deps, d ∈ l)
    (hnp : ∀ x ∈ l, env.LoadDeps paths x ≠ none) :
    ∀ fuel name h, h.cookbookPaths = paths → env.LoadDeps paths name ≠ none →
      Enough l fuel name h → ∃ r, walkCookbook env fuel name h = some r := by
  intro fuel
  induction fuel with
  | zero =>
    intro name h _ _ hen
    unfold Enough at hen
    omega
  | succ n ih =>
    intro name h hp hname hen
    unfold Enough at hen
    simp only [walkCookbook]
    rw [hp]
    cases hl : env.LoadDeps paths name with
    | none => exact absurd hl hname
    | some res =>
    cases res with
    | error err => exact ⟨_, rfl⟩
    | ok deps =>
      simp only []
      exact walkDeps_term (fun x h2 hx hp2 hen2 => ih x h2 hp2 (hnp x hx) hen2)
        (sortKeys deps) _ (hfin name deps hl) rfl
        ((Graph.mem_keys_set _ _ _ _).mpr (Or.inl rfl)) (by
          show unseen l (h.graph.set name []) ≤ n
          omega)

theorem unseen_le_length (l : List String) (g : Graph) : unseen l g ≤ l.dedup.length := by
  unfold unseen
  exact List.length_filter_le _ _

/-- With enough fuel `walkCookbook` returns, unless `LoadDeps` panics on the cookbook or
on one of the names that cookbooks declare as dependencies. -/
theorem walkCookbook_returns (env : Env) (l : List String) (name : String) (h : Handler)
    (hfin : ∀ x deps, env.LoadDeps h.cookbookPaths x = some (.ok deps) →
      ∀ d ∈ sortKeys deps, d ∈ l)
    (fuel : Nat) (hf : l.dedup.length + 1 ≤ fuel) :
    (∃ e h2, walkCookbook env fuel name h = some (e, h2)) ∨
      ∃ x, (x = name ∨ x ∈ l) ∧ env.LoadDeps h.cookbookPaths x = none := by
  by_cases hp : ∃ x, (x = name ∨ x ∈ l) ∧ env.LoadDeps h.cookbookPaths x = none
  · exact Or.inr hp
  · left
    have hnp : ∀ x, (x = name ∨ x ∈ l) → env.LoadDeps h.cookbookPaths x ≠ none :=
      fun x hx hn => hp ⟨x, hx, hn⟩
    have hen : Enough l fuel name h := by
      have := unseen_le_length l (h.graph.set name [])
      unfold Enough
      omega
    obtain ⟨⟨e, h2⟩, hr⟩ := walkCookbook_term hfin (fun x hx => hnp x (Or.inr hx)) fuel name h
      rfl (hnp name (Or.inl rfl)) hen
    exact ⟨e, h2, hr⟩

end whisk

namespace whisk

theorem form_of_affixes (p : List Char) (c : Char) (hlast : p.getLast? ≠ some c)
    (l : List Char) (hp : p <+: l) (hs : [c] <:+ l) : ∃ m, l = p ++ m ++ [c] := by
  obtain ⟨r, hr⟩ := hp
  obtain ⟨r2, hr2⟩ := hs
  rcases List.eq_nil_or_concat r with h | ⟨m, x, h⟩
  · subst h
    exfalso
    apply hlast
    have : p = r2 ++ [c] := by rw [hr2, ← hr]; simp
    rw [this]; simp
  · subst h
    have h1 : (p ++ m) ++ [x] = r2 ++ [c] := by rw [hr2, ← hr]; simp
    have h2 := List.append_inj' h1 rfl
    have h3 : x = c := by simpa using h2.2
    subst h3
    exact ⟨m, by rw [← hr]; simp⟩

theorem slice_middle (p m : List Char) (c : Char) :
    slice (p ++ m ++ [c]) p.length ((p ++ m ++ [c]).length - 1) = some m := by
  unfold slice
  have h1 : (p ++ m ++ [c]).length - 1 = (p ++ m).length := by simp
  rw [h1, if_pos ⟨by simp, by simp⟩, List.take_left' rfl, List.drop_left' rfl]

theorem affixes_of_form (p m : List Char) (c : Char) :
    p.isPrefixOf (p ++ m ++ [c]) = true ∧ [c].isSuffixOf (p ++ m ++ [c]) = true := by
  constructor
  · rw [List.isPrefixOf_iff_prefix, List.append_assoc]
    exact List.prefix_append _ _
  · rw [List.isSuffixOf_iff_suffix]
    exact List.suffix_append _ _

theorem IsRoleRef.role_unique {dep X Y : String} (h1 : IsRoleRef dep X) (h2 : IsRoleRef dep Y) :
    X = Y := by
  unfold IsRoleRef at h1 h2
  rw [h1] at h2
  have h3 := List.append_cancel_right h2
  have h4 := List.append_cancel_left h3
  exact String.ext h4

theorem IsRecipeRef.recipe_unique {dep X Y : String} (h1 : IsRecipeRef dep X)
    (h2 : IsRecipeRef dep Y) : X = Y := by
  obtain ⟨r1, e1, rfl⟩ := h1
  obtain ⟨r2, e2, rfl⟩ := h2
  rw [e1] at e2
  have h3 := List.append_cancel_right e2
  have h4 := List.append_cancel_left h3
  rw [h4]

theorem IsRecipeRef.not_role {dep C : String} (h : IsRecipeRef dep C) :
    ¬ ("role[".toList.isPrefixOf dep.toList = true) := by
  obtain ⟨r, e, _⟩ := h
  rw [e]
  simp [List.isPrefixOf]

theorem IsRoleRef.not_recipe {dep X C : String} (h : IsRoleRef dep X) (h2 : IsRecipeRef dep C) :
    False := by
  apply h2.not_role
  unfold IsRoleRef at h
  rw [h, List.isPrefixOf_iff_prefix, List.append_assoc]
  exact List.prefix_append _ _

/-- The branch of `walkEntry` taken for an entry `role[X]`. -/
theorem walkEntry_role (env : Env)
    (recRole : String → Handler → Option (Option WalkError × Handler)) (fuel : Nat)
    {dep X : String} (hd : IsRoleRef dep X) (h : Handler) :
    walkEntry env recRole fuel dep h =
      match recRole X h with
      | none => none
      | some (some e, h) => some (some (.runList e), h)
      | some (none, h) => some (none, h) := by
  unfold IsRoleRef at hd
  have hc := affixes_of_form "role[".toList X.toList ']'
  have hs := slice_middle "role[".toList X.toList ']'
  have h1 : "]".toList = [']'] := rfl
  rw [h1] at hd
  rw [← hd] at hc hs
  unfold walkEntry
  rw [if_pos ⟨hc.1, hc.2⟩]
  have h2 : dep.length = dep.toList.length := rfl
  have h3 : "role[".toList.length = 5 := rfl
  rw [h2, ← h3, hs]
  rfl

/-- The branch of `walkEntry` taken for an entry `recipe[...]` that names the cookbook
`C`. -/
theorem walkEntry_recipe (env : Env)
    (recRole : String → Handler → Option (Option WalkError × Handler)) (fuel : Nat)
    {dep C : String} (hd : IsRecipeRef dep C) (h : Handler) :
    walkEntry env recRole fuel dep h = walkCookbook env fuel C h := by
  have hnr := hd.not_role
  obtain ⟨r, e, rfl⟩ := hd
  have hc := affixes_of_form "recipe[".toList r ']'
  have hs := slice_middle "recipe[".toList r ']'
  have h1 : "]".toList = [']'] := rfl
  rw [h1] at e
  rw [← e] at hc hs
  unfold walkEntry
  rw [if_neg (fun h4 => hnr h4.1), if_pos ⟨hc.1, hc.2⟩]
  have h2 : dep.length = dep.toList.length := rfl
  have h3 : "recipe[".toList.length = 7 := rfl
  rw [h2, ← h3, hs]

/-- An entry is `role[X]`, or `recipe[...]`, or `walkEntry` rejects it. -/
theorem walkEntry_cases (env : Env)
    (recRole : String → Handler → Option (Option WalkError × Handler)) (fuel : Nat)
    (dep : String) (h : Handler) :
    (∃ X, IsRoleRef dep X) ∨ (∃ C, IsRecipeRef dep C) ∨
      walkEntry env recRole fuel dep h = some (some (.invalidEntry dep), h) := by
  by_cases h1 : "role[".toList.isPrefixOf dep.toList = true ∧
      "]".toList.isSuffixOf dep.toList = true
  · left
    obtain ⟨m, hm⟩ := form_of_affixes "role[".toList ']' (by decide) dep.toList
      (List.isPrefixOf_iff_prefix.mp h1.1) (List.isSuffixOf_iff_suffix.mp h1.2)
    exact ⟨String.mk m, hm⟩
  · by_cases h2 : "recipe[".toList.isPrefixOf dep.toList = true ∧
        "]".toList.isSuffixOf dep.toList = true
    · right; left
      obtain ⟨m, hm⟩ := form_of_affixes "recipe[".toList ']' (by decide) dep.toList
        (List.isPrefixOf_iff_prefix.mp h2.1) (List.isSuffixOf_iff_suffix.mp h2.2)
      exact ⟨_, m, hm, rfl⟩
    · right; right
      unfold walkEntry
      rw [if_neg h1, if_neg h2]

end whisk

namespace whisk

theorem Seed.of_edge {idx : List (String × chef.Role)} {R X S : String}
    (he : RoleEdge idx R X) (hs : Seed idx X S) : Seed idx R S := by
  obtain ⟨R2, role, hr, hl, hd⟩ := hs
  exact ⟨R2, role, Relation.ReflTransGen.head he hr, hl, hd⟩

theorem Seed.cases {idx : List (String × chef.Role)} {R S : String} {role : chef.Role}
    (hl : idx.lookup R = some role) (hs : Seed idx R S) :
    (∃ dep ∈ role.RunList, IsRecipeRef dep S) ∨
      ∃ dep ∈ role.RunList, ∃ X, IsRoleRef dep X ∧ Seed idx X S := by
  obtain ⟨R2, role2, hr, hl2, hd⟩ := hs
  rcases Relation.ReflTransGen.cases_head hr with h | ⟨X, he, hr2⟩
  · subst h
    rw [hl] at hl2
    injection hl2 with h3
    subst h3
    exact Or.inl hd
  · right
    obtain ⟨role3, hl3, dep, hdep, hx⟩ := he
    rw [hl] at hl3
    injection hl3 with h3
    subst h3
    exact ⟨dep, hdep, X, hx, R2, role2, hr2, hl2, hd⟩

theorem closed_pre {g : Graph} (h : g.Closed) (C : String) :
    ∀ u, ∀ w ∈ g.adj u, w = C ∨ w ∈ g.keys :=
  fun u w hw => Or.inr (h u w hw)

/-- After a successful `walkCookbook`, every key has its sorted declared dependencies as
edge list, provided every key had before. -/
theorem WalkPost.all_done {env : Env} {C : String} {h h2 : Handler}
    (hP : WalkPost env C h none h2)
    (hd : ∀ u ∈ h.graph.keys, Done env h.cookbookPaths h.graph u) :
    ∀ u ∈ h2.graph.keys, Done env h.cookbookPaths h2.graph u := by
  intro u hu
  obtain ⟨h1, h3⟩ := hP.done rfl
  by_cases huk : u ∈ h.graph.keys
  · by_cases huc : u = C
    · rw [huc]; exact h1
    · obtain ⟨deps, h4, h5⟩ := hd u huk
      exact ⟨deps, h4, by rw [hP.frame u huk huc]; exact h5⟩
  · exact h3 u hu huk

theorem walkEntry_step {env : Env}
    {recRole : String → Handler → Option (Option WalkError × Handler)} (hrec : RoleRec env recRole)
    {fuel : Nat} {name dep : String} {h hc h3 : Handler} {dn : List String}
    {e : Option WalkError} {role : chef.Role} (hidx : h.rolesIndex ≠ [])
    (hl : h.rolesIndex.lookup name = some role) (hdep : dep ∈ role.RunList)
    (hI : RunInv env name h dn none hc)
    (hw : walkEntry env recRole fuel dep hc = some (e, h3)) :
    RunInv env name h (dn ++ [dep]) e h3 := by
  have hold : ∀ (hm : ∀ u ∈ hc.graph.keys, u ∈ h3.graph.keys), e = none → ∀ d ∈ dn,
      (∀ C, IsRecipeRef d C → C ∈ h3.graph.keys) ∧
        ∀ X, IsRoleRef d X → ∀ S, Seed h.rolesIndex X S → S ∈ h3.graph.keys := by
    intro hm _ d hd
    obtain ⟨h1, h2⟩ := hI.seeds rfl d hd
    exact ⟨fun C hC => hm C (h1 C hC), fun X hX S hS => hm S (h2 X hX S hS)⟩
  rcases walkEntry_cases env recRole fuel dep hc with ⟨X, hX⟩ | ⟨C, hC⟩ | hinv
  · rw [walkEntry_role env recRole fuel hX] at hw
    cases hr : recRole X hc with
    | none => rw [hr] at hw; exact absurd hw (by simp)
    | some r =>
      obtain ⟨e1, h4⟩ := r
      rw [hr] at hw
      have hidx2 : hc.rolesIndex ≠ [] := by rw [hI.roles]; exact hidx
      have hP := hrec X hc e1 h4 hidx2 hr
      have he : e = none → e1 = none := by
        intro hen
        cases e1 with
        | none => rfl
        | some err =>
          simp only [] at hw
          injection hw with hw
          injection hw with h5 _
          rw [hen] at h5
          exact absurd h5 (by simp)
      have h34 : h3 = h4 := by
        cases e1 with
        | none =>
          simp only [] at hw
          injection hw with hw
          injection hw with _ h5
          exact h5.symm
        | some err =>
          simp only [] at hw
          injection hw with hw
          injection hw with _ h5
          exact h5.symm
      subst h34
      have hmono : ∀ u ∈ hc.graph.keys, u ∈ h3.graph.keys := hP.mono
      refine ⟨hP.paths.trans hI.paths, hP.roles.trans hI.roles,
        fun u hu => hmono u (hI.mono u hu), fun hcl => hP.closed (hI.closed hcl), ?_, ?_, ?_⟩
      · intro u hu
        rcases hP.sound u hu with h5 | ⟨S, hS, hSu⟩
        · exact hI.sound u h5
        · right
          rw [hI.roles] at hS
          rw [hI.paths] at hSu
          exact ⟨S, Seed.of_edge ⟨role, hl, dep, hdep, hX⟩ hS, hSu⟩
      · intro hen hd
        have h5 := hP.done (he hen) (by rw [hI.paths]; exact hI.done rfl hd)
        rw [hI.paths] at h5
        exact h5
      · intro hen d hd
        rcases List.mem_append.mp hd with h5 | h5
        · exact hold hmono hen d h5
        · have : d = dep := by simpa using h5
          subst this
          refine ⟨fun C hC => absurd hC (fun h6 => hX.not_recipe h6), ?_⟩
          intro X2 hX2 S hS
          have := hX.role_unique hX2
          subst this
          apply hP.seeds (he hen) S
          rw [hI.roles]; exact hS
  · rw [walkEntry_recipe env recRole fuel hC] at hw
    have hP := walkCookbook_spec env fuel C hc e h3 hw
    have hmono : ∀ u ∈ hc.graph.keys, u ∈ h3.graph.keys := hP.mono
    refine ⟨hP.paths.trans hI.paths, hP.roles.trans hI.roles,
      fun u hu => hmono u (hI.mono u hu), ?_, ?_, ?_, ?_⟩
    · intro hcl u w huw
      exact hP.closed (closed_pre (hI.closed hcl) C) u w huw
    · intro u hu
      rcases hP.sound u hu with h5 | h5
      · exact hI.sound u h5
      · right
        rw [hI.paths] at h5
        exact ⟨C, ⟨name, role, Relation.ReflTransGen.refl, hl, dep, hdep, hC⟩, h5⟩
    · intro hen hd
      subst hen
      have h5 := hP.all_done (by rw [hI.paths]; exact hI.done rfl hd)
      rw [hI.paths] at h5
      exact h5
    · intro hen d hd
      rcases List.mem_append.mp hd with h5 | h5
      · exact hold hmono hen d h5
      · have : d = dep := by simpa using h5
        subst this
        refine ⟨?_, fun X hX => absurd hC (fun h6 => hX.not_recipe h6)⟩
        intro C2 hC2
        have := hC.recipe_unique hC2
        subst this
        exact hP.key
  · rw [hinv] at hw
    injection hw with hw
    injection hw with he h5
    subst he
    subst h5
    exact ⟨hI.paths, hI.roles, hI.mono, hI.closed, hI.sound,
      fun h6 => absurd h6 (by simp), fun h6 => absurd h6 (by simp)⟩

theorem walkRunList_spec {env : Env}
    {recRole : String → Handler → Option (Option WalkError × Handler)} (hrec : RoleRec env recRole)
    {fuel : Nat} {name : String} {h : Handler} {role : chef.Role} (hidx : h.rolesIndex ≠ [])
    (hl : h.rolesIndex.lookup name = some role) :
    ∀ (ds dn : List String) (hc h3 : Handler) (e : Option WalkError),
      (∀ d ∈ ds, d ∈ role.RunList) → RunInv env name h dn none hc →
      walkRunList env recRole fuel ds hc = some (e, h3) →
      ∃ dn2, RunInv env name h dn2 e h3 ∧ (e = none → dn2 = dn ++ ds) := by
  intro ds
  induction ds with
  | nil =>
    intro dn hc h3 e _ hI hw
    simp only [walkRunList] at hw
    injection hw with hw
    injection hw with he h3e
    subst he; subst h3e
    exact ⟨dn, hI, fun _ => by simp⟩
  | cons d ds ih =>
    intro dn hc h3 e hds hI hw
    simp only [walkRunList] at hw
    cases hd : walkEntry env recRole fuel d hc with
    | none => rw [hd] at hw; exact absurd hw (by simp)
    | some r =>
      obtain ⟨e1, h1⟩ := r
      rw [hd] at hw
      have hI1 := walkEntry_step hrec hidx hl (hds d (by simp)) hI hd
      cases e1 with
      | some err =>
        simp only [] at hw
        injection hw with hw
        injection hw with he h3e
        subst he; subst h3e
        exact ⟨_, hI1, fun h2 => absurd h2 (by simp)⟩
      | none =>
        simp only [] at hw
        obtain ⟨dn2, hI2, hdn⟩ := ih (dn ++ [d]) h1 h3 e
          (fun x hx => hds x (by simp [hx])) hI1 hw
        exact ⟨dn2, hI2, fun he => by rw [hdn he]; simp⟩

theorem WalkRole_loaded (env : Env) (n : Nat) (name : String) (h : Handler)
    (hidx : h.rolesIndex ≠ []) :
    WalkRole env (n + 1) name h =
      match h.rolesIndex.lookup name with
      | none => some (some (.roleNotFound name), h)
      | some role => walkRunList env (WalkRole env n) n role.RunList h := by
  have hlen : ¬ h.rolesIndex.length = 0 := by
    intro h0
    exact hidx (List.length_eq_zero.mp h0)
  simp only [WalkRole, if_neg hlen]
  try rfl

theorem WalkRole_spec (env : Env) : ∀ fuel, RoleRec env (WalkRole env fuel) := by
  intro fuel
  induction fuel with
  | zero =>
    intro name h e h2 _ hw
    simp [WalkRole] at hw
  | succ n ih =>
    intro name h e h2 hidx hw
    rw [WalkRole_loaded env n name h hidx] at hw
    cases hl : h.rolesIndex.lookup name with
    | none =>
      rw [hl] at hw
      simp only [] at hw
      injection hw with hw
      injection hw with he h2e
      subst he; subst h2e
      exact ⟨rfl, rfl, fun _ hu => hu, fun hc => hc, fun u hu => Or.inl hu,
        fun h3 => absurd h3 (by simp), fun h3 => absurd h3 (by simp)⟩
    | some role =>
      rw [hl] at hw
      simp only [] at hw
      have hI0 : RunInv env name h [] none h :=
        ⟨rfl, rfl, fun _ hu => hu, fun hc => hc, fun u hu => Or.inl hu, fun _ hd => hd,
          fun _ d hd => absurd hd (by simp)⟩
      obtain ⟨dn2, hI, hdn⟩ := walkRunList_spec ih hidx hl role.RunList [] h h2 e
        (fun d hd => hd) hI0 hw
      refine ⟨hI.paths, hI.roles, hI.mono, hI.closed, hI.sound, hI.done, ?_⟩
      intro he S hS
      have hdn2 : dn2 = role.RunList := by rw [hdn he]; simp
      rcases hS.cases hl with ⟨dep, hdep, hr⟩ | ⟨dep, hdep, X, hX, hSX⟩
      · exact (hI.seeds he dep (by rw [hdn2]; exact hdep)).1 S hr
      · exact (hI.seeds he dep (by rw [hdn2]; exact hdep)).2 X hX S hSX

/-- A successful `WalkRole` on a fresh handler loads the role index without error and then
runs as on the handler that holds this index. -/
theorem WalkRole_fresh {env : Env} {fuel : Nat} {R0 : String} {paths : List String}
    {rp : String} {h2 : Handler}
    (hw : WalkRole env fuel R0 (NewHandler paths rp) = some (none, h2)) :
    ∃ idx, env.loadRoles rp = some (idx, none) ∧ idx ≠ [] ∧
      WalkRole env fuel R0 { NewHandler paths rp with rolesIndex := idx } = some (none, h2) := by
  cases fuel with
  | zero => simp [WalkRole] at hw
  | succ n =>
    have hw2 := hw
    simp only [WalkRole, NewHandler, List.length_nil, if_true] at hw2
    cases hld : env.loadRoles rp with
    | none =>
      rw [hld] at hw2
      simp at hw2
    | some r =>
      obtain ⟨idx, err⟩ := r
      rw [hld] at hw2
      cases err with
      | some x =>
        simp only [] at hw2
        injection hw2 with hw2
        injection hw2 with h3 _
        exact absurd h3 (by simp)
      | none =>
        simp only [] at hw2
        have hne : idx ≠ [] := by
          rintro rfl
          simp at hw2
        refine ⟨idx, rfl, hne, ?_⟩
        rw [WalkRole_loaded env n R0 _ hne]
        exact hw2

theorem sortKeys_deps_pairwise (deps : chef.Deps) : (sortKeys deps).Pairwise (· < ·) := by
  have h1 : (sortKeys deps).Sorted strLe := by
    unfold sortKeys
    have : IsTotal String strLe := ⟨fun a b => by
      simp only [strLe_iff]; exact le_total a b⟩
    have : IsTrans String strLe := ⟨fun a b c => by
      simp only [strLe_iff]; exact le_trans⟩
    exact List.sorted_insertionSort strLe _
  have h2 : (sortKeys deps).Nodup := by
    unfold sortKeys
    exact (List.perm_insertionSort strLe _).nodup_iff.mpr (List.nodup_dedup _)
  have h3 : (sortKeys deps).Pairwise (fun a b => strLe a b ∧ a ≠ b) :=
    List.Pairwise.and h1 h2
  refine h3.imp ?_
  intro a b ⟨hab, hne⟩
  exact lt_of_le_of_ne ((strLe_iff a b).mp hab) hne

theorem mem_sortKeys_deps (deps : chef.Deps) (d : String) :
    d ∈ sortKeys deps ↔ d ∈ deps.map Prod.fst := by
  unfold sortKeys
  rw [(List.perm_insertionSort strLe _).mem_iff, List.mem_dedup]

/-- The keys of the graph built by a successful `WalkRole` on a fresh handler, and their
edge lists. -/
theorem WalkRole_graph {env : Env} {fuel : Nat} {R0 : String} {paths : List String}
    {rp : String} {h2 : Handler}
    (hw : WalkRole env fuel R0 (NewHandler paths rp) = some (none, h2)) :
    ∃ idx, env.loadRoles rp = some (idx, none) ∧
      (∀ C, C ∈ h2.graph.keys ↔ ∃ S, Seed idx R0 S ∧
        Relation.ReflTransGen (DepEdge env paths) S C) ∧
      (∀ C ∈ h2.graph.keys, Done env paths h2.graph C) ∧ h2.graph.Closed := by
  obtain ⟨idx, hld, hne, hw2⟩ := WalkRole_fresh hw
  refine ⟨idx, hld, ?_⟩
  have hP := WalkRole_spec env fuel R0 _ none h2 hne hw2
  have hk0 : ∀ u, u ∉ Graph.keys ([] : Graph) := by
    intro u hu; simp [Graph.keys] at hu
  have hdone : ∀ C ∈ h2.graph.keys, Done env paths h2.graph C :=
    hP.done rfl (fun u hu => absurd hu (hk0 u))
  have hclosed : h2.graph.Closed := by
    apply hP.closed
    intro u w he
    exact absurd he.mem_keys (hk0 u)
  refine ⟨?_, hdone, hclosed⟩
  intro C
  constructor
  · intro hC
    rcases hP.sound C hC with h3 | h3
    · exact absurd h3 (hk0 C)
    · exact h3
  · rintro ⟨S, hS, hSC⟩
    have hSk : S ∈ h2.graph.keys := hP.seeds rfl S hS
    induction hSC with
    | refl => exact hSk
    | @tail b c _ hbc ih =>
      obtain ⟨deps, h4, h5⟩ := hbc
      obtain ⟨deps2, h6, h7⟩ := hdone b ih
      rw [h4] at h6
      injection h6 with h6
      injection h6 with h6
      subst h6
      apply hclosed b c
      show c ∈ h2.graph.adj b
      rw [h7]; exact h5

end whisk

namespace whisk

theorem closed_nil : Graph.Closed ([] : Graph) := by
  intro u w he
  have := he.mem_keys
  simp [Graph.keys] at this

/-- `WalkRole` keeps the graph closed, whatever the handler it starts from and whatever
it returns. -/
theorem WalkRole_closed (env : Env) (fuel : Nat) (name : String) (h h2 : Handler)
    (e : Option WalkError) (hK : h.graph.Closed)
    (hw : WalkRole env fuel name h = some (e, h2)) : h2.graph.Closed := by
  by_cases hidx : h.rolesIndex = []
  · cases fuel with
    | zero => simp [WalkRole] at hw
    | succ n =>
      have hw2 := hw
      simp only [WalkRole, hidx, List.length_nil, if_true] at hw2
      cases hld : env.loadRoles h.rolesPath with
      | none => rw [hld] at hw2; simp at hw2
      | some r =>
        obtain ⟨idx, err⟩ := r
        rw [hld] at hw2
        cases err with
        | some x =>
          simp only [] at hw2
          injection hw2 with hw2
          injection hw2 with _ h3
          rw [← h3]; exact hK
        | none =>
          simp only [] at hw2
          by_cases hne : idx = []
          · subst hne
            simp only [List.lookup] at hw2
            injection hw2 with hw2
            injection hw2 with _ h3
            rw [← h3]; exact hK
          · have h4 : WalkRole env (n + 1) name { h with rolesIndex := idx } = some (e, h2) := by
              rw [WalkRole_loaded env n name _ hne]
              exact hw2
            exact (WalkRole_spec env (n + 1) name _ e h2 hne h4).closed hK
  · exact (WalkRole_spec env fuel name h e h2 hidx hw).closed hK

end whisk

namespace whisk

theorem walkRunList_append (env : Env)
    (recRole : String → Handler → Option (Option WalkError × Handler)) (fuel : Nat)
    (pre post : List String) (h h1 : Handler)
    (hpre : walkRunList env recRole fuel pre h = some (none, h1)) :
    walkRunList env recRole fuel (pre ++ post) h = walkRunList env recRole fuel post h1 := by
  induction pre generalizing h with
  | nil =>
    simp only [walkRunList] at hpre
    injection hpre with hpre
    injection hpre with _ hh
    subst hh
    rfl
  | cons d ds ih =>
    simp only [walkRunList, List.cons_append] at hpre ⊢
    cases hd : walkEntry env recRole fuel d h with
    | none => rw [hd] at hpre; simp at hpre
    | some r =>
      obtain ⟨e, h2⟩ := r
      rw [hd] at hpre
      cases e with
      | some e => simp at hpre
      | none => exact ih h2 hpre

theorem WalkRole_unloaded (env : Env) (n : Nat) (name : String) (h : Handler)
    (idx : List (String × chef.Role)) (hidx : h.rolesIndex = [])
    (hld : env.loadRoles h.rolesPath = some (idx, none)) :
    WalkRole env (n + 1) name h =
      match idx.lookup name with
      | none => some (some (.roleNotFound name), { h with rolesIndex := idx })
      | some role =>
        walkRunList env (WalkRole env n) n role.RunList { h with rolesIndex := idx } := by
  simp only [WalkRole, hidx, List.length_nil, if_true, hld]
  try rfl

theorem walkRunList_role_none (env : Env)
    (recRole : String → Handler → Option (Option WalkError × Handler)) (fuel : Nat)
    {dep X : String} (hd : IsRoleRef dep X) (deps : List String) (h : Handler)
    (hrec : recRole X h = none) : walkRunList env recRole fuel (dep :: deps) h = none := by
  rw [walkRunList, walkEntry_role _ _ _ hd, hrec]

theorem selfRole_diverges (fuel : Nat) : ∀ h : Handler, h.rolesPath = "roles" →
    h.rolesIndex = [] ∨ h.rolesIndex = [("a", ⟨"a", ["role[a]"]⟩)] →
    WalkRole selfRole fuel "a" h = none := by
  induction fuel with
  | zero => intro h _ _; rfl
  | succ n ih =>
    intro h hp hidx
    have hrole : IsRoleRef "role[a]" "a" := by unfold IsRoleRef; rfl
    rcases hidx with hidx | hidx
    · have hld : selfRole.loadRoles h.rolesPath = some ([("a", ⟨"a", ["role[a]"]⟩)], none) := by
        rw [hp]; rfl
      rw [WalkRole_unloaded selfRole n "a" h [("a", ⟨"a", ["role[a]"]⟩)] hidx hld]
      exact walkRunList_role_none _ _ _ hrole _ _ (ih _ hp (Or.inr rfl))
    · rw [WalkRole_loaded _ _ _ _ (by rw [hidx]; simp), hidx]
      exact walkRunList_role_none _ _ _ hrole _ _ (ih _ hp (Or.inr hidx))

end whisk

namespace strconv

theorem escapeRune_plain (table : Char → Bool) (c : Char)
    (h : 0x20 ≤ c.toNat ∧ c.toNat ≤ 0x7e ∧ c ≠ '"' ∧ c ≠ '\\') : escapeRune table c = [c] := by
  obtain ⟨h1, h2, h3, h4⟩ := h
  have hp : IsPrint table c = true := by
    unfold IsPrint
    simp only []
    rw [if_pos (by omega)]
    simp [h1, h2]
  unfold escapeRune
  simp only []
  rw [if_neg (by simp [h3, h4]), if_pos hp]

theorem Quote_plain (table : Char → Bool) (s : String)
    (h : ∀ c ∈ s.toList, 0x20 ≤ c.toNat ∧ c.toNat ≤ 0x7e ∧ c ≠ '"' ∧ c ≠ '\\') :
    (Quote table s).toList = '"' :: s.toList ++ ['"'] := by
  have hm : ∀ l : List Char,
      (∀ c ∈ l, 0x20 ≤ c.toNat ∧ c.toNat ≤ 0x7e ∧ c ≠ '"' ∧ c ≠ '\\') →
      (l.map (escapeRune table)).flatten = l := by
    intro l
    induction l with
    | nil => intro _; rfl
    | cons a l ih =>
      intro hl
      rw [List.map_cons, List.flatten_cons, escapeRune_plain table a (hl a (by simp)),
        ih (fun c hc => hl c (by simp [hc]))]
      rfl
  show '"' :: ((s.toList.map (escapeRune table)).flatten ++ ['"']) = _
  rw [hm s.toList h]
  rfl

end strconv

namespace whisk

theorem Accepted.forms {dep : String} (h : Accepted dep) :
    (∃ X, IsRoleRef dep X) ∨ (∃ C, IsRecipeRef dep C) := by
  rcases h with ⟨h1, h2⟩ | ⟨h1, h2⟩
  · left
    obtain ⟨m, hm⟩ := form_of_affixes "role[".toList ']' (by decide) dep.toList
      (List.isPrefixOf_iff_prefix.mp h1) (List.isSuffixOf_iff_suffix.mp h2)
    exact ⟨String.mk m, hm⟩
  · right
    obtain ⟨m, hm⟩ := form_of_affixes "recipe[".toList ']' (by decide) dep.toList
      (List.isPrefixOf_iff_prefix.mp h1) (List.isSuffixOf_iff_suffix.mp h2)
    exact ⟨_, m, hm, rfl⟩

theorem not_accepted_walkEntry (env : Env)
    (recRole : String → Handler → Option (Option WalkError × Handler)) (fuel : Nat)
    {dep : String} (hd : ¬ Accepted dep) (h : Handler) :
    walkEntry env recRole fuel dep h = some (some (.invalidEntry dep), h) := by
  unfold Accepted strings.HasPrefix strings.HasSuffix at hd
  unfold walkEntry
  rw [if_neg (fun hc => hd (Or.inl hc)), if_neg (fun hc => hd (Or.inr hc))]

theorem walkDeps_error (rec : String → Handler → Option (Option WalkError × Handler))
    (hrec : ∀ d h e h2, rec d h = some (some e, h2) → ∃ n c, e = WalkError.loadDeps n c)
    (name : String) (deps : List String) : ∀ (h : Handler) (e : WalkError) (h2 : Handler),
    walkDeps rec name deps h = some (some e, h2) → ∃ n c, e = WalkError.loadDeps n c := by
  induction deps with
  | nil => intro h e h2 hw; simp [walkDeps] at hw
  | cons d ds ih =>
    intro h e h2 hw
    simp only [walkDeps] at hw
    cases hd : walkDep rec name d h with
    | none => rw [hd] at hw; simp at hw
    | some r =>
      obtain ⟨e1, h1⟩ := r
      rw [hd] at hw
      cases e1 with
      | none => exact ih h1 e h2 hw
      | some e1 =>
        simp only [Option.some.injEq, Prod.mk.injEq] at hw
        obtain ⟨he, _⟩ := hw
        subst he
        unfold walkDep at hd
        simp only [] at hd
        split at hd
        · exact hrec _ _ _ _ hd
        · simp at hd

theorem walkCookbook_error (env : Env) : ∀ (fuel : Nat) (name : String) (h : Handler)
    (e : WalkError) (h2 : Handler),
    walkCookbook env fuel name h = some (some e, h2) → ∃ n c, e = WalkError.loadDeps n c := by
  intro fuel
  induction fuel with
  | zero => intro name h e h2 hw; simp [walkCookbook] at hw
  | succ n ih =>
    intro name h e h2 hw
    simp only [walkCookbook] at hw
    cases hl : env.LoadDeps h.cookbookPaths name with
    | none => rw [hl] at hw; simp at hw
    | some res =>
      rw [hl] at hw
      cases res with
      | error err =>
        simp only [Option.some.injEq, Prod.mk.injEq] at hw
        exact ⟨_, _, hw.1.symm⟩
      | ok deps => exact walkDeps_error _ ih _ _ _ _ _ hw

theorem accepted_walkEntry_error (env : Env)
    (recRole : String → Handler → Option (Option WalkError × Handler)) (fuel : Nat)
    {dep : String} (hd : Accepted dep) (h : Handler) (e : WalkError) (h2 : Handler)
    (hw : walkEntry env recRole fuel dep h = some (some e, h2)) (x : String) :
    e ≠ .invalidEntry x := by
  rcases hd.forms with ⟨X, hX⟩ | ⟨C, hC⟩
  · rw [walkEntry_role env recRole fuel hX] at hw
    split at hw
    · simp at hw
    · simp only [Option.some.injEq, Prod.mk.injEq] at hw
      rw [← hw.1]
      simp
    · simp at hw
  · rw [walkEntry_recipe env recRole fuel hC] at hw
    obtain ⟨n, c, he⟩ := walkCookbook_error env _ _ _ _ _ hw
    rw [he]
    simp

theorem accepted_slice {dep : String} (hd : Accepted dep) :
    (strings.HasPrefix dep "role[" = true →
      ∃ m, slice dep.toList 5 (dep.length - 1) = some m) ∧
    (strings.HasPrefix dep "recipe[" = true →
      ∃ m, slice dep.toList 7 (dep.length - 1) = some m) := by
  have hs : strings.HasSuffix dep "]" = true := by
    rcases hd with ⟨_, h⟩ | ⟨_, h⟩ <;> exact h
  constructor
  · intro hp
    obtain ⟨m, hm⟩ := form_of_affixes "role[".toList ']' (by decide) dep.toList
      (List.isPrefixOf_iff_prefix.mp hp) (List.isSuffixOf_iff_suffix.mp hs)
    refine ⟨m, ?_⟩
    have := slice_middle "role[".toList m ']'
    rw [← hm] at this
    exact this
  · intro hp
    obtain ⟨m, hm⟩ := form_of_affixes "recipe[".toList ']' (by decide) dep.toList
      (List.isPrefixOf_iff_prefix.mp hp) (List.isSuffixOf_iff_suffix.mp hs)
    refine ⟨m, ?_⟩
    have := slice_middle "recipe[".toList m ']'
    rw [← hm] at this
    exact this

end whisk

namespace whisk

theorem WalkRole_withRoles (env : Env) (n : Nat) (name : String) (h : Handler)
    (hload : h.rolesIndex = [] → ∃ idx, env.loadRoles h.rolesPath = some (idx, none)) :
    WalkRole env (n + 1) name h =
      match (h.withRoles env).rolesIndex.lookup name with
      | none => some (some (.roleNotFound name), h.withRoles env)
      | some role => walkRunList env (WalkRole env n) n role.RunList (h.withRoles env) := by
  by_cases hidx : h.rolesIndex = []
  · obtain ⟨idx, hl⟩ := hload hidx
    have hw : h.withRoles env = { h with rolesIndex := idx } := by
      unfold Handler.withRoles
      rw [if_pos (by rw [hidx]; rfl), hl]
    rw [hw]
    exact WalkRole_unloaded env n name h _ hidx hl
  · have hw : h.withRoles env = h := by
      unfold Handler.withRoles
      rw [if_neg (fun h0 => hidx (List.length_eq_zero.mp h0))]
    rw [hw]
    exact WalkRole_loaded env n name h hidx

theorem walkRole_first_invalid (env : Env) (fuel : Nat) (name : String) (h h1 : Handler)
    (role : chef.Role) (pre post : List String) (dep : String)
    (hload : h.rolesIndex = [] → ∃ idx, env.loadRoles h.rolesPath = some (idx, none))
    (hrole : (h.withRoles env).rolesIndex.lookup name = some role)
    (hlist : role.RunList = pre ++ dep :: post) (hdep : ¬ Accepted dep)
    (hpre : walkRunList env (WalkRole env fuel) fuel pre (h.withRoles env) = some (none, h1)) :
    WalkRole env (fuel + 1) name h = some (some (.invalidEntry dep), h1) := by
  rw [WalkRole_withRoles env fuel name h hload, hrole]
  simp only []
  rw [hlist, walkRunList_append env _ fuel pre _ _ h1 hpre, walkRunList,
    not_accepted_walkEntry env _ fuel hdep]

theorem invalidEntry_message_plain (table : Char → Bool) (dep : String) (hp : Plain dep) :
    dep.toList <:+: ((WalkError.invalidEntry dep).Error table).toList := by
  have h1 : ((WalkError.invalidEntry dep).Error table).toList =
      "invalid entry in role's run_list: ".toList ++ (strconv.Quote table dep).toList := by
    show ("invalid entry in role's run_list: " ++ strconv.Quote table dep).toList = _
    exact String.data_append _ _
  rw [h1, strconv.Quote_plain table dep hp]
  exact ⟨"invalid entry in role's run_list: ".toList ++ ['"'], ['"'], by simp⟩

end whisk

namespace whisk

theorem fn_root (fs : FS) (rolesPath : String) (d : Option Bool)
    (idx : List (String × chef.Role)) :
    loadRoles.fn fs rolesPath rolesPath d none idx = (none, idx) := by
  unfold loadRoles.fn
  simp

theorem walkDir_subdir (fs : FS) (rolesPath path : String) (n : Nat)
    (idx : List (String × chef.Role)) (hne : path ≠ rolesPath)
    (hs : strings.HasSuffix path ".json" = false) :
    filepath.walkDir fs (loadRoles.fn fs rolesPath) (n + 1) path true idx = some (none, idx) := by
  have hfn : loadRoles.fn fs rolesPath path (some true) none idx = (some .SkipDir, idx) := by
    unfold loadRoles.fn
    simp only []
    rw [if_pos ⟨hs, Ne.symm hne⟩]
  unfold filepath.walkDir
  rw [hfn]
  rfl

theorem walkDir_file (fs : FS) (rolesPath path : String) (n : Nat)
    (idx : List (String × chef.Role)) (b : String × chef.Role) (hne : path ≠ rolesPath)
    (hs : strings.HasSuffix path ".json" = true) (hb : loadRoles.binding fs path = some b) :
    filepath.walkDir fs (loadRoles.fn fs rolesPath) (n + 1) path false idx
      = some (none, b :: idx) := by
  have hfn : loadRoles.fn fs rolesPath path (some false) none idx = (none, b :: idx) := by
    unfold loadRoles.binding at hb
    unfold loadRoles.fn
    simp only []
    rw [if_neg (by rw [hs]; simp), if_neg hne]
    cases hr : chef.NewRole fs path with
    | error e => rw [hr] at hb; simp at hb
    | ok role =>
      rw [hr] at hb
      simp only [Option.some.injEq] at hb
      rw [← hb]
  unfold filepath.walkDir
  rw [hfn]
  rfl

theorem walkEntries_tidy (fs : FS) (rolesPath : String) (n : Nat) :
    ∀ (l : List (String × Bool)) (idx : List (String × chef.Role)),
    (∀ e ∈ l, loadRoles.Tidy fs rolesPath e) →
    filepath.walkEntries (filepath.walkDir fs (loadRoles.fn fs rolesPath) (n + 1)) rolesPath l idx
      = some (none, (l.filterMap fun e =>
          if e.2 = true then none
          else loadRoles.binding fs (filepath.Join rolesPath e.1)).reverse ++ idx) := by
  intro l
  induction l with
  | nil => intro idx _; rfl
  | cons e l ih =>
    intro idx hl
    obtain ⟨hne, hcase⟩ := hl e (by simp)
    have hl2 : ∀ x ∈ l, loadRoles.Tidy fs rolesPath x := fun x hx => hl x (by simp [hx])
    obtain ⟨name, isDir⟩ := e
    rcases hcase with ⟨hd, hs⟩ | ⟨hd, hs, hb⟩
    · simp only [] at hd hs hne
      subst hd
      unfold filepath.walkEntries
      simp only []
      rw [walkDir_subdir fs rolesPath _ n idx hne hs]
      simp only []
      rw [ih idx hl2]
      simp [List.filterMap_cons]
    · simp only [] at hd hs hne hb
      subst hd
      obtain ⟨b, hb2⟩ := Option.isSome_iff_exists.mp hb
      unfold filepath.walkEntries
      simp only []
      rw [walkDir_file fs rolesPath _ n idx b hne hs hb2]
      simp only []
      rw [ih (b :: idx) hl2]
      simp [List.filterMap_cons, hb2]

theorem loadRoles_tidy (fs : FS) (fuel : Nat) (h : Handler)
    (hdir : fs.Lstat h.rolesPath = .ok true) (hread : (fs.ReadDir h.rolesPath).2 = none)
    (htidy : ∀ e ∈ (fs.ReadDir h.rolesPath).1, loadRoles.Tidy fs h.rolesPath e)
    (hfuel : 2 ≤ fuel) :
    loadRoles fs fuel h = some (none,
      { h with rolesIndex := (loadRoles.bindings fs h.rolesPath).reverse ++ h.rolesIndex }) := by
  obtain ⟨n, rfl⟩ : ∃ n, fuel = n + 2 := ⟨fuel - 2, by omega⟩
  have hsorted : ∀ e ∈ fs.sortedDir h.rolesPath, loadRoles.Tidy fs h.rolesPath e := by
    intro e he
    exact htidy e ((List.perm_insertionSort _ _).mem_iff.mp he)
  have hw : filepath.walkDir fs (loadRoles.fn fs h.rolesPath) (n + 2) h.rolesPath true
      h.rolesIndex = some (none,
        (loadRoles.bindings fs h.rolesPath).reverse ++ h.rolesIndex) := by
    rw [filepath.walkDir, fn_root]
    simp only [hread]
    exact walkEntries_tidy fs h.rolesPath n _ _ hsorted
  unfold loadRoles filepath.WalkDir
  simp only [hdir, hw]

theorem lookup_reverse_last {β : Type} (l : List (String × β)) (n : String) :
    l.reverse.lookup n = ((l.filter fun b => b.1 = n).getLast?).map Prod.snd := by
  induction l using List.reverseRecOn with
  | nil => rfl
  | append_singleton l b ih =>
    obtain ⟨k, v⟩ := b
    rw [List.reverse_append, List.filter_append]
    by_cases hk : k = n
    · subst hk
      simp [List.lookup]
    · have hk2 : (n == k) = false := by simpa using Ne.symm hk
      simp [List.lookup, hk, hk2, ih]

end whisk

namespace chef

theorem readMetadata_none (fs : FS) (metadataPath : String) :
    ∀ (paths : List String) (st : Except String String),
    (∀ p ∈ paths, ∃ e, fs.ReadFile (filepath.Join p metadataPath) = .error e) →
    (paths ≠ [] ∨ ∃ e, st = .error e) →
    ∃ e, readMetadata fs metadataPath paths st = .error e := by
  intro paths
  induction paths with
  | nil =>
    intro st _ hst
    rcases hst with h | h
    · exact absurd rfl h
    · exact h
  | cons p ps ih =>
    intro st hp _
    obtain ⟨e, he⟩ := hp p (by simp)
    unfold readMetadata
    rw [he]
    exact ih (.error e) (fun q hq => hp q (by simp [hq])) (Or.inr ⟨e, rfl⟩)

theorem LoadDeps_not_found (fs : FS) (c : Cookbook) (hname : c.Name ≠ "")
    (hpaths : c.CookbookPaths ≠ [])
    (hnone : ∀ p ∈ c.CookbookPaths,
      (∃ e, fs.ReadFile (filepath.Join p (filepath.Join c.Name "metadata.rb")) = .error e) ∧
      ∃ e, fs.ReadFile (filepath.Join p (filepath.Join c.Name "metadata.json")) = .error e) :
    ∃ cause, c.LoadDeps fs = some (some (.notFound (filepath.Join c.Name "metadata.json")
      c.CookbookPaths cause), c) := by
  obtain ⟨e1, h1⟩ := readMetadata_none fs (filepath.Join c.Name "metadata.rb") c.CookbookPaths
    (.ok "") (fun p hp => (hnone p hp).1) (Or.inl hpaths)
  obtain ⟨e2, h2⟩ := readMetadata_none fs (filepath.Join c.Name "metadata.json") c.CookbookPaths
    (.ok "") (fun p hp => (hnone p hp).2) (Or.inl hpaths)
  refine ⟨e2, ?_⟩
  unfold Cookbook.LoadDeps
  rw [if_neg hname]
  unfold Cookbook.tryRuby
  simp only [h1]
  unfold Cookbook.tryJSON
  simp only [h2]

theorem not_depends_of_empty (line : String) (h : line.length = 0) :
    strings.HasPrefix line "depends" = false := by
  have h1 : line.toList = [] := List.length_eq_zero.mp h
  unfold strings.HasPrefix
  rw [h1]
  rfl

theorem rubyLines_spec : ∀ (lines : List String) (deps : Deps),
    (∀ line ∈ lines, strings.HasPrefix line "depends" = true →
      2 ≤ (strings.Fields line).length) →
    ∃ deps2, rubyLines lines deps = some deps2 ∧
      ∀ d, d ∈ deps2.map Prod.fst ↔ (d ∈ deps.map Prod.fst ∨
        ∃ line ∈ lines, line ≠ "" ∧ strings.HasPrefix line "depends" = true ∧
          ∃ part, (strings.Fields line)[1]? = some part ∧ d = strings.Trim part cutset) := by
  intro lines
  induction lines with
  | nil =>
    intro deps _
    exact ⟨deps, rfl, fun d => by simp⟩
  | cons line lines ih =>
    intro deps hl
    have hl2 : ∀ x ∈ lines, strings.HasPrefix x "depends" = true →
        2 ≤ (strings.Fields x).length := fun x hx => hl x (by simp [hx])
    by_cases hp : strings.HasPrefix line "depends" = true
    · have hlen : ¬ line.length = 0 := by
        intro h0
        rw [not_depends_of_empty line h0] at hp
        exact absurd hp (by simp)
      have hne : line ≠ "" := by
        intro h0
        rw [h0] at hlen
        exact hlen rfl
      have h2 := hl line (by simp) hp
      obtain ⟨part, hpart⟩ : ∃ part, (strings.Fields line)[1]? = some part :=
        ⟨(strings.Fields line)[1], List.getElem?_eq_getElem (by omega)⟩
      have hline : rubyLine line deps = some ((strings.Trim part cutset, "") :: deps) := by
        unfold rubyLine
        rw [if_neg hlen, if_pos hp, hpart]
      obtain ⟨deps2, hr, hd⟩ := ih ((strings.Trim part cutset, "") :: deps) hl2
      refine ⟨deps2, by rw [rubyLines, hline]; exact hr, fun d => ?_⟩
      rw [hd d]
      constructor
      · rintro (h | ⟨x, hx, h⟩)
        · rcases List.mem_map.mp h with ⟨b, hb, hbd⟩
          rcases List.mem_cons.mp hb with hb | hb
          · right
            refine ⟨line, by simp, hne, hp, part, hpart, ?_⟩
            rw [← hbd, hb]
          · left
            exact List.mem_map.mpr ⟨b, hb, hbd⟩
        · exact Or.inr ⟨x, by simp [hx], h⟩
      · rintro (h | ⟨x, hx, hxne, hxp, q, hq, hdq⟩)
        · left
          rcases List.mem_map.mp h with ⟨b, hb, hbd⟩
          exact List.mem_map.mpr ⟨b, by simp [hb], hbd⟩
        · rcases List.mem_cons.mp hx with hx | hx
          · left
            subst hx
            rw [hpart] at hq
            injection hq with hq
            subst hq
            rw [hdq]
            simp
          · exact Or.inr ⟨x, hx, hxne, hxp, q, hq, hdq⟩
    · have hline : rubyLine line deps = some deps := by
        unfold rubyLine
        by_cases hlen : line.length = 0
        · rw [if_pos hlen]
        · rw [if_neg hlen, if_neg hp]
      obtain ⟨deps2, hr, hd⟩ := ih deps hl2
      refine ⟨deps2, by rw [rubyLines, hline]; exact hr, fun d => ?_⟩
      rw [hd d]
      constructor
      · rintro (h | ⟨x, hx, h⟩)
        · exact Or.inl h
        · exact Or.inr ⟨x, by simp [hx], h⟩
      · rintro (h | ⟨x, hx, hxne, hxp, h⟩)
        · exact Or.inl h
        · rcases List.mem_cons.mp hx with hx | hx
          · subst hx
            exact absurd hxp hp
          · exact Or.inr ⟨x, hx, hxne, hxp, h⟩

theorem tryRuby_spec (fs : FS) (c : Cookbook) (text : String)
    (hread : readMetadata fs (filepath.Join c.Name "metadata.rb") c.CookbookPaths (.ok "")
      = .ok text)
    (hparts : ∀ line ∈ bufio.scanLines text, strings.HasPrefix line "depends" = true →
      2 ≤ (strings.Fields line).length) :
    ∃ deps, c.tryRuby fs = some (none, { c with Deps := deps }) ∧
      ∀ d, d ∈ deps.map Prod.fst ↔ (d ∈ c.Deps.map Prod.fst ∨
        ∃ line ∈ bufio.scanLines text, line ≠ "" ∧ strings.HasPrefix line "depends" = true ∧
          ∃ part, (strings.Fields line)[1]? = some part ∧ d = strings.Trim part cutset) := by
  obtain ⟨deps, hr, hd⟩ := rubyLines_spec (bufio.scanLines text) c.Deps hparts
  refine ⟨deps, ?_, hd⟩
  unfold Cookbook.tryRuby
  simp only [hread, hr]

end chef

namespace cmd

theorem toInt_small (u : Nat) (h : u < 2 ^ 63) : toInt u = (u : Int) := by
  unfold toInt
  have h1 : u % 2 ^ 64 = u := Nat.mod_eq_of_lt (by omega)
  rw [h1, if_pos h]

theorem lintSccs_ne_nil (l : linter) (role : String) (h : l.maxCookbooksPerSCC < 2 ^ 63) :
    ∀ (sccs : List (List String)) (i : Nat),
    l.lintSccs role i sccs ≠ [] ↔ ∃ scc ∈ sccs, l.maxCookbooksPerSCC < scc.length := by
  intro sccs
  induction sccs with
  | nil => intro i; simp [linter.lintSccs]
  | cons s sccs ih =>
    intro i
    unfold linter.lintSccs
    rw [toInt_small _ h, Ne, List.append_eq_nil, not_and_or]
    have ih2 := ih (i + 1)
    rw [Ne] at ih2
    rw [ih2]
    by_cases hs : l.maxCookbooksPerSCC < s.length
    · have : (l.maxCookbooksPerSCC : Int) < (s.length : Int) := by exact_mod_cast hs
      simp [this, hs]
    · have : ¬ (l.maxCookbooksPerSCC : Int) < (s.length : Int) := by
        intro hc; exact hs (by exact_mod_cast hc)
      simp [this, hs]

theorem lint_ne_nil (l : linter) (role : String) (r : whisk.Result)
    (h1 : l.maxCycles < 2 ^ 63) (h2 : l.maxSCCs < 2 ^ 63) (h3 : l.maxCookbooksPerSCC < 2 ^ 63) :
    l.lint role r ≠ [] ↔ (l.maxCycles < r.Cycles.length ∨ l.maxSCCs < r.Sccs.length ∨
      ∃ scc ∈ r.Sccs, l.maxCookbooksPerSCC < scc.length) := by
  unfold linter.lint
  rw [toInt_small _ h1, toInt_small _ h2, Ne, List.append_eq_nil, List.append_eq_nil,
    not_and_or, not_and_or]
  have h4 := lintSccs_ne_nil l role h3 r.Sccs 0
  rw [Ne] at h4
  rw [h4, or_assoc]
  have e1 : ((l.maxCycles : Int) < (r.Cycles.length : Int)) ↔ l.maxCycles < r.Cycles.length :=
    Nat.cast_lt
  have e2 : ((l.maxSCCs : Int) < (r.Sccs.length : Int)) ↔ l.maxSCCs < r.Sccs.length :=
    Nat.cast_lt
  simp only [e1, e2]
  refine or_congr ?_ (or_congr ?_ Iff.rfl)
  · by_cases hc : l.maxCycles < r.Cycles.length <;> simp [hc]
  · by_cases hc : l.maxSCCs < r.Sccs.length <;> simp [hc]

end cmd

namespace whisk

theorem FindSCCs_eq (h : Handler) (fuel : Nat) (ss : List (List String))
    (hF : scc.Find fuel (scc.NewTarjan (some h.graph)) = some (.ok ss)) :
    h.FindSCCs fuel = some (none,
      { h with sccs := h.sccs ++ ss.filter fun c => decide (2 ≤ c.length) }) := by
  unfold Handler.FindSCCs
  rw [hF]
  rfl

theorem FindCycles_eq (h : Handler) (fuel : Nat) (cs : List (List String))
    (hF : (cycle.Find fuel (cycle.NewTarjan (some h.graph))).map Prod.fst = some (.ok cs)) :
    h.FindCycles fuel = some (none, { h with cycles := cs }) := by
  unfold Handler.FindCycles
  cases hc : cycle.Find fuel (cycle.NewTarjan (some h.graph)) with
  | none => rw [hc] at hF; simp at hF
  | some r =>
    obtain ⟨r1, t⟩ := r
    rw [hc] at hF
    simp only [Option.map_some', Option.some.injEq] at hF
    subst hF
    rfl

theorem result_spec (h : Handler) (hs : h.sccs = []) (f1 f2 : Nat) (ss cs : List (List String))
    (h1 : scc.Find f1 (scc.NewTarjan (some h.graph)) = some (.ok ss))
    (h2 : (cycle.Find f2 (cycle.NewTarjan (some h.graph))).map Prod.fst = some (.ok cs)) :
    ∃ ha hb, h.FindSCCs f1 = some (none, ha) ∧ ha.FindCycles f2 = some (none, hb) ∧
      hb.Result.G = h.graph ∧ hb.Result.Sccs = ss.filter (fun c => decide (2 ≤ c.length)) ∧
      hb.Result.Cycles = cs := by
  refine ⟨_, _, FindSCCs_eq h f1 ss h1, FindCycles_eq _ f2 cs h2, rfl, ?_, rfl⟩
  show h.sccs ++ _ = _
  rw [hs, List.nil_append]

end whisk

namespace chef

theorem tryRuby_one (fs : FS) (p name : String) (deps0 : Deps) :
    Cookbook.tryRuby fs { CookbookPaths := [p], Name := name, Deps := deps0 } =
      match fs.ReadFile (filepath.Join p (filepath.Join name "metadata.rb")) with
      | .error e => some (some (.notFound (filepath.Join name "metadata.rb") [p] e),
          { CookbookPaths := [p], Name := name, Deps := deps0 })
      | .ok text =>
        match rubyLines (bufio.scanLines text) deps0 with
        | none => none
        | some deps => some (none, { CookbookPaths := [p], Name := name, Deps := deps }) := by
  unfold Cookbook.tryRuby
  simp only [readMetadata]
  cases fs.ReadFile (filepath.Join p (filepath.Join name "metadata.rb")) <;> rfl

theorem tryJSON_failing (fs : FS) (p name : String) (deps0 : Deps)
    (hdec : ∀ m d, ∃ e, fs.decodeDeps m d = .error e) :
    ∃ e, Cookbook.tryJSON fs { CookbookPaths := [p], Name := name, Deps := deps0 } =
      (some e, { CookbookPaths := [p], Name := name, Deps := deps0 }) := by
  unfold Cookbook.tryJSON
  simp only [readMetadata]
  cases fs.ReadFile (filepath.Join p (filepath.Join name "metadata.json")) with
  | error e => exact ⟨_, rfl⟩
  | ok text =>
    obtain ⟨e, he⟩ := hdec text deps0
    simp only [he]
    exact ⟨_, rfl⟩

end chef

namespace whisk

/-- The dependencies that the environment read from `fs` gives for one search path, on a
disk whose JSON decoder fails: an error, a panic, or the dependencies written in the
file `metadata.rb` of the cookbook. -/
theorem ofFS_LoadDeps_one (fs : FS) (table : Char → Bool) (fuel : Nat) (p name : String)
    (hdec : ∀ m d, ∃ e, fs.decodeDeps m d = .error e) (deps : chef.Deps)
    (h : (Env.ofFS fs table fuel).LoadDeps [p] name = some (.ok deps)) :
    ∃ text, fs.ReadFile (filepath.Join p (filepath.Join name "metadata.rb")) = .ok text ∧
      chef.rubyLines (bufio.scanLines text) [] = some deps := by
  have h2 : (match chef.Cookbook.LoadDeps fs { CookbookPaths := [p], Name := name, Deps := [] }
      with
      | none => none
      | some (none, c) => some (Except.ok c.Deps)
      | some (some e, _) => some (Except.error (e.text table))) = some (.ok deps) := h
  unfold chef.Cookbook.LoadDeps at h2
  by_cases hn : name = ""
  · rw [if_pos hn] at h2
    simp at h2
  · rw [if_neg hn, chef.tryRuby_one] at h2
    cases hr : fs.ReadFile (filepath.Join p (filepath.Join name "metadata.rb")) with
    | error e =>
      rw [hr] at h2
      obtain ⟨e2, he2⟩ := chef.tryJSON_failing fs p name [] hdec
      simp only [he2] at h2
      simp at h2
    | ok text =>
      rw [hr] at h2
      simp only [] at h2
      refine ⟨text, rfl, ?_⟩
      cases hl : chef.rubyLines (bufio.scanLines text) [] with
      | none => rw [hl] at h2; simp at h2
      | some deps2 =>
        rw [hl] at h2
        simp only [Option.some.injEq, Except.ok.injEq] at h2
        rw [h2]

/-- On a handler whose role index is empty, the environment read from `fs` holds what
`loadRoles` returns. -/
theorem ofFS_loadRoles (fs : FS) (table : Char → Bool) (fuel : Nat) (h : Handler)
    (hidx : h.rolesIndex = []) :
    (Env.ofFS fs table fuel).loadRoles h.rolesPath =
      match loadRoles fs fuel h with
      | none => none
      | some (none, h2) => some (h2.rolesIndex, none)
      | some (some e, h2) =>
        some (h2.rolesIndex, some ("failed loading roles: " ++ e.Error table)) := by
  unfold loadRoles
  rw [hidx]
  show (match filepath.WalkDir fs (loadRoles.fn fs h.rolesPath) fuel h.rolesPath [] with
    | none => none
    | some (none, idx) => some (idx, none)
    | some (some e, idx) => some (idx, some ("failed loading roles: " ++ e.Error table))) = _
  cases filepath.WalkDir fs (loadRoles.fn fs h.rolesPath) fuel h.rolesPath [] with
  | none => rfl
  | some r =>
    obtain ⟨e, idx⟩ := r
    cases e <;> rfl

theorem cyclicDeps_read (q : String) :
    cyclicDeps.disk.ReadFile q = .ok "name 'a'\ndepends 'b'\ndepends 'a'\n" ∨
    cyclicDeps.disk.ReadFile q = .ok "name 'b'\ndepends 'a'\n" ∨
    cyclicDeps.disk.ReadFile q = .error "no such file or directory" := by
  unfold cyclicDeps.disk
  simp only []
  by_cases h1 : q = "cookbooks/a/metadata.rb"
  · rw [if_pos h1]; exact Or.inl rfl
  · rw [if_neg h1]
    by_cases h2 : q = "cookbooks/b/metadata.rb"
    · rw [if_pos h2]; exact Or.inr (Or.inl rfl)
    · rw [if_neg h2]; exact Or.inr (Or.inr rfl)

/-- Every name that a cookbook of the disk `cyclicDeps.disk` declares as a dependency is
`a` or `b`, whatever the name under which the cookbook is loaded. -/
theorem cyclicDeps_finite : ∀ (x : String) (deps : chef.Deps),
    cyclicDeps.LoadDeps ["cookbooks"] x = some (.ok deps) →
    ∀ d ∈ sortKeys deps, d ∈ ["a", "b"] := by
  intro x deps h
  obtain ⟨text, hr, hl⟩ := ofFS_LoadDeps_one cyclicDeps.disk _ _ "cookbooks" x
    (fun _ _ => ⟨_, rfl⟩) deps h
  rcases cyclicDeps_read (filepath.Join "cookbooks" (filepath.Join x "metadata.rb"))
    with h1 | h1 | h1
  · rw [h1] at hr
    injection hr with hr
    rw [← hr] at hl
    have : chef.rubyLines (bufio.scanLines "name 'a'\ndepends 'b'\ndepends 'a'\n") [] =
        some [("a", ""), ("b", "")] := by decide
    rw [this] at hl
    injection hl with hl
    rw [← hl]
    decide
  · rw [h1] at hr
    injection hr with hr
    rw [← hr] at hl
    have : chef.rubyLines (bufio.scanLines "name 'b'\ndepends 'a'\n") [] =
        some [("a", "")] := by decide
    rw [this] at hl
    injection hl with hl
    rw [← hl]
    decide
  · rw [h1] at hr
    exact absurd hr (by simp)

end whisk

namespace cycle

theorem start_numbering (g : Graph) : Numbering g (start g).index :=
  assignIndex_numbering g

theorem start_rootInv (g : Graph) : RootInv g (start g).index [] (sortKeys g) (start g) := by
  obtain ⟨e1, e2, e3, e4, e5, e6, _⟩ :=
    assignIndex_spec (sortKeys g) 0 (NewTarjan (some g)) (sortKeys_nodup g)
  refine ⟨e1, rfl, e4, ?_, e5, ?_, ?_, ?_, ?_, ?_⟩
  · intro i; show (assignIndex 0 (sortKeys g) (NewTarjan (some g))).marked i = false
    rw [e2]; rfl
  · intro a b hab
    unfold Tarjan.isRemoved start at hab
    rw [e3] at hab
    simp [NewTarjan] at hab
  · intro c hc
    have : c ∈ (assignIndex 0 (sortKeys g) (NewTarjan (some g))).cycles := hc
    rw [e6] at this; simp [NewTarjan] at this
  · intro _
    show (assignIndex 0 (sortKeys g) (NewTarjan (some g))).cycles.Nodup
    rw [e6]; simp [NewTarjan]
  · intro r hr; simp at hr
  · show (assignIndex 0 (sortKeys g) (NewTarjan (some g))).cycles.Pairwise _
    rw [e6]; simp [NewTarjan]

/-- The loop over the roots, stopped after the roots `mid`. -/
theorem findLoop_part {g : Graph} {ix : String → Option Nat} (hN : Numbering g ix)
    {fuel : Nat} (hfuel : g.keys.length ≤ fuel) :
    ∀ (mid ds rest : List String) (t : Tarjan), (ds ++ (mid ++ rest)).Pairwise (· < ·) →
      (∀ x ∈ ds ++ (mid ++ rest), x ∈ g.keys) → RootInv g ix ds (mid ++ rest) t →
      ∃ t2, findLoop fuel mid t = some t2 ∧ RootInv g ix (ds ++ mid) rest t2 := by
  intro mid
  induction mid with
  | nil =>
    intro ds rest t _ _ hR
    exact ⟨t, rfl, by simpa using hR⟩
  | cons s mid ih =>
    intro ds rest t hsort hkeys hR
    obtain ⟨f, t1, h1, hR1⟩ := root_step hN hfuel hsort hkeys hR
    obtain ⟨t2, h2, hR2⟩ := ih (ds ++ [s]) rest _ (by simpa using hsort) (by simpa using hkeys) hR1
    refine ⟨t2, ?_, by simpa using hR2⟩
    simp only [findLoop, h1]
    exact h2

theorem RootInv.root_pre {g : Graph} {ix : String → Option Nat} (hN : Numbering g ix)
    {ds rs : List String} {s : String} {t : Tarjan} (hs : s ∈ g.keys)
    (hR : RootInv g ix ds (s :: rs) t) : Pre g ix s s t := by
  have hs2 : ix s ≠ none := (hN.key_iff s).mpr hs
  refine ⟨?_, hs2, hR.unmarked _, hs2, by rw [hR.ps]; simp, fun _ => rfl,
    fun h => absurd hR.ps h⟩
  refine ⟨hR.hG, hR.hix, by rw [hR.ms]; exact List.nodup_nil, ?_, ?_,
    by rw [hR.ps]; exact List.nodup_nil, by rw [hR.ps]; exact List.chain'_nil, ?_, ?_, ?_, ?_, ?_⟩
  · intro i; rw [hR.unmarked, hR.ms]; simp
  · intro u hu; rw [hR.ps] at hu; simp at hu
  · intro u hu; rw [hR.ps] at hu; simp at hu
  · intro u hu; rw [hR.ps] at hu; simp at hu
  · intro a b hab; exact hR.removed_lt a b hab s (by simp)
  · intro u hu; rw [hR.unmarked] at hu; exact absurd hu (by simp)
  · intro c hc
    obtain ⟨r, _, h⟩ := hR.sound c hc
    exact ⟨r, h⟩

/-- The state of the loop over the edges of `v` after the edges `ws1`, whatever the bound
on the depth that lets the loop return. -/
theorem Pre.loop {g : Graph} {ix : String → Option Nat} (hN : Numbering g ix)
    {s v : String} {t0 : Tarjan} (hP : Pre g ix s v t0) {n : Nat} {ws1 ws2 : List String}
    (hadj : g.adj v = ws1 ++ ws2) {found : Bool} {t : Tarjan}
    (hrun : searchEdges (search n s) s v ws1 false (enter v t0) = some (found, t)) :
    LoopInv g ix s t0 v ws1 found t := by
  obtain ⟨f2, t2, h2, hL⟩ := circ_searchEdges_ok (circ_search_ok hN hP.root g.keys.length)
    hN hP.root (by omega : g.keys.length ≤ t0.pointStack.length + (g.keys.length + 1))
    ws1 [] false (enter v t0)
    (fun w hw => by show w ∈ g.adj v; rw [hadj]; exact List.mem_append_left _ hw)
    (circ_enter_loopInv hN hP.inv hP.unmarked hP.key hP.last hP.first hP.gt)
  have m1 := @circ_searchEdges_mono (search n s) (search (max n g.keys.length) s)
    (fun w t x h => circ_search_mono (le_max_left _ _) h) s v ws1 false _ _ hrun
  have m2 := @circ_searchEdges_mono (search g.keys.length s)
    (search (max n g.keys.length) s)
    (fun w t x h => circ_search_mono (le_max_right _ _) h) s v ws1 false _ _ h2
  rw [m1] at m2
  injection m2 with m2
  injection m2 with m3 m4
  subst m3; subst m4
  simpa using hL

theorem Called.pre {g : Graph} {s v : String} {t0 : Tarjan} (h : Called g s v t0) :
    Pre g (start g).index s v t0 := by
  have hN := start_numbering g
  induction h with
  | @root n ds rs s t hsplit hrun =>
    have hsort := sortKeys_pairwise g
    have hkeys : ∀ x ∈ sortKeys g, x ∈ g.keys := fun x hx => (mem_sortKeys g x).mp hx
    rw [hsplit] at hsort hkeys
    have hR0 := start_rootInv g
    rw [hsplit] at hR0
    obtain ⟨t2, h2, hR2⟩ := findLoop_part hN (le_refl _) ds [] (s :: rs) (start g)
      (by simpa using hsort) (by simpa using hkeys) hR0
    have m1 := circ_findLoop_mono (le_max_left n g.keys.length) ds _ _ hrun
    have m2 := circ_findLoop_mono (le_max_right n g.keys.length) ds _ _ h2
    rw [m1] at m2
    injection m2 with m2
    subst m2
    exact RootInv.root_pre hN (hkeys s (by simp)) (by simpa using hR2)
  | @nested n s v w t0 t found ws1 ws2 _ hadj hrun hrem hlt hne hmark ih =>
    have hL := @Pre.loop g _ hN s v t0 ih n ws1 (w :: ws2) hadj found t hrun
    have hi := hL.inv.idx_num
    rw [hi, hi] at hrem hlt hne
    rw [hi] at hmark
    have hgt : num (start g).index s < num (start g).index w := by omega
    have hps : t.pointStack = t0.pointStack ++ [v] := hL.ps
    refine ⟨hL.inv, ih.root, hmark, ?_, ?_, ?_, fun _ => hgt⟩
    · apply Numbering.ne_none_of_pos
      have := hN.num_pos ih.root
      omega
    · intro x hx
      rw [hps, List.getLast?_concat] at hx
      simp only [Option.mem_def, Option.some.injEq] at hx
      rw [← hx]
      show w ∈ g.adj v
      rw [hadj]; simp
    · intro h0
      rw [hps] at h0
      simp at h0

end cycle

namespace cycle

/-- The vertices on the point stack when `search(s, v)` has pushed `v` are distinct keys. -/
theorem Pre.stack {g : Graph} {ix : String → Option Nat} (hN : Numbering g ix)
    {s v : String} {t0 : Tarjan} (hP : Pre g ix s v t0) :
    (t0.pointStack ++ [v]).Nodup ∧ (∀ u ∈ t0.pointStack ++ [v], u ∈ g.keys) ∧
      t0.pointStack.length + 1 ≤ g.keys.length := by
  have h0 := hP.inv
  have hvp : v ∉ t0.pointStack := by
    intro h
    have := (h0.marked_iff _).mpr (h0.ps_marked v h)
    rw [hP.unmarked] at this
    exact absurd this (by simp)
  have hnd : (t0.pointStack ++ [v]).Nodup := by
    rw [List.nodup_append]
    refine ⟨h0.ps_nodup, List.nodup_singleton v, ?_⟩
    intro a ha hb
    rw [List.mem_singleton] at hb
    subst hb
    exact hvp ha
  have hsub : ∀ x ∈ t0.pointStack ++ [v], x ∈ g.keys := by
    intro x hx
    rcases List.mem_append.mp hx with hx | hx
    · apply (hN.key_iff _).mp
      apply Numbering.ne_none_of_pos
      cases hp : t0.pointStack with
      | nil => rw [hp] at hx; simp at hx
      | cons a q =>
        rw [hp] at hx
        rcases List.mem_cons.mp hx with rfl | hx
        · have := h0.ps_head x (by simp [hp])
          rw [this]
          exact hN.num_pos hP.root
        · have := h0.ps_gt x (by simp [hp, hx])
          omega
    · rw [List.mem_singleton] at hx
      subst hx
      exact (hN.key_iff _).mp hP.key
  refine ⟨hnd, hsub, ?_⟩
  have hle := (List.subperm_of_subset hnd hsub).length_le
  simpa using hle

/-- The end of the call `search(s, v)`: the loop over the edges returns, the marks and
the marked stack agree, and the loop that unmarks stops at the identifier of `v`. -/
theorem Pre.finish {g : Graph} {ix : String → Option Nat} (hN : Numbering g ix)
    {s v : String} {t0 : Tarjan} (hP : Pre g ix s v t0) :
    ∃ found t, (∀ n, g.keys.length ≤ n →
        searchEdges (search n s) s v (t0.adj v) false (enter v t0) = some (found, t)) ∧
      (∀ i, t.marked i = true ↔ i ∈ t.markedStack) ∧ t.idx v ∈ t.markedStack ∧
      t.pointStack = t0.pointStack ++ [v] ∧
      (found = true → ∃ t2, unmarkLoop (t.idx v) (t.markedStack.length - 1) t = some t2 ∧
        t2.markedStack = t0.markedStack ∧ t2.pointStack = t.pointStack ∧
        ∀ i, t2.marked i = true ↔ i ∈ t2.markedStack) ∧
      ∃ t3, finish v found t = some (found, t3) ∧ t3.pointStack = t0.pointStack := by
  have h0 := hP.inv
  have hadj : t0.adj v = g.adj v := by simp [Tarjan.adj, h0.hG]
  obtain ⟨found, t, h1, hL⟩ := circ_searchEdges_ok (circ_search_ok hN hP.root g.keys.length)
    hN hP.root (by omega : g.keys.length ≤ t0.pointStack.length + (g.keys.length + 1))
    (g.adj v) [] false (enter v t0) (fun w hw => hw)
    (circ_enter_loopInv hN hP.inv hP.unmarked hP.key hP.last hP.first hP.gt)
  have hL2 : LoopInv g ix s t0 v (g.adj v) found t := by simpa using hL
  have hI := hL2.inv
  obtain ⟨more, hmore⟩ := hL2.ms
  obtain ⟨t3, h3, hP3⟩ := circ_finish_ok hL2 h0
  refine ⟨found, t, ?_, hI.marked_iff, ?_, hL2.ps, ?_, t3, h3, hP3.ps⟩
  · intro n hn
    rw [hadj]
    exact circ_searchEdges_mono (fun w t x h => circ_search_mono hn h) s v _ false _ _ h1
  · rw [hI.idx_num, hmore]; simp
  · intro hf
    have hnd := hI.ms_nodup
    rw [hmore] at hnd
    have hvm : num ix v ∉ more := (List.nodup_cons.mp (List.nodup_append.mp hnd).2.1).1
    have hdis : ∀ i, i ∈ t0.markedStack → i ∉ num ix v :: more :=
      fun i hi hi2 => (List.nodup_append.mp hnd).2.2 hi hi2
    obtain ⟨tu, e0, _, _, _, e4, _, e6, e7⟩ :=
      unmarkLoop_spec (num ix v) t0.markedStack more t hmore hvm
    have hl2 : t.markedStack.length - 1 = t0.markedStack.length + more.length := by
      rw [hmore]; simp
    refine ⟨tu, by rw [hI.idx_num, hl2]; exact e0, e6, e4, fun i => ?_⟩
    rw [e6, e7]
    by_cases hi : i ∈ num ix v :: more
    · rw [if_pos hi]
      simp only [Bool.false_eq_true, false_iff]
      exact fun h => hdis i h hi
    · rw [if_neg hi, hI.marked_iff, hmore, List.mem_append]
      tauto

end cycle

namespace scc

theorem Topo.nil (g : Graph) : Topo g [] := by
  intro pre post h x hx
  have : pre = [] := (List.append_eq_nil.mp h.symm).1
  rw [this] at hx
  simp at hx

/-- A component whose edges lead into itself or into the components found so far may be
added at the end. -/
theorem Topo.snoc {g : Graph} {ss : List (List String)} (h : Topo g ss) {c : List String}
    (hc : ∀ x ∈ c, ∀ y, g.Edge x y → y ∈ ss.flatten ∨ y ∈ c) : Topo g (ss ++ [c]) := by
  intro pre post e x hx y hxy
  rcases List.eq_nil_or_concat post with hp | ⟨post2, d, hp⟩
  · subst hp
    rw [List.append_nil] at e
    subst e
    rw [List.flatten_append, List.mem_append] at hx ⊢
    simp only [List.flatten_cons, List.flatten_nil, List.append_nil] at hx ⊢
    rcases hx with hx | hx
    · exact Or.inl (h ss [] (List.append_nil ss).symm x hx y hxy)
    · exact hc x hx y hxy
  · subst hp
    rw [List.concat_eq_append, ← List.append_assoc] at e
    have e2 := List.append_inj_left' e rfl
    exact h pre post2 e2 x hx y hxy

/-- The edges of the component that `finish` pops lead into the component or into the
components found before. -/
theorem LoopInv.pop_closed {g : Graph} {t0 t : Tarjan} {gs : List String} {v : String}
    (hL : LoopInv g t0 gs v (g.adj v) t) (h0 : Inv g t0 gs) {seg : List String}
    (hs : t.stack = t0.stack ++ v :: seg)
    (hlow : t.lowlink (t0.currentIndex + 1) = t0.currentIndex + 1) :
    ∀ x ∈ v :: seg, ∀ y, g.Edge x y → y ∈ t.sccs.flatten ∨ y ∈ v :: seg := by
  intro x hx y hxy
  have hI := hL.inv
  have hmem := hL.mem_stack_iff hs
  obtain ⟨hx1, hx2⟩ := (hmem x).mp hx
  have hxg : x ∉ gs := fun hg => hx2 (h0.gray_sub x hg)
  have hyi : t.index y ≠ none :=
    hL.closed_of_done x (hI.stack_indexed hx1) hxg y hxy
  rcases (hI.indexed_iff y).mp hyi with hy | hy
  · right
    by_contra hny
    have hy0 : y ∈ t0.stack := by
      by_contra hn
      exact hny ((hmem y).mpr ⟨hy, hn⟩)
    have h1 := hL.low_min x y hx1 hx2 hy0 hxy (fun e => by rw [← e]; exact hxy)
    have h2 := hL.old_le h0 hy0
    omega
  · exact Or.inl hy

theorem finish_topo {g : Graph} {t0 t : Tarjan} {gs : List String} {v : String}
    (hL : LoopInv g t0 gs v (g.adj v) t) (h0 : Inv g t0 gs) (hT : Topo g t.sccs)
    {t2 : Tarjan} (hf : finish v t = some t2) : Topo g t2.sccs := by
  by_cases hlow : t.lowlink (t0.currentIndex + 1) = t0.currentIndex + 1
  · have hI := hL.inv
    have hv := hL.idx_v_eq
    obtain ⟨seg, hs⟩ := hL.stk
    have hnd := hI.stack_nodup
    have hvseg : v ∉ seg := by
      rw [hs] at hnd
      exact (List.nodup_cons.mp (List.nodup_append.mp hnd).2.1).1
    obtain ⟨tp, hp, _, _, _, _, hpsc, _, _⟩ :=
      popLoop_spec v (t.idx v) t0.stack seg [] t [] (by simp [hs]) hvseg
    have hlen : t.stack.length - 1 = t0.stack.length + seg.length := by
      rw [hs]; simp
    have hfin : finish v t =
        some { tp with stack := tp.stack.take t0.stack.length,
                       sccs := tp.sccs ++ [(v :: seg).reverse] } := by
      unfold finish
      rw [hv, hlow, if_pos rfl, hlen, ← hv, hp]
      simp
    rw [hfin] at hf
    injection hf with hf
    rw [← hf]
    show Topo g (tp.sccs ++ [(v :: seg).reverse])
    rw [hpsc]
    apply hT.snoc
    intro x hx y hxy
    rw [List.mem_reverse] at hx
    rcases hL.pop_closed h0 hs hlow x hx y hxy with h | h
    · exact Or.inl h
    · exact Or.inr (List.mem_reverse.mpr h)
  · unfold finish at hf
    rw [hL.idx_v_eq, if_neg (fun h => hlow h.symm)] at hf
    injection hf with hf
    rw [← hf]
    exact hT

end scc

namespace scc

theorem searchEdge_topo {g : Graph} {n : Nat} (IT : TopoOk g n) {t0 t : Tarjan}
    {gs : List String} {v : String} {done : List String} (hL : LoopInv g t0 gs v done t)
    (h0 : Inv g t0 gs) (hv0 : t0.index v = none) (hvv : v ∈ g.vertices)
    (hfuel : white g t0 ≤ n + 1) {w : String} (he : g.Edge v w) (hT : Topo g t.sccs)
    {t2 : Tarjan} (hrun : searchEdge (search n) v w t = some t2) : Topo g t2.sccs := by
  unfold searchEdge at hrun
  by_cases hw : t.index w = none
  · rw [if_pos hw] at hrun
    have hwh : white g t ≤ n := by
      have := white_lt hL.ext hvv hv0 (by rw [hL.idx_v]; simp)
      omega
    cases hr : search n w t with
    | none => rw [hr] at hrun; simp at hrun
    | some t1 =>
      rw [hr] at hrun
      simp only [Option.some.injEq] at hrun
      have h1 := IT w t (gs ++ [v]) hL.inv hw he.mem_vertices
        (fun q hq => (hL.gray_reach h0 hq).trans he.reach) hwh hT t1 hr
      rw [← hrun]
      exact h1
  · rw [if_neg hw] at hrun
    split at hrun
    · split at hrun
      · simp only [Option.some.injEq] at hrun
        rw [← hrun]; exact hT
      · simp only [Option.some.injEq] at hrun
        rw [← hrun]; exact hT
    · simp only [Option.some.injEq] at hrun
      rw [← hrun]; exact hT

theorem searchEdges_topo {g : Graph} {n : Nat} (IT : TopoOk g n) {t0 : Tarjan}
    {gs : List String} {v : String} (h0 : Inv g t0 gs) (hv0 : t0.index v = none)
    (hvv : v ∈ g.vertices) (hfuel : white g t0 ≤ n + 1) :
    ∀ (ws done : List String) (t : Tarjan), (∀ w ∈ ws, g.Edge v w) →
      LoopInv g t0 gs v done t → Topo g t.sccs →
      ∀ t2, searchEdges (search n) v ws t = some t2 → Topo g t2.sccs := by
  intro ws
  induction ws with
  | nil =>
    intro done t _ _ hT t2 hrun
    simp only [searchEdges, Option.some.injEq] at hrun
    rw [← hrun]; exact hT
  | cons w ws ih =>
    intro done t hws hL hT t2 hrun
    obtain ⟨t1, h1, hL1⟩ := searchEdge_ok (search_ok g n) hL h0 hv0 hvv hfuel (hws w (by simp))
    simp only [searchEdges, h1] at hrun
    exact ih (done ++ [w]) t1 (fun x hx => hws x (by simp [hx])) hL1
      (searchEdge_topo IT hL h0 hv0 hvv hfuel (hws w (by simp)) hT h1) t2 hrun

theorem search_topo (g : Graph) : ∀ n, TopoOk g n := by
  intro n
  induction n with
  | zero =>
    intro v t0 gs _ _ _ _ _ _ t hrun
    simp [search] at hrun
  | succ n ih =>
    intro v t0 gs h0 hv0 hvv hr hf hT t hrun
    have hadj : t0.adj v = g.adj v := by simp [Tarjan.adj, h0.hG]
    obtain ⟨t1, h1, hL⟩ := searchEdges_ok (search_ok g n) h0 hv0 hvv hf (g.adj v) []
      (enter v t0) (fun w hw => hw) (enter_loopInv h0 hv0 hvv hr)
    have hT1 := searchEdges_topo ih h0 hv0 hvv hf (g.adj v) [] (enter v t0)
      (fun w hw => hw) (enter_loopInv h0 hv0 hvv hr) hT t1 h1
    rw [search_succ, hadj, h1] at hrun
    exact finish_topo (by simpa using hL) h0 hT1 hrun

theorem findLoop_topo {g : Graph} {fuel : Nat} :
    ∀ (vs : List String) (t : Tarjan), Inv g t [] → (∀ v ∈ vs, v ∈ g.vertices) →
      white g t ≤ fuel → Topo g t.sccs →
      ∀ t2, findLoop fuel vs t = some t2 → Topo g t2.sccs := by
  intro vs
  induction vs with
  | nil =>
    intro t _ _ _ hT t2 hrun
    simp only [findLoop, Option.some.injEq] at hrun
    rw [← hrun]; exact hT
  | cons v vs ih =>
    intro t h0 hvs hf hT t2 hrun
    simp only [findLoop] at hrun
    by_cases hz : t.idx v = 0
    · have hv0 : t.index v = none := by
        by_contra hne
        have := (h0.idx_ge hne).1
        omega
      rw [if_pos hz] at hrun
      obtain ⟨t1, h1, hP⟩ := search_ok g fuel v t [] h0 hv0 (hvs v (by simp))
        (fun q hq => absurd hq (by simp)) hf
      rw [h1] at hrun
      exact ih t1 hP.inv (fun x hx => hvs x (by simp [hx])) (le_trans (white_le hP.ext) hf)
        (search_topo g fuel v t [] h0 hv0 (hvs v (by simp)) (fun q hq => absurd hq (by simp))
          hf hT t1 h1) t2 hrun
    · rw [if_neg hz] at hrun
      exact ih t h0 (fun x hx => hvs x (by simp [hx])) hf hT t2 hrun

/-- The components returned by `Find`, with their order. -/
theorem Find_topo (g : Graph) :
    ∃ ss, (∀ fuel, g.vertices.length ≤ fuel →
        Find fuel (NewTarjan (some g)) = some (.ok ss)) ∧
      ss.flatten.Nodup ∧ (∀ u, u ∈ ss.flatten ↔ u ∈ g.vertices) ∧ Topo g ss := by
  obtain ⟨ss, hF, hnd, hcov, _⟩ := Find_spec g
  refine ⟨ss, hF, hnd, hcov, ?_⟩
  have hw : white g { NewTarjan (some g) with currentIndex := 1 } ≤ g.vertices.length := by
    unfold white
    exact List.length_filter_le _ _
  have h1 := hF g.vertices.length (le_refl _)
  unfold Find at h1
  simp only [NewTarjan] at h1
  cases hfl : findLoop g.vertices.length (sortKeys g)
      { G := some g, index := fun _ => none, lowlink := fun _ => 0, stack := [],
        onStack := fun _ => false, currentIndex := 1, sccs := [] } with
  | none => rw [hfl] at h1; simp at h1
  | some t2 =>
    rw [hfl] at h1
    simp only [Option.some.injEq, Except.ok.injEq] at h1
    rw [← h1]
    exact findLoop_topo (sortKeys g) _ (init_inv g)
      (fun v hv => Graph.mem_vertices_of_key ((mem_sortKeys g v).mp hv)) hw (Topo.nil g) t2 hfl

/-- Components that hold a common vertex are the same component. -/
theorem eq_of_common_mem {ss : List (List String)} (hnd : ss.flatten.Nodup)
    {c d : List String} (hc : c ∈ ss) (hd : d ∈ ss) {w : String} (hwc : w ∈ c) (hwd : w ∈ d) :
    c = d := by
  induction ss with
  | nil => simp at hc
  | cons a ss ih =>
    rw [List.flatten_cons, List.nodup_append] at hnd
    obtain ⟨_, h2, h3⟩ := hnd
    rcases List.mem_cons.mp hc with hca | hc2
    · rcases List.mem_cons.mp hd with hda | hd2
      · rw [hca, hda]
      · have h4 : w ∈ ss.flatten := List.mem_flatten.mpr ⟨d, hd2, hwd⟩
        rw [hca] at hwc
        exact absurd h4 (fun h => h3 hwc h)
    · rcases List.mem_cons.mp hd with hda | hd2
      · have h4 : w ∈ ss.flatten := List.mem_flatten.mpr ⟨c, hc2, hwc⟩
        rw [hda] at hwd
        exact absurd h4 (fun h => h3 hwd h)
      · exact ih h2 hc2 hd2

/-- In a list with the dependencies first, the component of the target of an edge comes
before the component of its source, when they differ. -/
theorem Topo.before {g : Graph} {ss : List (List String)} (hT : Topo g ss)
    (hnd : ss.flatten.Nodup) {u w : String} (he : g.Edge u w) {cu cw : List String}
    (hcu : cu ∈ ss) (hcw : cw ∈ ss) (hu : u ∈ cu) (hw : w ∈ cw) (hne : cu ≠ cw) :
    ComesBefore ss cw cu := by
  obtain ⟨l1, l3, e⟩ := List.append_of_mem hcu
  have e2 : ss = (l1 ++ [cu]) ++ l3 := by rw [e]; simp
  have hw2 := hT (l1 ++ [cu]) l3 e2 u
    (List.mem_flatten.mpr ⟨cu, by simp, hu⟩) w he
  obtain ⟨d, hd, hwd⟩ := List.mem_flatten.mp hw2
  have hds : d ∈ ss := by rw [e2]; exact List.mem_append_left _ hd
  have hdc : d = cw := eq_of_common_mem hnd hds hcw hwd hw
  subst hdc
  rw [List.mem_append, List.mem_singleton] at hd
  rcases hd with hd | hd
  · obtain ⟨a, b, e3⟩ := List.append_of_mem hd
    exact ⟨a, b, l3, by simp [e, e3]⟩
  · exact absurd hd.symm hne

end scc

theorem ComesBefore.filter {α : Type} {l : List α} {a b : α} (h : ComesBefore l a b)
    (p : α → Bool) (ha : p a = true) (hb : p b = true) : ComesBefore (l.filter p) a b := by
  obtain ⟨l1, l2, l3, e⟩ := h
  refine ⟨l1.filter p, l2.filter p, l3.filter p, ?_⟩
  rw [e]
  simp [List.filter_append, List.filter_cons, ha, hb]

namespace cycle

theorem Grow.same (t : Tarjan) : Grow t t :=
  ⟨rfl, rfl, fun _ _ h => h⟩

theorem Grow.chain {t t2 t3 : Tarjan} (h1 : Grow t t2) (h2 : Grow t2 t3) : Grow t t3 :=
  ⟨h2.1.trans h1.1, h2.2.1.trans h1.2.1, fun a b h => h2.2.2 a b (h1.2.2 a b h)⟩

theorem Grow.of_eq {t t2 : Tarjan} (hG : t2.G = t.G) (hi : t2.index = t.index)
    (hr : t2.removed = t.removed) : Grow t t2 :=
  ⟨hG, hi, fun a b h => by simpa [Tarjan.isRemoved, hr] using h⟩

theorem Grow.idx {t t2 : Tarjan} (h : Grow t t2) (u : String) : t2.idx u = t.idx u := by
  simp [Tarjan.idx, h.2.1]

theorem Grow.adj {t t2 : Tarjan} (h : Grow t t2) (u : String) : t2.adj u = t.adj u := by
  simp [Tarjan.adj, h.1]

theorem remove_isRemoved (t : Tarjan) (a b : Nat) : (t.remove a b).isRemoved a b = true := by
  unfold Tarjan.remove Tarjan.isRemoved
  cases hr : t.removed a with
  | none => simp [hr]
  | some m => simp [hr]

theorem remove_keeps (t : Tarjan) (a b a2 b2 : Nat) (h : t.isRemoved a2 b2 = true) :
    (t.remove a b).isRemoved a2 b2 = true := by
  unfold Tarjan.isRemoved at h
  unfold Tarjan.remove Tarjan.isRemoved
  by_cases ha : a2 = a
  · subst ha
    cases hr : t.removed a2 with
    | none => rw [hr] at h; simp at h
    | some m =>
      rw [hr] at h
      simp only [hr, Option.isNone_some, Bool.false_eq_true, if_false, Function.update_same]
      by_cases hb : b2 = b
      · subst hb; simp
      · simpa [Function.update_noteq hb] using h
  · cases hr : t.removed a with
    | none => simpa [hr, Function.update_noteq ha] using h
    | some m => simpa [hr, Function.update_noteq ha] using h

theorem remove_grow (t : Tarjan) (a b : Nat) : Grow t (t.remove a b) := by
  obtain ⟨e1, e2, _⟩ := remove_fields t a b
  exact ⟨e1, e2, fun a2 b2 h => remove_keeps t a b a2 b2 h⟩

theorem unmarkLoop_grow (iv : Nat) : ∀ (j : Nat) (t t2 : Tarjan),
    unmarkLoop iv j t = some t2 → Grow t t2 := by
  intro j
  induction j with
  | zero =>
    intro t t2 h
    rw [unmarkLoop_eq] at h
    cases hg : t.markedStack[0]? with
    | none => rw [hg] at h; simp at h
    | some u =>
      rw [hg] at h
      simp only [] at h
      split at h
      · injection h with h
        rw [← h]
        exact Grow.of_eq rfl rfl rfl
      · simp at h
  | succ k ih =>
    intro t t2 h
    rw [unmarkLoop_eq] at h
    cases hg : t.markedStack[k + 1]? with
    | none => rw [hg] at h; simp at h
    | some u =>
      rw [hg] at h
      simp only [] at h
      split at h
      · injection h with h
        rw [← h]
        exact Grow.of_eq rfl rfl rfl
      · have h2 := ih _ _ h
        exact ⟨h2.1, h2.2.1, h2.2.2⟩

theorem finish_grow (v : String) (found : Bool) (t : Tarjan) (x : Bool × Tarjan)
    (h : finish v found t = some x) : Grow t x.2 := by
  unfold finish at h
  cases hu : (if found = true then unmarkLoop (t.idx v) (t.markedStack.length - 1) t
      else some t) with
  | none => rw [hu] at h; simp at h
  | some t1 =>
    rw [hu] at h
    simp only [] at h
    have h1 : Grow t t1 := by
      split at hu
      · exact unmarkLoop_grow _ _ _ _ hu
      · injection hu with hu
        rw [← hu]; exact Grow.same t
    split at h
    · simp at h
    · injection h with h
      rw [← h]
      exact h1.chain (Grow.of_eq rfl rfl rfl)

theorem searchEdge_grow {rec : String → Tarjan → Option (Bool × Tarjan)}
    (hrec : ∀ w t x, rec w t = some x → Grow t x.2) (s v w : String) (found : Bool)
    (t : Tarjan) (x : Bool × Tarjan) (h : searchEdge rec s v w found t = some x) :
    Grow t x.2 := by
  unfold searchEdge at h
  split at h
  · injection h with h; rw [← h]; exact Grow.same t
  · split at h
    · injection h with h; rw [← h]; exact remove_grow t _ _
    · split at h
      · injection h with h; rw [← h]; exact Grow.of_eq rfl rfl rfl
      · split at h
        · cases hr : rec w t with
          | none => rw [hr] at h; simp at h
          | some y =>
            rw [hr] at h
            simp only [] at h
            injection h with h
            rw [← h]
            exact hrec w t y hr
        · injection h with h; rw [← h]; exact Grow.same t

theorem searchEdges_grow {rec : String → Tarjan → Option (Bool × Tarjan)}
    (hrec : ∀ w t x, rec w t = some x → Grow t x.2) (s v : String) :
    ∀ (ws : List String) (found : Bool) (t : Tarjan) (x : Bool × Tarjan),
      searchEdges rec s v ws found t = some x → Grow t x.2 := by
  intro ws
  induction ws with
  | nil =>
    intro found t x h
    simp only [searchEdges] at h
    injection h with h
    rw [← h]; exact Grow.same t
  | cons w ws ih =>
    intro found t x h
    simp only [searchEdges] at h
    cases h1 : searchEdge rec s v w found t with
    | none => rw [h1] at h; simp at h
    | some y =>
      rw [h1] at h
      exact (searchEdge_grow hrec s v w found t y h1).chain (ih _ _ _ h)

theorem enter_grow (v : String) (t : Tarjan) : Grow t (enter v t) :=
  Grow.of_eq rfl rfl rfl

theorem search_grow (s : String) : ∀ (n : Nat) (v : String) (t : Tarjan) (x : Bool × Tarjan),
    search n s v t = some x → Grow t x.2 := by
  intro n
  induction n with
  | zero => intro v t x h; simp [search] at h
  | succ n ih =>
    intro v t x h
    rw [circ_search_succ] at h
    cases h1 : searchEdges (search n s) s v (t.adj v) false (enter v t) with
    | none => rw [h1] at h; simp at h
    | some y =>
      rw [h1] at h
      have h2 := searchEdges_grow (fun w t x hx => ih w t x hx) s v _ _ _ _ h1
      exact ((enter_grow v t).chain h2).chain (finish_grow v y.1 y.2 x h)

theorem clearMarks_grow (us : List Nat) (t : Tarjan) : Grow t (clearMarks us t) := by
  obtain ⟨e1, e2, e3, _⟩ := clearMarks_spec us t
  exact Grow.of_eq e1 e2 e3

/-- At a root, the loop over the edges removes every edge that leads to a smaller
number. -/
theorem rootEdges_low {rec : String → Tarjan → Option (Bool × Tarjan)}
    (hrec : ∀ w t x, rec w t = some x → Grow t x.2) (s : String) :
    ∀ (ws : List String) (found : Bool) (t : Tarjan) (x : Bool × Tarjan),
      searchEdges rec s s ws found t = some x →
      ∀ w ∈ ws, t.idx w < t.idx s → x.2.isRemoved (t.idx s) (t.idx w) = true := by
  intro ws
  induction ws with
  | nil => intro found t x _ w hw; simp at hw
  | cons w0 ws ih =>
    intro found t x h w hw hlt
    simp only [searchEdges] at h
    cases h1 : searchEdge rec s s w0 found t with
    | none => rw [h1] at h; simp at h
    | some y =>
      rw [h1] at h
      have hg1 := searchEdge_grow hrec s s w0 found t y h1
      have hg2 := searchEdges_grow hrec s s ws y.1 y.2 x h
      rcases List.mem_cons.mp hw with rfl | hw
      · apply hg2.2.2
        unfold searchEdge at h1
        by_cases hr : t.isRemoved (t.idx s) (t.idx w) = true
        · rw [if_pos hr] at h1
          injection h1 with h1
          rw [← h1]; exact hr
        · rw [if_neg hr, if_pos hlt] at h1
          injection h1 with h1
          rw [← h1]
          exact remove_isRemoved t _ _
      · have := ih y.1 y.2 x h w hw (by rw [hg1.idx, hg1.idx]; exact hlt)
        rw [hg1.idx, hg1.idx] at this
        exact this

theorem rootSearch_low (s : String) (n : Nat) (t : Tarjan) (x : Bool × Tarjan)
    (h : search n s s t = some x) :
    ∀ w ∈ t.adj s, t.idx w < t.idx s → x.2.isRemoved (t.idx s) (t.idx w) = true := by
  cases n with
  | zero => simp [search] at h
  | succ n =>
    intro w hw hlt
    rw [circ_search_succ] at h
    cases h1 : searchEdges (search n s) s s (t.adj s) false (enter s t) with
    | none => rw [h1] at h; simp at h
    | some y =>
      rw [h1] at h
      have hg := finish_grow s y.1 y.2 x h
      apply hg.2.2
      have := rootEdges_low (fun w t x hx => search_grow s n w t x hx) s (t.adj s) false
        (enter s t) y h1 w hw (by rw [(enter_grow s t).idx, (enter_grow s t).idx]; exact hlt)
      rw [(enter_grow s t).idx, (enter_grow s t).idx] at this
      exact this

theorem findLoop_low (n : Nat) : ∀ (roots : List String) (t t2 : Tarjan),
    findLoop n roots t = some t2 →
    Grow t t2 ∧ ∀ r ∈ roots, ∀ w ∈ t.adj r, t.idx w < t.idx r →
      t2.isRemoved (t.idx r) (t.idx w) = true := by
  intro roots
  induction roots with
  | nil =>
    intro t t2 h
    simp only [findLoop] at h
    injection h with h
    rw [← h]
    exact ⟨Grow.same t, fun r hr => absurd hr (by simp)⟩
  | cons s roots ih =>
    intro t t2 h
    simp only [findLoop] at h
    cases h1 : search n s s t with
    | none => rw [h1] at h; simp at h
    | some y =>
      rw [h1] at h
      simp only [] at h
      have hg1 : Grow t y.2 := search_grow s n s t y h1
      have hg2 : Grow y.2 { clearMarks y.2.markedStack y.2 with markedStack := [] } :=
        (clearMarks_grow _ _).chain (Grow.of_eq rfl rfl rfl)
      obtain ⟨hg3, hlow⟩ := ih _ t2 h
      have hg12 := hg1.chain hg2
      refine ⟨hg12.chain hg3, ?_⟩
      intro r hr w hw hlt
      rcases List.mem_cons.mp hr with rfl | hr
      · exact hg3.2.2 _ _ (hg2.2.2 _ _ (rootSearch_low r n t y h1 w hw hlt))
      · have := hlow r hr w (by rw [hg12.adj]; exact hw) (by rw [hg12.idx, hg12.idx]; exact hlt)
        rw [hg12.idx, hg12.idx] at this
        exact this

end cycle

namespace cycle

theorem Again.idx_at {g : Graph} {ix : String → Option Nat} {s : String} {t : Tarjan}
    (h : Again g ix s t) (u : String) : t.idx u = num ix u := by
  simp [Tarjan.idx, num, h.hix]

theorem Again.fresh {g : Graph} {ix : String → Option Nat} {s : String} {t : Tarjan}
    (h : Again g ix s t) {v : String} (hm : t.marked (num ix v) = false) :
    v ∉ t.pointStack := by
  intro hv
  have := h.ps_marked v hv
  rw [hm] at this
  exact absurd this (by simp)

theorem Again.keys {g : Graph} {ix : String → Option Nat} {s : String} {t : Tarjan}
    (h : Again g ix s t) (hN : Numbering g ix) (hs : ix s ≠ none) :
    ∀ x ∈ t.pointStack, x ∈ g.keys := by
  intro x hx
  apply (hN.key_iff _).mp
  apply Numbering.ne_none_of_pos
  cases hp : t.pointStack with
  | nil => rw [hp] at hx; simp at hx
  | cons a q =>
    rw [hp] at hx
    rcases List.mem_cons.mp hx with rfl | hx
    · have := h.ps_head x (by simp [hp])
      rw [this]
      exact hN.num_pos hs
    · have := h.ps_gt x (by simp [hp, hx])
      omega

theorem Again.enter {g : Graph} {ix : String → Option Nat} {s : String} {t0 : Tarjan}
    (h : Again g ix s t0) {v : String} (hm : t0.marked (num ix v) = false)
    (hnil : t0.pointStack = [] → v = s) (hgt : t0.pointStack ≠ [] → num ix s < num ix v) :
    Again g ix s (enter v t0) := by
  have hi := h.idx_at v
  refine ⟨h.hG, h.hix, ?_, ?_, ?_, ?_, ?_, h.low⟩
  · intro i him
    show i ∈ t0.markedStack ++ [t0.idx v]
    have him2 : Function.update t0.marked (t0.idx v) true i = true := him
    by_cases e : i = t0.idx v
    · simp [e]
    · rw [Function.update_noteq e] at him2
      exact List.mem_append_left _ (h.marked_sub i him2)
  · intro u hu
    show Function.update t0.marked (t0.idx v) true (num ix u) = true
    by_cases e : num ix u = t0.idx v
    · rw [e]; simp
    · rw [Function.update_noteq e]
      have hu2 : u ∈ t0.pointStack ++ [v] := hu
      rcases List.mem_append.mp hu2 with hu3 | hu3
      · exact h.ps_marked u hu3
      · rw [List.mem_singleton] at hu3
        rw [hu3, hi] at e
        exact absurd rfl e
  · show (t0.pointStack ++ [v]).Nodup
    rw [List.nodup_append]
    refine ⟨h.ps_nodup, List.nodup_singleton v, ?_⟩
    intro a ha hb
    rw [List.mem_singleton] at hb
    subst hb
    exact h.fresh hm ha
  · intro u hu
    have hu2 : u ∈ (t0.pointStack ++ [v]).head? := hu
    cases hp : t0.pointStack with
    | nil =>
      rw [hp] at hu2
      simp at hu2
      rw [← hu2]; exact hnil hp
    | cons a q =>
      rw [hp] at hu2
      simp at hu2
      exact h.ps_head u (by simp [hp, hu2])
  · intro u hu
    have hu2 : u ∈ (t0.pointStack ++ [v]).tail := hu
    cases hp : t0.pointStack with
    | nil => rw [hp] at hu2; simp at hu2
    | cons a q =>
      rw [hp] at hu2
      simp at hu2
      rcases hu2 with hu3 | hu3
      · exact h.ps_gt u (by simp [hp, hu3])
      · rw [hu3]; exact hgt (by simp [hp])

theorem Again.pop {g : Graph} {ix : String → Option Nat} {s : String} {t : Tarjan}
    (h : Again g ix s t) {p : List String} {v : String} (hps : t.pointStack = p ++ [v]) :
    Again g ix s { t with pointStack := t.pointStack.take (t.pointStack.length - 1) } := by
  have htake : t.pointStack.take (t.pointStack.length - 1) = p := by rw [hps]; simp
  refine ⟨h.hG, h.hix, h.marked_sub, ?_, ?_, ?_, ?_, h.low⟩
  · intro u hu
    have hu2 : u ∈ t.pointStack.take (t.pointStack.length - 1) := hu
    rw [htake] at hu2
    exact h.ps_marked u (by rw [hps]; exact List.mem_append_left _ hu2)
  · show (t.pointStack.take (t.pointStack.length - 1)).Nodup
    rw [htake]
    have := h.ps_nodup
    rw [hps] at this
    exact (List.nodup_append.mp this).1
  · intro u hu
    have hu2 : u ∈ (t.pointStack.take (t.pointStack.length - 1)).head? := hu
    rw [htake] at hu2
    apply h.ps_head u
    rw [hps]
    cases p with
    | nil => simp at hu2
    | cons a q => simpa using hu2
  · intro u hu
    have hu2 : u ∈ (t.pointStack.take (t.pointStack.length - 1)).tail := hu
    rw [htake] at hu2
    apply h.ps_gt u
    rw [hps]
    cases p with
    | nil => simp at hu2
    | cons a q =>
      simp at hu2 ⊢
      exact Or.inl hu2

theorem again_edge {g : Graph} {ix : String → Option Nat} {s : String} {n : Nat}
    (IH : AgainOk g ix s n) (hN : Numbering g ix) (hs : ix s ≠ none)
    (hno : ∀ u, ¬ g.Edge u u) {t : Tarjan} {p : List String} {v : String}
    (h : Again g ix s t) (hps : t.pointStack = p ++ [v])
    (hvs : v = s ∨ num ix s < num ix v) (hv : ix v ≠ none)
    (hfuel : g.keys.length ≤ p.length + (n + 1)) {w : String} (he : g.Edge v w) :
    ∃ t2, searchEdge (search n s) s v w false t = some (false, t2) ∧ Again g ix s t2 ∧
      t2.pointStack = t.pointStack ∧ t2.cycles = t.cycles := by
  unfold searchEdge
  rw [h.idx_at, h.idx_at, h.idx_at]
  by_cases hr : t.isRemoved (num ix v) (num ix w) = true
  · rw [if_pos hr]
    exact ⟨t, rfl, h, rfl, rfl⟩
  · rw [if_neg hr]
    by_cases hlt : num ix w < num ix s
    · rw [if_pos hlt]
      obtain ⟨e1, e2, e3, e4, e5, e6⟩ := remove_fields t (num ix v) (num ix w)
      refine ⟨_, rfl, ⟨e1.trans h.hG, e2.trans h.hix, ?_, ?_, ?_, ?_, ?_, ?_⟩, e5, e6⟩
      · intro i; rw [e3, e4]; exact h.marked_sub i
      · intro u; rw [e3, e5]; exact h.ps_marked u
      · rw [e5]; exact h.ps_nodup
      · rw [e5]; exact h.ps_head
      · rw [e5]; exact h.ps_gt
      · intro a b ha hab hl
        exact remove_keeps t _ _ _ _ (h.low a b ha hab hl)
    · rw [if_neg hlt]
      by_cases heq : num ix w = num ix s
      · exfalso
        have hws : s = w := hN.eq_of_num hs heq.symm
        subst hws
        rcases hvs with rfl | hgt
        · exact hno _ he
        · exact hr (h.low v s hv he hgt)
      · rw [if_neg heq]
        by_cases hm : t.marked (num ix w) = true
        · simp only [hm, Bool.not_true, Bool.false_eq_true, if_false]
          exact ⟨t, rfl, h, rfl, rfl⟩
        · have hm2 : t.marked (num ix w) = false := by simpa using hm
          simp only [hm2, Bool.not_false, if_true]
          have hgt : num ix s < num ix w := by omega
          have hw : ix w ≠ none := by
            apply Numbering.ne_none_of_pos
            have := hN.num_pos hs
            omega
          obtain ⟨t2, h2, hA, e1, e2⟩ := IH w t h hm2 hw
            (fun h0 => by rw [hps] at h0; simp at h0) (fun _ => hgt)
            (by rw [hps]; simp; omega)
          rw [h2]
          exact ⟨t2, rfl, hA, e1, e2⟩

theorem again_edges {g : Graph} {ix : String → Option Nat} {s : String} {n : Nat}
    (IH : AgainOk g ix s n) (hN : Numbering g ix) (hs : ix s ≠ none)
    (hno : ∀ u, ¬ g.Edge u u) {p : List String} {v : String}
    (hvs : v = s ∨ num ix s < num ix v) (hv : ix v ≠ none)
    (hfuel : g.keys.length ≤ p.length + (n + 1)) :
    ∀ (ws : List String) (t : Tarjan), (∀ w ∈ ws, g.Edge v w) → Again g ix s t →
      t.pointStack = p ++ [v] →
      ∃ t2, searchEdges (search n s) s v ws false t = some (false, t2) ∧ Again g ix s t2 ∧
        t2.pointStack = t.pointStack ∧ t2.cycles = t.cycles := by
  intro ws
  induction ws with
  | nil => intro t _ h _; exact ⟨t, rfl, h, rfl, rfl⟩
  | cons w ws ih =>
    intro t hws h hps
    obtain ⟨t1, h1, hA1, e1, e2⟩ :=
      again_edge IH hN hs hno h hps hvs hv hfuel (hws w (by simp))
    obtain ⟨t2, h2, hA2, e3, e4⟩ := ih t1 (fun x hx => hws x (by simp [hx])) hA1
      (by rw [e1]; exact hps)
    refine ⟨t2, ?_, hA2, e3.trans e1, e4.trans e2⟩
    simp only [searchEdges, h1]
    exact h2

theorem search_again {g : Graph} {ix : String → Option Nat} {s : String}
    (hN : Numbering g ix) (hs : ix s ≠ none) (hno : ∀ u, ¬ g.Edge u u) :
    ∀ n, AgainOk g ix s n := by
  intro n
  induction n with
  | zero =>
    intro v t0 h0 hm hv _ _ hf
    exfalso
    have hnd : (v :: t0.pointStack).Nodup := List.nodup_cons.mpr ⟨h0.fresh hm, h0.ps_nodup⟩
    have hsub : ∀ x ∈ v :: t0.pointStack, x ∈ g.keys := by
      intro x hx
      rcases List.mem_cons.mp hx with rfl | hx
      · exact (hN.key_iff _).mp hv
      · exact h0.keys hN hs x hx
    have hle := (List.subperm_of_subset hnd hsub).length_le
    simp at hle
    omega
  | succ n ih =>
    intro v t0 h0 hm hv hnil hgt hf
    have hadj : t0.adj v = g.adj v := by simp [Tarjan.adj, h0.hG]
    have hvs : v = s ∨ num ix s < num ix v := by
      by_cases hp : t0.pointStack = []
      · exact Or.inl (hnil hp)
      · exact Or.inr (hgt hp)
    obtain ⟨t1, h1, hA1, e1, e2⟩ := again_edges ih hN hs hno hvs hv hf (g.adj v) (enter v t0)
      (fun w hw => hw) (h0.enter hm hnil hgt) rfl
    have hps : t1.pointStack = t0.pointStack ++ [v] := e1
    have hlen : t1.pointStack.length ≠ 0 := by rw [hps]; simp
    refine ⟨{ t1 with pointStack := t1.pointStack.take (t1.pointStack.length - 1) }, ?_,
      hA1.pop hps, ?_, e2⟩
    · rw [circ_search_succ, hadj, h1]
      unfold finish
      simp only [Bool.false_eq_true, if_false]
      rw [if_neg hlen]
    · show t1.pointStack.take (t1.pointStack.length - 1) = t0.pointStack
      rw [hps]; simp

theorem root_again {g : Graph} {ix : String → Option Nat} (hN : Numbering g ix)
    (hno : ∀ u, ¬ g.Edge u u) {fuel : Nat} (hfuel : g.keys.length ≤ fuel)
    {cs : List (List String)} {s : String} (hs : s ∈ g.keys) {t : Tarjan}
    (hR : AgainRoot g ix cs t) :
    ∃ f t1, search fuel s s t = some (f, t1) ∧
      AgainRoot g ix cs { clearMarks t1.markedStack t1 with markedStack := [] } := by
  have hs2 : ix s ≠ none := (hN.key_iff s).mpr hs
  have h0 : Again g ix s t := by
    refine ⟨hR.hG, hR.hix, ?_, ?_, by rw [hR.ps]; exact List.nodup_nil, ?_, ?_, hR.low⟩
    · intro i hi; rw [hR.unmarked] at hi; exact absurd hi (by simp)
    · intro u hu; rw [hR.ps] at hu; simp at hu
    · intro u hu; rw [hR.ps] at hu; simp at hu
    · intro u hu; rw [hR.ps] at hu; simp at hu
  obtain ⟨t1, h1, hA, e1, e2⟩ := search_again hN hs2 hno fuel s t h0 (hR.unmarked _) hs2
    (fun _ => rfl) (fun h => absurd hR.ps h) (by omega)
  obtain ⟨c1, c2, c3, c4, c5, c6, c7⟩ := clearMarks_spec t1.markedStack t1
  refine ⟨false, t1, h1, c1.trans hA.hG, c2.trans hA.hix, rfl, ?_, ?_, ?_, ?_⟩
  · intro i
    show (clearMarks t1.markedStack t1).marked i = false
    rw [c7]
    by_cases hi : i ∈ t1.markedStack
    · rw [if_pos hi]
    · rw [if_neg hi]
      cases hm : t1.marked i with
      | false => rfl
      | true => exact absurd (hA.marked_sub i hm) hi
  · show (clearMarks t1.markedStack t1).pointStack = []
    rw [c5, e1, hR.ps]
  · intro v w hv he hl
    have := hA.low v w hv he hl
    simpa [Tarjan.isRemoved, c3] using this
  · show (clearMarks t1.markedStack t1).cycles = cs
    rw [c6, e2, hR.cyc]

theorem findLoop_again {g : Graph} {ix : String → Option Nat} (hN : Numbering g ix)
    (hno : ∀ u, ¬ g.Edge u u) {fuel : Nat} (hfuel : g.keys.length ≤ fuel)
    {cs : List (List String)} :
    ∀ (rs : List String) (t : Tarjan), (∀ r ∈ rs, r ∈ g.keys) → AgainRoot g ix cs t →
      ∃ t2, findLoop fuel rs t = some t2 ∧ AgainRoot g ix cs t2 := by
  intro rs
  induction rs with
  | nil => intro t _ hR; exact ⟨t, rfl, hR⟩
  | cons s rs ih =>
    intro t hrs hR
    obtain ⟨f, t1, h1, hR1⟩ := root_again hN hno hfuel (hrs s (by simp)) hR
    obtain ⟨t2, h2, hR2⟩ := ih _ (fun r hr => hrs r (by simp [hr])) hR1
    refine ⟨t2, ?_, hR2⟩
    simp only [findLoop, h1]
    exact h2

end cycle

namespace cycle

/-- A second `Find` on the instance left by a first one returns the first list again when no
vertex lists itself. -/
theorem Find_again (g : Graph) (hno : ∀ u, ¬ g.Edge u u) :
    ∃ cs t1 t2, ∀ fuel, g.keys.length ≤ fuel →
      Find fuel (NewTarjan (some g)) = some (.ok cs, t1) ∧ Find fuel t1 = some (.ok cs, t2) := by
  have hN := start_numbering g
  have hkeys : ∀ x ∈ sortKeys g, x ∈ g.keys := fun x hx => (mem_sortKeys g x).mp hx
  obtain ⟨t1, h1, hR⟩ := findLoop_part hN (le_refl g.keys.length) (sortKeys g) [] [] (start g)
    (by simpa using sortKeys_pairwise g) (by simpa using hkeys)
    (by simpa using start_rootInv g)
  obtain ⟨hG, hlow⟩ := findLoop_low _ _ _ _ h1
  obtain ⟨e1, e2, e3, e4, e5, e6, e7⟩ := assignIndex_spec (sortKeys g) 0 t1 (sortKeys_nodup g)
  obtain ⟨_, _, _, _, _, _, s7⟩ :=
    assignIndex_spec (sortKeys g) 0 (NewTarjan (some g)) (sortKeys_nodup g)
  have hix : (assignIndex 0 (sortKeys g) t1).index = (start g).index := by
    funext u
    rw [e7]
    show _ = (assignIndex 0 (sortKeys g) (NewTarjan (some g))).index u
    rw [s7]
    by_cases hu : u ∈ sortKeys g
    · rw [if_pos hu, if_pos hu]
    · rw [if_neg hu, if_neg hu, hR.hix]
      show (assignIndex 0 (sortKeys g) (NewTarjan (some g))).index u = _
      rw [s7, if_neg hu]
  have hA : AgainRoot g (start g).index t1.cycles (assignIndex 0 (sortKeys g) t1) := by
    refine ⟨e1.trans hR.hG, hix, e4.trans hR.ms, ?_, e5.trans hR.ps, ?_, e6⟩
    · intro i; rw [e2]; exact hR.unmarked i
    · intro v w hv he hl
      have hv2 : v ∈ sortKeys g := (mem_sortKeys g v).mpr ((hN.key_iff v).mp hv)
      have hadj : (start g).adj v = g.adj v := by
        simp [Tarjan.adj, (start_rootInv g).hG]
      have := hlow v hv2 w (by rw [hadj]; exact he) hl
      simpa [Tarjan.isRemoved, e3] using this
  obtain ⟨t2, h2, hR2⟩ := findLoop_again hN hno (le_refl g.keys.length) (sortKeys g) _ hkeys hA
  have hF1 : Find g.keys.length (NewTarjan (some g)) = some (.ok t1.cycles, t1) := by
    have hdef : Find g.keys.length (NewTarjan (some g)) =
        match findLoop g.keys.length (sortKeys g) (start g) with
        | none => none
        | some t => some (.ok t.cycles, t) := rfl
    rw [hdef, h1]
  have hF2 : Find g.keys.length t1 = some (.ok t1.cycles, t2) := by
    obtain ⟨G, index, marked, removed, ms, ps, cycles⟩ := t1
    have hG1 : G = some g := hR.hG
    subst hG1
    simp only [Find, h2]
    rw [hR2.cyc]
  exact ⟨t1.cycles, t1, t2, fun fuel hf => ⟨circ_Find_mono hf hF1, circ_Find_mono hf hF2⟩⟩

end cycle

/-- C1: for every adjacency mapping `g`, `scc.Find` returns (for every fuel above the
number of vertices) a list of components such that every component is non-empty and is
exactly the set of vertices mutually reachable with any of its members, and two vertices
of `g` lie in one returned component if and only if each is reachable from the other. -/
theorem scc_find_components (g : Graph) :
    ∃ ss, (∀ fuel, g.vertices.length ≤ fuel →
        scc.Find fuel (scc.NewTarjan (some g)) = some (.ok ss)) ∧
      (∀ c ∈ ss, c ≠ [] ∧ ∀ u ∈ c, ∀ x, x ∈ c ↔ (g.Reach u x ∧ g.Reach x u)) ∧
      ∀ u ∈ g.vertices, ∀ v ∈ g.vertices,
        ((∃ c ∈ ss, u ∈ c ∧ v ∈ c) ↔ (g.Reach u v ∧ g.Reach v u)) := by
  obtain ⟨ss, hF, _, hcov, hok⟩ := scc.Find_spec g
  exact ⟨ss, hF, hok, fun u hu v _ => scc.same_component_iff hcov hok hu⟩

/-- C2: for every adjacency mapping `g`, every elementary circuit `c = [v0, ..., vk]` of
`g` (self-loops included) appears in the list returned by `cycle.Find`, as the rotation
of `c` that starts at its smallest vertex `s` in the order of strings, followed by `s`. -/
theorem cycle_find_complete (g : Graph) :
    ∃ cs, (∀ fuel, g.keys.length ≤ fuel →
        (cycle.Find fuel (cycle.NewTarjan (some g))).map Prod.fst = some (.ok cs)) ∧
      ∀ c, g.IsCircuit c →
        ∃ n s q, c.rotate n = s :: q ∧ (∀ x ∈ c, s ≤ x) ∧ s :: q ++ [s] ∈ cs := by
  obtain ⟨cs, ix, hN, hF, _, _, hcomp, _⟩ := cycle.circ_Find_spec g
  exact ⟨cs, hF, fun c hc => cycle.complete_circuit hN hcomp hc⟩

/-- C3: for every adjacency mapping `g`, every sequence `c` returned by `cycle.Find` has
at least two elements, its first and last elements are equal, the elements after the
first are pairwise distinct, and every two consecutive elements are joined by an edge. -/
theorem cycle_find_sound (g : Graph) :
    ∃ cs, (∀ fuel, g.keys.length ≤ fuel →
        (cycle.Find fuel (cycle.NewTarjan (some g))).map Prod.fst = some (.ok cs)) ∧
      ∀ c ∈ cs, 2 ≤ c.length ∧ c.head? = c.getLast? ∧ c.tail.Nodup ∧ c.Chain' g.Edge := by
  obtain ⟨cs, ix, _, hF, hs, _, _, _⟩ := cycle.circ_Find_spec g
  refine ⟨cs, hF, fun c hc => ?_⟩
  obtain ⟨r, h⟩ := hs c hc
  exact h.props

/-- C4: for every adjacency mapping `g` whose edge lists contain no repeated entry, the
list returned by `cycle.Find` has no two equal entries, and no entry is a rotation of an
earlier one (the vertex sequence without its closing vertex, started elsewhere). -/
theorem cycle_find_distinct (g : Graph) (h : g.NoRepeat) :
    ∃ cs, (∀ fuel, g.keys.length ≤ fuel →
        (cycle.Find fuel (cycle.NewTarjan (some g))).map Prod.fst = some (.ok cs)) ∧
      cs.Nodup ∧ cs.Pairwise (fun c d => ∀ n, d.dropLast ≠ c.dropLast.rotate n) := by
  obtain ⟨cs, ix, _, hF, hs, hnd, _, _⟩ := cycle.circ_Find_spec g
  refine ⟨cs, hF, hnd h, ?_⟩
  have h1 : cs.Pairwise (fun c d => c ≠ d) := hnd h
  refine (List.Pairwise.and_mem.mp h1).imp ?_
  rintro c d ⟨hc, hd, hne⟩ n hrot
  obtain ⟨r1, hs1⟩ := hs c hc
  obtain ⟨r2, hs2⟩ := hs d hd
  exact hne (hs1.eq_of_rotate hs2 n hrot).symm

/-- C4, at the reference graph of scenario B. -/
theorem cycle_find_distinct_witness :
    scenarioB.NoRepeat ∧
    ∃ cs, (∀ fuel, scenarioB.keys.length ≤ fuel →
        (cycle.Find fuel (cycle.NewTarjan (some scenarioB))).map Prod.fst = some (.ok cs)) ∧
      cs.Nodup ∧ cs.Pairwise (fun c d => ∀ n, d.dropLast ≠ c.dropLast.rotate n) :=
  ⟨by decide, cycle_find_distinct scenarioB (by decide)⟩

/-- C5, as stated, fails: on the mapping `a -> [b]`, where `b` is not a key, `scc.Find`
returns the components `[b]` and `[a]`, so `b` is in a component without being a key. -/
theorem scc_partition_counterexample :
    ∃ ss, scc.Find 3 (scc.NewTarjan (some [("a", ["b"])])) = some (.ok ss) ∧
      "b" ∈ ss.flatten ∧ "b" ∉ Graph.keys [("a", ["b"])] :=
  ⟨[["b"], ["a"]], by rfl, by decide, by decide⟩

/-- C5, amended: for every adjacency mapping `g` in which every entry of an edge list is a
key, the components returned by `scc.Find` partition the key set: their concatenation has
no repeated vertex and its elements are exactly the keys of `g`. -/
theorem scc_partition_closed (g : Graph) (h : g.KeyClosed) :
    ∃ ss, (∀ fuel, g.vertices.length ≤ fuel →
        scc.Find fuel (scc.NewTarjan (some g)) = some (.ok ss)) ∧
      ss.flatten.Nodup ∧ ∀ u, u ∈ ss.flatten ↔ u ∈ g.keys := by
  obtain ⟨ss, hF, hnd, hcov, _⟩ := scc.Find_spec g
  exact ⟨ss, hF, hnd, fun u => (hcov u).trans (Graph.vertices_eq_keys h u)⟩

/-- C5 amended, at the reference graph of scenario B. -/
theorem scc_partition_closed_witness :
    scenarioB.KeyClosed ∧
    ∃ ss, (∀ fuel, scenarioB.vertices.length ≤ fuel →
        scc.Find fuel (scc.NewTarjan (some scenarioB)) = some (.ok ss)) ∧
      ss.flatten.Nodup ∧ ∀ u, u ∈ ss.flatten ↔ u ∈ scenarioB.keys :=
  ⟨by decide, scc_partition_closed scenarioB (by decide)⟩

/-- C6: for every adjacency mapping `g` with no directed cycle, `cycle.Find` returns the
empty list, every component returned by `scc.Find` has exactly one vertex, and `FindSCCs`
on a fresh handler holding `g` leaves an empty list of components. -/
theorem acyclic_no_circuit (g : Graph) (h : g.Acyclic) :
    ∃ cs ss, (∀ fuel, g.keys.length ≤ fuel →
        (cycle.Find fuel (cycle.NewTarjan (some g))).map Prod.fst = some (.ok cs)) ∧
      (∀ fuel, g.vertices.length ≤ fuel →
        scc.Find fuel (scc.NewTarjan (some g)) = some (.ok ss)) ∧
      cs = [] ∧ (∀ c ∈ ss, c.length = 1) ∧
      ∀ fuel cookbooks rolesPath, g.vertices.length ≤ fuel →
        ∃ hd, whisk.Handler.FindSCCs fuel
            { whisk.NewHandler cookbooks rolesPath with graph := g } = some (none, hd) ∧
          hd.sccs = [] := by
  obtain ⟨cs, ix, _, hF, hs, _, _, _⟩ := cycle.circ_Find_spec g
  obtain ⟨ss, hF2, hnd, _, hok⟩ := scc.Find_spec g
  have hone : ∀ c ∈ ss, c.length = 1 := by
    intro c hc
    have hcn : c.Nodup := (List.nodup_flatten.mp hnd).1 c hc
    by_contra hlen
    have hpos : 0 < c.length := List.length_pos.mpr (hok c hc).1
    obtain ⟨u, hu⟩ := List.exists_mem_of_ne_nil c (hok c hc).1
    obtain ⟨x, hx, hne⟩ := exists_ne_of_two_le hcn (by omega) u
    obtain ⟨h1, h2⟩ := ((hok c hc).2 u hu x).mp hx
    exact h u (Relation.TransGen.trans_left
      (Graph.reachPlus_of_reach_ne h1 (Ne.symm hne)) h2)
  refine ⟨cs, ss, hF, hF2, ?_, hone, ?_⟩
  · by_contra hne
    obtain ⟨c, hc⟩ := List.exists_mem_of_ne_nil cs hne
    obtain ⟨r, q, _, _, hch, _⟩ := hs c hc
    exact h r (Graph.chain_reachPlus q r r hch)
  · intro fuel cookbooks rolesPath hf
    refine ⟨_, by simp only [whisk.Handler.FindSCCs, whisk.NewHandler, hF2 fuel hf]; rfl, ?_⟩
    show [] ++ ss.filter _ = []
    rw [List.nil_append, List.filter_eq_nil_iff]
    intro c hc
    simp [hone c hc]

/-- C6, at the graph `a -> b -> c` of scenario A. -/
theorem acyclic_no_circuit_witness :
    scenarioA.Acyclic ∧
    ∃ cs ss, (∀ fuel, scenarioA.keys.length ≤ fuel →
        (cycle.Find fuel (cycle.NewTarjan (some scenarioA))).map Prod.fst = some (.ok cs)) ∧
      (∀ fuel, scenarioA.vertices.length ≤ fuel →
        scc.Find fuel (scc.NewTarjan (some scenarioA)) = some (.ok ss)) ∧
      cs = [] ∧ (∀ c ∈ ss, c.length = 1) ∧
      ∀ fuel cookbooks rolesPath, scenarioA.vertices.length ≤ fuel →
        ∃ hd, whisk.Handler.FindSCCs fuel
            { whisk.NewHandler cookbooks rolesPath with graph := scenarioA } = some (none, hd) ∧
          hd.sccs = [] :=
  ⟨Graph.acyclic_of_rank scenarioA.rank (by decide),
    acyclic_no_circuit scenarioA (Graph.acyclic_of_rank scenarioA.rank (by decide))⟩

/-- C7: for every adjacency mapping `g`, (a) every vertex of a component of at least two
vertices returned by `scc.Find` occurs in a circuit returned by `cycle.Find`, and (b) the
vertices of every circuit returned by `cycle.Find` lie in one single component returned by
`scc.Find`. -/
theorem circuits_and_components (g : Graph) :
    ∃ cs ss, (∀ fuel, g.keys.length ≤ fuel →
        (cycle.Find fuel (cycle.NewTarjan (some g))).map Prod.fst = some (.ok cs)) ∧
      (∀ fuel, g.vertices.length ≤ fuel →
        scc.Find fuel (scc.NewTarjan (some g)) = some (.ok ss)) ∧
      (∀ S ∈ ss, 2 ≤ S.length → ∀ v ∈ S, ∃ c ∈ cs, v ∈ c) ∧
      ∀ c ∈ cs, ∃ S ∈ ss, ∀ x ∈ c, x ∈ S := by
  obtain ⟨cs, ix, hN, hF, hs, _, hcomp, _⟩ := cycle.circ_Find_spec g
  obtain ⟨ss, hF2, hnd, hcov, hok⟩ := scc.Find_spec g
  refine ⟨cs, ss, hF, hF2, ?_, ?_⟩
  · intro S hS hlen v hv
    have hSn : S.Nodup := (List.nodup_flatten.mp hnd).1 S hS
    obtain ⟨x, hx, hne⟩ := exists_ne_of_two_le hSn hlen v
    obtain ⟨h1, h2⟩ := ((hok S hS).2 v hv x).mp hx
    have hvv : g.ReachPlus v v :=
      Relation.TransGen.trans_left (Graph.reachPlus_of_reach_ne h1 (Ne.symm hne)) h2
    obtain ⟨q, hch, hq⟩ := Graph.exists_circuit_of_reachPlus hvv
    have hcirc : g.IsCircuit (v :: q) := ⟨by simp, hq, hch⟩
    obtain ⟨n, s, q2, hrot, _, hmem⟩ := cycle.complete_circuit hN hcomp hcirc
    refine ⟨_, hmem, ?_⟩
    have : v ∈ (v :: q).rotate n := List.mem_rotate.mpr (by simp)
    rw [hrot] at this
    exact List.mem_append_left _ this
  · intro c hc
    obtain ⟨r, hr⟩ := hs c hc
    have hrv : r ∈ g.vertices := Graph.mem_vertices_of_key hr.root_key
    obtain ⟨S, hS, hrS⟩ := List.mem_flatten.mp ((hcov r).mpr hrv)
    exact ⟨S, hS, fun x hx => ((hok S hS).2 r hrS x).mpr (hr.mem_reach hx)⟩

/-- C8: when `WalkRole R0` succeeds on a fresh handler, `loadRoles` has returned a role
index without error, and the keys of the adjacency mapping are exactly the cookbooks
reachable, along declared dependencies, from the cookbooks named by the recipe entries in
the run lists of `R0` and of the roles it transitively references in this index; and the
edge list of every key is the list of its declared dependency names, strictly ascending
in the order of strings. -/
theorem walkRole_reference_graph (env : whisk.Env) (fuel : Nat) (R0 : String)
    (paths : List String) (rolesPath : String) (h2 : whisk.Handler)
    (hw : whisk.WalkRole env fuel R0 (whisk.NewHandler paths rolesPath) = some (none, h2)) :
    ∃ idx, env.loadRoles rolesPath = some (idx, none) ∧
      (∀ C, C ∈ h2.graph.keys ↔ ∃ S, whisk.Seed idx R0 S ∧
        Relation.ReflTransGen (whisk.DepEdge env paths) S C) ∧
      ∀ C ∈ h2.graph.keys, ∃ deps, env.LoadDeps paths C = some (.ok deps) ∧
        (∀ d, d ∈ h2.graph.adj C ↔ d ∈ deps.map Prod.fst) ∧
        (h2.graph.adj C).Pairwise (· < ·) := by
  obtain ⟨idx, hld, h1, h3, _⟩ := whisk.WalkRole_graph hw
  refine ⟨idx, hld, h1, fun C hC => ?_⟩
  obtain ⟨deps, h4, h5⟩ := h3 C hC
  refine ⟨deps, h4, fun d => ?_, ?_⟩
  · rw [h5]; exact whisk.mem_sortKeys_deps deps d
  · rw [h5]; exact whisk.sortKeys_deps_pairwise deps

/-- C8, at scenario E, read from its disk with the search path `cookbooks`: the role
`top` references the role `mid`, whose recipe names the cookbook `foo`; `foo` and `bar`
depend on each other. -/
theorem walkRole_reference_graph_witness :
    whisk.WalkRole whisk.scenarioE 4 "top" (whisk.NewHandler ["cookbooks"] "roles")
      = some (none, whisk.scenarioE.result) ∧
    ∃ idx, whisk.scenarioE.loadRoles "roles" = some (idx, none) ∧
      (∀ C, C ∈ whisk.scenarioE.result.graph.keys ↔
        ∃ S, whisk.Seed idx "top" S ∧
          Relation.ReflTransGen (whisk.DepEdge whisk.scenarioE ["cookbooks"]) S C) ∧
      ∀ C ∈ whisk.scenarioE.result.graph.keys, ∃ deps,
        whisk.scenarioE.LoadDeps ["cookbooks"] C = some (.ok deps) ∧
        (∀ d, d ∈ whisk.scenarioE.result.graph.adj C ↔ d ∈ deps.map Prod.fst) ∧
        (whisk.scenarioE.result.graph.adj C).Pairwise (· < ·) :=
  ⟨rfl, walkRole_reference_graph whisk.scenarioE 4 "top" ["cookbooks"] "roles"
    whisk.scenarioE.result rfl⟩

/-- C9: after a `WalkRole` that returns (with or without error), started on a handler
whose graph has every edge-list entry among its keys (as on a fresh handler), every
vertex that appears in an edge list of the adjacency mapping is a key of the mapping. -/
theorem walkRole_edge_targets_are_keys (env : whisk.Env) (fuel : Nat) (name : String)
    (h h2 : whisk.Handler) (e : Option whisk.WalkError) (hK : h.graph.Closed)
    (hw : whisk.WalkRole env fuel name h = some (e, h2)) :
    ∀ u w, w ∈ h2.graph.adj u → w ∈ h2.graph.keys :=
  whisk.WalkRole_closed env fuel name h h2 e hK hw

/-- C9, at scenario E on a fresh handler with the search path `cookbooks`. -/
theorem walkRole_edge_targets_are_keys_witness :
    (whisk.NewHandler ["cookbooks"] "roles").graph.Closed ∧
    whisk.WalkRole whisk.scenarioE 4 "top" (whisk.NewHandler ["cookbooks"] "roles")
      = some (none, whisk.scenarioE.result) ∧
    ∀ u w, w ∈ whisk.scenarioE.result.graph.adj u → w ∈ whisk.scenarioE.result.graph.keys :=
  ⟨whisk.closed_nil, rfl,
    walkRole_edge_targets_are_keys whisk.scenarioE 4 "top"
      (whisk.NewHandler ["cookbooks"] "roles") whisk.scenarioE.result none whisk.closed_nil rfl⟩

/-- C10: when the names that the cookbooks declare as dependencies, for the search paths
of the handler, all lie in a finite list `l` (cyclic dependencies included),
`walkCookbook` returns on every cookbook and every handler as soon as the bound on the
recursion depth exceeds the number of these names, unless `LoadDeps` stops the program
in a run-time panic on the cookbook or on one of these names: every nested call turns a
name of `l` that was not a key into a key before it loads its dependencies, and a
dependency that is a key is not expanded again. -/
theorem walkCookbook_terminates (env : whisk.Env) (l : List String) (name : String)
    (h : whisk.Handler)
    (hfin : ∀ x deps, env.LoadDeps h.cookbookPaths x = some (.ok deps) →
      ∀ d ∈ whisk.sortKeys deps, d ∈ l)
    (fuel : Nat) (hf : l.dedup.length + 1 ≤ fuel) :
    (∃ e h2, whisk.walkCookbook env fuel name h = some (e, h2)) ∨
      ∃ x, (x = name ∨ x ∈ l) ∧ env.LoadDeps h.cookbookPaths x = none :=
  whisk.walkCookbook_returns env l name h hfin fuel hf

/-- C10, on the disk where the cookbook `a` depends on `b` and on itself and `b` depends
on `a`, read with the search path `cookbooks`: every declared dependency is `a` or `b`,
and `walkCookbook a` returns with recursion depth three, leaving the mapping
`a -> [a, b]`, `b -> [a]`. -/
theorem walkCookbook_terminates_witness :
    (∀ x deps, whisk.cyclicDeps.LoadDeps (whisk.NewHandler ["cookbooks"] "roles").cookbookPaths x
        = some (.ok deps) → ∀ d ∈ whisk.sortKeys deps, d ∈ ["a", "b"]) ∧
    ["a", "b"].dedup.length + 1 ≤ 3 ∧
    whisk.walkCookbook whisk.cyclicDeps 3 "a" (whisk.NewHandler ["cookbooks"] "roles")
      = some (none, { whisk.NewHandler ["cookbooks"] "roles" with graph := [("a", ["a", "b"]), ("b", ["a"])] }) ∧
    ((∃ e h2, whisk.walkCookbook whisk.cyclicDeps 3 "a"
        (whisk.NewHandler ["cookbooks"] "roles") = some (e, h2)) ∨
      ∃ x, (x = "a" ∨ x ∈ ["a", "b"]) ∧
        whisk.cyclicDeps.LoadDeps (whisk.NewHandler ["cookbooks"] "roles").cookbookPaths x
          = none) :=
  ⟨whisk.cyclicDeps_finite, by decide, rfl,
    walkCookbook_terminates whisk.cyclicDeps ["a", "b"] "a"
      (whisk.NewHandler ["cookbooks"] "roles") whisk.cyclicDeps_finite 3 (by decide)⟩

/-- C11, refuted: on the role index in which the role `a` has the run list `role[a]`,
`WalkRole a` on a fresh handler returns for no bound on the depth of the recursion. -/
theorem walkRole_self_reference_diverges :
    ∀ fuel, whisk.WalkRole whisk.selfRole fuel "a" (whisk.NewHandler [] "roles") = none :=
  fun fuel => whisk.selfRole_diverges fuel _ rfl (Or.inl rfl)

/-- C12, as stated, fails: for the run list with the single entry `a"b`, `WalkRole`
returns the error for an invalid entry, and its message, in which `%q` writes the entry
as `"a\"b"`, does not contain the entry. -/
theorem walkRole_invalid_entry_quoted :
    whisk.WalkRole whisk.quotedEntry 1 "web" (whisk.NewHandler [] "roles") =
      some (some (.invalidEntry "a\"b"),
        { whisk.NewHandler [] "roles" with rolesIndex := [("web", ⟨"web", ["a\"b"]⟩)] }) ∧
    ¬ ∃ table, "a\"b".toList <:+: ((whisk.WalkError.invalidEntry "a\"b").Error table).toList := by
  refine ⟨rfl, ?_⟩
  rintro ⟨table, h⟩
  have h1 : ((whisk.WalkError.invalidEntry "a\"b").Error table).toList =
      "invalid entry in role's run_list: \"a\\\"b\"".toList := rfl
  rw [h1] at h
  revert h
  decide

/-- C12, amended: when the run list of a role holds an entry `dep` that has neither the
prefix `role[` nor the prefix `recipe[` together with the suffix `]`, and the entries
before it expand without error, `WalkRole` returns the error for the invalid entry `dep`;
its message ends with `dep` as `%q` writes it, and contains `dep` itself when `dep`
consists of printable ASCII characters other than the double quote and the backslash. An
entry of an accepted form never gives an error for an invalid entry, and the slice that
takes the name out of it is within bounds. -/
theorem walkRole_invalid_entry (env : whisk.Env) (fuel : Nat) (name : String)
    (h h1 : whisk.Handler) (role : chef.Role) (pre post : List String) (dep : String)
    (table : Char → Bool)
    (hload : h.rolesIndex = [] → ∃ idx, env.loadRoles h.rolesPath = some (idx, none))
    (hrole : (h.withRoles env).rolesIndex.lookup name = some role)
    (hlist : role.RunList = pre ++ dep :: post) (hdep : ¬ whisk.Accepted dep)
    (hpre : whisk.walkRunList env (whisk.WalkRole env fuel) fuel pre (h.withRoles env)
      = some (none, h1)) :
    whisk.WalkRole env (fuel + 1) name h = some (some (.invalidEntry dep), h1) ∧
    (whisk.WalkError.invalidEntry dep).Error table =
      "invalid entry in role's run_list: " ++ strconv.Quote table dep ∧
    (whisk.Plain dep →
      dep.toList <:+: ((whisk.WalkError.invalidEntry dep).Error table).toList) ∧
    ∀ d, whisk.Accepted d →
      (∀ recRole n h3 e h4, whisk.walkEntry env recRole n d h3 = some (some e, h4) →
        ∀ x, e ≠ .invalidEntry x) ∧
      (strings.HasPrefix d "role[" = true →
        ∃ m, whisk.slice d.toList 5 (d.length - 1) = some m) ∧
      (strings.HasPrefix d "recipe[" = true →
        ∃ m, whisk.slice d.toList 7 (d.length - 1) = some m) :=
  ⟨whisk.walkRole_first_invalid env fuel name h h1 role pre post dep hload hrole hlist hdep hpre,
    rfl, whisk.invalidEntry_message_plain table dep,
    fun _ hd => ⟨fun recRole n h3 e h4 hw x =>
        whisk.accepted_walkEntry_error env recRole n hd h3 e h4 hw x,
      whisk.accepted_slice hd⟩⟩

/-- C12 amended, at the run list `recipe[foo]`, `bogus`, `recipe[bar]`. -/
theorem walkRole_invalid_entry_witness :
    whisk.WalkRole whisk.bogusEntry 2 "web" (whisk.NewHandler [] "roles") =
      some (some (.invalidEntry "bogus"),
        { whisk.NewHandler [] "roles" with
          rolesIndex := [("web", ⟨"web", ["recipe[foo]", "bogus", "recipe[bar]"]⟩)],
          graph := [("foo", [])] }) ∧
    (whisk.WalkError.invalidEntry "bogus").Error (fun _ => true) =
      "invalid entry in role's run_list: \"bogus\"" :=
  ⟨(walkRole_invalid_entry whisk.bogusEntry 1 "web" (whisk.NewHandler [] "roles") _
      ⟨"web", ["recipe[foo]", "bogus", "recipe[bar]"]⟩ ["recipe[foo]"] ["recipe[bar]"] "bogus"
      (fun _ => true) (fun _ => ⟨_, rfl⟩) rfl rfl (by decide) rfl).1, rfl⟩

/-- C13, as stated, fails: the files `a.json` and `b.json` of the roles directory both
hold a role with the internal name `web`, and `loadRoles` returns without error; the index
keeps the role of `b.json` under that name. -/
theorem loadRoles_duplicate_names_accepted :
    chef.NewRole whisk.dupRoles "roles/a.json" = .ok ⟨"web", ["recipe[apache]"]⟩ ∧
    chef.NewRole whisk.dupRoles "roles/b.json" = .ok ⟨"web", ["recipe[nginx]"]⟩ ∧
    ∃ h, whisk.loadRoles whisk.dupRoles 2 (whisk.NewHandler [] "roles") = some (none, h) ∧
      h.rolesIndex.lookup "web" = some ⟨"web", ["recipe[nginx]"]⟩ :=
  ⟨rfl, rfl, _, rfl, rfl⟩

/-- C13, amended: when every entry of the roles directory is a sub-directory whose path
does not end in `.json` or a file whose path ends in `.json` and that is read and decoded,
`loadRoles` on a fresh handler returns without error, also when two files hold roles with
the same internal name; the index then holds the roles of the files, and a lookup of a
name gives the role of the last file, in the order of the file names, that has it. -/
theorem loadRoles_keeps_last_role (fs : FS) (fuel : Nat) (paths : List String)
    (rolesPath : String) (hdir : fs.Lstat rolesPath = .ok true)
    (hread : (fs.ReadDir rolesPath).2 = none)
    (htidy : ∀ e ∈ (fs.ReadDir rolesPath).1, whisk.loadRoles.Tidy fs rolesPath e)
    (hfuel : 2 ≤ fuel) :
    ∃ h, whisk.loadRoles fs fuel (whisk.NewHandler paths rolesPath) = some (none, h) ∧
      h.rolesIndex = (whisk.loadRoles.bindings fs rolesPath).reverse ∧
      ∀ n, h.rolesIndex.lookup n =
        (((whisk.loadRoles.bindings fs rolesPath).filter fun b => b.1 = n).getLast?).map
          Prod.snd := by
  have h1 := whisk.loadRoles_tidy fs fuel (whisk.NewHandler paths rolesPath) hdir hread htidy
    hfuel
  refine ⟨_, h1, ?_, fun n => ?_⟩
  · show (whisk.loadRoles.bindings fs rolesPath).reverse ++ [] = _
    rw [List.append_nil]
  · show ((whisk.loadRoles.bindings fs rolesPath).reverse ++ []).lookup n = _
    rw [List.append_nil]
    exact whisk.lookup_reverse_last _ n

/-- C13 amended, at the roles directory with two files of the role `web` and a
sub-directory. -/
theorem loadRoles_keeps_last_role_witness :
    ∃ h, whisk.loadRoles whisk.dupRoles 2 (whisk.NewHandler [] "roles") = some (none, h) ∧
      h.rolesIndex = (whisk.loadRoles.bindings whisk.dupRoles "roles").reverse ∧
      ∀ n, h.rolesIndex.lookup n =
        (((whisk.loadRoles.bindings whisk.dupRoles "roles").filter fun b => b.1 = n).getLast?).map
          Prod.snd :=
  loadRoles_keeps_last_role whisk.dupRoles 2 [] "roles" rfl rfl (by decide) (by decide)

/-- C14, refuted: in the roles directory with the files `README.md` and `web.json`, the
role file is read and decoded by `NewRole`, and `loadRoles` returns without error and
with an empty index, whatever the bound on the depth of the walk: `SkipDir`, returned for
`README.md`, ends the walk of the directory. The walk of the linter, whose function has
the same test, starts `lint` for no role file of this directory. -/
theorem loadRoles_stops_at_other_file :
    chef.NewRole whisk.strayFile "roles/web.json" = .ok ⟨"web", ["recipe[nginx]"]⟩ ∧
    (∀ fuel, whisk.loadRoles whisk.strayFile (fuel + 2) (whisk.NewHandler [] "roles") =
      some (none, whisk.NewHandler [] "roles")) ∧
    ∀ fuel, cmd.linter.lintRoles ⟨"cookbooks", "roles", 0, 0, 0⟩ whisk.strayFile (fuel + 2)
      = some (none, []) :=
  ⟨rfl, fun _ => rfl, fun _ => rfl⟩

/-- C15, refuted for the empty list of search directories: on a file system without any
file, `LoadDeps` for the cookbook `foo` returns without error and leaves the empty
dependency set. For a list that is not empty the claim holds: when no directory of the
list has the file `metadata.rb` or the file `metadata.json` of the cookbook, `LoadDeps`
returns the error that the metadata was not found and leaves the cookbook as it was. -/
theorem loadDeps_without_search_paths :
    (chef.Cookbook.mk [] "foo" []).LoadDeps chef.emptyDisk =
      some (none, chef.Cookbook.mk [] "foo" []) ∧
    ∀ (fs : FS) (c : chef.Cookbook), c.Name ≠ "" → c.CookbookPaths ≠ [] →
      (∀ p ∈ c.CookbookPaths,
        (∃ e, fs.ReadFile (filepath.Join p (filepath.Join c.Name "metadata.rb")) = .error e) ∧
        ∃ e, fs.ReadFile (filepath.Join p (filepath.Join c.Name "metadata.json")) = .error e) →
      ∃ cause, c.LoadDeps fs = some (some (.notFound (filepath.Join c.Name "metadata.json")
        c.CookbookPaths cause), c) :=
  ⟨rfl, chef.LoadDeps_not_found⟩

/-- C16, as stated, fails: in the text with the lines `  depends 'foo'` and
`dependsx 'bar'`, the first token of the first line is `depends` and that of the second
is not, so that the claim gives the single name `foo`; the parser, which looks at the
first characters of the line, leaves the single name `bar`. -/
theorem tryRuby_first_token_counterexample :
    chef.specDepends "  depends 'foo'\ndependsx 'bar'" = ["foo"] ∧
    ∃ c, (chef.Cookbook.mk ["cookbooks"] "web" []).tryRuby
        (chef.oneFile "cookbooks/web/metadata.rb" "  depends 'foo'\ndependsx 'bar'")
        = some (none, c) ∧ c.Deps.map Prod.fst = ["bar"] :=
  ⟨by decide, _, rfl, by decide⟩

/-- C16, amended: for every `metadata.rb` text in which every line that starts with the
characters `depends` has a second token, the dependency names that `tryRuby` adds are
exactly, for each line of the text (as the line scanner delivers them) that is not empty
and starts with the characters `depends`, the second token between white space of the
line, without its leading and trailing double quotes, single quotes and commas; what
follows the name is ignored and no other line contributes. -/
theorem tryRuby_dependencies (fs : FS) (c : chef.Cookbook) (text : String)
    (hread : chef.readMetadata fs (filepath.Join c.Name "metadata.rb") c.CookbookPaths
      (.ok "") = .ok text)
    (hparts : ∀ line ∈ bufio.scanLines text, strings.HasPrefix line "depends" = true →
      2 ≤ (strings.Fields line).length) :
    ∃ deps, c.tryRuby fs = some (none, { c with Deps := deps }) ∧
      ∀ d, d ∈ deps.map Prod.fst ↔ (d ∈ c.Deps.map Prod.fst ∨
        ∃ line ∈ bufio.scanLines text, line ≠ "" ∧ strings.HasPrefix line "depends" = true ∧
          ∃ part, (strings.Fields line)[1]? = some part ∧
            d = strings.Trim part chef.cutset) :=
  chef.tryRuby_spec fs c text hread hparts

/-- C16 amended, at a text with the dependencies `apache2` and `nginx`. -/
theorem tryRuby_dependencies_witness :
    (chef.Cookbook.mk ["cookbooks"] "web" []).tryRuby
        (chef.oneFile "cookbooks/web/metadata.rb" chef.sampleMetadata)
      = some (none, chef.Cookbook.mk ["cookbooks"] "web" [("nginx", ""), ("apache2", "")]) ∧
    ∃ deps, (chef.Cookbook.mk ["cookbooks"] "web" []).tryRuby
        (chef.oneFile "cookbooks/web/metadata.rb" chef.sampleMetadata)
        = some (none, { chef.Cookbook.mk ["cookbooks"] "web" [] with Deps := deps }) ∧
      ∀ d, d ∈ deps.map Prod.fst ↔ (d ∈ ([] : chef.Deps).map Prod.fst ∨
        ∃ line ∈ bufio.scanLines chef.sampleMetadata, line ≠ "" ∧
          strings.HasPrefix line "depends" = true ∧
          ∃ part, (strings.Fields line)[1]? = some part ∧
            d = strings.Trim part chef.cutset) :=
  ⟨rfl, tryRuby_dependencies (chef.oneFile "cookbooks/web/metadata.rb" chef.sampleMetadata)
    (chef.Cookbook.mk ["cookbooks"] "web" []) chef.sampleMetadata rfl (by decide)⟩

/-- C17, refuted: for the `metadata.rb` text that is the single line `depends`, the index
expression `parts[1]` of `tryRuby` is out of range: `tryRuby`, and `LoadDeps` with it,
ends in a run-time panic and returns neither a dependency set nor an error. -/
theorem tryRuby_lone_depends_panics :
    strings.Fields "depends" = ["depends"] ∧
    (chef.Cookbook.mk ["cookbooks"] "web" []).tryRuby
      (chef.oneFile "cookbooks/web/metadata.rb" "depends") = none ∧
    (chef.Cookbook.mk ["cookbooks"] "web" []).LoadDeps
      (chef.oneFile "cookbooks/web/metadata.rb" "depends") = none :=
  ⟨by decide, rfl, rfl⟩

/-- C18: on a handler whose list of components is empty, as `NewHandler` and `WalkRole`
leave it, `FindSCCs` and `FindCycles` return without error, and `Result` then holds the
adjacency mapping of the handler, the components returned by `scc.Find` on it that have
at least two vertices, in their order and each as returned, and the list returned by
`cycle.Find`. -/
theorem result_packages_analysis (h : whisk.Handler) (hs : h.sccs = []) :
    ∃ ss cs, (∀ fuel, h.graph.vertices.length ≤ fuel →
        scc.Find fuel (scc.NewTarjan (some h.graph)) = some (.ok ss)) ∧
      (∀ fuel, h.graph.keys.length ≤ fuel →
        (cycle.Find fuel (cycle.NewTarjan (some h.graph))).map Prod.fst = some (.ok cs)) ∧
      ∀ f1 f2, h.graph.vertices.length ≤ f1 → h.graph.keys.length ≤ f2 →
        ∃ ha hb, h.FindSCCs f1 = some (none, ha) ∧ ha.FindCycles f2 = some (none, hb) ∧
          hb.Result.G = h.graph ∧
          hb.Result.Sccs = ss.filter (fun c => decide (2 ≤ c.length)) ∧
          hb.Result.Cycles = cs := by
  obtain ⟨ss, hF1, _⟩ := scc.Find_spec h.graph
  obtain ⟨cs, ix, _, hF2, _⟩ := cycle.circ_Find_spec h.graph
  exact ⟨ss, cs, hF1, hF2, fun f1 f2 hf1 hf2 =>
    whisk.result_spec h hs f1 f2 ss cs (hF1 f1 hf1) (hF2 f2 hf2)⟩

/-- C18, at the handler that `WalkRole` leaves in scenario E. -/
theorem result_packages_analysis_witness :
    whisk.scenarioE.result.sccs = [] ∧
    ∃ ss cs, (∀ fuel, whisk.scenarioE.result.graph.vertices.length ≤ fuel →
        scc.Find fuel (scc.NewTarjan (some whisk.scenarioE.result.graph)) = some (.ok ss)) ∧
      (∀ fuel, whisk.scenarioE.result.graph.keys.length ≤ fuel →
        (cycle.Find fuel (cycle.NewTarjan (some whisk.scenarioE.result.graph))).map Prod.fst
          = some (.ok cs)) ∧
      ∀ f1 f2, whisk.scenarioE.result.graph.vertices.length ≤ f1 →
        whisk.scenarioE.result.graph.keys.length ≤ f2 →
        ∃ ha hb, whisk.scenarioE.result.FindSCCs f1 = some (none, ha) ∧
          ha.FindCycles f2 = some (none, hb) ∧
          hb.Result.G = whisk.scenarioE.result.graph ∧
          hb.Result.Sccs = ss.filter (fun c => decide (2 ≤ c.length)) ∧
          hb.Result.Cycles = cs :=
  ⟨rfl, result_packages_analysis whisk.scenarioE.result rfl⟩

/-- C19, refuted for thresholds of `2^63` and more: with `max-cycles` set to `2^63`, the
other thresholds to zero, and a result without circuits and components, `lint` reports
that the number of circuits, zero, exceeds the threshold, because the conversion of the
threshold to `int` is negative. For thresholds below `2^63` the claim holds: `lint`
reports an error exactly when the circuits outnumber `max-cycles`, or the components
outnumber `max-sccs`, or a component has more vertices than `max-cookbooks-per-scc`. -/
theorem lint_threshold_conversion :
    cmd.toInt (2 ^ 63) = -(2 ^ 63) ∧
    cmd.linter.lint ⟨"cookbooks", "roles", 2 ^ 63, 0, 0⟩ "web" ⟨[], [], []⟩
      = [.cycles "web" 0 (2 ^ 63)] ∧
    ∀ (l : cmd.linter) (role : String) (r : whisk.Result),
      l.maxCycles < 2 ^ 63 → l.maxSCCs < 2 ^ 63 → l.maxCookbooksPerSCC < 2 ^ 63 →
      (l.lint role r ≠ [] ↔ (l.maxCycles < r.Cycles.length ∨ l.maxSCCs < r.Sccs.length ∨
        ∃ scc ∈ r.Sccs, l.maxCookbooksPerSCC < scc.length)) :=
  ⟨by decide, by decide, cmd.lint_ne_nil⟩

/-- C20, as stated, fails: in scenario E, read from its disk with the search path
`cookbooks`, the single circuit that `FindCycles` leaves is not the sequence
`foo, bar, foo`; the enumeration starts every circuit at its smallest vertex, here `bar`. -/
theorem scenarioE_circuit_starts_at_bar :
    ∃ h1 h2 h3,
      whisk.WalkRole whisk.scenarioE 4 "top" (whisk.NewHandler ["cookbooks"] "roles")
        = some (none, h1) ∧
      h1.FindSCCs 2 = some (none, h2) ∧ h2.FindCycles 2 = some (none, h3) ∧
      h3.Result.Cycles = [["bar", "foo", "bar"]] ∧
      h3.Result.Cycles ≠ [["foo", "bar", "foo"]] :=
  ⟨whisk.scenarioE.result, { whisk.scenarioE.result with sccs := [["foo", "bar"]] },
    { whisk.scenarioE.result with sccs := [["foo", "bar"]], cycles := [["bar", "foo", "bar"]] },
    rfl, rfl, rfl, rfl, by decide⟩

/-- C20, amended: on the disk of scenario E, `loadRoles` indexes the roles `top` and
`mid`, and `LoadDeps` with the search path `cookbooks` reads that `foo` depends on `bar`
and `bar` on `foo`. `WalkRole top` on a fresh handler with this search path leaves the
adjacency mapping `foo -> [bar]`, `bar -> [foo]`; `FindSCCs` then keeps exactly one
component, whose vertices are `foo` and `bar`, and `FindCycles` exactly one circuit, the
circuit through `foo` and `bar` as the sequence `bar, foo, bar`. The component has the
same vertices and the circuit is the same when the keys of the mapping are met in the
other order. -/
theorem scenarioE_analysis :
    whisk.loadRoles whisk.scenarioE.disk 2 (whisk.NewHandler ["cookbooks"] "roles")
      = some (none, { whisk.NewHandler ["cookbooks"] "roles" with rolesIndex := [("top", ⟨"top", ["role[mid]"]⟩), ("mid", ⟨"mid", ["recipe[foo::default]"]⟩)] }) ∧
    (chef.Cookbook.mk ["cookbooks"] "foo" []).LoadDeps whisk.scenarioE.disk
      = some (none, chef.Cookbook.mk ["cookbooks"] "foo" [("bar", "")]) ∧
    (chef.Cookbook.mk ["cookbooks"] "bar" []).LoadDeps whisk.scenarioE.disk
      = some (none, chef.Cookbook.mk ["cookbooks"] "bar" [("foo", "")]) ∧
    ∃ h1 h2 h3,
      whisk.WalkRole whisk.scenarioE 4 "top" (whisk.NewHandler ["cookbooks"] "roles")
        = some (none, h1) ∧
      h1.FindSCCs 2 = some (none, h2) ∧ h2.FindCycles 2 = some (none, h3) ∧
      h3.Result.G = [("foo", ["bar"]), ("bar", ["foo"])] ∧
      (∃ c, h3.Result.Sccs = [c] ∧ ∀ x, x ∈ c ↔ (x = "foo" ∨ x = "bar")) ∧
      h3.Result.Cycles = [["bar", "foo", "bar"]] ∧
      ∃ h4 h5, whisk.Handler.FindSCCs 2 { h1 with graph := [("bar", ["foo"]), ("foo", ["bar"])] }
          = some (none, h4) ∧ h4.FindCycles 2 = some (none, h5) ∧
        (∃ c, h5.Result.Sccs = [c] ∧ ∀ x, x ∈ c ↔ (x = "foo" ∨ x = "bar")) ∧
        h5.Result.Cycles = [["bar", "foo", "bar"]] := by
  refine ⟨rfl, rfl, rfl, whisk.scenarioE.result,
    { whisk.scenarioE.result with sccs := [["foo", "bar"]] },
    { whisk.scenarioE.result with sccs := [["foo", "bar"]], cycles := [["bar", "foo", "bar"]] },
    rfl, rfl, rfl, rfl, ⟨["foo", "bar"], rfl, ?_⟩, rfl,
    { whisk.scenarioE.result with graph := [("bar", ["foo"]), ("foo", ["bar"])], sccs := [["foo", "bar"]] },
    { whisk.scenarioE.result with graph := [("bar", ["foo"]), ("foo", ["bar"])], sccs := [["foo", "bar"]], cycles := [["bar", "foo", "bar"]] },
    rfl, rfl, ⟨["foo", "bar"], rfl, ?_⟩, rfl⟩
  · intro x; simp
  · intro x; simp

/-- C23: for every adjacency mapping `g`, every circuit returned by `cycle.Find` is a
sequence `s, q, s` in which every vertex of `q` is strictly greater than `s`, the first
vertex, in the order of strings; and in the returned list the first vertex of a circuit is
at most the first vertex of every circuit after it. -/
theorem cycle_find_rooted_sorted (g : Graph) :
    ∃ cs, (∀ fuel, g.keys.length ≤ fuel →
        (cycle.Find fuel (cycle.NewTarjan (some g))).map Prod.fst = some (.ok cs)) ∧
      (∀ c ∈ cs, ∃ s q, c = s :: q ++ [s] ∧ ∀ x ∈ q, s < x) ∧
      cs.Pairwise (fun c d => ∀ a ∈ c.head?, ∀ b ∈ d.head?, a ≤ b) := by
  obtain ⟨cs, ix, hN, hF, hs, _, _, hsorted⟩ := cycle.circ_Find_spec g
  refine ⟨cs, hF, fun c hc => ?_, hsorted⟩
  obtain ⟨r, hr⟩ := hs c hc
  have hkey := hr.root_key
  obtain ⟨q, e, _, _, hq⟩ := hr
  refine ⟨r, q, e, fun x hx => ?_⟩
  have hlt := hq x hx
  have hr2 : ix r ≠ none := (hN.key_iff r).mpr hkey
  have hx2 : ix x ≠ none := by
    apply cycle.Numbering.ne_none_of_pos
    have := hN.num_pos hr2
    omega
  exact (hN.lt_iff_num hr2 hx2).mp hlt

/-- C24: for every adjacency mapping `g`, whose edge lists may name vertices that are not
keys, `cycle.Find` returns as soon as the bound on the depth of the recursion is the
number of keys; and at every call of `search` made by `Find`, the point stack with the
vertex that the call pushes holds distinct keys, so that the depth of the call is at most
the number of keys. -/
theorem cycle_find_depth_bounded (g : Graph) :
    (∃ r, ∀ fuel, g.keys.length ≤ fuel →
      cycle.Find fuel (cycle.NewTarjan (some g)) = some r) ∧
    ∀ s v t0, cycle.Called g s v t0 →
      (t0.pointStack ++ [v]).Nodup ∧ (∀ u ∈ t0.pointStack ++ [v], u ∈ g.keys) ∧
        t0.pointStack.length + 1 ≤ g.keys.length := by
  obtain ⟨ix, t, _, _, hF⟩ := cycle.circ_Find_ok g
  exact ⟨⟨_, hF⟩, fun s v t0 h => h.pre.stack (cycle.start_numbering g)⟩

/-- C25: at every call `search(s, v)` made by `cycle.Find` on a new instance for `g`,
entered in the state `t0`, the loop over the edges of `v` returns in a state `t` in which
an identifier is marked exactly when it is on the marked stack, the identifier of `v` is
on the marked stack, and the point stack is that of `t0` followed by `v`; when a circuit
was found, the loop that unmarks returns (it never reads the marked stack out of range),
leaves the marked stack of `t0` and keeps the agreement of marks and marked stack; and
`v` is popped from the point stack, which is not empty. -/
theorem cycle_unmark_loop_safe (g : Graph) (s v : String) (t0 : cycle.Tarjan)
    (h : cycle.Called g s v t0) :
    ∃ found t, (∀ n, g.keys.length ≤ n →
        cycle.searchEdges (cycle.search n s) s v (t0.adj v) false (cycle.enter v t0)
          = some (found, t)) ∧
      (∀ i, t.marked i = true ↔ i ∈ t.markedStack) ∧ t.idx v ∈ t.markedStack ∧
      t.pointStack = t0.pointStack ++ [v] ∧
      (found = true →
        ∃ t2, cycle.unmarkLoop (t.idx v) (t.markedStack.length - 1) t = some t2 ∧
          t2.markedStack = t0.markedStack ∧ t2.pointStack = t.pointStack ∧
          ∀ i, t2.marked i = true ↔ i ∈ t2.markedStack) ∧
      ∃ t3, cycle.finish v found t = some (found, t3) ∧ t3.pointStack = t0.pointStack :=
  h.pre.finish (cycle.start_numbering g)

/-- C25, at the first call that `Find` makes on the graph `a -> b`, `b -> a`. -/
theorem cycle_unmark_loop_safe_witness :
    ∃ found t, (∀ n, pairGraph.keys.length ≤ n →
        cycle.searchEdges (cycle.search n "a") "a" "a" ((cycle.start pairGraph).adj "a") false
          (cycle.enter "a" (cycle.start pairGraph)) = some (found, t)) ∧
      (∀ i, t.marked i = true ↔ i ∈ t.markedStack) ∧ t.idx "a" ∈ t.markedStack ∧
      t.pointStack = (cycle.start pairGraph).pointStack ++ ["a"] ∧
      (found = true →
        ∃ t2, cycle.unmarkLoop (t.idx "a") (t.markedStack.length - 1) t = some t2 ∧
          t2.markedStack = (cycle.start pairGraph).markedStack ∧
          t2.pointStack = t.pointStack ∧
          ∀ i, t2.marked i = true ↔ i ∈ t2.markedStack) ∧
      ∃ t3, cycle.finish "a" found t = some (found, t3) ∧
        t3.pointStack = (cycle.start pairGraph).pointStack :=
  cycle_unmark_loop_safe pairGraph "a" "a" _
    (@cycle.Called.root pairGraph 0 [] ["b"] "a" _ rfl rfl)

/-- C21, refuted: on the graph `a -> a` the first call of `Find` returns the one circuit
`a, a`, and a second call on the same instance returns the list `a, a`; `a, a`, in which
the circuit is repeated. The circuits of one vertex are the only ones that a second call
adds: for every adjacency mapping in which no key lists itself among its own edges, the
second call on the instance left by the first returns exactly the list of the first. -/
theorem cycle_find_twice_self_loop :
    (cycle.Find 1 (cycle.NewTarjan (some loopGraph))).map Prod.fst
        = some (.ok [["a", "a"]]) ∧
    ((cycle.Find 1 (cycle.NewTarjan (some loopGraph))).bind fun r =>
        (cycle.Find 1 r.2).map Prod.fst)
        = some (.ok [["a", "a"], ["a", "a"]]) ∧
    ¬ ([["a", "a"], ["a", "a"]] : List (List String)).Nodup ∧
    ∀ g : Graph, (∀ u ∈ g.keys, u ∉ g.adj u) →
      ∃ cs t1 t2, ∀ fuel, g.keys.length ≤ fuel →
        cycle.Find fuel (cycle.NewTarjan (some g)) = some (.ok cs, t1) ∧
        cycle.Find fuel t1 = some (.ok cs, t2) :=
  ⟨rfl, rfl, by decide, fun g h => cycle.Find_again g fun u he => h u he.mem_keys he⟩

/-- C22: for every handler, `scc.Find` on its graph returns a list `ss` of components in
which every vertex of the graph lies in exactly one component and, for every edge
`u -> w` whose endpoints lie in different components, the component of `w` comes before
the component of `u`; `FindSCCs` appends to the handler the components of `ss` with two
vertices or more, and there too the component of `w` comes before the component of `u`
when both are kept. -/
theorem scc_find_dependencies_first (h : whisk.Handler) :
    ∃ ss, (∀ fuel, h.graph.vertices.length ≤ fuel →
        scc.Find fuel (scc.NewTarjan (some h.graph)) = some (.ok ss) ∧
        h.FindSCCs fuel = some (none,
          { h with sccs := h.sccs ++ ss.filter fun c => decide (2 ≤ c.length) })) ∧
      ss.flatten.Nodup ∧ (∀ u, u ∈ ss.flatten ↔ u ∈ h.graph.vertices) ∧
      ∀ u w cu cw, h.graph.Edge u w → cu ∈ ss → cw ∈ ss → u ∈ cu → w ∈ cw → cu ≠ cw →
        ComesBefore ss cw cu ∧
        (2 ≤ cu.length → 2 ≤ cw.length →
          ComesBefore (h.sccs ++ ss.filter fun c => decide (2 ≤ c.length)) cw cu) := by
  obtain ⟨ss, hF, hnd, hcov, hT⟩ := scc.Find_topo h.graph
  refine ⟨ss, fun fuel hf => ⟨hF fuel hf, whisk.FindSCCs_eq h fuel ss (hF fuel hf)⟩,
    hnd, hcov, ?_⟩
  intro u w cu cw he hcu hcw hu hw hne
  have hb := hT.before hnd he hcu hcw hu hw hne
  refine ⟨hb, fun h1 h2 => ?_⟩
  obtain ⟨l1, l2, l3, e⟩ := hb.filter (fun c => decide (2 ≤ c.length))
    (by simpa using h2) (by simpa using h1)
  exact ⟨h.sccs ++ l1, l2, l3, by rw [e]; simp⟩
